import Mathlib

/-!
# Newtown: a verification development

A shallow embedding of parts of the Newtown city generator (seed-point
container, road-graph connectivity, adjacency-matrix graph with all-pairs
shortest paths and cycle-basis extraction, tensors and tensor fields, the
road-network tracer, the simplification of the road graph, the initial
tracing of the bounds of the domain, the coordinates of a map image, the
boundary checks and the bit-wise storage of the bit matrix, the parcels of a
block, the tracing of a field and the area of a polygon) together with
theorems about them.

Conventions of the embedding:

* For the Seeder and the Grapher `core::Point` is kept abstract: these
  containers only use equality of positions (`Vector2f::operator==`) and, for
  the `QMap` of the Grapher, the total order of `operator<` on points.
  Floating-point coordinates are thus replaced by an arbitrary type with
  decidable equality or a linear order (there is no NaN in the model).  The
  tracer, which computes with positions, uses the points of math/point2f.h;
  for these the order of `operator<` is the instance `core.Point.linearOrder`.
* A priority is a `float` in the source; here it is an element of an arbitrary
  linear order, and `calculatePriority` (which needs `expf`) is a parameter;
  `Seeder.calculatePriority` is the function of the source, for the points of
  math/point2f.h.
* `QList` is `List`; iterators are indices, `end()` is the length of the list.
* `unsigned int` and `int` values are natural numbers; the only arithmetic on
  them, the sum of two distances of at most `DIST_INF` each, stays below
  `INT_MAX`.
* The order in which Qt lists the elements of a `QSet` and the order `qSort`
  gives to elements that compare equal are not fixed by the source: they are
  the parameter `QtOrder` of the functions that depend on them.  The instance
  `QtOrder.qt4` is the order of the hash table and of the sort function of
  Qt 4, the version of the library that the source is written for.
* An exception or an access outside a container is the result `none`, and so
  are a failed `Q_ASSERT` and the dereference of a null pointer.  The section
  on boundary checks keeps the exception thrown, the packing of a
  `base::BitMatrix` into blocks and the wrap of `int` values at 32 bits.
* Where the source computes with `float` values (vectors, tensors, fields, the
  tracer) a `float` is an element of an ordered field with a floor function,
  arithmetic is exact, and the functions of the C library are a parameter
  record `Libm`; `Libm.exact` is the library of the real functions.  Theorems
  about these parts are theorems about exact arithmetic: infinite values and
  NaN are outside the model.
* Rounding is modelled apart, in the namespace `Fp`: the `float` and the
  `double` nearest to a rational number.  The definitions whose name ends in
  `Rounded` are the functions of the source with the result of each
  floating-point operation rounded; they show where a property of exact
  arithmetic is lost.
* An object that the source handles through a pointer carries its address:
  two pointers are equal when the addresses are.

The file has two parts: the definitions, then the theorems.
-/

namespace Newtown

/-! ## Part 1: definitions -/

/-! ### Seeder (core/seeder.h, core/seeder.cpp) -/

/-- Internal seed-point type: a point and the priority calculated for it. -/
structure SeedPoint (Pt Pr : Type) where
  /-- Position of the point (the `Point` base object). -/
  pos : Pt
  /-- Calculated priority value. -/
  m_priority : Pr

/-- State of a `Seeder`: the ordered list of seed-points, the boundary
segments and the singular points.  A line segment is a pair of end-points. -/
structure Seeder (Pt Pr : Type) where
  m_seedPoints : List (SeedPoint Pt Pr)
  m_boundarySegments : List (Pt × Pt)
  m_singularities : List Pt

/-- Type of `Seeder::calculatePriority`: the priority of a point given the
boundary segments and the singularities registered so far. -/
abbrev PriorityFn (Pt Pr : Type) := List (Pt × Pt) → List Pt → Pt → Pr

namespace SeedPoint

variable {Pt Pr : Type}

/-- Less-than of `SeedPoint`: compares the priorities. -/
def lt [LT Pr] [DecidableRel (fun (a b : Pr) => a < b)] (a b : SeedPoint Pt Pr) : Bool :=
  decide (a.m_priority < b.m_priority)

end SeedPoint

/-- The loop of `qUpperBound` (binary search): `first` is the iterator `begin`
of the source, `n` the size of the range still searched.  `fuel` bounds the
number of iterations; `n` is at least halved in each one. -/
def qUpperBoundLoop {α : Type} (lessThan : α → α → Bool) (xs : List α) (value : α) :
    Nat → Nat → Nat → Nat
  | 0, first, _ => first
  | fuel + 1, first, n =>
    if 0 < n then
      let half := n / 2
      let middle := first + half
      match xs[middle]? with
      | some m =>
        if lessThan value m then
          qUpperBoundLoop lessThan xs value fuel first half
        else
          qUpperBoundLoop lessThan xs value fuel (middle + 1) (n - (half + 1))
      | none => first
    else first

/-- Binary search `qUpperBound(begin, end, value)` over the whole list: the
index of the first element that `value` is less than. -/
def qUpperBound {α : Type} (lessThan : α → α → Bool) (xs : List α) (value : α) : Nat :=
  qUpperBoundLoop lessThan xs value xs.length 0 xs.length

namespace Seeder

variable {Pt Pr : Type}

/-- A seeder just constructed. -/
def new : Seeder Pt Pr := ⟨[], [], []⟩

/-- Tests whether the container is empty. -/
def empty (s : Seeder Pt Pr) : Bool := s.m_seedPoints.isEmpty

/-- Index of the first seed-point at the position of `p`, or the length of the
list (`end()`) when there is none. -/
def findSeedPoint [DecidableEq Pt] (s : Seeder Pt Pr) (p : Pt) : Nat :=
  s.m_seedPoints.findIdx (fun sp => decide (sp.pos = p))

/-- Adds the seed-point `p` unless one is stored at the same position; returns
whether it has been added, and the new state. -/
def insert [DecidableEq Pt] [LT Pr] [DecidableRel (fun (a b : Pr) => a < b)]
    (calculatePriority : PriorityFn Pt Pr) (s : Seeder Pt Pr) (p : Pt) :
    Bool × Seeder Pt Pr :=
  if findSeedPoint s p = s.m_seedPoints.length then
    let sp : SeedPoint Pt Pr :=
      ⟨p, calculatePriority s.m_boundarySegments s.m_singularities p⟩
    let it := qUpperBound SeedPoint.lt s.m_seedPoints sp
    (true, { s with m_seedPoints := s.m_seedPoints.insertIdx it sp })
  else
    (false, s)

/-- Removes the seed-point at the position of `p`; returns whether one has
been removed, and the new state. -/
def remove [DecidableEq Pt] (s : Seeder Pt Pr) (p : Pt) : Bool × Seeder Pt Pr :=
  let it := findSeedPoint s p
  if it ≠ s.m_seedPoints.length then
    (true, { s with m_seedPoints := s.m_seedPoints.eraseIdx it })
  else
    (false, s)

/-- Removes and returns the last seed-point; `infinity` is the point `Point()`
returned when the seeder is empty. -/
def pop (infinity : Pt) (s : Seeder Pt Pr) : Pt × Seeder Pt Pr :=
  match s.m_seedPoints.getLast? with
  | some sp => (sp.pos, { s with m_seedPoints := s.m_seedPoints.dropLast })
  | none => (infinity, s)

/-- Appends the boundary segments found in a map image (the segments are the
argument here; extracting them from the image is done by `border`). -/
def setBoundaries (s : Seeder Pt Pr) (segments : List (Pt × Pt)) : Seeder Pt Pr :=
  { s with m_boundarySegments := s.m_boundarySegments ++ segments }

/-- Adds a point to the list of singularities. -/
def addSingularity (s : Seeder Pt Pr) (p : Pt) : Seeder Pt Pr :=
  { s with m_singularities := s.m_singularities ++ [p] }

/-- Removes a point from the list of singularities (`removeAll`). -/
def removeSingularity [DecidableEq Pt] (s : Seeder Pt Pr) (p : Pt) : Seeder Pt Pr :=
  { s with m_singularities := s.m_singularities.filter (fun q => decide (q ≠ p)) }

/-- States of a seeder reachable from a new one through its public methods. -/
inductive Reachable [DecidableEq Pt] [LT Pr] [DecidableRel (fun (a b : Pr) => a < b)]
    (calculatePriority : PriorityFn Pt Pr) (infinity : Pt) : Seeder Pt Pr → Prop
  | new : Reachable calculatePriority infinity Seeder.new
  | insert (s : Seeder Pt Pr) (p : Pt) :
      Reachable calculatePriority infinity s →
      Reachable calculatePriority infinity (Seeder.insert calculatePriority s p).2
  | remove (s : Seeder Pt Pr) (p : Pt) :
      Reachable calculatePriority infinity s →
      Reachable calculatePriority infinity (Seeder.remove s p).2
  | pop (s : Seeder Pt Pr) :
      Reachable calculatePriority infinity s →
      Reachable calculatePriority infinity (Seeder.pop infinity s).2
  | setBoundaries (s : Seeder Pt Pr) (segments : List (Pt × Pt)) :
      Reachable calculatePriority infinity s →
      Reachable calculatePriority infinity (Seeder.setBoundaries s segments)
  | addSingularity (s : Seeder Pt Pr) (p : Pt) :
      Reachable calculatePriority infinity s →
      Reachable calculatePriority infinity (Seeder.addSingularity s p)
  | removeSingularity (s : Seeder Pt Pr) (p : Pt) :
      Reachable calculatePriority infinity s →
      Reachable calculatePriority infinity (Seeder.removeSingularity s p)

/-- The seed list is in non-decreasing order of stored priority. -/
def SortedByPriority [LE Pr] (s : Seeder Pt Pr) : Prop :=
  s.m_seedPoints.Pairwise (fun a b => a.m_priority ≤ b.m_priority)

/-- A stand-in for `calculatePriority` on points numbered by naturals: the
number of registered singularities lying at the point. -/
def demoPriority : PriorityFn Nat Nat := fun _ singularities p => singularities.count p

/-- The seeder after `insert(1)` and `insert(2)` on a new seeder. -/
def demoState : Seeder Nat Nat :=
  (Seeder.insert demoPriority (Seeder.insert demoPriority Seeder.new 1).2 2).2

/-- A seeder with a singularity registered at point 7 and the seeds 3 and 7. -/
def demoState2 : Seeder Nat Nat :=
  (Seeder.insert demoPriority
    (Seeder.insert demoPriority (Seeder.addSingularity Seeder.new 7) 7).2 3).2

/-- An empty seeder that has a singularity registered at point 7. -/
def demoState3 : Seeder Nat Nat := Seeder.addSingularity Seeder.new 7

/-- The seeder holding the seeds 1 and 2, after a singularity has been
registered at point 1: the stored priorities are those of insertion time. -/
def demoState4 : Seeder Nat Nat := Seeder.addSingularity demoState 1

end Seeder

/-! ### Grapher (core/grapher.h, core/grapher.cpp)

`QMap<Vertex, AdjacencyList>` is a list of (key, value) entries kept in
ascending key order; the functions `QMap.*` are the container operations the
Grapher uses. -/

namespace QMap

variable {K A : Type}

/-- Value stored under `k` (of its first entry), if any. -/
def value [DecidableEq K] : List (K × A) → K → Option A
  | [], _ => none
  | (k1, a) :: rest, k => if k1 = k then some a else value rest k

/-- Whether the map has an entry for `k`. -/
def contains [DecidableEq K] (m : List (K × A)) (k : K) : Bool := (value m k).isSome

/-- Puts a new entry at its place in the key order. -/
def insertKey [LT K] [DecidableRel (fun (a b : K) => a < b)] (k : K) (a : A) :
    List (K × A) → List (K × A)
  | [] => [(k, a)]
  | (k1, a1) :: rest =>
    if k < k1 then (k, a) :: (k1, a1) :: rest else (k1, a1) :: insertKey k a rest

/-- The effect of `operator[]` on the map: an entry with the default value
`dflt` is inserted when the key has none. -/
def index [DecidableEq K] [LT K] [DecidableRel (fun (a b : K) => a < b)]
    (dflt : A) (m : List (K × A)) (k : K) : List (K × A) :=
  if contains m k then m else insertKey k dflt m

/-- Changes the value stored under `k` through a reference to it. -/
def modify [DecidableEq K] (f : A → A) : List (K × A) → K → List (K × A)
  | [], _ => []
  | (k1, a) :: rest, k =>
    (k1, if k1 = k then f a else a) :: modify f rest k

/-- Removes the key `k` (`QMap::remove`). -/
def remove [DecidableEq K] : List (K × A) → K → List (K × A)
  | [], _ => []
  | (k1, a) :: rest, k =>
    if k1 = k then remove rest k else (k1, a) :: remove rest k

end QMap

/-- State of a `Grapher`: adjacency lists keyed by vertex. -/
structure Grapher (V : Type) where
  m_vertices : List (V × List V)

namespace Grapher

variable {V : Type} [LinearOrder V]

/-- A grapher just constructed. -/
def new : Grapher V := ⟨[]⟩

/-- Adjacency list of `v`; empty when `v` is not a stored vertex. -/
def adj (g : Grapher V) (v : V) : List V := (QMap.value g.m_vertices v).getD []

/-- The stored vertices (`m_vertices.keys()`). -/
def keys (g : Grapher V) : List V := g.m_vertices.map Prod.fst

/-- Establishes a connection between the vertex pair:
`m_vertices[v1].append(v2); m_vertices[v2].append(v1);`. -/
def connect (g : Grapher V) (v1 v2 : V) : Grapher V :=
  let m1 := QMap.modify (fun a => a ++ [v2]) (QMap.index [] g.m_vertices v1) v1
  let m2 := QMap.modify (fun a => a ++ [v1]) (QMap.index [] m1 v2) v2
  ⟨m2⟩

/-- Removes a connection between the vertex pair: every `v2` is erased from
the list `a1 = m_vertices[v1]`, every `v1` from `a2 = m_vertices[v2]`, then the
vertices whose list is empty are removed.  Both emptiness tests read the lists
as they are after the two erase loops. -/
def disconnect (g : Grapher V) (v1 v2 : V) : Grapher V :=
  let m1 := QMap.modify (fun a => a.filter (fun v => decide (v ≠ v2)))
    (QMap.index [] g.m_vertices v1) v1
  let m2 := QMap.modify (fun a => a.filter (fun v => decide (v ≠ v1)))
    (QMap.index [] m1 v2) v2
  let a1Empty := ((QMap.value m2 v1).getD []).isEmpty
  let a2Empty := ((QMap.value m2 v2).getD []).isEmpty
  let m3 := if a1Empty then QMap.remove m2 v1 else m2
  let m4 := if a2Empty then QMap.remove m3 v2 else m3
  ⟨m4⟩

/-- Lists all edges: every stored adjacency `(v1, v2)` with `v1 < v2`. -/
def edges (g : Grapher V) : List (V × V) :=
  g.m_vertices.flatMap (fun e =>
    (e.2.filter (fun v2 => decide (e.1 < v2))).map (fun v2 => (e.1, v2)))

/-- The vertices that have two adjacencies. -/
def bridges (g : Grapher V) : List V :=
  (g.m_vertices.filter (fun e => decide (e.2.length = 2))).map Prod.fst

/-- The vertices that have only one adjacency. -/
def dongles (g : Grapher V) : List V :=
  (g.m_vertices.filter (fun e => decide (e.2.length = 1))).map Prod.fst

/-- States of a grapher reachable from a new one through connect and
disconnect. -/
inductive Reachable : Grapher V → Prop
  | new : Reachable Grapher.new
  | connect (g : Grapher V) (v1 v2 : V) : Reachable g → Reachable (Grapher.connect g v1 v2)
  | disconnect (g : Grapher V) (v1 v2 : V) :
      Reachable g → Reachable (Grapher.disconnect g v1 v2)

/-- No two entries of the vertex map have the same key, and no stored
adjacency list is empty. -/
def Inv (g : Grapher V) : Prop :=
  (g.m_vertices.map Prod.fst).Nodup ∧
  ∀ k l, QMap.value g.m_vertices k = some l → l ≠ []

/-- The grapher after `connect(1, 2)`. -/
def demoGraph1 : Grapher Nat := Grapher.connect Grapher.new 1 2

/-- The grapher after `connect(1, 2)`, `connect(2, 3)`, `connect(1, 3)` and
`disconnect(2, 3)`. -/
def demoGraph2 : Grapher Nat :=
  Grapher.disconnect
    (Grapher.connect (Grapher.connect (Grapher.connect Grapher.new 1 2) 2 3) 1 3) 2 3

end Grapher

/-! ### Matrices (base/matrix.h, base/bitmatrix.h)

A matrix is the list of its rows.  `base::BitMatrix` is a matrix of Booleans:
the packing of its elements into blocks is left out.  The element access of the
source throws `std::out_of_range` outside the matrix; `get` and `set` below
are total (a default value, no change), and are only used in range. -/

/-- A two-dimensional array with `m_rows` rows and `m_cols` columns. -/
structure Matrix (α : Type) where
  m_rows : Nat
  m_cols : Nat
  m_matrix : List (List α)

/-- A boolean-valued matrix. -/
abbrev BitMatrix := Matrix Bool

namespace Matrix

variable {α : Type}

/-- The matrix of the given size with every element set to `value`. -/
def fill (rows cols : Nat) (value : α) : Matrix α :=
  ⟨rows, cols, List.replicate rows (List.replicate cols value)⟩

/-- Whether `(row, col)` passes the boundary checks. -/
def inRange (m : Matrix α) (row col : Nat) : Bool :=
  decide (row < m.m_rows) && decide (col < m.m_cols)

/-- Element access; `dflt` stands for an element outside the matrix. -/
def get (dflt : α) (m : Matrix α) (row col : Nat) : α :=
  (m.m_matrix.getD row []).getD col dflt

/-- Assignment to an element. -/
def set (m : Matrix α) (row col : Nat) (value : α) : Matrix α :=
  { m with m_matrix := m.m_matrix.set row ((m.m_matrix.getD row []).set col value) }

end Matrix

/-! ### Graph (math/graph.h, math/graph.cpp) -/

/-- Vertex handle; vertices are numbered from 1. -/
abbrev Vertex := Nat

/-- List of vertices. -/
abbrev VertexList := List Vertex

/-- An edge between two vertices. -/
abbrev Edge := Vertex × Vertex

/-- List of edges. -/
abbrev EdgeList := List Edge

/-- The null-vertex value. -/
def NullVertex : Vertex := 0

/-- The infinite distance `INT_MAX/2` (for a 32-bit `int`). -/
def DIST_INF : Nat := 1073741823

/-- Matrix index for the specified vertex. -/
def IDX (v : Vertex) : Nat := v - 1

/-- The edge with the smaller vertex first. -/
def makeEdge (v1 v2 : Vertex) : Edge := (min v1 v2, max v1 v2)

/-- What the source leaves to the Qt library: the order in which the elements
of a `QSet` are listed (`QSet::toList`, `foreach` over a `QSet`) and the
permutation `qSort` applies for a comparison function. -/
structure QtOrder where
  edgeSetToList : EdgeList → EdgeList
  intSetToList : List Nat → List Nat
  qSort : (VertexList → VertexList → Bool) → List VertexList → List VertexList

/-- The library functions only reorder their argument. -/
structure QtOrder.Lawful (qt : QtOrder) : Prop where
  edge_perm : ∀ l, (qt.edgeSetToList l).Perm l
  int_perm : ∀ l, (qt.intSetToList l).Perm l
  sort_perm : ∀ lessThan l, (qt.qSort lessThan l).Perm l

/-- Inserts `a` before the first element that is greater. -/
def stableInsert {α : Type} (lessThan : α → α → Bool) (a : α) : List α → List α
  | [] => [a]
  | b :: rest => if lessThan b a then b :: stableInsert lessThan a rest else a :: b :: rest

/-- A stable sort (elements that compare equal keep their order). -/
def stableSort {α : Type} (lessThan : α → α → Bool) : List α → List α
  | [] => []
  | a :: rest => stableInsert lessThan a (stableSort lessThan rest)

/-- The instance in which a `QSet` lists its elements in insertion order and
`qSort` is a stable sort. -/
def QtOrder.insertion : QtOrder := ⟨id, id, stableSort⟩

/-- An undirected graph: its adjacency matrix. -/
structure Graph where
  m_matrix : BitMatrix

/-- Result of the all-pairs-shortest-paths algorithm. -/
structure Paths where
  m_path : Matrix Nat
  m_next : Matrix Vertex

namespace Graph

/-- The disconnected graph with `n` vertices. -/
def new (n : Nat) : Graph := ⟨Matrix.fill n n false⟩

/-- The number of vertices in the graph. -/
def numVertices (g : Graph) : Nat := g.m_matrix.m_rows

/-- Assigns `value` to both matrix elements of the pair; `none` stands for
the exception thrown for a null vertex or an index out of range. -/
def assign (g : Graph) (v1 v2 : Vertex) (value : Bool) : Option Graph :=
  if v1 ≠ NullVertex ∧ v2 ≠ NullVertex then
    if g.m_matrix.inRange (IDX v2) (IDX v1) && g.m_matrix.inRange (IDX v1) (IDX v2) then
      some ⟨(g.m_matrix.set (IDX v2) (IDX v1) value).set (IDX v1) (IDX v2) value⟩
    else none
  else none

/-- Establishes an edge between the specified vertex pair. -/
def connect (g : Graph) (v1 v2 : Vertex) : Option Graph := assign g v1 v2 true

/-- Removes the edge between the specified vertex pair. -/
def disconnect (g : Graph) (v1 v2 : Vertex) : Option Graph := assign g v1 v2 false

/-- Tests whether two vertices are adjacent. -/
def connected (g : Graph) (v1 v2 : Vertex) : Bool :=
  if v1 ≠ NullVertex ∧ v2 ≠ NullVertex then g.m_matrix.get false (IDX v1) (IDX v2) else false

/-- Graphs made by the constructor and calls of connect and disconnect that
return. -/
inductive Built : Graph → Prop
  | new (n : Nat) : Built (Graph.new n)
  | connect (g g2 : Graph) (v1 v2 : Vertex) :
      Built g → Graph.connect g v1 v2 = some g2 → Built g2
  | disconnect (g g2 : Graph) (v1 v2 : Vertex) :
      Built g → Graph.disconnect g v1 v2 = some g2 → Built g2

/-- The graph with `n` vertices after a `connect` call for every listed pair. -/
def ofEdges (n : Nat) (pairs : List (Vertex × Vertex)) : Option Graph :=
  pairs.foldlM (fun g p => Graph.connect g p.1 p.2) (Graph.new n)

/-- The pairs inserted into the edge set by the loops of `edges()`, in
insertion order. -/
def edgeSet (g : Graph) : EdgeList :=
  (List.range' 1 g.numVertices).flatMap (fun x =>
    ((List.range' (x + 1) (g.numVertices - x)).filter (fun y => g.connected x y)).map
      (fun y => makeEdge x y))

/-- All edges present in the graph. -/
def edges (qt : QtOrder) (g : Graph) : EdgeList := qt.edgeSetToList (edgeSet g)

/-- Vertices adjacent to the specified one. -/
def adjacents (g : Graph) (v : Vertex) : VertexList :=
  (List.range' 1 g.numVertices).filter (fun u => g.connected v u)

/-- The distance matrix before the main loops: 0 on the diagonal, 1 for
adjacent vertices, `DIST_INF` otherwise. -/
def initialPath (g : Graph) : Matrix Nat :=
  ⟨g.numVertices, g.numVertices,
    (List.range g.numVertices).map (fun i =>
      (List.range g.numVertices).map (fun j =>
        if i = j then 0 else if g.connected (i + 1) (j + 1) then 1 else DIST_INF))⟩

/-- Body of the innermost loop of the Floyd-Warshall algorithm for the matrix
indices `i`, `j`, `k`. -/
def relax (paths : Paths) (k i j : Nat) : Paths :=
  if paths.m_path.get DIST_INF i k + paths.m_path.get DIST_INF k j
      < paths.m_path.get DIST_INF i j then
    ⟨paths.m_path.set i j (paths.m_path.get DIST_INF i k + paths.m_path.get DIST_INF k j),
     paths.m_next.set i j (k + 1)⟩
  else paths

/-- The loops over `i` and `j` of the Floyd-Warshall algorithm for a given
`k`, on matrices with `n` rows and columns. -/
def round (n : Nat) (paths : Paths) (k : Nat) : Paths :=
  (List.range n).foldl (fun p i =>
    (List.range n).foldl (fun p j => relax p k i j) p) paths

/-- Shortest paths between all pairs of vertices (Floyd-Warshall). -/
def allPairsShortestPaths (g : Graph) : Paths :=
  (List.range g.numVertices).foldl (round g.numVertices)
    ⟨initialPath g, Matrix.fill g.numVertices g.numVertices NullVertex⟩

end Graph

namespace Paths

/-- Finds the inner vertices of the path between two vertices.  `fuel` bounds
the depth of the recursion; `none` means that it was exceeded. -/
def findPath (p : Paths) : Nat → Vertex → Vertex → Option VertexList
  | 0, _, _ => none
  | fuel + 1, start, stop =>
    if p.m_next.get NullVertex (IDX start) (IDX stop) = NullVertex then some []
    else
      match findPath p fuel start (p.m_next.get NullVertex (IDX start) (IDX stop)),
            findPath p fuel (p.m_next.get NullVertex (IDX start) (IDX stop)) stop with
      | some first, some second =>
        some (first ++ [p.m_next.get NullVertex (IDX start) (IDX stop)] ++ second)
      | _, _ => none

/-- Reconstructs the path between two vertices; the empty list if the path
does not exist.  The recursion of `findPath` is given the number of vertices
as depth. -/
def getPath (p : Paths) (start stop : Vertex) : Option VertexList :=
  if p.m_path.get DIST_INF (IDX start) (IDX stop) = DIST_INF then some []
  else (findPath p p.m_path.m_rows start stop).map (fun inner => [start] ++ inner ++ [stop])

end Paths

/-! ### Minimum cycle basis (math/graph.cpp) -/

/-- The standard inner product of two row-vectors in the field F_2. -/
def innerProduct (matA : BitMatrix) (rowA : Nat) (matB : BitMatrix) (rowB : Nat) : Nat :=
  (List.range matA.m_cols).foldl
    (fun s c => s + (if matA.get false rowA c && matB.get false rowB c then 1 else 0)) 0 % 2

/-- The row index of the first cycle C_i such that the inner product of C_i
and S_j is 1; `none` stands for the result -1. -/
def findCycle (matHS matS : BitMatrix) (rowS : Nat) : Option Nat :=
  (List.range matHS.m_rows).find? (fun r => decide (innerProduct matHS r matS rowS = 1))

/-- Adds edges from S_i to S_j: `matS(j,c) = matS(j,c) || matS(i,c)` for every
column. -/
def addEdges (matS : BitMatrix) (i j : Nat) : BitMatrix :=
  (List.range matS.m_cols).foldl
    (fun m c => m.set j c (m.get false j c || m.get false i c)) matS

/-- Whether the first list is shorter than the second one. -/
def sizeLessThan (left right : VertexList) : Bool := decide (left.length < right.length)

/-- The pairs `(v1, v2)` visited by the loops over a cycle: every vertex with
its successor, the last one with the first. -/
def cyclePairs (cycle : VertexList) : List (Vertex × Vertex) :=
  match cycle with
  | [] => []
  | first :: rest => List.zip (first :: rest) (rest ++ [first])

/-- The incidence vector of a cycle over the edge list; `none` when
`edges.indexOf` does not find an edge (the source then indexes with -1). -/
def incidenceVector (edges : EdgeList) (cycle : VertexList) : Option (List Bool) :=
  (cyclePairs cycle).foldlM
    (fun vec p =>
      if edges.indexOf (makeEdge p.1 p.2) < edges.length then
        some (vec.set (edges.indexOf (makeEdge p.1 p.2)) true)
      else none)
    (List.replicate edges.length false)

/-- Body of the loops that collect the candidate cycles, for the vertex `v`
and the edge `e`; the state is the list of cycles and the set of their
incidence vectors. -/
def hortonStep (edges : EdgeList) (paths : Paths)
    (st : List VertexList × List (List Bool)) (v : Vertex) (e : Edge) :
    Option (List VertexList × List (List Bool)) :=
  if v = e.1 ∨ v = e.2 then some st
  else
    match paths.getPath e.1 v, paths.getPath v e.2 with
    | some p1, some p2 =>
      if !p1.isEmpty && !p2.isEmpty then
        if (p1.dropLast.filter (fun a => p2.contains a)).isEmpty then
          match incidenceVector edges (p1.dropLast ++ p2) with
          | some vec =>
            if st.2.contains vec then some st
            else some (st.1 ++ [p1.dropLast ++ p2], st.2 ++ [vec])
          | none => none
        else some st
      else some st
    | _, _ => none

/-- The candidate cycles (the Horton set), in the order in which they are
found. -/
def hortonSet (edges : EdgeList) (paths : Paths) (n : Nat) : Option (List VertexList) :=
  ((List.range' 1 n).foldlM
    (fun st v => edges.foldlM (fun st e => hortonStep edges paths st v e) st)
    ([], [])).map Prod.fst

/-- The matrix S at the start: S_i = {e_i}. -/
def initialS (m : Nat) : BitMatrix :=
  (List.range m).foldl (fun s i => s.set i i true) (Matrix.fill m m false)

/-- Body of the selection loop for the index `i`; the state is the matrix S
and the set of selected cycle indices (in insertion order). -/
def selectStep (matHS : BitMatrix) (m : Nat) (st : BitMatrix × List Nat) (i : Nat) :
    BitMatrix × List Nat :=
  match findCycle matHS st.1 i with
  | none => st
  | some ci =>
    ((List.range' (i + 1) (m - (i + 1))).foldl
      (fun s j => if innerProduct s j matHS ci ≠ 0 then addEdges s i j else s) st.1,
     if st.2.contains ci then st.2 else st.2 ++ [ci])

/-- The indices of the cycles selected from the Horton set. -/
def selectCycles (matHS : BitMatrix) (m : Nat) : List Nat :=
  ((List.range m).foldl (selectStep matHS m) (initialS m, [])).2

namespace Graph

/-- The minimum cycle basis of the graph for a cycle comparison function;
`none` when an edge lookup fails or a path reconstruction does not return. -/
def minimumCycleBasis (qt : QtOrder) (lessThan : VertexList → VertexList → Bool)
    (g : Graph) : Option (List VertexList) :=
  match hortonSet (edges qt g) (allPairsShortestPaths g) g.numVertices with
  | none => none
  | some found =>
    match (qt.qSort lessThan found).mapM (incidenceVector (edges qt g)) with
    | none => none
    | some rows =>
      (qt.intSetToList
        (selectCycles ⟨(qt.qSort lessThan found).length, (edges qt g).length, rows⟩
          (edges qt g).length)).mapM
        (fun ci => (qt.qSort lessThan found)[ci]?)

end Graph

/-- The matrix holds `n` rows of `n` elements. -/
def Matrix.Square {α : Type} (m : Matrix α) (n : Nat) : Prop :=
  m.m_matrix.length = n ∧ ∀ row ∈ m.m_matrix, row.length = n

/-! ### Vocabulary of the statements about paths -/

/-- The distance stored for the matrix indices `i`, `j`. -/
def Paths.dist (p : Paths) (i j : Nat) : Nat := p.m_path.get DIST_INF i j

/-- The intermediate vertex stored for the matrix indices `i`, `j`. -/
def Paths.next (p : Paths) (i j : Nat) : Vertex := p.m_next.get NullVertex i j

/-- The vertices with matrix indices `i` and `j` are vertices of the graph and
the first is connected to the second. -/
def Graph.Adj (g : Graph) (i j : Nat) : Prop :=
  i < g.numVertices ∧ j < g.numVertices ∧ g.connected (i + 1) (j + 1) = true

/-- `Graph.Walk g k i j d`: there is a walk of `d` edges (at least one) from
index `i` to index `j` all of whose inner vertices have an index below `k`. -/
inductive Graph.Walk (g : Graph) (k : Nat) : Nat → Nat → Nat → Prop
  | single (i j : Nat) : Graph.Adj g i j → Graph.Walk g k i j 1
  | cons (i m j d : Nat) : Graph.Adj g i m → m < k → Graph.Walk g k m j d →
      Graph.Walk g k i j (d + 1)

/-- What the two matrices of the algorithm satisfy at every moment: a stored
distance is 0 on the diagonal, at least 1 elsewhere and at most `DIST_INF`;
without an intermediate vertex it is `DIST_INF` or the length 1 of an edge;
with the intermediate vertex `m` it is finite and not less than the sum of the
distances to and from `m`. -/
structure Paths.Sound (g : Graph) (p : Paths) : Prop where
  sq_path : p.m_path.Square g.numVertices
  sq_next : p.m_next.Square g.numVertices
  rows : p.m_path.m_rows = g.numVertices
  diag : ∀ i, i < g.numVertices → p.dist i i = 0
  le_inf : ∀ i j, i < g.numVertices → j < g.numVertices → p.dist i j ≤ DIST_INF
  pos : ∀ i j, i < g.numVertices → j < g.numVertices → i ≠ j → 1 ≤ p.dist i j
  direct : ∀ i j, i < g.numVertices → j < g.numVertices → i ≠ j → p.next i j = 0 →
    p.dist i j = DIST_INF ∨ (p.dist i j = 1 ∧ g.Adj i j)
  via : ∀ i j, i < g.numVertices → j < g.numVertices → i ≠ j → p.next i j ≠ 0 →
    ∃ m, m < g.numVertices ∧ p.next i j = m + 1 ∧ m ≠ i ∧ m ≠ j ∧
      p.dist i m + p.dist m j ≤ p.dist i j ∧ p.dist i j < DIST_INF

/-- Every walk whose inner vertices are below `k` is at least as long as the
stored distance. -/
def Paths.Complete (g : Graph) (k : Nat) (p : Paths) : Prop :=
  ∀ i j d, g.Walk k i j d → p.dist i j ≤ d

/-- The passage from `p` to `q` inside the round for `k`: `q` is sound, no
distance is greater than in `p`, and row and column `k` are the same. -/
def Paths.Improves (g : Graph) (k : Nat) (p q : Paths) : Prop :=
  q.Sound g ∧ (∀ a b, q.dist a b ≤ p.dist a b) ∧
  (∀ a, q.dist a k = p.dist a k) ∧ (∀ b, q.dist k b = p.dist k b)

/-- Every vertex of the list is connected to the one that follows it. -/
def Graph.Linked (g : Graph) : VertexList → Prop
  | [] => True
  | [_] => True
  | a :: b :: rest => g.connected a b = true ∧ Graph.Linked g (b :: rest)

/-- A walk in the graph: a list of vertices of the graph (numbers from 1 to
the number of vertices), each connected to the next. -/
def Graph.IsWalk (g : Graph) (w : VertexList) : Prop :=
  (∀ v : Nat, v ∈ w → 1 ≤ v ∧ v ≤ g.numVertices) ∧ Graph.Linked g w

/-- A walk that starts at `s` and ends at `e`. -/
def Graph.IsPath (g : Graph) (s e : Vertex) (w : VertexList) : Prop :=
  g.IsWalk w ∧ w.head? = some s ∧ w.getLast? = some e

/-- The graph of `run_graph` in demo/demo.cpp after all its `connect` calls
(the empty graph should a call throw). -/
def Graph.demoGraph : Graph :=
  (Graph.ofEdges 5 [(1, 2), (2, 3), (3, 4), (4, 5), (3, 5), (5, 2)]).getD (Graph.new 0)

/-! ### Vocabulary of the statements about cycles -/

/-- Sum of two incidence vectors over GF(2): the symmetric difference of the
edge sets. -/
def xorVec (u v : List Bool) : List Bool := List.zipWith xor u v

/-- Sum over GF(2) of a list of incidence vectors of length `m`. -/
def xorAll (m : Nat) (vecs : List (List Bool)) : List Bool :=
  vecs.foldr xorVec (List.replicate m false)

/-- Inner product over GF(2) of a vector with row `i` of the matrix `s`,
taken over the first `cols` columns. -/
def parity (cols : Nat) (v : List Bool) (s : BitMatrix) (i : Nat) : Nat :=
  (List.range cols).foldl
    (fun acc c => acc + (if v.getD c false && s.get false i c then 1 else 0)) 0 % 2

/-- What is recorded about the selected cycle indices: they are rows of the
Horton matrix, and each one was the first row with inner product 1 with some
row of some matrix S. -/
def Selected (matHS : BitMatrix) (sel : List Nat) : Prop :=
  sel.Nodup ∧ ∀ ci ∈ sel, ci < matHS.m_rows ∧
    ∃ (s : BitMatrix) (i : Nat), innerProduct matHS ci s i = 1 ∧
      ∀ r, r < ci → innerProduct matHS r s i ≠ 1

/-- The adjacency matrix has as many rows and columns as the graph has
vertices and is symmetric. -/
def Graph.WellFormed (g : Graph) : Prop :=
  g.m_matrix.Square g.numVertices ∧ g.m_matrix.m_cols = g.numVertices ∧
  ∀ i j, g.m_matrix.get false i j = g.m_matrix.get false j i

/-- A simple cycle of the graph: at least 3 vertices of the graph, pairwise
distinct, every vertex connected to the next and the last one to the
first. -/
def Graph.IsSimpleCycle (g : Graph) (cycle : VertexList) : Prop :=
  3 ≤ cycle.length ∧ cycle.Nodup ∧
  (∀ v : Nat, v ∈ cycle → 1 ≤ v ∧ v ≤ g.numVertices) ∧
  ∀ p ∈ cyclePairs cycle, g.connected p.1 p.2 = true

/-- The graph of `run_mcb` in demo/demo.cpp after its first five `connect`
calls (the empty graph should a call throw). -/
def Graph.demoCycleGraph : Graph :=
  (Graph.ofEdges 6 [(1, 2), (2, 3), (2, 4), (3, 4), (4, 1)]).getD (Graph.new 0)

/-- A connected graph with 6 vertices and 11 edges (the empty graph should a
`connect` call throw). -/
def Graph.sixVertexGraph : Graph :=
  (Graph.ofEdges 6 [(1, 4), (1, 5), (1, 6), (2, 3), (2, 4), (2, 5), (2, 6), (3, 4), (3, 5),
    (3, 6), (4, 5)]).getD (Graph.new 0)

/-- The addition that the comment of `addEdges` documents, S_j = S_j + S_i
in the field F_2; the source computes `||` instead (see `addEdges`). -/
def addEdgesDocumented (matS : BitMatrix) (i j : Nat) : BitMatrix :=
  (List.range matS.m_cols).foldl
    (fun m c => m.set j c (xor (m.get false j c) (m.get false i c))) matS

/-- The selection loop of `selectCycles` with the documented addition in the
place of `addEdges`. -/
def selectCyclesDocumented (matHS : BitMatrix) (m : Nat) : List Nat :=
  ((List.range m).foldl
    (fun (st : BitMatrix × List Nat) i =>
      match findCycle matHS st.1 i with
      | none => st
      | some ci =>
        ((List.range' (i + 1) (m - (i + 1))).foldl
          (fun s j => if innerProduct s j matHS ci ≠ 0 then addEdgesDocumented s i j else s)
          st.1,
         if st.2.contains ci then st.2 else st.2 ++ [ci]))
    (initialS m, [])).2

/-- The order in which a hash table with 17 buckets lists pairs when the pair
`(x, y)` has the hash value `65536 * x + y` (so its bucket is `(x + y) % 17`)
and every bucket keeps insertion order; `qSort` is a stable sort. -/
def QtOrder.bucketed : QtOrder :=
  ⟨stableSort (fun a b => decide ((a.1 + a.2) % 17 < (b.1 + b.2) % 17)), id, stableSort⟩

/-! ### Numbers, vectors and tensors (math/funcs.h, math/vector2f.h, math/tensor.h)

A `float` is an element of an ordered field `F` with a floor function (the
rationals, the reals): arithmetic is exact, and there is neither an infinite
value nor a NaN.  A decimal constant of the source is the decimal number
itself.  The functions of the C library that the source calls are gathered in
a parameter record. -/

/-- The C library: `sqrtf`, `sinf`, `cosf`, `acosf`, `atan2f`, `expf` and the
constant `M_PI`. -/
structure Libm (F : Type) where
  sqrtf : F → F
  sinf : F → F
  cosf : F → F
  acosf : F → F
  atan2f : F → F → F
  expf : F → F
  M_PI : F

/-- Representation of a second degree vector: the two values `m_val[0]` and
`m_val[1]`. -/
structure Vector2f (F : Type) where
  m_val0 : F
  m_val1 : F
deriving DecidableEq

namespace math

variable {F : Type} [LinearOrderedField F]

/-- The square of the supplied value. -/
def pow2 (a : F) : F := a * a

/-- Rounds the number to zero if it is small enough. -/
def zero (a : F) : F := if |a| < 1 / 100000 then 0 else a

/-- Square-root function. -/
def sqrt (lib : Libm F) (a : F) : F := zero (lib.sqrtf a)

/-- Sine function. -/
def sin (lib : Libm F) (a : F) : F := zero (lib.sinf a)

/-- Cosine function. -/
def cos (lib : Libm F) (a : F) : F := zero (lib.cosf a)

/-- Arcus-tangens function, with a result from 0 to 2 pi. -/
def atan2 (lib : Libm F) (y x : F) : F :=
  if lib.atan2f y x < 0 then 2 * lib.M_PI + lib.atan2f y x else lib.atan2f y x

end math

namespace Vector2f

variable {F : Type} [LinearOrderedField F]

/-- The null-vector. -/
def null : Vector2f F := ⟨0, 0⟩

/-- Vector negation. -/
def neg (vect : Vector2f F) : Vector2f F := ⟨-vect.m_val0, -vect.m_val1⟩

/-- Vector addition. -/
def add (left right : Vector2f F) : Vector2f F :=
  ⟨left.m_val0 + right.m_val0, left.m_val1 + right.m_val1⟩

/-- Vector subtraction. -/
def sub (left right : Vector2f F) : Vector2f F :=
  ⟨left.m_val0 - right.m_val0, left.m_val1 - right.m_val1⟩

/-- Vector division by scalar. -/
def div (vect : Vector2f F) (s : F) : Vector2f F := ⟨vect.m_val0 / s, vect.m_val1 / s⟩

/-- Vector multiplication by scalar (`vect * s`). -/
def mul (vect : Vector2f F) (s : F) : Vector2f F := ⟨vect.m_val0 * s, vect.m_val1 * s⟩

/-- Vector multiplication by scalar (`s * vect`). -/
def smul (s : F) (vect : Vector2f F) : Vector2f F := mul vect s

/-- Vector inner product (dot-product). -/
def dot (left right : Vector2f F) : F :=
  left.m_val0 * right.m_val0 + left.m_val1 * right.m_val1

/-- The square of the vector norm. -/
def normSquared (v : Vector2f F) : F := math.pow2 v.m_val0 + math.pow2 v.m_val1

/-- The vector norm. -/
def norm (lib : Libm F) (v : Vector2f F) : F := math.zero (math.sqrt lib (normSquared v))

/-- The normalized version of the vector. -/
def normalized (lib : Libm F) (v : Vector2f F) : Vector2f F :=
  if 0 < norm lib v then div v (norm lib v) else v

end Vector2f

namespace math

variable {F : Type} [LinearOrderedField F]

/-- Radial-basis function. -/
def rbf (lib : Libm F) (x c : Vector2f F) (d : F) : F :=
  zero (lib.expf (-d * (Vector2f.sub x c).normSquared))

/-- Orients the vector in a general direction. -/
def orient (lib : Libm F) (v d : Vector2f F) : Vector2f F :=
  if |lib.acosf (Vector2f.dot v d)| > lib.M_PI / 2 then Vector2f.neg v else v

end math

/-- A second-order symmetric tensor: the first column of its matrix, a
`Vector2f`. -/
abbrev Tensor (F : Type) := Vector2f F

namespace Tensor

variable {F : Type} [LinearOrderedField F]

/-- A tensor from the specified component values. -/
def fromValues (x y : F) : Tensor F := ⟨x, y⟩

/-- The zero tensor (`Tensor()`). -/
def null : Tensor F := Vector2f.null

/-- The tensor for a value/angle pair (`Tensor(value, angle)`). -/
def ofValueAngle (lib : Libm F) (value angle : F) : Tensor F :=
  ⟨value * math.cos lib (2 * angle), value * math.sin lib (2 * angle)⟩

/-- The tensor's value part. -/
def value (lib : Libm F) (t : Tensor F) : F := Vector2f.norm lib t

/-- The tensor's angle part. -/
def angle (lib : Libm F) (t : Tensor F) : F := math.atan2 lib t.m_val1 t.m_val0 / 2

/-- An eigenvector of the tensor. -/
def eigenVector (lib : Libm F) (t : Tensor F) (major : Bool) : Vector2f F :=
  if major then ⟨value lib t * math.cos lib (angle lib t), value lib t * math.sin lib (angle lib t)⟩
  else ⟨-(value lib t * math.sin lib (angle lib t)), value lib t * math.cos lib (angle lib t)⟩

end Tensor

/-! ### Tensor fields (core/field.h, core/field.cpp)

A `TensorField` is the function of its call operator. -/

/-- Tensor field interface: the tensor value at the specified point. -/
abbrev TensorField (F : Type) := Vector2f F → Tensor F

/-- Tensor field defined only at discrete points: `m_dim` and the values at
the lattice points, `m_dim + 1` rows of `m_dim + 1` tensors. -/
structure DiscreteField (F : Type) where
  m_dim : Nat
  m_matrix : List (List (Tensor F))

namespace DiscreteField

variable {F : Type} [LinearOrderedField F] [FloorRing F]

/-- The object constructed with the specified number of lattice points: all
values are zero. -/
def new (dim : Nat) : DiscreteField F :=
  ⟨dim, List.replicate (dim + 1) (List.replicate (dim + 1) Tensor.null)⟩

/-- Loads values at lattice points from the specified tensor field: the two
loops assign `field(col*sx, row*sy)` to the element `(row, col)` for every row
and column (the progress dialog is left out: the load is not cancelled). -/
def loadValues (d : DiscreteField F) (field : TensorField F) : DiscreteField F :=
  { d with m_matrix :=
      (List.range (d.m_dim + 1)).map (fun (row : Nat) =>
        (List.range (d.m_dim + 1)).map (fun (col : Nat) =>
          field ⟨(col : F) * (1 / (d.m_dim : F)), (row : F) * (1 / (d.m_dim : F))⟩)) }

/-- The element `m_matrix[row][col]`; `none` outside the allocated array. -/
def at? (d : DiscreteField F) (row col : Int) : Option (Tensor F) :=
  if 0 ≤ row ∧ 0 ≤ col then
    match d.m_matrix[row.toNat]? with
    | some r => r[col.toNat]?
    | none => none
  else none

/-- The tensor value at the specified point (the call operator): the point is
clamped to the domain, then interpolated between lattice points.  `none`
stands for an access outside the array. -/
def eval (d : DiscreteField F) (p : Vector2f F) : Option (Tensor F) :=
  let x : F := max 0 (min p.m_val0 1)
  let y : F := max 0 (min p.m_val1 1)
  let sx : F := 1 / (d.m_dim : F)
  let sy : F := sx
  let r1 : Int := ⌊y * (d.m_dim : F)⌋
  let c1 : Int := ⌊x * (d.m_dim : F)⌋
  let r2 : Int := ⌈y * (d.m_dim : F)⌉
  let c2 : Int := ⌈x * (d.m_dim : F)⌉
  let x1 : F := (c1 : F) / (d.m_dim : F)
  let y1 : F := (r1 : F) / (d.m_dim : F)
  let x2 : F := (c2 : F) / (d.m_dim : F)
  let y2 : F := (r2 : F) / (d.m_dim : F)
  match at? d r1 c1, at? d r1 c2, at? d r2 c1, at? d r2 c2 with
  | some t11, some t21, some t12, some t22 =>
    let t1 := Vector2f.add (Vector2f.div (Vector2f.mul t11 (x2 - x)) sx)
      (Vector2f.div (Vector2f.mul t21 (x - x1)) sx)
    let t2 := Vector2f.add (Vector2f.div (Vector2f.mul t12 (x2 - x)) sx)
      (Vector2f.div (Vector2f.mul t22 (x - x1)) sx)
    some (Vector2f.add (Vector2f.div (Vector2f.mul t1 (y2 - y)) sy)
      (Vector2f.div (Vector2f.mul t2 (y - y1)) sy))
  | _, _, _, _ => none

end DiscreteField

namespace DiscreteField

variable {F : Type} [LinearOrderedField F] [FloorRing F]

/-- The coefficients with which the call operator multiplies the four lattice
values `t11`, `t21`, `t12`, `t22` (in this order) of the clamped point. -/
def weights (d : DiscreteField F) (p : Vector2f F) : List F :=
  let x : F := max 0 (min p.m_val0 1)
  let y : F := max 0 (min p.m_val1 1)
  let sx : F := 1 / (d.m_dim : F)
  let sy : F := sx
  let x1 : F := ((⌊x * (d.m_dim : F)⌋ : Int) : F) / (d.m_dim : F)
  let y1 : F := ((⌊y * (d.m_dim : F)⌋ : Int) : F) / (d.m_dim : F)
  let x2 : F := ((⌈x * (d.m_dim : F)⌉ : Int) : F) / (d.m_dim : F)
  let y2 : F := ((⌈y * (d.m_dim : F)⌉ : Int) : F) / (d.m_dim : F)
  [(x2 - x) / sx * ((y2 - y) / sy), (x - x1) / sx * ((y2 - y) / sy),
   (x2 - x) / sx * ((y - y1) / sy), (x - x1) / sx * ((y - y1) / sy)]

/-- The lattice values `t11`, `t21`, `t12`, `t22` read by the call operator
for the point `p`. -/
def corners (d : DiscreteField F) (p : Vector2f F) : List (Option (Tensor F)) :=
  let x : F := max 0 (min p.m_val0 1)
  let y : F := max 0 (min p.m_val1 1)
  [at? d ⌊y * (d.m_dim : F)⌋ ⌊x * (d.m_dim : F)⌋, at? d ⌊y * (d.m_dim : F)⌋ ⌈x * (d.m_dim : F)⌉,
   at? d ⌈y * (d.m_dim : F)⌉ ⌊x * (d.m_dim : F)⌋, at? d ⌈y * (d.m_dim : F)⌉ ⌈x * (d.m_dim : F)⌉]

/-- The field that has the tensor (1, 0) at every point. -/
def demoField : TensorField ℚ := fun _ => Tensor.fromValues 1 0

end DiscreteField

/-- Basis tensor field: its location `p0`, the scaling factor, the type of
singularity (`SingularityType_Center = 1`, `Wedge = 2`, `Node = 3`,
`Trisector = 4`, `Saddle = 5`, `Focus = 6`; 0 for a regular element) and the
value of a regular element. -/
structure BasisField (F : Type) where
  p0 : Vector2f F
  scale : F
  m_singularityType : Nat
  m_regularValue : Tensor F

namespace BasisField

variable {F : Type} [LinearOrderedField F]

/-- The enumerator `NumSingularityTypes`. -/
def NumSingularityTypes : Nat := 7

/-- Constructs a regular element at the specified point; the angle is the
value of the C library function `atan2`, not that of `math::atan2`. -/
def regular (lib : Libm F) (p0 : Vector2f F) (scale : F) (d : Vector2f F) : BasisField F :=
  ⟨p0, scale, 0, Tensor.ofValueAngle lib 1 (lib.atan2f d.m_val1 d.m_val0)⟩

/-- Constructs a singular element at the specified point. -/
def singular (p0 : Vector2f F) (scale : F) (type : Nat) : BasisField F :=
  ⟨p0, scale, type, Tensor.null⟩

/-- Whether this is a singularity tensor field element. -/
def isSingularity (b : BasisField F) : Bool :=
  decide (0 < b.m_singularityType) && decide (b.m_singularityType < NumSingularityTypes)

/-- The tensor value at the specified point (the call operator). -/
def eval (lib : Libm F) (b : BasisField F) (p : Vector2f F) : Tensor F :=
  if b.m_singularityType = 0 then Vector2f.smul b.scale b.m_regularValue
  else
    let v := Vector2f.normalized lib (Vector2f.sub p b.p0)
    let x := v.m_val0
    let y := v.m_val1
    match b.m_singularityType with
    | 1 => Vector2f.smul b.scale (Tensor.fromValues (math.pow2 y - math.pow2 x) (-2 * x * y))
    | 2 => Vector2f.smul b.scale (Tensor.fromValues x y)
    | 3 => Vector2f.smul b.scale (Tensor.fromValues (math.pow2 x - math.pow2 y) (2 * x * y))
    | 4 => Vector2f.smul b.scale (Tensor.fromValues x (-y))
    | 5 => Vector2f.smul b.scale (Tensor.fromValues (math.pow2 x - math.pow2 y) (-2 * x * y))
    | 6 => Vector2f.smul b.scale (Tensor.fromValues (math.pow2 y - math.pow2 x) (2 * x * y))
    | _ => Tensor.null

end BasisField

/-- Tensor field created by summing together basis fields: the collection of
elements and the decay parameter of the radial-basis function. -/
structure BasisSumField (F : Type) where
  m_elements : List (BasisField F)
  m_decay : F

namespace BasisSumField

variable {F : Type} [LinearOrderedField F]

/-- Constructs the object (the default decay is 4). -/
def new (decay : F) : BasisSumField F := ⟨[], decay⟩

/-- Adds a basis field to the sum (`operator+=`). -/
def addElement (s : BasisSumField F) (element : BasisField F) : BasisSumField F :=
  { s with m_elements := s.m_elements ++ [element] }

/-- The array `dists` of the call operator: for every element the distance
from `p` to its location, replaced by 0.001 when it is 0. -/
def dists (lib : Libm F) (s : BasisSumField F) (p : Vector2f F) : List F :=
  s.m_elements.map (fun bf =>
    if Vector2f.norm lib (Vector2f.sub p bf.p0) = 0 then 1 / 1000
    else Vector2f.norm lib (Vector2f.sub p bf.p0))

/-- The sum `distsSum` of the distances. -/
def distsSum (lib : Libm F) (s : BasisSumField F) (p : Vector2f F) : F :=
  (dists lib s p).foldl (fun sum d => sum + d) 0

/-- The array `nears` of "nearness" values. -/
def nears (lib : Libm F) (s : BasisSumField F) (p : Vector2f F) : List F :=
  (dists lib s p).map (fun d => math.pow2 (distsSum lib s p / d))

/-- The sum `nearsSum` of the nearness values. -/
def nearsSum (lib : Libm F) (s : BasisSumField F) (p : Vector2f F) : F :=
  (nears lib s p).foldl (fun sum n => sum + n) 0

/-- The tensor value at the specified point (the call operator). -/
def eval (lib : Libm F) (s : BasisSumField F) (p : Vector2f F) : Tensor F :=
  if s.m_elements.length = 0 then Tensor.null
  else
    (s.m_elements.zip (nears lib s p)).foldl (fun t en =>
      Vector2f.add t
        (Vector2f.smul (en.2 / nearsSum lib s p * math.rbf lib p en.1.p0 s.m_decay * en.1.scale)
          (BasisField.eval lib en.1 p))) Tensor.null

end BasisSumField

/-- The C library over the real numbers, every function exact (`atan2f(y, x)`
is the argument of the complex number x + iy). -/
noncomputable def Libm.exact : Libm ℝ :=
  ⟨Real.sqrt, Real.sin, Real.cos, Real.arccos, fun y x => Complex.arg ⟨x, y⟩, Real.exp, Real.pi⟩

/-- A sum field with the default decay whose only element is a centre
singularity of scale 1 at the origin. -/
noncomputable def BasisSumField.demoSum : BasisSumField ℝ := ⟨[BasisField.singular ⟨0, 0⟩ 1 1], 4⟩

/-! ### Points and edges (math/point2f.h, core/edge.h)

`QList` operations on a list of pointers compare addresses: an `Edge` object
carries its address as the field `id`, and a pointer to an edge is its `id` or
the object itself. -/

/-- A point in 2D space: its radi-vector, or `none` for the point at infinity
(the value of the default constructor). -/
structure Point2f (F : Type) where
  m_pos : Option (Vector2f F)
deriving DecidableEq

namespace Point2f

variable {F : Type} [LinearOrderedField F]

/-- A point at infinity. -/
def infinity : Point2f F := ⟨none⟩

/-- The point at the specified position (`Point2f(x, y)`). -/
def ofCoords (x y : F) : Point2f F := ⟨some ⟨x, y⟩⟩

/-- The point at the specified position (`Point2f(pos)`). -/
def ofVector (pos : Vector2f F) : Point2f F := ⟨some pos⟩

/-- Whether the point is finite, i.e. not at infinity. -/
def finite (p : Point2f F) : Bool := p.m_pos.isSome

/-- The radi-vector.  That of the point at infinity, a pair of infinite
numbers in the source, has no counterpart here: it is given as the null
vector, and the source tests `finite()` before it reads the position of a
point that can be the one at infinity. -/
def pos (p : Point2f F) : Vector2f F := p.m_pos.getD Vector2f.null

end Point2f

/-- The C function `roundf`: to the nearest integer, halfway cases away from
zero. -/
def roundf {F : Type} [LinearOrderedField F] [FloorRing F] (a : F) : Int :=
  if 0 ≤ a then ⌊a + 1 / 2⌋ else ⌈a - 1 / 2⌉

/-- The permutation `qSort` applies to a list for a comparison function, for
every type of element (the order of elements that compare equal is not fixed
by the source). -/
structure QtSort where
  qSort : {α : Type} → (α → α → Bool) → List α → List α

/-- The sort only reorders its argument. -/
def QtSort.Lawful (qt : QtSort) : Prop :=
  ∀ (α : Type) (lessThan : α → α → Bool) (l : List α), (qt.qSort lessThan l).Perm l

/-- The instance in which `qSort` is a stable sort. -/
def QtSort.stable : QtSort := ⟨stableSort⟩

namespace core

/-- Modelled from the spec: `core::Point` of core/point.h, which is not among
the sources: a 2-D position plus a distinguished "infinite" sentinel, with
equality by coordinate value, that is a `math::Point2f`.  The order that the
`QMap` of the Grapher needs is a parameter of the functions that use it; the
one that core/grapher.cpp defines is `core.Point.linearOrder`. -/
abbrev Point (F : Type) := Point2f F

/-- Edge types. -/
inductive Edge.Types where
  | TypeZero
  | TypeMajorRoad
  | TypeMinorRoad
  | TypeBoundary
  | TypeBridge
deriving DecidableEq

/-- An edge in a road network: the address `id` of the object, the starting
and the ending point, the trace points and the edge type. -/
structure Edge (F : Type) where
  id : Nat
  m_v1 : Point F
  m_v2 : Point F
  m_trace : List (Point F)
  m_type : Edge.Types
deriving DecidableEq

namespace Edge

variable {F : Type} [DecidableEq F]

/-- Whether this edge is some kind of a road. -/
def isRoad (e : Edge F) : Bool :=
  decide (e.m_type = Edge.Types.TypeMajorRoad) || decide (e.m_type = Edge.Types.TypeMinorRoad)

/-- Trace points reversed. -/
def traceReversed (e : Edge F) : List (Point F) :=
  (List.range e.m_trace.length).filterMap (fun i => e.m_trace[e.m_trace.length - 1 - i]?)

/-- Joins two edges together; `id` is the address of the new object, and
`none` is the null pointer returned when the join is not possible. -/
def join (id : Nat) (e1 e2 : Edge F) : Option (Edge F) :=
  if e1.m_v2 = e2.m_v1 then
    some ⟨id, e1.m_v1, e2.m_v2, e1.m_trace ++ e2.m_trace, e1.m_type⟩
  else if e1.m_v2 = e2.m_v2 then
    some ⟨id, e1.m_v1, e2.m_v1, e1.m_trace ++ traceReversed e2, e1.m_type⟩
  else if e1.m_v1 = e2.m_v1 then
    some ⟨id, e1.m_v2, e2.m_v2, traceReversed e1 ++ e2.m_trace, e1.m_type⟩
  else if e1.m_v1 = e2.m_v2 then
    some ⟨id, e2.m_v2, e2.m_v1, traceReversed e2 ++ traceReversed e1, e1.m_type⟩
  else none

end Edge

end core

/-! ### Tracer (core/tracer.h, core/tracer.cpp, core/tracer_data.cpp,
core/tracer_params.cpp, core/tracer_tracing.cpp) -/

namespace core

/-- A point within an edge trace: the point and the address of the edge this
sample-point is a part of (`none` for the null pointer). -/
structure SamplePoint (F : Type) where
  point : Point F
  m_edge : Option Nat

namespace SamplePoint

variable {F : Type}

/-- A null sample-point. -/
def null : SamplePoint F := ⟨Point2f.infinity, none⟩

/-- A sample-point at the specified position, belonging to no edge. -/
def ofPoint (p : Point F) : SamplePoint F := ⟨p, none⟩

/-- Equality operator: the edge member is not used in the comparison. -/
def eq [DecidableEq F] (a b : SamplePoint F) : Bool := decide (a.point = b.point)

end SamplePoint

section Grid

variable {F : Type} [LinearOrderedField F] [FloorRing F] {E : Type}

/-- The cell in which the specified point is in. -/
def getGridCell (grid : Matrix (List E)) (pos : Vector2f F) : Int × Int :=
  (min (roundf (max 0 (min pos.m_val0 1) * (grid.m_rows : F))) ((grid.m_rows : Int) - 1),
   min (roundf (max 0 (min pos.m_val1 1) * (grid.m_cols : F))) ((grid.m_cols : Int) - 1))

/-- The list stored in a cell of the grid. -/
def gridCell (grid : Matrix (List E)) (cell : Int × Int) : List E :=
  grid.get [] cell.1.toNat cell.2.toNat

/-- Adds the specified element to the spatial grid, unless its cell has an
equal one. -/
def addGridElement (pos : E → Vector2f F) (eq : E → E → Bool) (grid : Matrix (List E))
    (element : E) : Matrix (List E) :=
  if (gridCell grid (getGridCell grid (pos element))).countP (fun x => eq x element) = 0 then
    grid.set (getGridCell grid (pos element)).1.toNat (getGridCell grid (pos element)).2.toNat
      (gridCell grid (getGridCell grid (pos element)) ++ [element])
  else grid

/-- Removes the specified element from the spatial grid (`removeAll` on the
list of its cell). -/
def removeGridElement (pos : E → Vector2f F) (eq : E → E → Bool) (grid : Matrix (List E))
    (element : E) : Matrix (List E) :=
  grid.set (getGridCell grid (pos element)).1.toNat (getGridCell grid (pos element)).2.toNat
    ((gridCell grid (getGridCell grid (pos element))).filter (fun x => !eq x element))

/-- The integers from `lo` to `hi`, in ascending order. -/
def intRange (lo hi : Int) : List Int :=
  (List.range (hi - lo + 1).toNat).map (fun i => lo + (i : Int))

/-- Comparator for distances from the reference point. -/
def CloserToPosition (lib : Libm F) (pos : E → Vector2f F) (m_pos : Vector2f F)
    (left right : E) : Bool :=
  decide (Vector2f.norm lib (Vector2f.sub (pos left) m_pos) <
    Vector2f.norm lib (Vector2f.sub (pos right) m_pos))

/-- Whether an element of a visited cell falls in the search area. -/
def inSweep (lib : Libm F) (pos : E → Vector2f F) (atPosition sweepDirection : Vector2f F)
    (sweepAngle : F) (element : E) : Bool :=
  if Vector2f.norm lib (Vector2f.sub (pos element) atPosition) ≤
      Vector2f.norm lib sweepDirection then
    if math.zero (Vector2f.norm lib (Vector2f.sub (pos element) atPosition)) = 0 then true
    else decide (lib.acosf (Vector2f.dot
      (Vector2f.div (Vector2f.sub (pos element) atPosition)
        (Vector2f.norm lib (Vector2f.sub (pos element) atPosition)))
      (Vector2f.div sweepDirection (Vector2f.norm lib sweepDirection))) ≤ sweepAngle)
  else false

/-- Finds elements that fall in the search area, nearest first. -/
def findGridElement (lib : Libm F) (qt : QtSort) (pos : E → Vector2f F)
    (grid : Matrix (List E)) (atPosition sweepDirection : Vector2f F) (sweepAngle : F) :
    List E :=
  qt.qSort (CloserToPosition lib pos atPosition)
    ((intRange (-⌈Vector2f.norm lib sweepDirection * (grid.m_rows : F)⌉)
        ⌈Vector2f.norm lib sweepDirection * (grid.m_rows : F)⌉).flatMap (fun dr =>
      if (getGridCell grid atPosition).1 + dr < 0 ∨
          (getGridCell grid atPosition).1 + dr ≥ (grid.m_rows : Int) then []
      else
        (intRange (-⌈Vector2f.norm lib sweepDirection * (grid.m_cols : F)⌉)
            ⌈Vector2f.norm lib sweepDirection * (grid.m_cols : F)⌉).flatMap (fun dc =>
          if (getGridCell grid atPosition).2 + dc < 0 ∨
              (getGridCell grid atPosition).2 + dc ≥ (grid.m_cols : Int) then []
          else
            (gridCell grid ((getGridCell grid atPosition).1 + dr,
                (getGridCell grid atPosition).2 + dc)).filter
              (inSweep lib pos atPosition sweepDirection sweepAngle))))

end Grid

/-- Type of road-network a tracer can be tracing. -/
inductive RoadType where
  | RoadTypeMajor
  | RoadTypeLocal
deriving DecidableEq

/-- State of a `Tracer`.  The population map image is the function that gives
the value (`valueF`) of the pixel under a position, `none` for a null image.
`m_created` counts the `Edge` objects created so far and is the address of
the next one. -/
structure Tracer (F : Type) where
  m_roadType : RoadType
  m_populationMapImage : Option (Vector2f F → F)
  m_vertices : Matrix (List (Point F))
  m_samplePoints : Matrix (List (SamplePoint F))
  m_edges : List (Edge F)
  m_distSep : F
  m_koefTest : F
  m_koefSegment : F
  m_koefLookahead : F
  m_koefConnect : F
  m_distSample : F
  m_created : Nat

/-- Number of cells in the vertex grid. -/
def VERTEX_GRID_DIM : Nat := 20

/-- Number of cells in the sample-point grid. -/
def SAMPLEPOINT_GRID_DIM : Nat := 20

namespace Tracer

variable {F : Type} [LinearOrderedField F] [FloorRing F]

/-- Constructs the object; the six numbers are the values that
`loadParameters` reads from the global parameter map. -/
def new (type : RoadType) (distSep koefTest koefSegment koefLookahead koefConnect
    distSample : F) : Tracer F :=
  { m_roadType := type
    m_populationMapImage := none
    m_vertices := Matrix.fill VERTEX_GRID_DIM VERTEX_GRID_DIM []
    m_samplePoints := Matrix.fill SAMPLEPOINT_GRID_DIM SAMPLEPOINT_GRID_DIM []
    m_edges := []
    m_distSep := distSep
    m_koefTest := koefTest
    m_koefSegment := koefSegment
    m_koefLookahead := koefLookahead
    m_koefConnect := koefConnect
    m_distSample := distSample
    m_created := 0 }

/-- The tracer constructed when the parameter map holds no value: the
defaults of `loadParameters`. -/
def newDefault (type : RoadType) : Tracer F :=
  new type (if type = RoadType.RoadTypeMajor then 6 / 100 else 15 / 1000)
    (6 / 10) (15 / 10) (5 / 10) (15 / 100) (2 / 1000)

/-- The distance separating individual vertices. -/
def distSep (t : Tracer F) : F := t.m_distSep

/-- The distance separating individual vertices, at a point. -/
def distSepAt (t : Tracer F) (p : Point F) : F :=
  match t.m_populationMapImage with
  | none => distSep t
  | some valueF => distSep t * (15 / 10 - valueF p.pos)

/-- The distance separating two trace lines. -/
def distTest (t : Tracer F) (p : Point F) : F := distSepAt t p * t.m_koefTest

/-- The minimum length of a road segment. -/
def distSegment (t : Tracer F) (p : Point F) : F := distSepAt t p * t.m_koefSegment

/-- The extra distance to try traversing while looking for a way to complete
a road segment. -/
def distLookahead (t : Tracer F) (p : Point F) : F := distSegment t p * t.m_koefLookahead

/-- The distance between two consecutive sample-points. -/
def distSample (t : Tracer F) : F := t.m_distSample

/-- The maximum distance between two vertices that can be joined. -/
def distConnect (t : Tracer F) : F := distSep t * t.m_koefConnect

/-- The maximum distance between two trace lines. -/
def distTouch (lib : Libm F) (t : Tracer F) : F :=
  2 * math.sqrt lib (math.pow2 (distSample t / 2) + math.pow2 (distSample t))

/-- Type of road edge this tracer is laying. -/
def edgeType (t : Tracer F) : Edge.Types :=
  if t.m_roadType = RoadType.RoadTypeMajor then Edge.Types.TypeMajorRoad
  else Edge.Types.TypeMinorRoad

/-- All edges contained. -/
def edges (t : Tracer F) : List (Edge F) := t.m_edges

/-- The number of edges contained. -/
def edgesCount (t : Tracer F) : Nat := t.m_edges.length

/-- Whether the tracer is the parent object of the edge: `addEdge` makes it
the parent when it appends the edge to the edge list, `removeEdge` clears the
parent when it removes the edge from the list. -/
def isParentOf (t : Tracer F) (edge : Edge F) : Bool :=
  t.m_edges.any (fun e => decide (e.id = edge.id))

/-- Adds the specified vertex to the spatial grid. -/
def addVertex (t : Tracer F) (v : Point F) : Tracer F :=
  { t with m_vertices :=
      addGridElement Point2f.pos (fun a b => decide (a = b)) t.m_vertices v }

/-- Removes the specified vertex from the spatial grid. -/
def removeVertex (t : Tracer F) (v : Point F) : Tracer F :=
  { t with m_vertices :=
      removeGridElement Point2f.pos (fun a b => decide (a = b)) t.m_vertices v }

/-- Adds the specified sample-point to the spatial grid. -/
def addSamplePoint (t : Tracer F) (sp : SamplePoint F) : Tracer F :=
  { t with m_samplePoints :=
      addGridElement (fun s => s.point.pos) SamplePoint.eq t.m_samplePoints sp }

/-- Removes the specified sample-point from the spatial grid. -/
def removeSamplePoint (t : Tracer F) (sp : SamplePoint F) : Tracer F :=
  { t with m_samplePoints :=
      removeGridElement (fun s => s.point.pos) SamplePoint.eq t.m_samplePoints sp }

/-- Tests whether an edge exists incident to the specified vertex. -/
def containsEdge (t : Tracer F) (v : Point F) : Bool :=
  t.m_edges.any (fun edge => decide (edge.m_v1 = v) || decide (edge.m_v2 = v))

/-- Tests whether an edge exists between the two specified vertices. -/
def containsEdge2 (t : Tracer F) (v1 v2 : Point F) : Bool :=
  t.m_edges.any (fun edge =>
    (decide (edge.m_v1 = v1) && decide (edge.m_v2 = v2)) ||
    (decide (edge.m_v1 = v2) && decide (edge.m_v2 = v1)))

/-- Locates edges that are incident to the specified vertex. -/
def findEdge (t : Tracer F) (v : Point F) : List (Edge F) :=
  t.m_edges.filter (fun edge => decide (edge.m_v1 = v) || decide (edge.m_v2 = v))

/-- Locates edges that connect the specified two vertices. -/
def findEdge2 (t : Tracer F) (v1 v2 : Point F) (ignoreOrder : Bool) : List (Edge F) :=
  t.m_edges.filter (fun edge =>
    (decide (edge.m_v1 = v1) && decide (edge.m_v2 = v2)) ||
    (ignoreOrder && decide (edge.m_v1 = v2) && decide (edge.m_v2 = v1)))

/-- Adds the specified edge. -/
def addEdge (t : Tracer F) (edge : Edge F) : Tracer F :=
  if t.m_edges.countP (fun e => decide (e.id = edge.id)) = 0 then
    let t1 := edge.m_trace.foldl (fun s p => addSamplePoint s ⟨p, some edge.id⟩) t
    let t2 := addVertex (addVertex t1 edge.m_v1) edge.m_v2
    { t2 with m_edges := t2.m_edges ++ [edge] }
  else t

/-- Removes the specified edge from the edge list. -/
def removeEdge (t : Tracer F) (edge : Edge F) : Tracer F :=
  if t.m_edges.countP (fun e => decide (e.id = edge.id)) > 0 then
    let t1 := { t with m_edges := t.m_edges.eraseP (fun e => decide (e.id = edge.id)) }
    let t2 := edge.m_trace.foldl (fun s p => removeSamplePoint s ⟨p, some edge.id⟩) t1
    let t3 := if containsEdge t2 edge.m_v1 then t2 else removeVertex t2 edge.m_v1
    if containsEdge t3 edge.m_v2 then t3 else removeVertex t3 edge.m_v2
  else t

/-- Finds vertices in the sweep area, nearest first. -/
def findVertexSweep (lib : Libm F) (qt : QtSort) (t : Tracer F)
    (atPosition sweepDirection : Vector2f F) (sweepAngle : F) : List (Point F) :=
  findGridElement lib qt Point2f.pos t.m_vertices atPosition sweepDirection sweepAngle

/-- Finds vertices within the radius, nearest first. -/
def findVertex (lib : Libm F) (qt : QtSort) (t : Tracer F) (atPosition : Vector2f F)
    (radius : F) : List (Point F) :=
  findVertexSweep lib qt t atPosition ⟨radius, 0⟩ lib.M_PI

/-- Finds sample-points in the sweep area, nearest first. -/
def findSamplePointSweep (lib : Libm F) (qt : QtSort) (t : Tracer F)
    (atPosition sweepDirection : Vector2f F) (sweepAngle : F) : List (SamplePoint F) :=
  findGridElement lib qt (fun s => s.point.pos) t.m_samplePoints atPosition sweepDirection
    sweepAngle

/-- Tests whether a vertex exists at the specified position. -/
def containsVertex (lib : Libm F) (qt : QtSort) (t : Tracer F) (v : Point F) : Bool :=
  (findVertex lib qt t v.pos 0).contains v

end Tracer

end core

namespace core

namespace Tracer

variable {F : Type} [LinearOrderedField F] [FloorRing F]

/-- The edge object at an address, among the edges of the tracer. -/
def edgeAt (t : Tracer F) (id : Nat) : Option (Edge F) :=
  t.m_edges.find? (fun e => decide (e.id = id))

/-- The loop of `completeEdge` that counts the sample-points up to the one
closest to the existing vertex; `lastDist` is `none` for `INFINITY`. -/
def closestCount (lib : Libm F) (existingVertex : Point F) :
    List (Point F) → Option F → Nat
  | [], _ => 0
  | it :: rest, lastDist =>
    if (match lastDist with
        | none => false
        | some l => decide (Vector2f.norm lib (Vector2f.sub existingVertex.pos it.pos) > l)) then 0
    else
      closestCount lib existingVertex rest
        (some (Vector2f.norm lib (Vector2f.sub existingVertex.pos it.pos))) + 1

/-- Completes an edge that comes close to an existing vertex; returns the list
of created and removed edges, and the new state. -/
def completeEdgeVertex (lib : Libm F) (t : Tracer F) (startVertex : Point F)
    (trace : List (Point F)) (existingVertex : Point F) : List (Edge F) × Tracer F :=
  if containsEdge2 t startVertex existingVertex then ([], t)
  else if closestCount lib existingVertex trace none = 0 then ([], t)
  else
    ([⟨t.m_created, startVertex, existingVertex,
        trace.take (closestCount lib existingVertex trace none), edgeType t⟩],
      addEdge { t with m_created := t.m_created + 1 }
        ⟨t.m_created, startVertex, existingVertex,
          trace.take (closestCount lib existingVertex trace none), edgeType t⟩)

/-- Splits an edge at the specified split point; returns the two new edges
and the old one, and the new state.  `none` stands for the failed assertion
when the split point is not on the trace of the edge. -/
def splitEdge (t : Tracer F) (existingEdge : Edge F) (splitPoint : SamplePoint F) :
    Option (List (Edge F) × Tracer F) :=
  if existingEdge.m_trace.indexOf splitPoint.point < existingEdge.m_trace.length then
    if (existingEdge.m_trace.take (existingEdge.m_trace.indexOf splitPoint.point)).isEmpty ||
        (existingEdge.m_trace.drop
          (existingEdge.m_trace.indexOf splitPoint.point + 1)).isEmpty then
      some ([], t)
    else
      some
        ([⟨t.m_created, existingEdge.m_v1, Point2f.ofVector splitPoint.point.pos,
            existingEdge.m_trace.take (existingEdge.m_trace.indexOf splitPoint.point),
            existingEdge.m_type⟩,
          ⟨t.m_created + 1, Point2f.ofVector splitPoint.point.pos, existingEdge.m_v2,
            existingEdge.m_trace.drop (existingEdge.m_trace.indexOf splitPoint.point + 1),
            existingEdge.m_type⟩,
          existingEdge],
        addEdge
          (addEdge (removeEdge { t with m_created := t.m_created + 2 } existingEdge)
            ⟨t.m_created, existingEdge.m_v1, Point2f.ofVector splitPoint.point.pos,
              existingEdge.m_trace.take (existingEdge.m_trace.indexOf splitPoint.point),
              existingEdge.m_type⟩)
          ⟨t.m_created + 1, Point2f.ofVector splitPoint.point.pos, existingEdge.m_v2,
            existingEdge.m_trace.drop (existingEdge.m_trace.indexOf splitPoint.point + 1),
            existingEdge.m_type⟩)
  else none

/-- Completes an edge that touches an existing trace line.  `none` stands for
the dereference of a pointer to no edge of the tracer, and for the failed
assertion of `splitEdge`. -/
def completeEdgeTouch (lib : Libm F) (qt : QtSort) (t : Tracer F) (startVertex : Point F)
    (trace : List (Point F)) (existingSamplePoint touchingSamplePoint : SamplePoint F) :
    Option (List (Edge F) × Tracer F) :=
  if Vector2f.norm lib
      (Vector2f.sub touchingSamplePoint.point.pos existingSamplePoint.point.pos) >
      distTouch lib t then some ([], t)
  else
    match existingSamplePoint.m_edge.bind (edgeAt t) with
    | none => none
    | some existingEdge =>
      if |lib.acosf (Vector2f.dot
            (Vector2f.normalized lib (Vector2f.sub existingEdge.m_v1.pos existingEdge.m_v2.pos))
            (Vector2f.normalized lib
              (Vector2f.sub touchingSamplePoint.point.pos startVertex.pos)))| < lib.M_PI / 4 ∨
          |lib.acosf (Vector2f.dot
            (Vector2f.neg (Vector2f.normalized lib
              (Vector2f.sub existingEdge.m_v1.pos existingEdge.m_v2.pos)))
            (Vector2f.normalized lib
              (Vector2f.sub touchingSamplePoint.point.pos startVertex.pos)))| < lib.M_PI / 4
      then some ([], t)
      else if !(findVertex lib qt t existingSamplePoint.point.pos
          (5 / 10 * distTest t existingSamplePoint.point)).isEmpty then some ([], t)
      else if (trace.take (trace.indexOf touchingSamplePoint.point)).isEmpty then some ([], t)
      else
        match splitEdge t existingEdge existingSamplePoint with
        | none => none
        | some (split, t1) =>
          if split.isEmpty then some ([], t1)
          else
            some (split ++
                [⟨t1.m_created, startVertex, Point2f.ofVector existingSamplePoint.point.pos,
                  trace.take (trace.indexOf touchingSamplePoint.point), edgeType t1⟩],
              addEdge { t1 with m_created := t1.m_created + 1 }
                ⟨t1.m_created, startVertex, Point2f.ofVector existingSamplePoint.point.pos,
                  trace.take (trace.indexOf touchingSamplePoint.point), edgeType t1⟩)

/-- The loop of `simplify` over the vertices: the lists `added` and `removed`
and the new state.  `none` stands for the failed assertion on the result of
`Edge::join`. -/
def simplifyLoop : List (Point F) → Tracer F → List (Edge F) →
    Option (List (Edge F) × List (Edge F) × Tracer F)
  | [], t, removed => some ([], removed, t)
  | v :: rest, t, removed =>
    match findEdge t v with
    | [edge] =>
      if edge.isRoad then simplifyLoop rest (removeEdge t edge) (removed ++ [edge])
      else simplifyLoop rest t removed
    | [e0, e1] =>
      match Edge.join t.m_created e0 e1 with
      | none => none
      | some newEdge =>
        if !containsEdge2 t newEdge.m_v1 newEdge.m_v2 then
          some ([newEdge], removed ++ [e0, e1],
            addEdge (removeEdge (removeEdge { t with m_created := t.m_created + 1 } e0) e1)
              newEdge)
        else simplifyLoop rest { t with m_created := t.m_created + 1 } removed
    | _ => simplifyLoop rest t removed

/-- Simplifies the road network; returns the list of created and removed
edges, and the new state. -/
def simplify (t : Tracer F) (verts : List (Point F)) : Option (List (Edge F) × Tracer F) :=
  match simplifyLoop verts t [] with
  | none => none
  | some (added, removed, t1) => some (added ++ removed, t1)

end Tracer

end core

/-! ### Region (core/region.h, core/region.cpp) -/

namespace core

/-- State of a `Region`: its tracer, seeder and grapher (the objects that the
accessors create on first use) and the two flags. -/
structure Region (F : Type) where
  m_traceMajorNetwork : Bool
  m_tracer : Tracer F
  m_seeder : Seeder (Point F) F
  m_grapher : Grapher (Point F)
  m_lastTraceMajor : Bool

namespace Region

variable {F : Type} [LinearOrderedField F] [FloorRing F] [LinearOrder (Point F)]

/-- A region just constructed, with the tracer that `createTracer` makes. -/
def new (tracer : Tracer F) : Region F := ⟨true, tracer, Seeder.new, Grapher.new, false⟩

/-- The loop of `traceLineSegment` and `simplifyGraph` over the edges that the
tracer returned: an edge that has a parent is connected in the grapher, one
that has none is disconnected (and deleted). -/
def applyEdges (t : Tracer F) (edges : List (Edge F)) (g : Grapher (Point F)) :
    Grapher (Point F) :=
  edges.foldl (fun g edge =>
    if Tracer.isParentOf t edge then Grapher.connect g edge.m_v1 edge.m_v2
    else Grapher.disconnect g edge.m_v1 edge.m_v2) g

/-- One pass through the body of the loop of `simplifyGraph`: the edges
returned by the tracer and the new state. -/
def simplifyPass (r : Region F) : Option (List (Edge F) × Region F) :=
  match Tracer.simplify r.m_tracer (Grapher.bridges r.m_grapher ++ Grapher.dongles r.m_grapher) with
  | none => none
  | some (edges, t) =>
    some (edges, { r with m_tracer := t, m_grapher := applyEdges t edges r.m_grapher })

/-- Simplifies the road network: the passes are repeated until one returns no
edge.  `fuel` bounds the number of passes; `none` means that it was exceeded,
or stands for the `none` of `Tracer.simplify`. -/
def simplifyGraph : Nat → Region F → Option (Region F)
  | 0, _ => none
  | fuel + 1, r =>
    match simplifyPass r with
    | none => none
    | some (edges, r1) => if edges.isEmpty then some r1 else simplifyGraph fuel r1

end Region

end core

/-! ### The order of points (core/grapher.cpp) -/

namespace core

section PointOrder

variable {F : Type} [LinearOrderedField F]

/-- Comparison operator for points (`operator<` of core/grapher.cpp), which
specifies the total order of points needed by `QMap`: by the first coordinate,
then by the second one.  Both coordinates of the point at infinity are
`INFINITY`, so it is greater than every finite point and not less than
itself. -/
def Point.lessThan (left right : Point F) : Bool :=
  match left.m_pos, right.m_pos with
  | some l, some r =>
    if l.m_val0 ≠ r.m_val0 then decide (l.m_val0 < r.m_val0) else decide (l.m_val1 < r.m_val1)
  | some _, none => true
  | none, _ => false

/-- The pair of coordinates by which a point is ordered; the point at
infinity, whose coordinates are `INFINITY`, comes after every finite point. -/
def Point.key (p : Point F) : WithTop (Lex (F × F)) :=
  match p.m_pos with
  | none => ⊤
  | some v => ((toLex (v.m_val0, v.m_val1) : Lex (F × F)) : WithTop (Lex (F × F)))

/-- The order of the keys of the `QMap` of a Grapher: that of `operator<`. -/
instance Point.linearOrder : LinearOrder (Point F) :=
  { PartialOrder.lift (Point.key : Point F → WithTop (Lex (F × F)))
      (by
        intro a b h
        rcases a with ⟨_ | ⟨a0, a1⟩⟩ <;> rcases b with ⟨_ | ⟨b0, b1⟩⟩
        · rfl
        · exact absurd h.symm (WithTop.coe_ne_top)
        · exact absurd h (WithTop.coe_ne_top)
        · have h2 := WithTop.coe_injective h
          have h3 : (a0, a1) = (b0, b1) := h2
          rw [Prod.mk.injEq] at h3
          rw [h3.1, h3.2]) with
    le_total := fun a b => le_total (Point.key a) (Point.key b)
    decidableLE := fun a b => inferInstanceAs (Decidable (Point.key a ≤ Point.key b))
    decidableLT := fun a b => inferInstanceAs (Decidable (Point.key a < Point.key b))
    decidableEq := inferInstance }

end PointOrder

end core

/-! ### Polygon (math/polygon.h, math/polygon.cpp) -/

namespace math

/-- A 2D polygon: the vertex points, the calculated area and the calculated
centroid (the related `QPolygonF` is left out). -/
structure Polygon (F : Type) where
  m_points : List (Point2f F)
  m_area : F
  m_centroid : Point2f F

namespace Polygon

variable {F : Type} [LinearOrderedField F]

/-- The value of `area` after the first loop of `calcAreaAndCentroid` and the
division by two, in exact arithmetic (`signedAreaRounded` has the rounding of
the source). -/
def signedArea (points : List (Point2f F)) : F :=
  (List.range points.length).foldl (fun area i =>
    area + (points.getD i Point2f.infinity).pos.m_val0 *
        (points.getD ((i + 1) % points.length) Point2f.infinity).pos.m_val1 -
      (points.getD ((i + 1) % points.length) Point2f.infinity).pos.m_val0 *
        (points.getD i Point2f.infinity).pos.m_val1) 0 / 2

/-- The value of `centroid` after the second loop of `calcAreaAndCentroid`. -/
def centroidSum (points : List (Point2f F)) : Vector2f F :=
  (List.range points.length).foldl (fun centroid i =>
    Vector2f.add centroid
      (Vector2f.mul
        (Vector2f.add (points.getD i Point2f.infinity).pos
          (points.getD ((i + 1) % points.length) Point2f.infinity).pos)
        ((points.getD i Point2f.infinity).pos.m_val0 *
            (points.getD ((i + 1) % points.length) Point2f.infinity).pos.m_val1 -
          (points.getD ((i + 1) % points.length) Point2f.infinity).pos.m_val0 *
            (points.getD i Point2f.infinity).pos.m_val1))) Vector2f.null

/-- Constructs a polygon from the specified points: a negative area signals
that the points are specified clockwise, and their order is then reversed.
The centroid of a polygon of area zero, the result of a division by zero in
the source, is given as the point at infinity. -/
def ofPoints (points : List (Point2f F)) : Polygon F :=
  if signedArea points < 0 then
    ⟨points.reverse, -signedArea points,
      Point2f.ofVector (Vector2f.div (centroidSum points.reverse) (6 * -signedArea points))⟩
  else
    ⟨points, signedArea points,
      if 6 * signedArea points = 0 then Point2f.infinity
      else Point2f.ofVector (Vector2f.div (centroidSum points) (6 * signedArea points))⟩

/-- The area enclosed inside the polygon. -/
def area (p : Polygon F) : F := p.m_area

end Polygon

end math

/-! ### Cycles of the Grapher (core/grapher.cpp) -/

namespace Grapher

variable {F : Type} [LinearOrderedField F]

end Grapher

/-! ### Tracing of the boundaries (core/tracer_tracing.cpp) -/

namespace core

namespace Tracer

variable {F : Type} [LinearOrderedField F] [FloorRing F]

end Tracer

end core

/-! ### Model (app/model.h, app/model.cpp) -/

/-- State of a `Model` that `traceInit` uses: the city, which is a region,
the seed markers and the boundary image.  The image is given by the boundary
segments that `border::findRegions` finds in it, in field coordinates; the
null image of a model just constructed has none. -/
structure Model (F : Type) extends core.Region F where
  m_boundaryImage : List (List (core.Point F))
  m_seedMarkers : List (core.Point F)

namespace Model

variable {F : Type} [LinearOrderedField F] [FloorRing F]

/-- A model just constructed; its tracer is the one that `createTracer` makes
when no parameter has been set. -/
def new : Model F :=
  ⟨core.Region.new (core.Tracer.newDefault core.RoadType.RoadTypeMajor), [], []⟩

end Model

/-! ### Vocabulary of the statements about the tracer -/

namespace core

/-- A grid of `n` by `n` cells in which every stored element satisfies `P`. -/
def GridInv {E : Type} (n : Nat) (grid : Matrix (List E)) (P : E → Prop) : Prop :=
  grid.Square n ∧ grid.m_rows = n ∧ grid.m_cols = n ∧ ∀ r c, ∀ e ∈ grid.get [] r c, P e

/-- The vertex grid after the two end points of an edge are added. -/
def addEdgeVertices {F : Type} [LinearOrderedField F] [FloorRing F]
    (grid : Matrix (List (Point F))) (edge : Edge F) : Matrix (List (Point F)) :=
  addGridElement Point2f.pos (fun a b => decide (a = b))
    (addGridElement Point2f.pos (fun a b => decide (a = b)) grid edge.m_v1) edge.m_v2

end core

namespace core

/-- Every element stored in the grid is stored in the cell of its position. -/
def GridPlaced {F : Type} [LinearOrderedField F] [FloorRing F] {E : Type}
    (pos : E → Vector2f F) (grid : Matrix (List E)) : Prop :=
  ∀ r c, ∀ e ∈ grid.get [] r c,
    (getGridCell grid (pos e)).1.toNat = r ∧ (getGridCell grid (pos e)).2.toNat = c

namespace Tracer

variable {F : Type} [LinearOrderedField F] [FloorRing F]

/-- States of a tracer reachable from a new one through `addEdge` and
`removeEdge`.  The end points of an edge that is added are finite points, and
the edge handed to `removeEdge` is an edge object: when the tracer holds an
edge at its address, it is that edge. -/
inductive Reachable : Tracer F → Prop
  | new (type : RoadType) (distSep koefTest koefSegment koefLookahead koefConnect
      distSample : F) :
      Reachable (Tracer.new type distSep koefTest koefSegment koefLookahead koefConnect
        distSample)
  | addEdge (t : Tracer F) (edge : Edge F) :
      Reachable t → edge.m_v1.finite = true → edge.m_v2.finite = true →
      Reachable (Tracer.addEdge t edge)
  | removeEdge (t : Tracer F) (edge : Edge F) :
      Reachable t → (∀ x ∈ t.m_edges, x.id = edge.id → x = edge) →
      Reachable (Tracer.removeEdge t edge)

end Tracer

end core

namespace core

namespace Tracer

/-- An edge from (0, 0) to (1, 0) with three trace points, the input of the
worked examples of `splitEdge`. -/
def exampleEdge : Edge ℚ :=
  ⟨0, Point2f.ofCoords 0 0, Point2f.ofCoords 1 0,
    [Point2f.ofCoords (1 / 4) 0, Point2f.ofCoords (1 / 2) 0, Point2f.ofCoords (3 / 4) 0],
    Edge.Types.TypeMajorRoad⟩

/-- A tracer with the default parameters that holds `exampleEdge` and nothing
else. -/
def exampleTracer : Tracer ℚ :=
  addEdge { newDefault RoadType.RoadTypeMajor with m_created := 1 } exampleEdge

end Tracer

end core

namespace core

namespace Region

/-- Six road edges between five vertices: (1/2, 1), (1/2, 1/2) and (1/2, 0)
are each joined to (0, 1/2) by an edge that starts at them and to (1, 1/2) by
an edge that ends at them.  The input of the worked example of
`simplifyGraph`. -/
def chainEdges : List (Edge ℚ) :=
  [⟨0, Point2f.ofCoords (1 / 2) 1, Point2f.ofCoords 0 (1 / 2), [], Edge.Types.TypeMajorRoad⟩,
   ⟨1, Point2f.ofCoords 1 (1 / 2), Point2f.ofCoords (1 / 2) 1, [], Edge.Types.TypeMajorRoad⟩,
   ⟨2, Point2f.ofCoords (1 / 2) (1 / 2), Point2f.ofCoords 0 (1 / 2), [],
     Edge.Types.TypeMajorRoad⟩,
   ⟨3, Point2f.ofCoords 1 (1 / 2), Point2f.ofCoords (1 / 2) (1 / 2), [],
     Edge.Types.TypeMajorRoad⟩,
   ⟨4, Point2f.ofCoords (1 / 2) 0, Point2f.ofCoords 0 (1 / 2), [], Edge.Types.TypeMajorRoad⟩,
   ⟨5, Point2f.ofCoords 1 (1 / 2), Point2f.ofCoords (1 / 2) 0, [], Edge.Types.TypeMajorRoad⟩]

/-- A tracer with the default parameters to which the edges of `chainEdges`
were added in turn. -/
def chainTracer : Tracer ℚ :=
  chainEdges.foldl Tracer.addEdge { Tracer.newDefault RoadType.RoadTypeMajor with m_created := 6 }

/-- A region with the tracer `chainTracer`, in whose grapher every edge of the
tracer was connected. -/
def chainRegion : Region ℚ :=
  ⟨true, chainTracer, Seeder.new, applyEdges chainTracer chainTracer.m_edges Grapher.new, false⟩

end Region

end core

/-- The sort puts its argument in order, for a comparison function that is a
strict weak ordering: no element of the result is less than an element that
comes before it. -/
def QtSort.Sorts (qt : QtSort) : Prop :=
  ∀ (α : Type) (lessThan : α → α → Bool),
    (∀ a, lessThan a a = false) →
    (∀ a b c, lessThan a b = true → lessThan b c = true → lessThan a c = true) →
    (∀ a b c, lessThan a b = false → lessThan b c = false → lessThan a c = false) →
    ∀ l : List α, (qt.qSort lessThan l).Pairwise (fun a b => lessThan b a = false)

/-! ### MapImage (core/mapimage.h, core/mapimage.cpp) -/

/-- A point in the plane with `qreal` coordinates (`QPointF`). -/
structure QPointF (F : Type) where
  x : F
  y : F

namespace core

/-- An image to be used as map: of the `QImage` that it is, the width and the
height in pixels. -/
structure MapImage where
  width : Int
  height : Int

namespace MapImage

variable {F : Type} [LinearOrderedField F]

/-- Converts field coordinates to image coordinates, in exact arithmetic
(`toImageCoordsRounded` has the rounding of the source). -/
def toImageCoords (img : MapImage) (fieldCoords : Vector2f F) : QPointF F :=
  ⟨max 0 (min fieldCoords.m_val0 1) * ((img.width - 1 : Int) : F),
    ((img.height - 1 : Int) : F) -
      max 0 (min fieldCoords.m_val1 1) * ((img.height - 1 : Int) : F)⟩

/-- Converts image coordinates to field coordinates, in exact arithmetic
(`toFieldCoordsRounded` has the rounding of the source). -/
def toFieldCoords (img : MapImage) (imageCoords : QPointF F) : Vector2f F :=
  ⟨imageCoords.x / ((img.width - 1 : Int) : F),
    (((img.height - 1 : Int) : F) - imageCoords.y) / ((img.height - 1 : Int) : F)⟩

end MapImage

end core

/-! ### Boundary checks and the packed bit matrix (base/bitmatrix.h,
base/bitmatrix.cpp, base/matrix.h, math/graph.cpp)

The definitions of this section keep what the earlier sections leave out: the
exception that an access outside a matrix throws, the packing of the elements
of a `base::BitMatrix` into blocks of 32 bits, and `int` and `unsigned int`
values that wrap at 32 bits.  The boundary checks are those that the sources
compile unless `OMIT_BOUNDARY_CHECKS` is defined. -/

/-- The exceptions of the C++ library that the sources throw. -/
inductive Exception where
  | out_of_range
  | runtime_error
deriving DecidableEq

/-- The `int` that an integer is converted to: the value modulo 2^32 between
-2^31 and 2^31 - 1. -/
def toInt32 (x : Int) : Int := (x + 2147483648) % 4294967296 - 2147483648

/-- The boundary checks of `Matrix::operator()`: the position of the element
referred to, or the exception thrown. -/
def Matrix.elementAccess {α : Type} (m : Matrix α) (row col : Int) :
    Except Exception (Nat × Nat) :=
  if row < 0 ∨ row ≥ (m.m_rows : Int) then Except.error Exception.out_of_range
  else if col < 0 ∨ col ≥ (m.m_cols : Int) then Except.error Exception.out_of_range
  else Except.ok (row.toNat, col.toNat)

namespace base

/-- A boolean-valued matrix, with bit-wise storage: the array of blocks, an
`unsigned int` each, and the numbers of rows and columns. -/
structure BitMatrix where
  m_array : List Nat
  m_rows : Int
  m_cols : Int

namespace BitMatrix

/-- The number of bits of a block. -/
def bitsPerBlock : Int := 32

/-- The number of rows in this matrix. -/
def rows (m : BitMatrix) : Int := m.m_rows

/-- The number of columns in this matrix. -/
def cols (m : BitMatrix) : Int := m.m_cols

/-- The number of blocks needed for storage. -/
def numBlocks (m : BitMatrix) : Int :=
  toInt32 (Int.tdiv (toInt32 (m.m_rows * m.m_cols)) bitsPerBlock + 1)

/-- The matrix with the specified numbers of rows and columns whose elements
are all assigned the specified value (the constructor followed by `fill`). -/
def new (rows cols : Int) (fillValue : Bool) : BitMatrix :=
  ⟨List.replicate (toInt32 (Int.tdiv (toInt32 (rows * cols)) bitsPerBlock + 1)).toNat
      (if fillValue then 4294967295 else 0),
    rows, cols⟩

/-- Sets all elements to the specified value. -/
def fill (m : BitMatrix) (value : Bool) : BitMatrix :=
  { m with
    m_array := List.replicate (numBlocks m).toNat (if value then 4294967295 else 0) }

/-- The index of the block and the shift needed for accessing the specified
bit, or the exception thrown.  Index and shift are natural numbers: they are
not negative for a position that passes the checks, unless the `int`
arithmetic wraps. -/
def getBlock (m : BitMatrix) (row col : Int) : Except Exception (Nat × Nat) :=
  if row < 0 ∨ row ≥ rows m then Except.error Exception.out_of_range
  else if col < 0 ∨ col ≥ cols m then Except.error Exception.out_of_range
  else
    Except.ok
      ((Int.tdiv (toInt32 (toInt32 (row * cols m) + col)) bitsPerBlock).toNat,
        (Int.tmod (toInt32 (toInt32 (row * cols m) + col)) bitsPerBlock).toNat)

/-- The mask `0x1 << shift`, a block. -/
def mask (shift : Nat) : Nat := (1 <<< shift) % 4294967296

/-- Sets the value of the specified element: the matrix afterwards, or the
exception thrown.  `~mask` is the complement of the mask in 32 bits. -/
def set (m : BitMatrix) (row col : Int) (value : Bool) : Except Exception BitMatrix :=
  match getBlock m row col with
  | Except.error e => Except.error e
  | Except.ok (blockIndex, shift) =>
    Except.ok
      { m with
        m_array :=
          m.m_array.set blockIndex
            (if value then m.m_array.getD blockIndex 0 ||| mask shift
             else m.m_array.getD blockIndex 0 &&& (4294967295 ^^^ mask shift)) }

/-- Returns the value of the specified element, or the exception thrown. -/
def get (m : BitMatrix) (row col : Int) : Except Exception Bool :=
  match getBlock m row col with
  | Except.error e => Except.error e
  | Except.ok (blockIndex, shift) =>
    Except.ok (decide (m.m_array.getD blockIndex 0 &&& mask shift ≠ 0))

/-- The storage is as the constructor allocates it for a number of elements
that is an `int`: the numbers of rows and columns are not negative, their
product is below 2^31, and the array has `numBlocks()` blocks. -/
def WellFormed (m : BitMatrix) : Prop :=
  0 ≤ m.m_rows ∧ 0 ≤ m.m_cols ∧ m.m_rows * m.m_cols < 2147483648 ∧
    (m.m_array.length : Int) = m.m_rows * m.m_cols / 32 + 1

end BitMatrix

end base

namespace math

/-- An undirected graph with its adjacency matrix in bit-wise storage. -/
structure Graph where
  m_matrix : base.BitMatrix

namespace Graph

/-- The null vertex. -/
def NullVertex : Nat := 0

/-- The matrix index for the specified vertex, an `unsigned int`: `v - 1`
computed modulo 2^32 and converted to `int`. -/
def IDX (v : Nat) : Int := toInt32 (((v : Int) - 1) % 4294967296)

/-- The disconnected graph with `n` vertices. -/
def new (n : Int) : Graph := ⟨base.BitMatrix.new n n false⟩

/-- The number of vertices in the graph, an `unsigned int`. -/
def numVertices (g : Graph) : Nat := (g.m_matrix.rows % 4294967296).toNat

/-- The statement `m_matrix(IDX(v1), IDX(v2)) = m_matrix(IDX(v2), IDX(v1)) =
value` of `connect` and `disconnect`, after the test for the null vertex: the
element at `(IDX(v2), IDX(v1))` is set to the value, it is read again, and the
element at `(IDX(v1), IDX(v2))` is set to what was read.  The result is the
graph afterwards and the exception thrown, if any. -/
def assign (g : Graph) (v1 v2 : Nat) (value : Bool) : Graph × Option Exception :=
  if v1 ≠ NullVertex ∧ v2 ≠ NullVertex then
    match g.m_matrix.set (IDX v2) (IDX v1) value with
    | Except.error e => (g, some e)
    | Except.ok m1 =>
      match m1.get (IDX v2) (IDX v1) with
      | Except.error e => (⟨m1⟩, some e)
      | Except.ok b =>
        match m1.set (IDX v1) (IDX v2) b with
        | Except.error e => (⟨m1⟩, some e)
        | Except.ok m2 => (⟨m2⟩, none)
  else (g, some Exception.runtime_error)

/-- Establishes an edge between the specified vertex pair. -/
def connect (g : Graph) (v1 v2 : Nat) : Graph × Option Exception := assign g v1 v2 true

/-- Removes the edge between the specified vertex pair. -/
def disconnect (g : Graph) (v1 v2 : Nat) : Graph × Option Exception := assign g v1 v2 false

/-- Tests whether two vertices are adjacent: the answer, or the exception
thrown. -/
def connected (g : Graph) (v1 v2 : Nat) : Except Exception Bool :=
  if v1 ≠ NullVertex ∧ v2 ≠ NullVertex then g.m_matrix.get (IDX v1) (IDX v2)
  else Except.ok false

end Graph

end math

/-! ### Blocks and parcels (math/polygon.cpp, core/block.h, core/block.cpp,
core/district.cpp) -/

namespace math

namespace Polygon

variable {F : Type} [LinearOrderedField F]

/-- The polygon centroid. -/
def centroid (p : Polygon F) : Point2f F := p.m_centroid

/-- Scales the polygon by the specified factor, with respect to the centroid;
the area and the centroid stored are left as they are. -/
def scale (p : Polygon F) (f : F) : Polygon F :=
  { p with
    m_points := p.m_points.map (fun pt =>
      Point2f.ofVector
        (Vector2f.add (Vector2f.mul (Vector2f.sub pt.pos (centroid p).pos) f)
          (centroid p).pos)) }

end Polygon

end math

namespace core

/-- A city block: the polygon of the border points and the polygon of the base
points with which it was constructed. -/
structure Block (F : Type) where
  m_polygon : math.Polygon F
  m_parcel : math.Polygon F

namespace Block

variable {F : Type} [LinearOrderedField F]

/-- Constructs the block from the base points and the border points. -/
def new (base border : List (Point F)) : Block F :=
  ⟨math.Polygon.ofPoints border, math.Polygon.ofPoints base⟩

/-- The polygon of the block. -/
def polygon (b : Block F) : math.Polygon F := b.m_polygon

/-- The parcels of the block. -/
def parcels (b : Block F) : List (math.Polygon F) :=
  if |math.Polygon.area b.m_parcel - math.Polygon.area b.m_polygon| ≤ 1 / 10000 then
    [math.Polygon.scale b.m_parcel (8 / 10)]
  else []

end Block

namespace District

variable {F : Type} [LinearOrderedField F]

/-- The border points that `onSubregionFound` collects: for each edge its
starting point, its trace points and its ending point, in the direction that
the order flag gives.  A flag that the vector of flags lacks counts as
false. -/
def borderPoints (edges : List (Edge F)) (order : List Bool) : List (Point F) :=
  (List.range edges.length).flatMap (fun i =>
    match edges[i]? with
    | none => []
    | some edge =>
      if order.getD i false then edge.m_v1 :: (edge.m_trace ++ [edge.m_v2])
      else edge.m_v2 :: (Edge.traceReversed edge ++ [edge.m_v1]))

/-- The base points that `onSubregionFound` collects: for each edge the point
it starts at, in the direction that the order flag gives. -/
def basePoints (edges : List (Edge F)) (order : List Bool) : List (Point F) :=
  (List.range edges.length).flatMap (fun i =>
    match edges[i]? with
    | none => []
    | some edge => if order.getD i false then [edge.m_v1] else [edge.m_v2])

/-- The slot `onSubregionFound`: appends, to the blocks of the district, the
block of the subregion that the edges enclose. -/
def onSubregionFound (m_blocks : List (Block F)) (edges : List (Edge F))
    (order : List Bool) : List (Block F) :=
  m_blocks ++ [Block.new (basePoints edges order) (borderPoints edges order)]

end District

end core

namespace core

namespace District

/-- The four edges round the unit square, of which the one from (0, 0) to
(1, 0) has the trace point (1/2, 1/10000).  The input of the worked example of
`Block::parcels`. -/
def squareEdges : List (Edge ℚ) :=
  [⟨0, Point2f.ofCoords 0 0, Point2f.ofCoords 1 0, [Point2f.ofCoords (1 / 2) (1 / 10000)],
      Edge.Types.TypeMajorRoad⟩,
   ⟨1, Point2f.ofCoords 1 0, Point2f.ofCoords 1 1, [], Edge.Types.TypeMajorRoad⟩,
   ⟨2, Point2f.ofCoords 1 1, Point2f.ofCoords 0 1, [], Edge.Types.TypeMajorRoad⟩,
   ⟨3, Point2f.ofCoords 0 1, Point2f.ofCoords 0 0, [], Edge.Types.TypeMajorRoad⟩]

end District

end core

/-! ### Tracing a field (core/tracer_tracing.cpp) -/

namespace core

section StreamLine

variable {F : Type} [LinearOrderedField F]

/-- Numerical integrator step. -/
def RK4_STEP : F := 5 / 10000

/-- Maximum number of steps of numerical integration before giving up. -/
def INSTEP_MAX : Nat := 1000

/-- The eigenvector of the specified tensor, oriented in the direction `d`. -/
def eigenv (lib : Libm F) (t : Tensor F) (major : Bool) (d : Vector2f F) : Vector2f F :=
  math.orient lib (Tensor.eigenVector lib t major) d

/-- Whether `QRectF(0, 0, 1, 1)` contains the point: the edges of the
rectangle count as inside. -/
def unitRectContains (p : Vector2f F) : Bool :=
  decide (0 ≤ p.m_val0) && decide (p.m_val0 ≤ 1) && decide (0 ≤ p.m_val1) &&
    decide (p.m_val1 ≤ 1)

/-- The step `dp` of the RK-4 numerical scheme at the point `p`. -/
def rk4Step (lib : Libm F) (field : TensorField F) (major : Bool) (p d : Vector2f F) :
    Vector2f F :=
  let m1 := eigenv lib (field p) major d
  let m2 := eigenv lib (field (Vector2f.add p (Vector2f.mul m1 (5 / 10 * RK4_STEP)))) major d
  let m3 := eigenv lib (field (Vector2f.add p (Vector2f.mul m2 (5 / 10 * RK4_STEP)))) major d
  let m4 := eigenv lib (field (Vector2f.add p (Vector2f.mul m3 (1 * RK4_STEP)))) major d
  Vector2f.mul (Vector2f.add (Vector2f.add (Vector2f.add m1 m2) m3) m4) (RK4_STEP / 6)

/-- The variables of the integration loop of the function `traceField`: the
point, the direction, the distance traversed, and the number of passes through
the body of the loop, each of which computes one step of the scheme. -/
structure StreamState (F : Type) where
  p : Vector2f F
  d : Vector2f F
  dist : F
  steps : Nat

/-- The integration loop of the function `traceField`; the first argument is
the number of passes that the counter `instep` still allows. -/
def traceFieldLoop (lib : Libm F) (field : TensorField F) (major : Bool) (distMax : F) :
    Nat → StreamState F → StreamState F
  | 0, s => s
  | n + 1, s =>
    if math.zero (Vector2f.norm lib (rk4Step lib field major s.p s.d)) = 0 then
      { s with steps := s.steps + 1 }
    else if s.dist + Vector2f.norm lib (rk4Step lib field major s.p s.d) ≤ distMax ∧
        unitRectContains (Vector2f.add s.p (rk4Step lib field major s.p s.d)) = true then
      traceFieldLoop lib field major distMax n
        ⟨Vector2f.add s.p (rk4Step lib field major s.p s.d), rk4Step lib field major s.p s.d,
          s.dist + Vector2f.norm lib (rk4Step lib field major s.p s.d), s.steps + 1⟩
    else { s with steps := s.steps + 1 }

/-- The function `traceField`: traces the hyperstreamline of the field from
the point `p` in the direction `d` for at most the distance `distMax`; the
point and the direction afterwards, and the distance returned. -/
def traceField (lib : Libm F) (field : TensorField F) (major : Bool) (p d : Vector2f F)
    (distMax : F) : StreamState F :=
  traceFieldLoop lib field major distMax INSTEP_MAX ⟨p, d, 0, 0⟩

end StreamLine

namespace Tracer

variable {F : Type} [LinearOrderedField F] [FloorRing F]

/-- The variables of the sampling loop of `Tracer::traceField`; `existingDist`
is `none` for `INFINITY`. -/
structure FieldState (F : Type) where
  sp : Vector2f F
  td : Vector2f F
  segmentLength : F
  trace : List (Point F)
  existingVertex : Point F
  existingSamplePoint : SamplePoint F
  touchingSamplePoint : SamplePoint F
  existingDist : Option F

/-- One pass through the body of the sampling loop of `Tracer::traceField`,
in exact arithmetic (`fieldStepRounded` has the rounding of
`segmentLength += traceDist`); the Boolean tells whether the pass ends in
`break`. -/
def fieldStep (lib : Libm F) (qt : QtSort) (t : Tracer F) (field : TensorField F)
    (major : Bool) (startVertex : Point F) (s : FieldState F) : FieldState F × Bool :=
  let r := core.traceField lib field major s.sp s.td (distSample t)
  if math.zero r.dist = 0 then ({ s with td := r.d }, true)
  else
    let segmentLength := s.segmentLength + r.dist
    let trace := s.trace ++ [Point2f.ofVector r.p]
    let existingVertex :=
      if !s.existingVertex.finite then
        match ((findVertexSweep lib qt t r.p
            (Vector2f.mul (Vector2f.normalized lib r.d) (distConnect t)) (lib.M_PI / 2)).erase
              startVertex).head? with
        | some v => v
        | none => s.existingVertex
      else s.existingVertex
    let nearestSamplePoint :=
      ((findSamplePointSweep lib qt t r.p
        (Vector2f.mul (Vector2f.normalized lib r.d) (distTest t (Point2f.ofVector r.p)))
          (lib.M_PI / 3))[0]?).getD SamplePoint.null
    if nearestSamplePoint.point.finite then
      let dist := Vector2f.norm lib (Vector2f.sub r.p nearestSamplePoint.point.pos)
      if (s.existingSamplePoint.point.finite &&
            (match s.existingDist with
              | none => true
              | some l => decide (dist < l)) &&
            decide (s.existingSamplePoint.m_edge = nearestSamplePoint.m_edge)) ||
          (!s.existingSamplePoint.point.finite &&
            decide (segmentLength ≤ distSegment t (Point2f.ofVector r.p))) then
        (⟨r.p, r.d, segmentLength, trace, existingVertex, nearestSamplePoint,
          SamplePoint.ofPoint (Point2f.ofVector r.p), some dist⟩,
          decide (dist < distTouch lib t))
      else
        (⟨r.p, r.d, segmentLength, trace, existingVertex, s.existingSamplePoint,
          s.touchingSamplePoint, s.existingDist⟩, decide (dist < distTouch lib t))
    else
      (⟨r.p, r.d, segmentLength, trace, existingVertex, s.existingSamplePoint,
        s.touchingSamplePoint, s.existingDist⟩, false)

/-- The sampling loop of `Tracer::traceField`.  `fuel` bounds the number of
passes; `none` means that it was exceeded. -/
def fieldLoop (lib : Libm F) (qt : QtSort) (t : Tracer F) (field : TensorField F)
    (major : Bool) (startVertex : Point F) : Nat → FieldState F → Option (FieldState F)
  | 0, _ => none
  | fuel + 1, s =>
    if s.segmentLength <
        distSegment t (Point2f.ofVector s.sp) + distLookahead t (Point2f.ofVector s.sp) then
      if (fieldStep lib qt t field major startVertex s).2 then
        some (fieldStep lib qt t field major startVertex s).1
      else
        fieldLoop lib qt t field major startVertex fuel
          (fieldStep lib qt t field major startVertex s).1
    else some s

/-- The loop of `completeEdge` over the trace points after the first: the
points taken and the distance accumulated. -/
def takeSegment (lib : Libm F) (t : Tracer F) :
    Point F → List (Point F) → List (Point F) → F → List (Point F) × F
  | _, [], newTrace, dist => (newTrace, dist)
  | prev, samp :: rest, newTrace, dist =>
    if dist + Vector2f.norm lib (Vector2f.sub prev.pos samp.pos) ≤ distSegment t samp then
      takeSegment lib t samp rest (newTrace ++ [samp])
        (dist + Vector2f.norm lib (Vector2f.sub prev.pos samp.pos))
    else (newTrace, dist + Vector2f.norm lib (Vector2f.sub prev.pos samp.pos))

/-- Completes an edge that comes close to nothing; returns the list of created
edges, and the new state. -/
def completeEdgeTrace (lib : Libm F) (t : Tracer F) (startVertex : Point F)
    (trace : List (Point F)) : List (Edge F) × Tracer F :=
  match trace with
  | [] => ([], t)
  | first :: rest =>
    match (takeSegment lib t first rest [] 0).1.getLast? with
    | none => ([], t)
    | some last =>
      if (takeSegment lib t first rest [] 0).2 < distSepAt t last then ([], t)
      else
        ([⟨t.m_created, startVertex, Point2f.ofVector last.pos,
            (takeSegment lib t first rest [] 0).1.dropLast, edgeType t⟩],
          addEdge { t with m_created := t.m_created + 1 }
            ⟨t.m_created, startVertex, Point2f.ofVector last.pos,
              (takeSegment lib t first rest [] 0).1.dropLast, edgeType t⟩)

/-- The starting vertex selected by `Tracer::traceField`. -/
def startVertexAt (lib : Libm F) (qt : QtSort) (t : Tracer F) (fromPosition : Vector2f F) :
    Point F :=
  match (findVertex lib qt t fromPosition (distSep t)).head? with
  | none => Point2f.ofVector fromPosition
  | some v => v

/-- The variables of the sampling loop of `Tracer::traceField` before the
first pass. -/
def fieldStart (lib : Libm F) (qt : QtSort) (t : Tracer F) (fromPosition : Vector2f F)
    (inDirection : Vector2f F) : FieldState F :=
  ⟨(startVertexAt lib qt t fromPosition).pos, inDirection, 0, [], Point2f.infinity,
    SamplePoint.null, SamplePoint.null, none⟩

/-- Creates an edge by tracing the field; returns the list of created and
removed edges, and the new state.  `none` means that the fuel of the sampling
loop was exceeded, or stands for the `none` of `completeEdgeTouch`. -/
def traceField (lib : Libm F) (qt : QtSort) (fuel : Nat) (t : Tracer F)
    (field : TensorField F) (major : Bool) (fromPosition inDirection : Vector2f F) :
    Option (List (Edge F) × Tracer F) :=
  match fieldLoop lib qt t field major (startVertexAt lib qt t fromPosition) fuel
      (fieldStart lib qt t fromPosition inDirection) with
  | none => none
  | some s =>
    if s.existingVertex.finite then
      some (completeEdgeVertex lib t (startVertexAt lib qt t fromPosition) s.trace
        s.existingVertex)
    else if s.existingSamplePoint.point.finite then
      completeEdgeTouch lib qt t (startVertexAt lib qt t fromPosition) s.trace
        s.existingSamplePoint s.touchingSamplePoint
    else some (completeEdgeTrace lib t (startVertexAt lib qt t fromPosition) s.trace)

end Tracer

end core

/-! ### The spatial grid with the boundary checks of the matrix
(core/tracer_data.cpp, base/matrix.h)

The functions of the spatial grid once more, with the boundary checks that
`Matrix::operator()` makes at every element access. -/

namespace core

section GridChecked

variable {F : Type} [LinearOrderedField F] [FloorRing F] {E : Type}

/-- Adds the specified element to the spatial grid, or the exception thrown by
the element access. -/
def addGridElementChecked (pos : E → Vector2f F) (eq : E → E → Bool) (grid : Matrix (List E))
    (element : E) : Except Exception (Matrix (List E)) :=
  match Matrix.elementAccess grid (getGridCell grid (pos element)).1
      (getGridCell grid (pos element)).2 with
  | Except.error e => Except.error e
  | Except.ok (r, c) =>
    if (grid.get [] r c).countP (fun x => eq x element) = 0 then
      Except.ok (grid.set r c (grid.get [] r c ++ [element]))
    else Except.ok grid

/-- Removes the specified element from the spatial grid, or the exception
thrown by the element access. -/
def removeGridElementChecked (pos : E → Vector2f F) (eq : E → E → Bool)
    (grid : Matrix (List E)) (element : E) : Except Exception (Matrix (List E)) :=
  match Matrix.elementAccess grid (getGridCell grid (pos element)).1
      (getGridCell grid (pos element)).2 with
  | Except.error e => Except.error e
  | Except.ok (r, c) => Except.ok (grid.set r c ((grid.get [] r c).filter (fun x => !eq x element)))

/-- The cells `(r, c)` whose lists the two loops of `findGridElement` read, in
the order of the loops: those that pass the two tests before `continue`. -/
def findGridCells (lib : Libm F) (grid : Matrix (List E))
    (atPosition sweepDirection : Vector2f F) : List (Int × Int) :=
  (intRange (-⌈Vector2f.norm lib sweepDirection * (grid.m_rows : F)⌉)
      ⌈Vector2f.norm lib sweepDirection * (grid.m_rows : F)⌉).flatMap (fun dr =>
    if (getGridCell grid atPosition).1 + dr < 0 ∨
        (getGridCell grid atPosition).1 + dr ≥ (grid.m_rows : Int) then []
    else
      (intRange (-⌈Vector2f.norm lib sweepDirection * (grid.m_cols : F)⌉)
          ⌈Vector2f.norm lib sweepDirection * (grid.m_cols : F)⌉).flatMap (fun dc =>
        if (getGridCell grid atPosition).2 + dc < 0 ∨
            (getGridCell grid atPosition).2 + dc ≥ (grid.m_cols : Int) then []
        else [((getGridCell grid atPosition).1 + dr, (getGridCell grid atPosition).2 + dc)]))

/-- The lists of the specified cells, read one after the other, or the
exception thrown by the first element access that fails. -/
def readGridCells (grid : Matrix (List E)) : List (Int × Int) → Except Exception (List (List E))
  | [] => Except.ok []
  | cell :: rest =>
    match Matrix.elementAccess grid cell.1 cell.2 with
    | Except.error e => Except.error e
    | Except.ok (r, c) =>
      match readGridCells grid rest with
      | Except.error e => Except.error e
      | Except.ok lists => Except.ok (grid.get [] r c :: lists)

/-- Finds elements that fall in the search area, nearest first, or the
exception thrown by an element access. -/
def findGridElementChecked (lib : Libm F) (qt : QtSort) (pos : E → Vector2f F)
    (grid : Matrix (List E)) (atPosition sweepDirection : Vector2f F) (sweepAngle : F) :
    Except Exception (List E) :=
  match readGridCells grid (findGridCells lib grid atPosition sweepDirection) with
  | Except.error e => Except.error e
  | Except.ok lists =>
    Except.ok (qt.qSort (CloserToPosition lib pos atPosition)
      (lists.flatMap (fun l => l.filter (inSweep lib pos atPosition sweepDirection sweepAngle))))

end GridChecked

end core

/-! ### The steps of the integration loop (core/tracer_tracing.cpp) -/

namespace core

section StreamLineSteps

variable {F : Type} [LinearOrderedField F]

/-- The steps `dp` that the integration loop of the function `traceField`
accepts, in the order in which it accepts them: those after which it assigns
`dist = ndist`, `p = np` and `d = dp`.  The source keeps no such record; the
function follows the loop, pass by pass. -/
def traceFieldSteps (lib : Libm F) (field : TensorField F) (major : Bool) (distMax : F) :
    Nat → StreamState F → List (Vector2f F)
  | 0, _ => []
  | n + 1, s =>
    if math.zero (Vector2f.norm lib (rk4Step lib field major s.p s.d)) = 0 then []
    else if s.dist + Vector2f.norm lib (rk4Step lib field major s.p s.d) ≤ distMax ∧
        unitRectContains (Vector2f.add s.p (rk4Step lib field major s.p s.d)) = true then
      rk4Step lib field major s.p s.d ::
        traceFieldSteps lib field major distMax n
          ⟨Vector2f.add s.p (rk4Step lib field major s.p s.d), rk4Step lib field major s.p s.d,
            s.dist + Vector2f.norm lib (rk4Step lib field major s.p s.d), s.steps + 1⟩
    else []

end StreamLineSteps

end core

/-! ### The priority of a seed and sequences of calls (core/seeder.cpp) -/

namespace Seeder

section Priority

variable {F : Type} [LinearOrderedField F]

/-- The function `qMin` applied to a distance that is `INFINITY` (`none`) or
finite, and a finite one. -/
def qMinDist (a : Option F) (b : F) : Option F :=
  match a with
  | none => some b
  | some x => some (if x < b then x else b)

/-- The distance of a point from a line segment (`LineSegment::distance`): the
smaller of the distances from its two end points. -/
def LineSegment.distance (lib : Libm F) (segment : Point2f F × Point2f F) (p : Point2f F) : F :=
  if Vector2f.norm lib (Vector2f.sub segment.1.pos p.pos) <
      Vector2f.norm lib (Vector2f.sub segment.2.pos p.pos) then
    Vector2f.norm lib (Vector2f.sub segment.1.pos p.pos)
  else Vector2f.norm lib (Vector2f.sub segment.2.pos p.pos)

/-- The value of `expf(-dist)` for a distance that is `INFINITY` (`none`) or
finite: `expf` is zero at minus infinity. -/
def expNeg (lib : Libm F) (dist : Option F) : F :=
  match dist with
  | none => 0
  | some d => lib.expf (-d)

/-- Calculates the priority of the specified point: the two loops find the
distance from the nearest boundary segment and from the nearest singularity,
each `INFINITY` at first. -/
def calculatePriority (lib : Libm F) : PriorityFn (Point2f F) F :=
  fun boundarySegments singularities p =>
    expNeg lib (boundarySegments.foldl
        (fun distBoundary segment => qMinDist distBoundary (LineSegment.distance lib segment p))
        none) +
      expNeg lib (singularities.foldl
        (fun distSingularity q =>
          qMinDist distSingularity (Vector2f.norm lib (Vector2f.sub q.pos p.pos)))
        none)

end Priority

section Calls

variable {Pt Pr : Type}

/-- A call of one of the methods `insert`, `remove` and `pop`. -/
inductive Call (Pt : Type) where
  | insert (p : Pt)
  | remove (p : Pt)
  | pop

/-- The state of the seeder after the specified call. -/
def call [DecidableEq Pt] [LT Pr] [DecidableRel (fun (a b : Pr) => a < b)]
    (calculatePriority : PriorityFn Pt Pr) (infinity : Pt) (s : Seeder Pt Pr) :
    Call Pt → Seeder Pt Pr
  | Call.insert p => (Seeder.insert calculatePriority s p).2
  | Call.remove p => (Seeder.remove s p).2
  | Call.pop => (Seeder.pop infinity s).2

/-- The state of a seeder just constructed after the specified calls, made in
their order. -/
def calls [DecidableEq Pt] [LT Pr] [DecidableRel (fun (a b : Pr) => a < b)]
    (calculatePriority : PriorityFn Pt Pr) (infinity : Pt) (cs : List (Call Pt)) :
    Seeder Pt Pr :=
  cs.foldl (call calculatePriority infinity) Seeder.new

/-- What a last-in-first-out container holds after a call, the most recently
inserted point last: `insert` puts a point that is not held on top, `remove`
takes the point out, `pop` takes the top off.  This definition follows the
words of the specification, not the source. -/
def lifoCall [DecidableEq Pt] (stack : List Pt) : Call Pt → List Pt
  | Call.insert p => if p ∈ stack then stack else stack ++ [p]
  | Call.remove p => stack.erase p
  | Call.pop => stack.dropLast

/-- What a last-in-first-out container, empty at first, holds after the
specified calls. -/
def lifoStack [DecidableEq Pt] (cs : List (Call Pt)) : List Pt :=
  cs.foldl lifoCall []

end Calls

end Seeder

/-! ### Rounding of `float` and `double` values

Where a theorem is about the rounding of the arithmetic of the source, a
`float` or a `double` value is the rational number that it stands for, and an
operation of the source is the exact operation followed by the rounding to the
nearest value with 24 or with 53 significant bits, a tie going to the value
whose last bit is 0 (the default rounding of IEEE 754, every operation rounded
to the type of its operands).  The range of the exponent is not bounded: there
is no overflow, no subnormal number, no infinite value and no NaN. -/

namespace Fp

/-- The exponent of a number that is not zero: the integer `e` with
`2^e ≤ |x| < 2^(e+1)`. -/
def exponent (x : ℚ) : Int := Int.log 2 |x|

/-- The nearest integer, a tie going to the even one. -/
def roundHalfEven (q : ℚ) : Int :=
  if q - ⌊q⌋ < 1 / 2 then ⌊q⌋
  else if 1 / 2 < q - ⌊q⌋ then ⌊q⌋ + 1
  else if ⌊q⌋ % 2 = 0 then ⌊q⌋
  else ⌊q⌋ + 1

/-- The distance between the neighbours of `x` among the numbers with `p`
significant bits. -/
def ulp (p : Int) (x : ℚ) : ℚ := 2 ^ (exponent x - p + 1)

/-- The nearest number with `p` significant bits. -/
def round (p : Int) (x : ℚ) : ℚ :=
  if x = 0 then 0 else (roundHalfEven (x / ulp p x) : ℚ) * ulp p x

/-- The nearest `float`. -/
def toFloat (x : ℚ) : ℚ := round 24 x

/-- The nearest `double`. -/
def toDouble (x : ℚ) : ℚ := round 53 x

end Fp

/-! ### The orders of Qt 4 (qhash.h, qhash.cpp, qset.h, qalgorithms.h)

The Qt library is not among the sources.  What follows is modelled on the
sources of Qt 4: the order in which `QSet::toList` and `foreach` list the
elements of a `QSet`, which is the order of the nodes of a `QHash`, and the
permutation that `qSort` applies, which is that of `qSortHelper`. -/

namespace QHash

/-- The table `prime_deltas` of qhash.cpp. -/
def primeDeltas : List Nat :=
  [0, 0, 1, 3, 1, 5, 3, 3, 1, 9, 7, 5, 3, 9, 25, 3, 1, 21, 3, 21, 7, 15, 9, 5, 3, 29, 15, 0, 0,
    0, 0, 0]

/-- The number of buckets for a number of bits (`primeForNumBits`). -/
def primeForNumBits (numBits : Nat) : Nat := 2 ^ numBits + primeDeltas.getD numBits 0

/-- The smallest number of bits of a table that has buckets (`MinNumBits`). -/
def MinNumBits : Nat := 4

end QHash

/-- The data of a `QHash` used as a set: the number of bits, and the buckets,
each with its chain of nodes from first to last; a node is a key with its hash
value.  A table without buckets has `numBits` 0. -/
structure QHash (α : Type) where
  numBits : Nat
  buckets : List (List (Nat × α))

namespace QHash

variable {α : Type}

/-- The table of a `QHash` just constructed: no bucket. -/
def empty : QHash α := ⟨0, []⟩

/-- The number of nodes. -/
def size (d : QHash α) : Nat := (d.buckets.map List.length).sum

/-- Links a node to the end of the chain of its bucket, as `createNode` does
at the place that `findNode` returns for a key that is not in the table, and
as `rehash` does for the nodes that it moves. -/
def link (buckets : List (List (Nat × α))) (node : Nat × α) : List (List (Nat × α)) :=
  buckets.set (node.1 % buckets.length)
    (buckets.getD (node.1 % buckets.length) [] ++ [node])

/-- The table with the number of buckets for `hint` bits, at least
`MinNumBits` (`QHashData::rehash` for a hint that is not negative): the nodes
are moved bucket by bucket, each chain from first to last. -/
def rehash (d : QHash α) (hint : Nat) : QHash α :=
  ⟨max hint MinNumBits,
    d.buckets.flatten.foldl link
      (List.replicate (primeForNumBits (max hint MinNumBits)) [])⟩

/-- Inserts a key: nothing changes when the chain of its bucket has the key
(`findNode`); otherwise the table grows when it holds as many nodes as it has
buckets (`willGrow`), and the node is linked to its chain. -/
def insert [DecidableEq α] (hash : α → Nat) (d : QHash α) (key : α) : QHash α :=
  if (d.buckets.getD (hash key % d.buckets.length) []).any (fun node => decide (node.2 = key))
  then d
  else if d.size ≥ d.buckets.length then
    { rehash d (d.numBits + 1) with
      buckets := link (rehash d (d.numBits + 1)).buckets (hash key, key) }
  else { d with buckets := link d.buckets (hash key, key) }

/-- The keys in the order of the iterator: bucket by bucket, each chain from
first to last. -/
def keys (d : QHash α) : List α := d.buckets.flatten.map Prod.snd

/-- The order in which a `QSet` lists the keys inserted in the specified
order. -/
def toList [DecidableEq α] (hash : α → Nat) (inserted : List α) : List α :=
  keys (inserted.foldl (insert hash) empty)

/-- The function `qHash` for an `int` or an `unsigned int` that is not
negative. -/
def qHashInt (key : Nat) : Nat := key % 4294967296

/-- The function `qHash` for a `QPair` of two such numbers:
`((h1 << 16) | (h1 >> 16)) ^ h2` in 32 bits. -/
def qHashPair (key : Nat × Nat) : Nat :=
  (((qHashInt key.1 <<< 16) % 4294967296) ||| (qHashInt key.1 >>> 16)) ^^^ qHashInt key.2

end QHash

namespace QtSortHelper

variable {α : Type}

/-- The function `qSwap` on the elements at two positions of a list. -/
def swapAt (a : List α) (i j : Nat) : List α :=
  match a[i]?, a[j]? with
  | some x, some y => (a.set i y).set j x
  | _, _ => a

/-- The comparison `lessThan(*i, *j)` of the elements at two positions. -/
def lessAt (lessThan : α → α → Bool) (a : List α) (i j : Nat) : Bool :=
  match a[i]?, a[j]? with
  | some x, some y => lessThan x y
  | _, _ => false

/-- The loop `while (low < high && lessThan(*low, *end)) ++low;`: the value of
`low` afterwards (the first argument bounds the number of passes). -/
def scanLow (lessThan : α → α → Bool) (a : List α) (last high : Nat) : Nat → Nat → Nat
  | 0, low => low
  | fuel + 1, low =>
    if low < high ∧ lessAt lessThan a low last = true then
      scanLow lessThan a last high fuel (low + 1)
    else low

/-- The loop `while (high > low && lessThan(*end, *high)) --high;`: the value
of `high` afterwards. -/
def scanHigh (lessThan : α → α → Bool) (a : List α) (last low : Nat) : Nat → Nat → Nat
  | 0, high => high
  | fuel + 1, high =>
    if high > low ∧ lessAt lessThan a last high = true then
      scanHigh lessThan a last low fuel (high - 1)
    else high

/-- The loop `while (low < high)` of `qSortHelper`, with `last` the value of
`end` after `--end`: the list and the value of `low` afterwards. -/
def partitionLoop (lessThan : α → α → Bool) (last : Nat) :
    Nat → List α → Nat → Nat → List α × Nat
  | 0, a, low, _ => (a, low)
  | fuel + 1, a, low, high =>
    if low < high then
      let low1 := scanLow lessThan a last high (high - low) low
      let high1 := scanHigh lessThan a last low1 (high - low1) high
      if low1 < high1 then
        partitionLoop lessThan last fuel (swapAt a low1 high1) (low1 + 1) (high1 - 1)
      else (a, low1)
    else (a, low)

/-- The comparisons at the top of `qSortHelper` for a span of at least 2
elements from `start`, with `pivot = start + span / 2` and `last` the value of
`end` after `--end`: the first one, then for a span above 2 the second and the
third one, then for a span above 3 `qSwap(*pivot, *end)`. -/
def medianOfThree (lessThan : α → α → Bool) (a : List α) (start span : Nat) : List α :=
  let last := start + span - 1
  let pivot := start + span / 2
  let a1 := if lessAt lessThan a last start then swapAt a last start else a
  if span = 2 then a1
  else
    let a2 := if lessAt lessThan a1 pivot start then swapAt a1 pivot start else a1
    let a3 := if lessAt lessThan a2 last pivot then swapAt a2 last pivot else a2
    if span = 3 then a3 else swapAt a3 pivot last

/-- The part of `qSortHelper` from the loop `while (low < high)` to
`qSwap(*end, *low)`, for a span of at least 4 elements: the list and the value
of `low` afterwards. -/
def partition (lessThan : α → α → Bool) (a : List α) (start span : Nat) : List α × Nat :=
  let last := start + span - 1
  let r := partitionLoop lessThan last span a start (last - 1)
  let low := if lessAt lessThan r.1 r.2 last then r.2 + 1 else r.2
  (swapAt r.1 last low, low)

/-- The function `qSortHelper(start, end, t, lessThan)` on the positions of a
list: after the partition it calls itself for the positions from `start` to
`low` and goes on with those from `low + 1` to `end`.  The first argument
bounds the depth of the calls, which a span of fewer than 2 elements ends. -/
def qSortHelper (lessThan : α → α → Bool) : Nat → List α → Nat → Nat → List α
  | 0, a, _, _ => a
  | fuel + 1, a, start, stop =>
    if stop - start < 2 then a
    else if stop - start < 4 then medianOfThree lessThan a start (stop - start)
    else
      let p := partition lessThan (medianOfThree lessThan a start (stop - start)) start
        (stop - start)
      qSortHelper lessThan fuel (qSortHelper lessThan fuel p.1 start p.2) (p.2 + 1) stop

/-- The function `qSort(begin, end, lessThan)` of Qt 4 on a list. -/
def qSort (lessThan : α → α → Bool) (l : List α) : List α :=
  qSortHelper lessThan l.length l 0 l.length

end QtSortHelper

/-- The orders of Qt 4: a `QSet` lists its elements in the order of the nodes
of its hash table, and `qSort` is `qSortHelper`. -/
def QtOrder.qt4 : QtOrder :=
  ⟨QHash.toList QHash.qHashPair, QHash.toList QHash.qHashInt, QtSortHelper.qSort⟩

/-- The complete graph with 6 vertices less the edge between 1 and 6 (the
empty graph should a `connect` call throw). -/
def Graph.k6LessEdge : Graph :=
  (Graph.ofEdges 6 [(1, 2), (1, 3), (1, 4), (1, 5), (2, 3), (2, 4), (2, 5), (2, 6), (3, 4),
    (3, 5), (3, 6), (4, 5), (4, 6), (5, 6)]).getD (Graph.new 0)

/-! ### The coordinates of a map image, with rounding (core/mapimage.cpp) -/

namespace core

namespace MapImage

/-- Converts field coordinates to image coordinates, with the rounding of the
source: `fx` and `fy` are `float` variables, `fx * maxcol` and
`maxrow - fy * maxrow` are `float` operations, for which the `int` operand is
converted to `float`, and their results are stored as `qreal` (`double`) as
they are. -/
def toImageCoordsRounded (img : MapImage) (fieldCoords : Vector2f ℚ) : QPointF ℚ :=
  ⟨Fp.toFloat (Fp.toFloat (max 0 (min fieldCoords.m_val0 1)) *
      Fp.toFloat ((img.width - 1 : Int) : ℚ)),
    Fp.toFloat (Fp.toFloat ((img.height - 1 : Int) : ℚ) -
      Fp.toFloat (Fp.toFloat (max 0 (min fieldCoords.m_val1 1)) *
        Fp.toFloat ((img.height - 1 : Int) : ℚ)))⟩

/-- Converts image coordinates to field coordinates, with the rounding of the
source: the quotients and the difference are `double` operations (an `int`
converts to `double` as it is), and the constructor of `Vector2f` takes the
two results as `float` values. -/
def toFieldCoordsRounded (img : MapImage) (imageCoords : QPointF ℚ) : Vector2f ℚ :=
  ⟨Fp.toFloat (Fp.toDouble (imageCoords.x / ((img.width - 1 : Int) : ℚ))),
    Fp.toFloat (Fp.toDouble
      (Fp.toDouble (((img.height - 1 : Int) : ℚ) - imageCoords.y) /
        ((img.height - 1 : Int) : ℚ)))⟩

end MapImage

end core

/-! ### The area of a polygon, with rounding (math/polygon.cpp) -/

namespace math

namespace Polygon

/-- The value of `area` after the first loop of `calcAreaAndCentroid` and the
division by two, with the rounding of the source: `area` is a `float`
variable, so that each of the two products, the addition, the subtraction and
the division by `2.0f` is rounded to `float`. -/
def signedAreaRounded (points : List (Point2f ℚ)) : ℚ :=
  Fp.toFloat ((List.range points.length).foldl (fun area i =>
    Fp.toFloat (Fp.toFloat (area + Fp.toFloat
        ((points.getD i Point2f.infinity).pos.m_val0 *
          (points.getD ((i + 1) % points.length) Point2f.infinity).pos.m_val1)) -
      Fp.toFloat ((points.getD ((i + 1) % points.length) Point2f.infinity).pos.m_val0 *
        (points.getD i Point2f.infinity).pos.m_val1))) 0 / 2)

/-- The value of `m_area` after the construction of a polygon from the
specified points, with the rounding of the source: a negative area is negated
(the negation of a `float` is exact). -/
def areaRounded (points : List (Point2f ℚ)) : ℚ :=
  if signedAreaRounded points < 0 then -signedAreaRounded points
  else signedAreaRounded points

/-- The value of `m_points` after the construction of a polygon from the
specified points, with the rounding of the source: a negative area signals
that the points are specified clockwise, and their order is then reversed. -/
def pointsRounded (points : List (Point2f ℚ)) : List (Point2f ℚ) :=
  if signedAreaRounded points < 0 then points.reverse else points

/-- The triangle with the corners (0.1, 0.2), (0.7, 0.3) and (0.4, 0.9), each
coordinate the `float` value of the decimal number. -/
def floatTriangle : List (Point2f ℚ) :=
  [Point2f.ofCoords (Fp.toFloat (1 / 10)) (Fp.toFloat (2 / 10)),
    Point2f.ofCoords (Fp.toFloat (7 / 10)) (Fp.toFloat (3 / 10)),
    Point2f.ofCoords (Fp.toFloat (4 / 10)) (Fp.toFloat (9 / 10))]

end Polygon

end math

/-! ### The sampling loop, with rounding (core/tracer_tracing.cpp) -/

namespace core

namespace Tracer

/-- One pass through the body of the sampling loop of `Tracer::traceField`,
with the rounding of `segmentLength += traceDist`: `segmentLength` is a
`float` variable, and the sum is rounded to `float`.  The other operations
are those of `fieldStep`; the Boolean tells whether the pass ends in
`break`. -/
def fieldStepRounded (lib : Libm ℚ) (qt : QtSort) (t : Tracer ℚ) (field : TensorField ℚ)
    (major : Bool) (startVertex : Point ℚ) (s : FieldState ℚ) : FieldState ℚ × Bool :=
  let r := core.traceField lib field major s.sp s.td (distSample t)
  if math.zero r.dist = 0 then ({ s with td := r.d }, true)
  else
    let segmentLength := Fp.toFloat (s.segmentLength + r.dist)
    let trace := s.trace ++ [Point2f.ofVector r.p]
    let existingVertex :=
      if !s.existingVertex.finite then
        match ((findVertexSweep lib qt t r.p
            (Vector2f.mul (Vector2f.normalized lib r.d) (distConnect t)) (lib.M_PI / 2)).erase
              startVertex).head? with
        | some v => v
        | none => s.existingVertex
      else s.existingVertex
    let nearestSamplePoint :=
      ((findSamplePointSweep lib qt t r.p
        (Vector2f.mul (Vector2f.normalized lib r.d) (distTest t (Point2f.ofVector r.p)))
          (lib.M_PI / 3))[0]?).getD SamplePoint.null
    if nearestSamplePoint.point.finite then
      let dist := Vector2f.norm lib (Vector2f.sub r.p nearestSamplePoint.point.pos)
      if (s.existingSamplePoint.point.finite &&
            (match s.existingDist with
              | none => true
              | some l => decide (dist < l)) &&
            decide (s.existingSamplePoint.m_edge = nearestSamplePoint.m_edge)) ||
          (!s.existingSamplePoint.point.finite &&
            decide (segmentLength ≤ distSegment t (Point2f.ofVector r.p))) then
        (⟨r.p, r.d, segmentLength, trace, existingVertex, nearestSamplePoint,
          SamplePoint.ofPoint (Point2f.ofVector r.p), some dist⟩,
          decide (dist < distTouch lib t))
      else
        (⟨r.p, r.d, segmentLength, trace, existingVertex, s.existingSamplePoint,
          s.touchingSamplePoint, s.existingDist⟩, decide (dist < distTouch lib t))
    else
      (⟨r.p, r.d, segmentLength, trace, existingVertex, s.existingSamplePoint,
        s.touchingSamplePoint, s.existingDist⟩, false)

/-- The sampling loop of `Tracer::traceField` with the rounding of
`segmentLength += traceDist`.  `fuel` bounds the number of passes; `none`
means that it was exceeded. -/
def fieldLoopRounded (lib : Libm ℚ) (qt : QtSort) (t : Tracer ℚ) (field : TensorField ℚ)
    (major : Bool) (startVertex : Point ℚ) : Nat → FieldState ℚ → Option (FieldState ℚ)
  | 0, _ => none
  | fuel + 1, s =>
    if s.segmentLength <
        distSegment t (Point2f.ofVector s.sp) + distLookahead t (Point2f.ofVector s.sp) then
      if (fieldStepRounded lib qt t field major startVertex s).2 then
        some (fieldStepRounded lib qt t field major startVertex s).1
      else
        fieldLoopRounded lib qt t field major startVertex fuel
          (fieldStepRounded lib qt t field major startVertex s).1
    else some s

/-- A tracer with the default parameters, but for distSep, which is 50000. -/
def wideTracer : Tracer ℚ :=
  { (Tracer.newDefault RoadType.RoadTypeMajor : Tracer ℚ) with m_distSep := 50000 }

end Tracer

end core

/-! ## Part 2: theorems -/

/-! ### Seeder -/

section SeederLemmas

theorem insertIdx_eq_take_append_drop {α : Type} (a : α) :
    ∀ (n : Nat) (l : List α), n ≤ l.length → l.insertIdx n a = l.take n ++ a :: l.drop n
  | 0, l, _ => by simp
  | n + 1, [], h => by simp at h
  | n + 1, b :: l, h => by
    have h2 : n ≤ l.length := by simpa using h
    simp [List.insertIdx_succ_cons, insertIdx_eq_take_append_drop a n l h2]

/-- Specification of the binary search loop on a list on which the test
"value is less than the element" is monotone along the list. -/
theorem qUpperBoundLoop_spec {α : Type} (lessThan : α → α → Bool) (xs : List α) (value : α)
    (mono : ∀ (i j : Nat) a b, i ≤ j → xs[i]? = some a → xs[j]? = some b →
      lessThan value a = true → lessThan value b = true) :
    ∀ fuel first n, n ≤ fuel → first + n ≤ xs.length →
      (∀ (i : Nat) a, i < first → xs[i]? = some a → lessThan value a = false) →
      (∀ (i : Nat) a, first + n ≤ i → xs[i]? = some a → lessThan value a = true) →
      qUpperBoundLoop lessThan xs value fuel first n ≤ xs.length ∧
      (∀ (i : Nat) a, i < qUpperBoundLoop lessThan xs value fuel first n →
        xs[i]? = some a → lessThan value a = false) ∧
      (∀ (i : Nat) a, qUpperBoundLoop lessThan xs value fuel first n ≤ i →
        xs[i]? = some a → lessThan value a = true) := by
  intro fuel
  induction fuel with
  | zero =>
    intro first n hn hlen hlo hhi
    have h0 : n = 0 := by omega
    subst h0
    simp only [qUpperBoundLoop]
    exact ⟨by omega, hlo, fun i a hi => hhi i a (by omega)⟩
  | succ fuel ih =>
    intro first n hn hlen hlo hhi
    simp only [qUpperBoundLoop]
    by_cases hpos : 0 < n
    · simp only [hpos, if_true]
      have hmid : first + n / 2 < xs.length := by
        have : n / 2 < n := Nat.div_lt_self hpos (by decide)
        omega
      have hget : xs[first + n / 2]? = some (xs[first + n / 2]) := by
        simp [hmid]
      rw [hget]
      simp only
      by_cases hlt : lessThan value xs[first + n / 2] = true
      · simp only [hlt, if_true]
        apply ih first (n / 2) (by omega) (by omega) hlo
        intro i a hi hia
        exact mono (first + n / 2) i _ a hi hget hia hlt
      · have hlt2 : lessThan value xs[first + n / 2] = false := by
          simpa using hlt
        simp only [hlt2]
        apply ih (first + n / 2 + 1) (n - (n / 2 + 1)) (by omega) (by omega)
        · intro i a hi hia
          by_contra hc
          have hc2 : lessThan value a = true := by simpa using hc
          have := mono i (first + n / 2) a _ (by omega) hia hget hc2
          rw [hlt2] at this
          exact Bool.noConfusion this
        · intro i a hi hia
          exact hhi i a (by omega) hia
    · have h0 : n = 0 := by omega
      subst h0
      simp only [Nat.lt_irrefl, if_false]
      exact ⟨by omega, hlo, fun i a hi => hhi i a (by omega)⟩

variable {Pt Pr : Type} [LinearOrder Pr]

/-- On a list sorted by priority the test of the binary search is monotone. -/
theorem seedPoint_lt_mono (xs : List (SeedPoint Pt Pr)) (sp : SeedPoint Pt Pr)
    (hs : xs.Pairwise (fun a b => a.m_priority ≤ b.m_priority)) :
    ∀ (i j : Nat) a b, i ≤ j → xs[i]? = some a → xs[j]? = some b →
      SeedPoint.lt sp a = true → SeedPoint.lt sp b = true := by
  intro i j a b hij ha hb hlt
  simp only [SeedPoint.lt, decide_eq_true_eq] at hlt ⊢
  rcases Nat.eq_or_lt_of_le hij with h | h
  · subst h
    rw [ha] at hb
    cases hb
    exact hlt
  · have hi : i < xs.length := by
      rcases List.getElem?_eq_some.1 ha with ⟨h1, _⟩
      exact h1
    have hj : j < xs.length := by
      rcases List.getElem?_eq_some.1 hb with ⟨h1, _⟩
      exact h1
    have hab := List.pairwise_iff_getElem.1 hs i j hi hj h
    have ha2 : xs[i] = a := by
      rcases List.getElem?_eq_some.1 ha with ⟨_, h2⟩
      exact h2
    have hb2 : xs[j] = b := by
      rcases List.getElem?_eq_some.1 hb with ⟨_, h2⟩
      exact h2
    rw [ha2, hb2] at hab
    exact lt_of_lt_of_le hlt hab

/-- Where `qUpperBound` points in a sorted list: everything before has a
priority not above the new one, everything from there on a greater one. -/
theorem qUpperBound_sorted (xs : List (SeedPoint Pt Pr)) (sp : SeedPoint Pt Pr)
    (hs : xs.Pairwise (fun a b => a.m_priority ≤ b.m_priority)) :
    qUpperBound SeedPoint.lt xs sp ≤ xs.length ∧
    (∀ a ∈ xs.take (qUpperBound SeedPoint.lt xs sp), a.m_priority ≤ sp.m_priority) ∧
    (∀ a ∈ xs.drop (qUpperBound SeedPoint.lt xs sp), sp.m_priority < a.m_priority) := by
  have h := qUpperBoundLoop_spec SeedPoint.lt xs sp (seedPoint_lt_mono xs sp hs)
    xs.length 0 xs.length (le_refl _) (by omega)
    (fun i a hi => absurd hi (Nat.not_lt_zero i))
    (fun i a hi hia => by
      rcases List.getElem?_eq_some.1 hia with ⟨h1, _⟩
      omega)
  refine ⟨h.1, ?_, ?_⟩
  · intro a ha
    rcases List.mem_iff_getElem?.1 ha with ⟨i, hi⟩
    rw [List.getElem?_take] at hi
    split at hi
    · rename_i hlt
      have := h.2.1 i a hlt hi
      simp only [SeedPoint.lt, decide_eq_false_iff_not, not_lt] at this
      exact this
    · cases hi
  · intro a ha
    rcases List.mem_iff_getElem?.1 ha with ⟨i, hi⟩
    rw [List.getElem?_drop] at hi
    have := h.2.2 _ a (Nat.le_add_right _ i) hi
    simpa [SeedPoint.lt] using this


theorem sorted_last_is_max (xs : List (SeedPoint Pt Pr)) (top : SeedPoint Pt Pr)
    (hs : xs.Pairwise (fun a b => a.m_priority ≤ b.m_priority))
    (hl : xs.getLast? = some top) :
    ∀ sp ∈ xs, sp.m_priority ≤ top.m_priority := by
  rcases List.getLast?_eq_some_iff.1 hl with ⟨ys, rfl⟩
  intro sp hsp
  rcases List.mem_append.1 hsp with h | h
  · exact (List.pairwise_append.1 hs).2.2 sp h top (by simp)
  · simp only [List.mem_singleton] at h
    rw [h]

theorem insert_sorted [DecidableEq Pt] (calculatePriority : PriorityFn Pt Pr)
    (s : Seeder Pt Pr) (p : Pt) (hs : s.SortedByPriority) :
    (Seeder.insert calculatePriority s p).2.SortedByPriority := by
  unfold Seeder.insert
  split
  · simp only [Seeder.SortedByPriority]
    have hq := qUpperBound_sorted s.m_seedPoints
      ⟨p, calculatePriority s.m_boundarySegments s.m_singularities p⟩ hs
    rw [insertIdx_eq_take_append_drop _ _ _ hq.1]
    have hsplit : s.m_seedPoints.Pairwise (fun a b => a.m_priority ≤ b.m_priority) := hs
    rw [← List.take_append_drop
      (qUpperBound SeedPoint.lt s.m_seedPoints
        ⟨p, calculatePriority s.m_boundarySegments s.m_singularities p⟩) s.m_seedPoints] at hsplit
    rw [List.pairwise_append] at hsplit ⊢
    refine ⟨hsplit.1, ?_, ?_⟩
    · rw [List.pairwise_cons]
      exact ⟨fun a ha => le_of_lt (hq.2.2 a ha), hsplit.2.1⟩
    · intro a ha b hb
      rcases List.mem_cons.1 hb with h | h
      · rw [h]
        exact hq.2.1 a ha
      · exact hsplit.2.2 a ha b h
  · exact hs

theorem remove_sorted [DecidableEq Pt] (s : Seeder Pt Pr) (p : Pt)
    (hs : s.SortedByPriority) : (Seeder.remove s p).2.SortedByPriority := by
  unfold Seeder.remove
  simp only
  split
  · exact List.Pairwise.sublist (List.eraseIdx_sublist _ _) hs
  · exact hs

theorem pop_sorted (infinity : Pt) (s : Seeder Pt Pr)
    (hs : s.SortedByPriority) : (Seeder.pop infinity s).2.SortedByPriority := by
  unfold Seeder.pop
  split
  · exact List.Pairwise.sublist (List.dropLast_sublist _) hs
  · exact hs

theorem reachable_sorted [DecidableEq Pt] (calculatePriority : PriorityFn Pt Pr)
    (infinity : Pt) (s : Seeder Pt Pr)
    (h : Seeder.Reachable calculatePriority infinity s) : s.SortedByPriority := by
  induction h with
  | new => exact List.Pairwise.nil
  | insert s p _ ih => exact insert_sorted calculatePriority s p ih
  | remove s p _ ih => exact remove_sorted s p ih
  | pop s _ ih => exact pop_sorted infinity s ih
  | setBoundaries s segments _ ih => exact ih
  | addSingularity s p _ ih => exact ih
  | removeSingularity s p _ ih => exact ih

end SeederLemmas

section SeederClaims

variable {Pt Pr : Type} [LinearOrder Pr] [DecidableEq Pt]

/-- C8: in every state of a Seeder reachable from a new one (through insert,
remove, pop and the methods that register boundaries and singularities) the
seed list is sorted in non-decreasing order of stored priority, and when the
list is not empty pop returns its last seed, whose stored priority is maximal
among the stored seeds. -/
theorem Seeder.C8_sorted_in_every_reachable_state
    (calculatePriority : PriorityFn Pt Pr) (infinity : Pt) (s : Seeder Pt Pr)
    (h : Seeder.Reachable calculatePriority infinity s) :
    s.SortedByPriority ∧
    (∀ top, s.m_seedPoints.getLast? = some top →
      (Seeder.pop infinity s).1 = top.pos ∧
      ∀ sp ∈ s.m_seedPoints, sp.m_priority ≤ top.m_priority) := by
  have hs := reachable_sorted calculatePriority infinity s h
  refine ⟨hs, ?_⟩
  intro top htop
  refine ⟨?_, sorted_last_is_max s.m_seedPoints top hs htop⟩
  simp [Seeder.pop, htop]

/-- Witness of C8 on the seeder holding the seeds 3 and 7. -/
theorem Seeder.C8_witness :
    Seeder.Reachable Seeder.demoPriority 0 Seeder.demoState2 ∧
    (Seeder.demoState2.SortedByPriority ∧
    (∀ top, Seeder.demoState2.m_seedPoints.getLast? = some top →
      (Seeder.pop 0 Seeder.demoState2).1 = top.pos ∧
      ∀ sp ∈ Seeder.demoState2.m_seedPoints, sp.m_priority ≤ top.m_priority)) :=
  ⟨Seeder.Reachable.insert _ _ (Seeder.Reachable.insert _ _
      (Seeder.Reachable.addSingularity _ _ Seeder.Reachable.new)),
   Seeder.C8_sorted_in_every_reachable_state Seeder.demoPriority 0 Seeder.demoState2
    (Seeder.Reachable.insert _ _ (Seeder.Reachable.insert _ _
      (Seeder.Reachable.addSingularity _ _ Seeder.Reachable.new)))⟩

/-- C9 as stated fails: the seeder holds the seeds 1 and 2, stored with
priority 0, and a singularity registered afterwards gives the point 1 a
priority above every stored one; insert(1) is rejected as a duplicate and
pop returns 2. -/
theorem Seeder.C9_counterexample :
    Seeder.Reachable Seeder.demoPriority 0 Seeder.demoState4 ∧
    (∀ sp ∈ Seeder.demoState4.m_seedPoints,
      sp.m_priority < Seeder.demoPriority Seeder.demoState4.m_boundarySegments
        Seeder.demoState4.m_singularities 1) ∧
    (Seeder.insert Seeder.demoPriority Seeder.demoState4 1).1 = false ∧
    (Seeder.pop 0 (Seeder.insert Seeder.demoPriority Seeder.demoState4 1).2).1 = 2 :=
  ⟨Seeder.Reachable.addSingularity _ _
    (Seeder.Reachable.insert _ _ (Seeder.Reachable.insert _ _ Seeder.Reachable.new)),
   by decide, by decide, by decide⟩

/-- C9 (amended): in a reachable Seeder state in which no seed is stored at the
position of p, insert(p) succeeds, and when the priority of p is at least
that of every stored seed the immediately following pop returns p and leaves
the seeder as it was before the insert. -/
theorem Seeder.C9_insert_then_pop_returns_new_maximum
    (calculatePriority : PriorityFn Pt Pr) (infinity : Pt) (s : Seeder Pt Pr) (p : Pt)
    (hr : Seeder.Reachable calculatePriority infinity s)
    (hnew : Seeder.findSeedPoint s p = s.m_seedPoints.length)
    (hmax : ∀ sp ∈ s.m_seedPoints,
      sp.m_priority ≤ calculatePriority s.m_boundarySegments s.m_singularities p) :
    (Seeder.insert calculatePriority s p).1 = true ∧
    (Seeder.pop infinity (Seeder.insert calculatePriority s p).2).1 = p ∧
    (Seeder.pop infinity (Seeder.insert calculatePriority s p).2).2 = s := by
  have hs := reachable_sorted calculatePriority infinity s hr
  have hq := qUpperBound_sorted s.m_seedPoints
    ⟨p, calculatePriority s.m_boundarySegments s.m_singularities p⟩ hs
  have hdrop : s.m_seedPoints.drop (qUpperBound SeedPoint.lt s.m_seedPoints
      ⟨p, calculatePriority s.m_boundarySegments s.m_singularities p⟩) = [] := by
    apply List.eq_nil_iff_forall_not_mem.2
    intro a ha
    have h1 := hq.2.2 a ha
    have h2 := hmax a (List.mem_of_mem_drop ha)
    exact absurd h1 (not_lt.2 h2)
  have hins : (Seeder.insert calculatePriority s p).2.m_seedPoints =
      s.m_seedPoints ++
        [⟨p, calculatePriority s.m_boundarySegments s.m_singularities p⟩] := by
    simp only [Seeder.insert, hnew, if_true]
    rw [insertIdx_eq_take_append_drop _ _ _ hq.1, hdrop]
    have hge : s.m_seedPoints.length ≤ qUpperBound SeedPoint.lt s.m_seedPoints
        ⟨p, calculatePriority s.m_boundarySegments s.m_singularities p⟩ :=
      List.drop_eq_nil_iff.1 hdrop
    rw [List.take_of_length_le hge]
  have hother : (Seeder.insert calculatePriority s p).2.m_boundarySegments =
      s.m_boundarySegments ∧
      (Seeder.insert calculatePriority s p).2.m_singularities = s.m_singularities := by
    simp [Seeder.insert, hnew]
  refine ⟨by simp [Seeder.insert, hnew], ?_, ?_⟩
  · simp [Seeder.pop, hins]
  · cases s with
    | mk seeds segs sing =>
      simp only [Seeder.pop, hins, List.getLast?_concat, List.dropLast_concat]
      simp only [Seeder.mk.injEq]
      exact ⟨trivial, hother.1, hother.2⟩

/-- Witness of the amended C9: inserting the point 7 (a singularity, so of
priority 1) into the seeder holding 1 and 2 (priority 0). -/
theorem Seeder.C9_witness :
    (Seeder.insert Seeder.demoPriority (Seeder.addSingularity Seeder.demoState 7) 7).1 = true ∧
    (Seeder.pop 0 (Seeder.insert Seeder.demoPriority
      (Seeder.addSingularity Seeder.demoState 7) 7).2).1 = 7 ∧
    (Seeder.pop 0 (Seeder.insert Seeder.demoPriority
      (Seeder.addSingularity Seeder.demoState 7) 7).2).2 =
      Seeder.addSingularity Seeder.demoState 7 :=
  Seeder.C9_insert_then_pop_returns_new_maximum Seeder.demoPriority 0
    (Seeder.addSingularity Seeder.demoState 7) 7
    (Seeder.Reachable.addSingularity _ _
      (Seeder.Reachable.insert _ _ (Seeder.Reachable.insert _ _ Seeder.Reachable.new)))
    (by decide) (by decide)

/-- C10: on a Seeder that is empty, insert(p) followed by remove(p) returns
true for both calls and leaves the seeder empty again (in the state it had
before the insert). -/
theorem Seeder.C10_insert_then_remove_on_empty
    (calculatePriority : PriorityFn Pt Pr) (s : Seeder Pt Pr) (p : Pt)
    (he : s.empty = true) :
    (Seeder.insert calculatePriority s p).1 = true ∧
    (Seeder.remove (Seeder.insert calculatePriority s p).2 p).1 = true ∧
    (Seeder.remove (Seeder.insert calculatePriority s p).2 p).2.empty = true ∧
    (Seeder.remove (Seeder.insert calculatePriority s p).2 p).2 = s := by
  cases s with
  | mk seeds segs sing =>
    have hnil : seeds = [] := by
      simpa [Seeder.empty] using he
    subst hnil
    simp [Seeder.insert, Seeder.remove, Seeder.findSeedPoint, Seeder.empty, qUpperBound,
      qUpperBoundLoop, List.findIdx_cons]

/-- Witness of C10 on the empty seeder that has a singularity registered. -/
theorem Seeder.C10_witness :
    Seeder.demoState3.empty = true ∧
    ((Seeder.insert Seeder.demoPriority Seeder.demoState3 4).1 = true ∧
    (Seeder.remove (Seeder.insert Seeder.demoPriority Seeder.demoState3 4).2 4).1 = true ∧
    (Seeder.remove (Seeder.insert Seeder.demoPriority Seeder.demoState3 4).2 4).2.empty = true ∧
    (Seeder.remove (Seeder.insert Seeder.demoPriority Seeder.demoState3 4).2 4).2 =
      Seeder.demoState3) :=
  ⟨by decide, Seeder.C10_insert_then_remove_on_empty Seeder.demoPriority Seeder.demoState3 4
    (by decide)⟩

end SeederClaims

/-! ### Grapher -/

section QMapLemmas

variable {K A : Type} [LinearOrder K]

theorem QMap.value_eq_none_iff (m : List (K × A)) (k : K) :
    QMap.value m k = none ↔ k ∉ m.map Prod.fst := by
  induction m with
  | nil => simp [QMap.value]
  | cons e rest ih =>
    obtain ⟨k1, a⟩ := e
    simp only [QMap.value, List.map_cons, List.mem_cons, not_or]
    by_cases h : k1 = k
    · simp [h]
    · simp only [h, if_false, ih]
      constructor
      · intro h2
        exact ⟨fun h3 => h h3.symm, h2⟩
      · intro h2
        exact h2.2

theorem QMap.value_insertKey (m : List (K × A)) (k : K) (a : A) (v : K)
    (hk : QMap.value m k = none) :
    QMap.value (QMap.insertKey k a m) v = if v = k then some a else QMap.value m v := by
  induction m with
  | nil =>
    by_cases h : v = k
    · simp [QMap.insertKey, QMap.value, h]
    · have h2 : ¬ k = v := fun h3 => h h3.symm
      simp [QMap.insertKey, QMap.value, h, h2]
  | cons e rest ih =>
    obtain ⟨k1, a1⟩ := e
    simp only [QMap.value] at hk
    by_cases hk1 : k1 = k
    · simp [hk1] at hk
    · simp only [hk1, if_false] at hk
      simp only [QMap.insertKey]
      by_cases hlt : k < k1
      · simp only [hlt, if_true, QMap.value]
        by_cases h : v = k
        · simp [h]
        · have h2 : ¬ k = v := fun h3 => h h3.symm
          simp [h, h2]
      · simp only [hlt, if_false, QMap.value, ih hk]
        by_cases h : k1 = v
        · have h2 : ¬ v = k := fun h3 => hk1 (h.trans h3)
          simp [h, h2]
        · simp [h]

theorem QMap.value_index (d : A) (m : List (K × A)) (k v : K) :
    QMap.value (QMap.index d m k) v =
      if v = k then some ((QMap.value m k).getD d) else QMap.value m v := by
  unfold QMap.index QMap.contains
  cases hk : QMap.value m k with
  | none =>
    simp only [Option.isSome_none, Bool.false_eq_true, if_false, Option.getD_none]
    exact QMap.value_insertKey m k d v hk
  | some a =>
    simp only [Option.isSome_some, if_true, Option.getD_some]
    by_cases h : v = k
    · simp [h, hk]
    · simp [h]

theorem QMap.value_modify (f : A → A) (m : List (K × A)) (k v : K) :
    QMap.value (QMap.modify f m k) v =
      if v = k then (QMap.value m k).map f else QMap.value m v := by
  induction m with
  | nil => simp [QMap.modify, QMap.value]
  | cons e rest ih =>
    obtain ⟨k1, a1⟩ := e
    simp only [QMap.modify]
    by_cases hk1 : k1 = k
    · subst hk1
      by_cases h : v = k1
      · subst h
        simp [QMap.value]
      · have h2 : ¬ k1 = v := fun h3 => h h3.symm
        simp only [if_true, QMap.value, h2, if_false, ih, h]
    · simp only [hk1, if_false, QMap.value, ih]
      by_cases h : k1 = v
      · have h2 : ¬ v = k := fun h3 => hk1 (h.trans h3)
        simp [h, h2]
      · simp [h]

theorem QMap.value_remove (m : List (K × A)) (k v : K) :
    QMap.value (QMap.remove m k) v = if v = k then none else QMap.value m v := by
  induction m with
  | nil => simp [QMap.remove, QMap.value]
  | cons e rest ih =>
    obtain ⟨k1, a1⟩ := e
    simp only [QMap.remove]
    by_cases hk1 : k1 = k
    · subst hk1
      simp only [if_true, ih, QMap.value]
      by_cases h : v = k1
      · simp [h]
      · have h2 : ¬ k1 = v := fun h3 => h h3.symm
        simp [h, h2]
    · simp only [hk1, if_false, QMap.value, ih]
      by_cases h : k1 = v
      · have h2 : ¬ v = k := fun h3 => hk1 (h.trans h3)
        simp [h, h2]
      · simp [h]

theorem QMap.keys_insertKey_perm (m : List (K × A)) (k : K) (a : A) :
    ((QMap.insertKey k a m).map Prod.fst).Perm (k :: m.map Prod.fst) := by
  induction m with
  | nil => simp [QMap.insertKey]
  | cons e rest ih =>
    obtain ⟨k1, a1⟩ := e
    simp only [QMap.insertKey]
    by_cases hlt : k < k1
    · simp [hlt]
    · simp only [hlt, if_false, List.map_cons]
      exact (List.Perm.cons k1 ih).trans (List.Perm.swap k k1 _)

theorem QMap.keys_modify (f : A → A) (m : List (K × A)) (k : K) :
    (QMap.modify f m k).map Prod.fst = m.map Prod.fst := by
  induction m with
  | nil => simp [QMap.modify]
  | cons e rest ih =>
    obtain ⟨k1, a1⟩ := e
    simp only [QMap.modify, List.map_cons, ih]

theorem QMap.keys_remove_sublist (m : List (K × A)) (k : K) :
    ((QMap.remove m k).map Prod.fst).Sublist (m.map Prod.fst) := by
  induction m with
  | nil => simp [QMap.remove]
  | cons e rest ih =>
    obtain ⟨k1, a1⟩ := e
    simp only [QMap.remove]
    by_cases h : k1 = k
    · simp only [h, if_true, List.map_cons]
      exact List.Sublist.cons _ ih
    · simp only [h, if_false, List.map_cons]
      exact List.Sublist.cons₂ _ ih

theorem QMap.nodup_index (d : A) (m : List (K × A)) (k : K)
    (h : (m.map Prod.fst).Nodup) : ((QMap.index d m k).map Prod.fst).Nodup := by
  unfold QMap.index QMap.contains
  cases hk : QMap.value m k with
  | none =>
    simp only [Option.isSome_none, Bool.false_eq_true, if_false]
    rw [(QMap.keys_insertKey_perm m k d).nodup_iff]
    exact List.nodup_cons.2 ⟨(QMap.value_eq_none_iff m k).1 hk, h⟩
  | some a =>
    simpa using h

theorem QMap.nodup_remove (m : List (K × A)) (k : K)
    (h : (m.map Prod.fst).Nodup) : ((QMap.remove m k).map Prod.fst).Nodup := by
  exact List.Nodup.sublist (QMap.keys_remove_sublist m k) h

theorem QMap.value_of_mem (m : List (K × A)) (h : (m.map Prod.fst).Nodup)
    (e : K × A) (he : e ∈ m) : QMap.value m e.1 = some e.2 := by
  induction m with
  | nil => simp at he
  | cons e1 rest ih =>
    obtain ⟨k1, a1⟩ := e1
    simp only [List.map_cons, List.nodup_cons] at h
    rcases List.mem_cons.1 he with h1 | h1
    · subst h1
      simp [QMap.value]
    · have hne : ¬ k1 = e.1 := by
        intro h2
        apply h.1
        rw [h2]
        exact List.mem_map_of_mem Prod.fst h1
      simp only [QMap.value, hne, if_false]
      exact ih h.2 h1

end QMapLemmas

section GrapherLemmas

variable {V : Type} [LinearOrder V]

/-- The adjacency list of a vertex in the map after `operator[]` and an
update of the value of `k` through the reference. -/
theorem Grapher.getD_value_modify_index (f : List V → List V) (m : List (V × List V))
    (k v : V) :
    (QMap.value (QMap.modify f (QMap.index [] m k) k) v).getD [] =
      if v = k then f ((QMap.value m k).getD []) else (QMap.value m v).getD [] := by
  simp only [QMap.value_modify, QMap.value_index]
  by_cases h : v = k
  · subst h
    simp
  · simp [h]

theorem Grapher.adj_connect (g : Grapher V) (a b v : V) :
    Grapher.adj (Grapher.connect g a b) v =
      Grapher.adj g v ++ (if v = a then [b] else []) ++ (if v = b then [a] else []) := by
  simp only [Grapher.adj, Grapher.connect, Grapher.getD_value_modify_index]
  by_cases h1 : v = a
  · subst h1
    by_cases h2 : v = b
    · subst h2
      simp
    · have h3 : ¬ b = v := fun h => h2 h.symm
      simp [h2, h3]
  · by_cases h2 : v = b
    · subst h2
      simp [h1]
    · simp [h1, h2]

/-- Removing a key whose list is empty does not change any adjacency list. -/
theorem Grapher.getD_value_remove (m : List (V × List V)) (k v : V)
    (h : ((QMap.value m k).getD []).isEmpty = true) :
    (QMap.value (QMap.remove m k) v).getD [] = (QMap.value m v).getD [] := by
  rw [QMap.value_remove]
  by_cases hv : v = k
  · subst hv
    simp only [if_true, Option.getD_none]
    exact (List.isEmpty_iff.1 h).symm
  · simp [hv]

theorem Grapher.getD_value_prune (m : List (V × List V)) (c : Bool) (k v : V)
    (h : c = true → ((QMap.value m k).getD []).isEmpty = true) :
    (QMap.value (if c then QMap.remove m k else m) v).getD [] = (QMap.value m v).getD [] := by
  cases c with
  | false => simp
  | true => simpa using Grapher.getD_value_remove m k v (h rfl)

theorem Grapher.adj_disconnect (g : Grapher V) (a b v : V) :
    Grapher.adj (Grapher.disconnect g a b) v =
      if v = b then
        ((if v = a then (Grapher.adj g v).filter (fun w => decide (w ≠ b))
          else Grapher.adj g v)).filter (fun w => decide (w ≠ a))
      else if v = a then (Grapher.adj g v).filter (fun w => decide (w ≠ b))
      else Grapher.adj g v := by
  simp only [Grapher.adj, Grapher.disconnect]
  rw [Grapher.getD_value_prune, Grapher.getD_value_prune]
  · simp only [Grapher.getD_value_modify_index]
    by_cases h1 : v = a
    · subst h1
      by_cases h2 : v = b
      · subst h2
        simp
      · have h3 : ¬ b = v := fun h => h2 h.symm
        simp [h2, h3]
    · by_cases h2 : v = b
      · subst h2
        simp [h1]
      · simp [h1, h2]
  · intro h
    exact h
  · intro h
    rw [Grapher.getD_value_prune]
    · exact h
    · intro h2
      exact h2

theorem Grapher.count_adj_connect (g : Grapher V) (a b v w : V) :
    (Grapher.adj (Grapher.connect g a b) v).count w =
      (Grapher.adj g v).count w + (if v = a ∧ w = b then 1 else 0)
        + (if v = b ∧ w = a then 1 else 0) := by
  rw [Grapher.adj_connect]
  by_cases h1 : v = a <;> by_cases h2 : v = b <;> by_cases h3 : w = a <;> by_cases h4 : w = b <;>
    simp [h1, h2, h3, h4, List.count_cons, List.count_append] <;> aesop

theorem Grapher.count_filter_ne (l : List V) (w c : V) :
    (l.filter (fun x => decide (x ≠ c))).count w = if w = c then 0 else l.count w := by
  induction l with
  | nil => simp
  | cons x rest ih =>
    by_cases hx : x = c
    · subst hx
      by_cases hw : w = x
      · subst hw
        simpa [List.filter_cons] using ih
      · have hw2 : ¬ x = w := fun h => hw h.symm
        simp [List.filter_cons, hw, List.count_cons, hw2] at ih ⊢
    · by_cases hw : w = c
      · subst hw
        simpa [List.filter_cons, hx, List.count_cons] using ih
      · simp only [hw, if_false] at ih
        simp [List.filter_cons, hx, List.count_cons, hw, ih]

theorem Grapher.count_adj_disconnect (g : Grapher V) (a b v w : V) :
    (Grapher.adj (Grapher.disconnect g a b) v).count w =
      if (v = a ∧ w = b) ∨ (v = b ∧ w = a) then 0 else (Grapher.adj g v).count w := by
  rw [Grapher.adj_disconnect]
  by_cases h2 : v = b
  · subst h2
    by_cases h1 : v = a
    · subst h1
      simp only [if_true, Grapher.count_filter_ne, true_and, or_self]
      by_cases h3 : w = v
      · simp [h3]
      · simp [h3]
    · simp only [h1, if_true, if_false, Grapher.count_filter_ne, true_and, false_and,
        false_or]
  · by_cases h1 : v = a
    · subst h1
      simp only [h2, if_true, if_false, Grapher.count_filter_ne, true_and, false_and,
        or_false]
    · simp [h1, h2]

theorem Grapher.reachable_count_symm (g : Grapher V) (h : Grapher.Reachable g) (v w : V) :
    (Grapher.adj g v).count w = (Grapher.adj g w).count v := by
  induction h generalizing v w with
  | new => simp [Grapher.adj, Grapher.new, QMap.value]
  | connect g a b _ ih =>
    rw [Grapher.count_adj_connect, Grapher.count_adj_connect, ih v w]
    have e1 : (if w = a ∧ v = b then 1 else 0) = (if v = b ∧ w = a then (1 : Nat) else 0) :=
      if_congr and_comm rfl rfl
    have e2 : (if w = b ∧ v = a then 1 else 0) = (if v = a ∧ w = b then (1 : Nat) else 0) :=
      if_congr and_comm rfl rfl
    rw [e1, e2]
    omega
  | disconnect g a b _ ih =>
    rw [Grapher.count_adj_disconnect, Grapher.count_adj_disconnect, ih v w]
    exact if_congr (by tauto) rfl rfl

theorem Grapher.value_prune (m : List (V × List V)) (c : Bool) (k v : V) (l : List V)
    (h : QMap.value (if c then QMap.remove m k else m) v = some l) :
    QMap.value m v = some l ∧ (v = k → c = false) := by
  cases c with
  | false =>
    simp only [Bool.false_eq_true, if_false] at h
    exact ⟨h, fun _ => rfl⟩
  | true =>
    simp only [if_true, QMap.value_remove] at h
    by_cases hv : v = k
    · simp [hv] at h
    · simp only [hv, if_false] at h
      exact ⟨h, fun h2 => absurd h2 hv⟩

theorem Grapher.nodup_prune (m : List (V × List V)) (c : Bool) (k : V)
    (h : (m.map Prod.fst).Nodup) :
    ((if c then QMap.remove m k else m).map Prod.fst).Nodup := by
  cases c with
  | false => simpa using h
  | true => simpa using QMap.nodup_remove m k h

theorem Grapher.inv_connect (g : Grapher V) (a b : V) (h : Grapher.Inv g) :
    Grapher.Inv (Grapher.connect g a b) := by
  refine ⟨?_, ?_⟩
  · simp only [Grapher.connect, QMap.keys_modify]
    apply QMap.nodup_index
    rw [QMap.keys_modify]
    exact QMap.nodup_index _ _ _ h.1
  · intro k l hkl
    simp only [Grapher.connect, QMap.value_modify, QMap.value_index] at hkl
    by_cases h2 : k = b
    · subst h2
      simp only [if_true, Option.map_some', Option.some.injEq] at hkl
      rw [← hkl]
      simp
    · simp only [h2, if_false] at hkl
      by_cases h1 : k = a
      · subst h1
        simp only [if_true, Option.map_some', Option.some.injEq] at hkl
        rw [← hkl]
        simp
      · simp only [h1, if_false] at hkl
        exact h.2 k l hkl

theorem Grapher.inv_disconnect (g : Grapher V) (a b : V) (h : Grapher.Inv g) :
    Grapher.Inv (Grapher.disconnect g a b) := by
  refine ⟨?_, ?_⟩
  · simp only [Grapher.disconnect]
    apply Grapher.nodup_prune
    apply Grapher.nodup_prune
    rw [QMap.keys_modify]
    apply QMap.nodup_index
    rw [QMap.keys_modify]
    exact QMap.nodup_index _ _ _ h.1
  · intro k l hkl
    simp only [Grapher.disconnect] at hkl
    have h4 := Grapher.value_prune _ _ _ _ _ hkl
    have h3 := Grapher.value_prune _ _ _ _ _ h4.1
    have hv := h3.1
    by_cases h1 : k = a
    · subst h1
      have hne := h3.2 rfl
      rw [hv] at hne
      intro hl
      subst hl
      simp at hne
    · by_cases h2 : k = b
      · subst h2
        have hne := h4.2 rfl
        rw [hv] at hne
        intro hl
        subst hl
        simp at hne
      · simp only [QMap.value_modify, QMap.value_index, h1, h2, if_false] at hv
        exact h.2 k l hv

theorem Grapher.reachable_inv (g : Grapher V) (h : Grapher.Reachable g) : Grapher.Inv g := by
  induction h with
  | new =>
    refine ⟨by simp [Grapher.new], ?_⟩
    intro k l hkl
    simp [Grapher.new, QMap.value] at hkl
  | connect g a b _ ih => exact Grapher.inv_connect g a b ih
  | disconnect g a b _ ih => exact Grapher.inv_disconnect g a b ih

theorem Grapher.inv_entries (g : Grapher V) (h : Grapher.Inv g) :
    ∀ e ∈ g.m_vertices, e.2 ≠ [] := by
  intro e he
  exact h.2 e.1 e.2 (QMap.value_of_mem g.m_vertices h.1 e he)

theorem QMap.mem_of_value {K A : Type} [LinearOrder K] (m : List (K × A)) (k : K) (a : A)
    (h : QMap.value m k = some a) : (k, a) ∈ m := by
  induction m with
  | nil => simp [QMap.value] at h
  | cons e rest ih =>
    obtain ⟨k1, a1⟩ := e
    simp only [QMap.value] at h
    by_cases hk : k1 = k
    · simp only [hk, if_true, Option.some.injEq] at h
      simp [hk, h]
    · simp only [hk, if_false] at h
      exact List.mem_cons_of_mem _ (ih h)

theorem Grapher.reachable_mem_symm (g : Grapher V) (h : Grapher.Reachable g) (v1 v2 : V) :
    v2 ∈ Grapher.adj g v1 ↔ v1 ∈ Grapher.adj g v2 := by
  rw [← List.count_pos_iff, ← List.count_pos_iff, Grapher.reachable_count_symm g h v1 v2]

/-- With distinct keys, the listed edges are the stored adjacencies that go
from the smaller to the greater vertex. -/
theorem Grapher.mem_edges (g : Grapher V) (h : (g.m_vertices.map Prod.fst).Nodup) (x y : V) :
    (x, y) ∈ Grapher.edges g ↔ x < y ∧ y ∈ Grapher.adj g x := by
  simp only [Grapher.edges, List.mem_flatMap, List.mem_map, List.mem_filter,
    decide_eq_true_eq, Prod.mk.injEq, Grapher.adj]
  constructor
  · rintro ⟨e, he, w, ⟨hw, hlt⟩, hx, hy⟩
    subst hx
    subst hy
    rw [QMap.value_of_mem g.m_vertices h e he]
    exact ⟨hlt, hw⟩
  · rintro ⟨hlt, hy⟩
    cases hv : QMap.value g.m_vertices x with
    | none => simp [hv] at hy
    | some l =>
      rw [hv] at hy
      exact ⟨(x, l), QMap.mem_of_value _ _ _ hv, y, ⟨hy, hlt⟩, rfl, rfl⟩

theorem Grapher.keys_connect_of_connected (g : Grapher V) (v1 v2 : V)
    (h1 : v2 ∈ Grapher.adj g v1) (h2 : v1 ∈ Grapher.adj g v2) :
    Grapher.keys (Grapher.connect g v1 v2) = Grapher.keys g := by
  have c1 : QMap.contains g.m_vertices v1 = true := by
    simp only [Grapher.adj] at h1
    cases hv : QMap.value g.m_vertices v1 with
    | none => simp [hv] at h1
    | some l => simp [QMap.contains, hv]
  have c2 : QMap.contains g.m_vertices v2 = true := by
    simp only [Grapher.adj] at h2
    cases hv : QMap.value g.m_vertices v2 with
    | none => simp [hv] at h2
    | some l => simp [QMap.contains, hv]
  have i1 : QMap.index [] g.m_vertices v1 = g.m_vertices := by
    simp [QMap.index, c1]
  have c3 : QMap.contains (QMap.modify (fun a => a ++ [v2]) g.m_vertices v1) v2 = true := by
    simp only [QMap.contains, QMap.value_modify] at c2 ⊢
    by_cases hv : v2 = v1
    · subst hv
      simpa using c2
    · simpa [hv] using c2
  have i2 : QMap.index [] (QMap.modify (fun a => a ++ [v2]) g.m_vertices v1) v2 =
      QMap.modify (fun a => a ++ [v2]) g.m_vertices v1 := by
    simp [QMap.index, c3]
  simp only [Grapher.keys, Grapher.connect, i1, i2, QMap.keys_modify]

end GrapherLemmas

section GrapherClaims

variable {V : Type} [LinearOrder V]

/-- C5: in every state reached from the empty graph by connect and
disconnect calls, v2 occurs in the adjacency list of v1 exactly as many times
as v1 occurs in the adjacency list of v2; in particular v2 is adjacent to v1
iff v1 is adjacent to v2. -/
theorem Grapher.C5_adjacency_symmetric (g : Grapher V) (h : Grapher.Reachable g)
    (v1 v2 : V) :
    (Grapher.adj g v1).count v2 = (Grapher.adj g v2).count v1 ∧
    (v2 ∈ Grapher.adj g v1 ↔ v1 ∈ Grapher.adj g v2) := by
  have hc := Grapher.reachable_count_symm g h v1 v2
  refine ⟨hc, ?_⟩
  rw [← List.count_pos_iff, ← List.count_pos_iff, hc]

/-- Witness of C5 on the graph built by three connects and a disconnect. -/
theorem Grapher.C5_witness :
    Grapher.Reachable Grapher.demoGraph2 ∧
    ((Grapher.adj Grapher.demoGraph2 1).count 3 = (Grapher.adj Grapher.demoGraph2 3).count 1 ∧
    (3 ∈ Grapher.adj Grapher.demoGraph2 1 ↔ 1 ∈ Grapher.adj Grapher.demoGraph2 3)) :=
  ⟨Grapher.Reachable.disconnect _ _ _ (Grapher.Reachable.connect _ _ _
      (Grapher.Reachable.connect _ _ _ (Grapher.Reachable.connect _ _ _ Grapher.Reachable.new))),
   Grapher.C5_adjacency_symmetric Grapher.demoGraph2
    (Grapher.Reachable.disconnect _ _ _ (Grapher.Reachable.connect _ _ _
      (Grapher.Reachable.connect _ _ _ (Grapher.Reachable.connect _ _ _ Grapher.Reachable.new))))
    1 3⟩

/-- C6: in every state reached from the empty graph by connect and
disconnect calls no stored vertex has an empty adjacency list; and
disconnect(v1, v2) leaves no v2 in the list of v1 and no v1 in the list of v2,
whether or not v1 and v2 were stored before the call. -/
theorem Grapher.C6_no_empty_adjacency_list (g : Grapher V) (h : Grapher.Reachable g) :
    (∀ e ∈ g.m_vertices, e.2 ≠ []) ∧
    (∀ v1 v2, v2 ∉ Grapher.adj (Grapher.disconnect g v1 v2) v1 ∧
      v1 ∉ Grapher.adj (Grapher.disconnect g v1 v2) v2 ∧
      ∀ e ∈ (Grapher.disconnect g v1 v2).m_vertices, e.2 ≠ []) := by
  refine ⟨Grapher.inv_entries g (Grapher.reachable_inv g h), ?_⟩
  intro v1 v2
  refine ⟨?_, ?_, ?_⟩
  · rw [← List.count_pos_iff, Grapher.count_adj_disconnect]
    simp
  · rw [← List.count_pos_iff, Grapher.count_adj_disconnect]
    simp
  · exact Grapher.inv_entries _ (Grapher.reachable_inv _ (Grapher.Reachable.disconnect g v1 v2 h))

/-- Witness of C6 on the graph holding the single edge (1, 2), with a
disconnect of two vertices that are not stored. -/
theorem Grapher.C6_witness :
    Grapher.Reachable Grapher.demoGraph1 ∧
    ((∀ e ∈ Grapher.demoGraph1.m_vertices, e.2 ≠ []) ∧
    (∀ v1 v2, v2 ∉ Grapher.adj (Grapher.disconnect Grapher.demoGraph1 v1 v2) v1 ∧
      v1 ∉ Grapher.adj (Grapher.disconnect Grapher.demoGraph1 v1 v2) v2 ∧
      ∀ e ∈ (Grapher.disconnect Grapher.demoGraph1 v1 v2).m_vertices, e.2 ≠ [])) :=
  ⟨Grapher.Reachable.connect _ _ _ Grapher.Reachable.new,
   Grapher.C6_no_empty_adjacency_list Grapher.demoGraph1
    (Grapher.Reachable.connect _ _ _ Grapher.Reachable.new)⟩

/-- C7 as stated fails: after connect(1, 2), a second connect(1, 2) changes
the adjacency lists and the results of edges(), dongles() and bridges(). -/
theorem Grapher.C7_counterexample :
    2 ∈ Grapher.adj Grapher.demoGraph1 1 ∧
    (Grapher.connect Grapher.demoGraph1 1 2).m_vertices ≠ Grapher.demoGraph1.m_vertices ∧
    Grapher.edges (Grapher.connect Grapher.demoGraph1 1 2) ≠ Grapher.edges Grapher.demoGraph1 ∧
    Grapher.dongles (Grapher.connect Grapher.demoGraph1 1 2) ≠
      Grapher.dongles Grapher.demoGraph1 ∧
    Grapher.bridges (Grapher.connect Grapher.demoGraph1 1 2) ≠
      Grapher.bridges Grapher.demoGraph1 := by
  decide

/-- C7 (amended): in a reachable state, connect(v1, v2) on a pair that is
already connected keeps the stored vertices, the neighbours of every vertex
and the set of edges listed by edges(), but it is not a no-op: it appends v2
to the adjacency list of v1 and v1 to that of v2 once more. -/
theorem Grapher.C7_connect_again_appends (g : Grapher V) (v1 v2 : V)
    (h : Grapher.Reachable g) (hc : v2 ∈ Grapher.adj g v1) :
    Grapher.keys (Grapher.connect g v1 v2) = Grapher.keys g ∧
    (∀ u, Grapher.adj (Grapher.connect g v1 v2) u =
      Grapher.adj g u ++ (if u = v1 then [v2] else []) ++ (if u = v2 then [v1] else [])) ∧
    (∀ u w, w ∈ Grapher.adj (Grapher.connect g v1 v2) u ↔ w ∈ Grapher.adj g u) ∧
    (∀ e, e ∈ Grapher.edges (Grapher.connect g v1 v2) ↔ e ∈ Grapher.edges g) := by
  have hc2 : v1 ∈ Grapher.adj g v2 := (Grapher.reachable_mem_symm g h v1 v2).1 hc
  have hmem : ∀ u w, w ∈ Grapher.adj (Grapher.connect g v1 v2) u ↔ w ∈ Grapher.adj g u := by
    intro u w
    rw [Grapher.adj_connect]
    by_cases h1 : u = v1
    · subst h1
      by_cases h2 : u = v2
      · subst h2
        simp only [if_true, List.mem_append, List.mem_singleton]
        constructor
        · rintro ((h3 | h3) | h3)
          · exact h3
          · rw [h3]
            exact hc
          · rw [h3]
            exact hc
        · intro h3
          exact Or.inl (Or.inl h3)
      · simp only [if_true, h2, if_false, List.append_nil, List.mem_append, List.mem_singleton]
        constructor
        · rintro (h3 | h3)
          · exact h3
          · rw [h3]
            exact hc
        · intro h3
          exact Or.inl h3
    · by_cases h2 : u = v2
      · subst h2
        simp only [h1, if_false, List.append_nil, if_true, List.mem_append, List.mem_singleton]
        constructor
        · rintro (h3 | h3)
          · exact h3
          · rw [h3]
            exact hc2
        · intro h3
          exact Or.inl h3
      · simp [h1, h2]
  refine ⟨Grapher.keys_connect_of_connected g v1 v2 hc hc2, Grapher.adj_connect g v1 v2, hmem, ?_⟩
  rintro ⟨x, y⟩
  rw [Grapher.mem_edges _ (Grapher.reachable_inv _ (Grapher.Reachable.connect g v1 v2 h)).1,
    Grapher.mem_edges _ (Grapher.reachable_inv _ h).1, hmem]

/-- Witness of the amended C7: connect(1, 2) on the graph that already holds
the edge (1, 2). -/
theorem Grapher.C7_witness :
    2 ∈ Grapher.adj Grapher.demoGraph1 1 ∧
    (Grapher.keys (Grapher.connect Grapher.demoGraph1 1 2) = Grapher.keys Grapher.demoGraph1 ∧
    (∀ u, Grapher.adj (Grapher.connect Grapher.demoGraph1 1 2) u =
      Grapher.adj Grapher.demoGraph1 u ++ (if u = 1 then [2] else []) ++
        (if u = 2 then [1] else [])) ∧
    (∀ u w, w ∈ Grapher.adj (Grapher.connect Grapher.demoGraph1 1 2) u ↔
      w ∈ Grapher.adj Grapher.demoGraph1 u) ∧
    (∀ e, e ∈ Grapher.edges (Grapher.connect Grapher.demoGraph1 1 2) ↔
      e ∈ Grapher.edges Grapher.demoGraph1)) :=
  ⟨by decide, Grapher.C7_connect_again_appends Grapher.demoGraph1 1 2
    (Grapher.Reachable.connect _ _ _ Grapher.Reachable.new) (by decide)⟩

end GrapherClaims

/-! ### Matrices -/

section MatrixLemmas

variable {α : Type}

theorem Matrix.get_set_ne (d : α) (m : Matrix α) (i j a b : Nat) (v : α)
    (h : ¬ (a = i ∧ b = j)) :
    Matrix.get d (Matrix.set m i j v) a b = Matrix.get d m a b := by
  simp only [Matrix.get, Matrix.set, List.getD_eq_getElem?_getD, List.getElem?_set]
  by_cases hi : i = a
  · subst hi
    have hj : ¬ j = b := fun hj => h ⟨rfl, hj.symm⟩
    by_cases hlen : i < m.m_matrix.length
    · simp [hlen, List.getElem?_set, hj]
    · have hn : m.m_matrix[i]? = none := List.getElem?_eq_none (by omega)
      simp [hlen, hn]
  · simp [hi]

theorem Matrix.get_set_eq (d : α) (m : Matrix α) (n i j : Nat) (v : α)
    (hsq : m.Square n) (hi : i < n) (hj : j < n) :
    Matrix.get d (Matrix.set m i j v) i j = v := by
  have hlen : i < m.m_matrix.length := by
    rw [hsq.1]
    exact hi
  have hrow : (m.m_matrix[i]).length = n := hsq.2 _ (List.getElem_mem hlen)
  simp only [Matrix.get, Matrix.set, List.getD_eq_getElem?_getD, List.getElem?_set]
  simp [hlen, List.getElem?_set, hrow, hj]

theorem Matrix.square_set (m : Matrix α) (n i j : Nat) (v : α) (hsq : m.Square n) :
    (Matrix.set m i j v).Square n := by
  refine ⟨by simp [Matrix.set, hsq.1], ?_⟩
  intro row hrow
  simp only [Matrix.set] at hrow
  by_cases hi : i < m.m_matrix.length
  · rcases List.mem_or_eq_of_mem_set hrow with h | h
    · exact hsq.2 row h
    · rw [h, List.length_set]
      have : (m.m_matrix.getD i []) ∈ m.m_matrix := by
        rw [List.getD_eq_getElem _ _ hi]
        exact List.getElem_mem hi
      exact hsq.2 _ this
  · rw [List.set_eq_of_length_le (by omega)] at hrow
    exact hsq.2 row hrow

theorem Matrix.get_fill (d : α) (rows cols i j : Nat) (v : α) (hi : i < rows) (hj : j < cols) :
    Matrix.get d (Matrix.fill rows cols v) i j = v := by
  simp [Matrix.get, Matrix.fill, List.getD_eq_getElem?_getD, hi, hj, List.getElem?_replicate]

theorem Matrix.square_fill (n : Nat) (v : α) : (Matrix.fill n n v).Square n := by
  refine ⟨by simp [Matrix.fill], ?_⟩
  intro row hrow
  simp only [Matrix.fill] at hrow
  rw [List.eq_of_mem_replicate hrow]
  simp

end MatrixLemmas

/-! ### Floyd-Warshall -/

section FloydWarshall

theorem Graph.relax_eq_of_not (p : Paths) (k i j : Nat)
    (hc : ¬ p.dist i k + p.dist k j < p.dist i j) : Graph.relax p k i j = p := by
  simp only [Paths.dist] at hc
  simp [Graph.relax, hc]

theorem Graph.relax_eq_of_lt (p : Paths) (k i j : Nat)
    (hc : p.dist i k + p.dist k j < p.dist i j) :
    Graph.relax p k i j =
      ⟨p.m_path.set i j (p.dist i k + p.dist k j), p.m_next.set i j (k + 1)⟩ := by
  simp only [Paths.dist] at hc
  simp [Graph.relax, hc, Paths.dist]

/-- One step of the innermost loop keeps the matrices sound, does not
increase any distance, leaves row and column `k` alone, and makes the distance
from `i` to `j` at most the sum of the distances through `k`. -/
theorem Graph.relax_spec (g : Graph) (p : Paths) (k i j : Nat) (hs : p.Sound g)
    (hk : k < g.numVertices) (hi : i < g.numVertices) (hj : j < g.numVertices) :
    (Graph.relax p k i j).Sound g ∧
    (∀ a b, (Graph.relax p k i j).dist a b ≤ p.dist a b) ∧
    (∀ a, (Graph.relax p k i j).dist a k = p.dist a k) ∧
    (∀ b, (Graph.relax p k i j).dist k b = p.dist k b) ∧
    (Graph.relax p k i j).dist i j ≤ p.dist i k + p.dist k j := by
  by_cases hc : p.dist i k + p.dist k j < p.dist i j
  · have hij : i ≠ j := by
      intro h
      subst h
      rw [hs.diag i hi] at hc
      exact Nat.not_lt_zero _ hc
    have hki : k ≠ i := by
      intro h
      subst h
      rw [hs.diag k hk] at hc
      omega
    have hkj : k ≠ j := by
      intro h
      subst h
      rw [hs.diag k hk] at hc
      omega
    rw [Graph.relax_eq_of_lt p k i j hc]
    have hd : ∀ a b, (Paths.mk (p.m_path.set i j (p.dist i k + p.dist k j))
        (p.m_next.set i j (k + 1))).dist a b =
        if a = i ∧ b = j then p.dist i k + p.dist k j else p.dist a b := by
      intro a b
      by_cases hab : a = i ∧ b = j
      · rw [if_pos hab, hab.1, hab.2]
        exact Matrix.get_set_eq _ _ _ _ _ _ hs.sq_path hi hj
      · rw [if_neg hab]
        exact Matrix.get_set_ne _ _ _ _ _ _ _ hab
    have hn : ∀ a b, (Paths.mk (p.m_path.set i j (p.dist i k + p.dist k j))
        (p.m_next.set i j (k + 1))).next a b =
        if a = i ∧ b = j then k + 1 else p.next a b := by
      intro a b
      by_cases hab : a = i ∧ b = j
      · rw [if_pos hab, hab.1, hab.2]
        exact Matrix.get_set_eq _ _ _ _ _ _ hs.sq_next hi hj
      · rw [if_neg hab]
        exact Matrix.get_set_ne _ _ _ _ _ _ _ hab
    have hle : ∀ a b, (Paths.mk (p.m_path.set i j (p.dist i k + p.dist k j))
        (p.m_next.set i j (k + 1))).dist a b ≤ p.dist a b := by
      intro a b
      rw [hd]
      by_cases hab : a = i ∧ b = j
      · rw [if_pos hab, hab.1, hab.2]
        exact Nat.le_of_lt hc
      · rw [if_neg hab]
    refine ⟨?_, hle, ?_, ?_, ?_⟩
    · refine ⟨Matrix.square_set _ _ _ _ _ hs.sq_path, Matrix.square_set _ _ _ _ _ hs.sq_next,
        hs.rows, ?_, ?_, ?_, ?_, ?_⟩
      · intro a ha
        rw [hd]
        have : ¬ (a = i ∧ a = j) := fun h => hij (h.1.symm.trans h.2)
        rw [if_neg this]
        exact hs.diag a ha
      · intro a b ha hb
        exact Nat.le_trans (hle a b) (hs.le_inf a b ha hb)
      · intro a b ha hb hab
        rw [hd]
        by_cases h : a = i ∧ b = j
        · rw [if_pos h]
          have h1 := hs.pos i k hi hk (fun h => hki h.symm)
          omega
        · rw [if_neg h]
          exact hs.pos a b ha hb hab
      · intro a b ha hb hab hnext
        rw [hn] at hnext
        by_cases h : a = i ∧ b = j
        · rw [if_pos h] at hnext
          exact absurd hnext (Nat.succ_ne_zero k)
        · rw [if_neg h] at hnext
          rw [hd, if_neg h]
          exact hs.direct a b ha hb hab hnext
      · intro a b ha hb hab hnext
        rw [hn] at hnext
        by_cases h : a = i ∧ b = j
        · refine ⟨k, hk, ?_, ?_, ?_, ?_, ?_⟩
          · rw [hn, if_pos h]
          · rw [h.1]
            exact hki
          · rw [h.2]
            exact hkj
          · rw [hd a b, if_pos h, h.1, h.2, hd i k, hd k j]
            have h1 : ¬ (i = i ∧ k = j) := fun h => hkj h.2
            have h2 : ¬ (k = i ∧ j = j) := fun h => hki h.1
            rw [if_neg h1, if_neg h2]
          · rw [hd a b, if_pos h]
            have := hs.le_inf i j hi hj
            omega
        · rw [if_neg h] at hnext
          obtain ⟨m, hm, hm1, hm2, hm3, hm4, hm5⟩ := hs.via a b ha hb hab hnext
          refine ⟨m, hm, ?_, hm2, hm3, ?_, ?_⟩
          · rw [hn, if_neg h]
            exact hm1
          · rw [hd a b, if_neg h]
            have h1 := hle a m
            have h2 := hle m b
            omega
          · rw [hd a b, if_neg h]
            exact hm5
    · intro a
      rw [hd]
      have : ¬ (a = i ∧ k = j) := fun h => hkj h.2
      rw [if_neg this]
    · intro b
      rw [hd]
      have : ¬ (k = i ∧ b = j) := fun h => hki h.1
      rw [if_neg this]
    · rw [hd]
      simp
  · rw [Graph.relax_eq_of_not p k i j hc]
    exact ⟨hs, fun _ _ => Nat.le_refl _, fun _ => rfl, fun _ => rfl, Nat.le_of_not_lt hc⟩

theorem Graph.inner_loop_spec (g : Graph) (k i : Nat)
    (hk : k < g.numVertices) (hi : i < g.numVertices) (js : List Nat)
    (hjs : ∀ j ∈ js, j < g.numVertices) :
    ∀ p : Paths, p.Sound g →
      Paths.Improves g k p (js.foldl (fun p j => Graph.relax p k i j) p) ∧
      ∀ j ∈ js, (js.foldl (fun p j => Graph.relax p k i j) p).dist i j ≤
        p.dist i k + p.dist k j := by
  induction js with
  | nil =>
    intro p hs
    exact ⟨⟨hs, fun _ _ => Nat.le_refl _, fun _ => rfl, fun _ => rfl⟩,
      fun j hj => absurd hj (List.not_mem_nil j)⟩
  | cons j rest ih =>
    intro p hs
    have hj : j < g.numVertices := hjs j (List.mem_cons_self _ _)
    obtain ⟨s1, le1, col1, row1, tri1⟩ := Graph.relax_spec g p k i j hs hk hi hj
    obtain ⟨⟨s2, le2, col2, row2⟩, tri2⟩ :=
      ih (fun x hx => hjs x (List.mem_cons_of_mem _ hx)) (Graph.relax p k i j) s1
    simp only [List.foldl_cons]
    refine ⟨⟨s2, fun a b => Nat.le_trans (le2 a b) (le1 a b),
      fun a => (col2 a).trans (col1 a), fun b => (row2 b).trans (row1 b)⟩, ?_⟩
    intro x hx
    rcases List.mem_cons.1 hx with h | h
    · subst h
      exact Nat.le_trans (le2 i x) tri1
    · have := tri2 x h
      rw [col1 i, row1 x] at this
      exact this

theorem Graph.outer_loop_spec (g : Graph) (k : Nat) (hk : k < g.numVertices)
    (js : List Nat) (hjs : ∀ j ∈ js, j < g.numVertices)
    (is : List Nat) (his : ∀ i ∈ is, i < g.numVertices) :
    ∀ p : Paths, p.Sound g →
      Paths.Improves g k p
        (is.foldl (fun p i => js.foldl (fun p j => Graph.relax p k i j) p) p) ∧
      ∀ i ∈ is, ∀ j ∈ js,
        (is.foldl (fun p i => js.foldl (fun p j => Graph.relax p k i j) p) p).dist i j ≤
          p.dist i k + p.dist k j := by
  induction is with
  | nil =>
    intro p hs
    exact ⟨⟨hs, fun _ _ => Nat.le_refl _, fun _ => rfl, fun _ => rfl⟩,
      fun i hi => absurd hi (List.not_mem_nil i)⟩
  | cons i rest ih =>
    intro p hs
    have hi : i < g.numVertices := his i (List.mem_cons_self _ _)
    obtain ⟨⟨s1, le1, col1, row1⟩, tri1⟩ := Graph.inner_loop_spec g k i hk hi js hjs p hs
    obtain ⟨⟨s2, le2, col2, row2⟩, tri2⟩ :=
      ih (fun x hx => his x (List.mem_cons_of_mem _ hx)) _ s1
    simp only [List.foldl_cons]
    refine ⟨⟨s2, fun a b => Nat.le_trans (le2 a b) (le1 a b),
      fun a => (col2 a).trans (col1 a), fun b => (row2 b).trans (row1 b)⟩, ?_⟩
    intro x hx y hy
    rcases List.mem_cons.1 hx with h | h
    · subst h
      exact Nat.le_trans (le2 x y) (tri1 y hy)
    · have := tri2 x h y hy
      rw [col1 x, row1 y] at this
      exact this

/-- After the round for `k` the matrices are sound, no distance has grown and
every distance is at most the sum of the distances through `k`. -/
theorem Graph.round_spec (g : Graph) (k : Nat) (hk : k < g.numVertices) (p : Paths)
    (hs : p.Sound g) :
    (Graph.round g.numVertices p k).Sound g ∧
    (∀ a b, (Graph.round g.numVertices p k).dist a b ≤ p.dist a b) ∧
    ∀ i j, i < g.numVertices → j < g.numVertices →
      (Graph.round g.numVertices p k).dist i j ≤
        (Graph.round g.numVertices p k).dist i k + (Graph.round g.numVertices p k).dist k j := by
  obtain ⟨⟨s1, le1, col1, row1⟩, tri1⟩ := Graph.outer_loop_spec g k hk
    (List.range g.numVertices) (fun j hj => List.mem_range.1 hj)
    (List.range g.numVertices) (fun j hj => List.mem_range.1 hj) p hs
  refine ⟨s1, le1, ?_⟩
  intro i j hi hj
  have := tri1 i (List.mem_range.2 hi) j (List.mem_range.2 hj)
  simp only [Graph.round]
  rw [col1 i, row1 j]
  exact this

theorem Graph.walk_range (g : Graph) (k i j d : Nat) (h : g.Walk k i j d) :
    i < g.numVertices ∧ j < g.numVertices ∧ 1 ≤ d := by
  induction h with
  | single i j hadj => exact ⟨hadj.1, hadj.2.1, Nat.le_refl 1⟩
  | cons i m j d hadj _ _ ih => exact ⟨hadj.1, ih.2.1, Nat.le_add_left 1 d⟩

theorem Graph.walk_mono (g : Graph) (k k2 i j d : Nat) (hk : k ≤ k2) (h : g.Walk k i j d) :
    g.Walk k2 i j d := by
  induction h with
  | single i j hadj => exact Graph.Walk.single i j hadj
  | cons i m j d hadj hm _ ih => exact Graph.Walk.cons i m j d hadj (by omega) ih

/-- A walk with inner vertices up to `k` either avoids `k` or splits at its
first visit of `k`. -/
theorem Graph.walk_split (g : Graph) (k i j d : Nat) (h : g.Walk (k + 1) i j d) :
    g.Walk k i j d ∨
    ∃ d1 d2, d1 + d2 = d ∧ g.Walk k i k d1 ∧ g.Walk (k + 1) k j d2 := by
  induction h with
  | single i j hadj => exact Or.inl (Graph.Walk.single i j hadj)
  | cons i m j d hadj hm hw ih =>
    by_cases hmk : m = k
    · subst hmk
      exact Or.inr ⟨1, d, by omega, Graph.Walk.single i m hadj, hw⟩
    · have hlt : m < k := by omega
      rcases ih with h1 | ⟨d1, d2, hd, h1, h2⟩
      · exact Or.inl (Graph.Walk.cons i m j d hadj hlt h1)
      · exact Or.inr ⟨d1 + 1, d2, by omega, Graph.Walk.cons i m k d1 hadj hlt h1, h2⟩

theorem Graph.complete_step (g : Graph) (k : Nat) (p q : Paths)
    (hc : p.Complete g k) (hle : ∀ a b, q.dist a b ≤ p.dist a b)
    (htri : ∀ i j, i < g.numVertices → j < g.numVertices →
      q.dist i j ≤ q.dist i k + q.dist k j) :
    q.Complete g (k + 1) := by
  intro i j d
  induction d using Nat.strong_induction_on generalizing i j with
  | _ d ih =>
    intro hw
    rcases Graph.walk_split g k i j d hw with h1 | ⟨d1, d2, hd, h1, h2⟩
    · exact Nat.le_trans (hle i j) (hc i j d h1)
    · have r1 := Graph.walk_range g k i k d1 h1
      have r2 := Graph.walk_range g (k + 1) k j d2 h2
      have e1 : q.dist i k ≤ d1 := Nat.le_trans (hle i k) (hc i k d1 h1)
      have e2 : q.dist k j ≤ d2 := ih d2 (by omega) k j h2
      have e3 := htri i j r1.1 r2.2.1
      omega

theorem Graph.initialPath_square (g : Graph) : (Graph.initialPath g).Square g.numVertices := by
  refine ⟨by simp [Graph.initialPath], ?_⟩
  intro row hrow
  simp only [Graph.initialPath, List.mem_map] at hrow
  obtain ⟨i, _, rfl⟩ := hrow
  simp

theorem Graph.initialPath_get (g : Graph) (i j : Nat) (hi : i < g.numVertices)
    (hj : j < g.numVertices) :
    (Graph.initialPath g).get DIST_INF i j =
      if i = j then 0 else if g.connected (i + 1) (j + 1) then 1 else DIST_INF := by
  simp [Matrix.get, Graph.initialPath, List.getD_eq_getElem?_getD, hi, hj]

theorem Graph.initial_sound (g : Graph) :
    (Paths.mk (Graph.initialPath g)
      (Matrix.fill g.numVertices g.numVertices NullVertex)).Sound g := by
  have hd : ∀ i j, i < g.numVertices → j < g.numVertices →
      (Paths.mk (Graph.initialPath g)
        (Matrix.fill g.numVertices g.numVertices NullVertex)).dist i j =
      if i = j then 0 else if g.connected (i + 1) (j + 1) then 1 else DIST_INF :=
    fun i j hi hj => Graph.initialPath_get g i j hi hj
  refine ⟨Graph.initialPath_square g, Matrix.square_fill _ _, rfl, ?_, ?_, ?_, ?_, ?_⟩
  · intro i hi
    rw [hd i i hi hi]
    simp
  · intro i j hi hj
    rw [hd i j hi hj]
    split
    · exact Nat.zero_le _
    · split
      · decide
      · exact Nat.le_refl _
  · intro i j hi hj hij
    rw [hd i j hi hj, if_neg hij]
    split
    · exact Nat.le_refl _
    · decide
  · intro i j hi hj hij _
    rw [hd i j hi hj, if_neg hij]
    by_cases hc : g.connected (i + 1) (j + 1) = true
    · rw [if_pos hc]
      exact Or.inr ⟨rfl, hi, hj, hc⟩
    · rw [if_neg hc]
      exact Or.inl rfl
  · intro i j hi hj _ hnext
    exfalso
    apply hnext
    exact Matrix.get_fill _ _ _ _ _ _ hi hj

theorem Graph.initial_complete (g : Graph) :
    (Paths.mk (Graph.initialPath g)
      (Matrix.fill g.numVertices g.numVertices NullVertex)).Complete g 0 := by
  intro i j d hw
  cases hw with
  | single _ _ hadj =>
    have := Graph.initialPath_get g i j hadj.1 hadj.2.1
    simp only [Paths.dist]
    rw [this]
    split
    · exact Nat.zero_le _
    · rw [if_pos hadj.2.2]
  | cons _ m _ d hadj hm _ => exact absurd hm (Nat.not_lt_zero m)

theorem Graph.rounds_spec (g : Graph) (m : Nat) (hm : m ≤ g.numVertices) :
    ((List.range m).foldl (Graph.round g.numVertices)
      ⟨Graph.initialPath g, Matrix.fill g.numVertices g.numVertices NullVertex⟩).Sound g ∧
    ((List.range m).foldl (Graph.round g.numVertices)
      ⟨Graph.initialPath g, Matrix.fill g.numVertices g.numVertices NullVertex⟩).Complete g m := by
  induction m with
  | zero => exact ⟨Graph.initial_sound g, Graph.initial_complete g⟩
  | succ m ih =>
    obtain ⟨hs, hc⟩ := ih (by omega)
    rw [List.range_succ, List.foldl_append]
    simp only [List.foldl_cons, List.foldl_nil]
    obtain ⟨s1, le1, tri1⟩ := Graph.round_spec g m (by omega) _ hs
    exact ⟨s1, Graph.complete_step g m _ _ hc le1 tri1⟩

/-- The result of the algorithm is sound, and no walk in the graph is shorter
than the distance stored for its end points. -/
theorem Graph.allPairsShortestPaths_spec (g : Graph) :
    (Graph.allPairsShortestPaths g).Sound g ∧
    (Graph.allPairsShortestPaths g).Complete g g.numVertices :=
  Graph.rounds_spec g g.numVertices (Nat.le_refl _)

end FloydWarshall

section Walks

theorem Graph.linked_cons (g : Graph) (a : Vertex) (l : VertexList) :
    g.Linked (a :: l) ↔ (∀ b, l.head? = some b → g.connected a b = true) ∧ g.Linked l := by
  cases l with
  | nil => simp [Graph.Linked]
  | cons b rest => simp [Graph.Linked]

theorem Graph.linked_append (g : Graph) (l1 l2 : VertexList) (h : g.Linked (l1 ++ l2)) :
    g.Linked l1 ∧ g.Linked l2 := by
  induction l1 with
  | nil => exact ⟨trivial, h⟩
  | cons a rest ih =>
    rw [List.cons_append, Graph.linked_cons] at h
    obtain ⟨h1, h2⟩ := ih h.2
    refine ⟨?_, h2⟩
    rw [Graph.linked_cons]
    refine ⟨?_, h1⟩
    intro b hb
    apply h.1 b
    cases rest with
    | nil => simp at hb
    | cons c rest2 => simpa using hb

theorem Graph.linked_join (g : Graph) (l1 l2 : VertexList) (x : Vertex)
    (h1 : g.Linked (l1 ++ [x])) (h2 : g.Linked (x :: l2)) : g.Linked (l1 ++ x :: l2) := by
  induction l1 with
  | nil => exact h2
  | cons a rest ih =>
    rw [List.cons_append, Graph.linked_cons] at h1 ⊢
    refine ⟨?_, ih h1.2⟩
    intro b hb
    apply h1.1 b
    cases rest with
    | nil => simpa using hb
    | cons c rest2 => simpa using hb

theorem Graph.isWalk_join (g : Graph) (l1 l2 : VertexList) (x : Vertex)
    (h1 : g.IsWalk (l1 ++ [x])) (h2 : g.IsWalk (x :: l2)) : g.IsWalk (l1 ++ x :: l2) := by
  refine ⟨?_, Graph.linked_join g l1 l2 x h1.2 h2.2⟩
  intro v hv
  rcases List.mem_append.1 hv with h | h
  · exact h1.1 v (List.mem_append_left _ h)
  · exact h2.1 v h

theorem Graph.isWalk_append (g : Graph) (l1 l2 : VertexList) (h : g.IsWalk (l1 ++ l2)) :
    g.IsWalk l1 ∧ g.IsWalk l2 :=
  ⟨⟨fun v hv => h.1 v (List.mem_append_left _ hv), (Graph.linked_append g l1 l2 h.2).1⟩,
   ⟨fun v hv => h.1 v (List.mem_append_right _ hv), (Graph.linked_append g l1 l2 h.2).2⟩⟩

/-- A walk given as a list is a walk in the sense of `Graph.Walk`. -/
theorem Graph.walk_of_isWalk (g : Graph) :
    ∀ (w : List Nat) (a b : Nat), g.IsWalk (a :: w ++ [b]) →
      g.Walk g.numVertices (a - 1) (b - 1) (w.length + 1) := by
  intro w
  induction w with
  | nil =>
    intro a b h
    have ha : 1 ≤ a ∧ a ≤ g.numVertices := h.1 a (by simp)
    have hb : 1 ≤ b ∧ b ≤ g.numVertices := h.1 b (by simp)
    have hc : g.connected a b = true := by
      have := h.2
      simp only [List.nil_append, List.cons_append, Graph.Linked] at this
      exact this.1
    apply Graph.Walk.single
    refine ⟨by omega, by omega, ?_⟩
    have e1 : a - 1 + 1 = a := by omega
    have e2 : b - 1 + 1 = b := by omega
    rw [e1, e2]
    exact hc
  | cons c rest ih =>
    intro a b h
    have ha : 1 ≤ a ∧ a ≤ g.numVertices := h.1 a (by simp)
    have hc : 1 ≤ c ∧ c ≤ g.numVertices := h.1 c (by simp)
    have hl : g.connected a c = true ∧ g.Linked (c :: rest ++ [b]) := by
      have := h.2
      simp only [List.cons_append, Graph.Linked] at this
      exact this
    have hrest : g.IsWalk (c :: rest ++ [b]) :=
      ⟨fun v hv => h.1 v (by
        simp only [List.cons_append, List.mem_cons] at hv ⊢
        exact Or.inr hv), hl.2⟩
    have := ih c b hrest
    simp only [List.length_cons]
    apply Graph.Walk.cons (a - 1) (c - 1) (b - 1) (rest.length + 1) _ (by omega) this
    refine ⟨by omega, by omega, ?_⟩
    have e1 : a - 1 + 1 = a := by omega
    have e2 : c - 1 + 1 = c := by omega
    rw [e1, e2]
    exact hl.1

/-- A list with different first and last element has both, and an inner
part. -/
theorem list_split_ends {α : Type} (q : List α) (s e : α) (hs : q.head? = some s)
    (he : q.getLast? = some e) (hne : s ≠ e) : ∃ w, q = s :: w ++ [e] := by
  cases q with
  | nil => simp at hs
  | cons a t =>
    simp only [List.head?_cons, Option.some.injEq] at hs
    subst hs
    rcases List.getLast?_eq_some_iff.1 he with ⟨ys, hys⟩
    cases ys with
    | nil =>
      simp only [List.nil_append, List.cons.injEq] at hys
      exact absurd hys.1 hne
    | cons b ys2 =>
      simp only [List.cons_append, List.cons.injEq] at hys
      exact ⟨ys2, by rw [hys.2]; rfl⟩

end Walks

section PathReconstruction

theorem IDX_succ (i : Nat) : IDX (i + 1) = i := rfl

/-- On sound matrices the recursion of `findPath` returns whenever its depth
bound is at least the stored distance, and the result is the inner part of a
walk that is no longer than the stored distance. -/
theorem Paths.findPath_spec (g : Graph) (p : Paths) (hs : p.Sound g) :
    ∀ (d i j fuel : Nat), i < g.numVertices → j < g.numVertices → i ≠ j →
      p.dist i j ≤ d → d < DIST_INF → d ≤ fuel →
      ∃ mid, p.findPath fuel (i + 1) (j + 1) = some mid ∧
        g.IsWalk ((i + 1) :: mid ++ [j + 1]) ∧ mid.length + 1 ≤ p.dist i j := by
  intro d
  induction d using Nat.strong_induction_on with
  | _ d ih =>
    intro i j fuel hi hj hij hd hinf hfuel
    have hpos := hs.pos i j hi hj hij
    cases fuel with
    | zero => omega
    | succ fuel =>
      simp only [Paths.findPath, IDX_succ]
      by_cases hn : p.next i j = 0
      · have hn2 : Matrix.get NullVertex p.m_next i j = NullVertex := hn
        rw [if_pos hn2]
        refine ⟨[], rfl, ?_, ?_⟩
        · rcases hs.direct i j hi hj hij hn with h | h
          · omega
          · refine ⟨?_, ?_⟩
            · intro v hv
              simp only [List.cons_append, List.nil_append, List.mem_cons, List.mem_singleton,
                List.not_mem_nil, or_false] at hv
              rcases hv with h1 | h1
              · rw [h1]
                omega
              · rw [h1]
                omega
            · simp only [List.nil_append, Graph.Linked, and_true]
              exact h.2.2.2
        · simp only [List.length_nil]
          omega
      · have hn2 : ¬ Matrix.get NullVertex p.m_next i j = NullVertex := hn
        rw [if_neg hn2]
        obtain ⟨m, hm, hm1, hm2, hm3, hm4, hm5⟩ := hs.via i j hi hj hij hn
        have hm1b : Matrix.get NullVertex p.m_next i j = m + 1 := hm1
        rw [hm1b]
        have p1 := hs.pos i m hi hm (fun h => hm2 h.symm)
        have p2 := hs.pos m j hm hj hm3
        obtain ⟨mid1, e1, w1, l1⟩ := ih (p.dist i m) (by omega) i m fuel hi hm
          (fun h => hm2 h.symm) (Nat.le_refl _) (by omega) (by omega)
        obtain ⟨mid2, e2, w2, l2⟩ := ih (p.dist m j) (by omega) m j fuel hm hj
          hm3 (Nat.le_refl _) (by omega) (by omega)
        rw [e1, e2]
        refine ⟨mid1 ++ [m + 1] ++ mid2, rfl, ?_, ?_⟩
        · have := Graph.isWalk_join g ((i + 1) :: mid1) (mid2 ++ [j + 1]) (m + 1) w1 w2
          simpa using this
        · simp only [List.length_append, List.length_cons, List.length_nil]
          omega

theorem getLast?_cons_of_ne_nil {α : Type} (x : α) (t : List α) (h : t ≠ []) :
    (x :: t).getLast? = t.getLast? := by
  cases t with
  | nil => exact absurd rfl h
  | cons a t2 => simp [List.getLast?_cons_cons]

/-- A walk that visits a vertex twice can be shortened. -/
theorem Graph.isWalk_shorten (g : Graph) :
    ∀ w : List Nat, g.IsWalk w → ¬ w.Nodup →
      ∃ w2 : List Nat, g.IsWalk w2 ∧ w2.head? = w.head? ∧ w2.getLast? = w.getLast? ∧
        w2.length < w.length := by
  intro w
  induction w with
  | nil =>
    intro _ h
    exact absurd List.nodup_nil h
  | cons x t ih =>
    intro hw hnd
    rw [List.nodup_cons, not_and_or, not_not] at hnd
    rcases hnd with hx | ht
    · obtain ⟨l2, l3, rfl⟩ := List.append_of_mem hx
      refine ⟨x :: l3, ?_, rfl, ?_, ?_⟩
      · have := Graph.isWalk_append g (x :: l2) (x :: l3) (by simpa using hw)
        exact this.2
      · have e : x :: (l2 ++ x :: l3) = (x :: l2) ++ (x :: l3) := by simp
        rw [e, List.getLast?_append]
        cases h : (x :: l3).getLast? with
        | none => simp at h
        | some v => rfl
      · simp only [List.length_cons, List.length_append]
        omega
    · have hwt : g.IsWalk t := (Graph.isWalk_append g [x] t (by simpa using hw)).2
      obtain ⟨t2, hw2, hh, hl, hlen⟩ := ih hwt ht
      have htne : t ≠ [] := by
        intro h
        rw [h] at ht
        exact ht List.nodup_nil
      have ht2ne : t2 ≠ [] := by
        intro h
        rw [h] at hh
        cases t with
        | nil => exact htne rfl
        | cons a t3 => simp at hh
      refine ⟨x :: t2, ?_, rfl, ?_, ?_⟩
      · refine ⟨?_, ?_⟩
        · intro v hv
          rcases List.mem_cons.1 hv with h | h
          · rw [h]
            exact hw.1 x (List.mem_cons_self _ _)
          · exact hw2.1 v h
        · rw [Graph.linked_cons]
          refine ⟨?_, hw2.2⟩
          intro b hb
          rw [hh] at hb
          exact ((Graph.linked_cons g x t).1 hw.2).1 b hb
      · rw [getLast?_cons_of_ne_nil x t2 ht2ne, getLast?_cons_of_ne_nil x t htne, hl]
      · simp only [List.length_cons]
        omega

/-- Every walk can be replaced by one without repeated vertices between the
same end points. -/
theorem Graph.isWalk_nodup_exists (g : Graph) :
    ∀ (len : Nat) (w : List Nat), w.length ≤ len → g.IsWalk w →
      ∃ w2 : List Nat, g.IsWalk w2 ∧ w2.Nodup ∧ w2.head? = w.head? ∧
        w2.getLast? = w.getLast? ∧ w2.length ≤ w.length := by
  intro len
  induction len with
  | zero =>
    intro w hlen hw
    have : w = [] := List.length_eq_zero.1 (by omega)
    exact ⟨w, hw, by rw [this]; exact List.nodup_nil, rfl, rfl, Nat.le_refl _⟩
  | succ len ih =>
    intro w hlen hw
    by_cases hnd : w.Nodup
    · exact ⟨w, hw, hnd, rfl, rfl, Nat.le_refl _⟩
    · obtain ⟨w1, hw1, hh1, hl1, hlen1⟩ := Graph.isWalk_shorten g w hw hnd
      obtain ⟨w2, hw2, hnd2, hh2, hl2, hlen2⟩ := ih w1 (by omega) hw1
      exact ⟨w2, hw2, hnd2, hh2.trans hh1, hl2.trans hl1, by omega⟩

/-- A walk without repeated vertices has at most as many vertices as the
graph. -/
theorem Graph.isWalk_nodup_length (g : Graph) (w : List Nat) (hw : g.IsWalk w)
    (hnd : w.Nodup) : w.length ≤ g.numVertices := by
  have hsub : w ⊆ List.range' 1 g.numVertices := by
    intro v hv
    have := hw.1 v hv
    rw [List.mem_range']
    exact ⟨v - 1, by omega, by omega⟩
  have := (List.subperm_of_subset hnd hsub).length_le
  simpa using this

/-- No walk between two different vertices has fewer edges than the stored
distance. -/
theorem Graph.dist_le_of_isPath (g : Graph) (s e : Nat) (hne : s ≠ e) (q : List Nat)
    (hq : g.IsPath s e q) :
    (Graph.allPairsShortestPaths g).dist (s - 1) (e - 1) + 1 ≤ q.length := by
  obtain ⟨w, rfl⟩ := list_split_ends q s e hq.2.1 hq.2.2 hne
  have h1 := Graph.walk_of_isWalk g w s e hq.1
  have h2 := (Graph.allPairsShortestPaths_spec g).2 (s - 1) (e - 1) (w.length + 1) h1
  simp only [List.length_append, List.length_cons, List.length_nil]
  omega

theorem Graph.isPath_ends (g : Graph) (s e : Nat) (mid : List Nat)
    (h : g.IsWalk (s :: mid ++ [e])) : g.IsPath s e (s :: mid ++ [e]) :=
  ⟨h, by simp, List.getLast?_concat (s :: mid)⟩

/-- For two different vertices with a finite stored distance `getPath`
returns a shortest walk from the first to the second, without repeated
vertices. -/
theorem Graph.getPath_finite (g : Graph) (s e : Nat)
    (hs : 1 ≤ s ∧ s ≤ g.numVertices) (he : 1 ≤ e ∧ e ≤ g.numVertices) (hne : s ≠ e)
    (hfin : (Graph.allPairsShortestPaths g).dist (s - 1) (e - 1) ≠ DIST_INF) :
    ∃ mid : List Nat, (Graph.allPairsShortestPaths g).getPath s e = some (s :: mid ++ [e]) ∧
      g.IsWalk (s :: mid ++ [e]) ∧ (s :: mid ++ [e]).Nodup ∧
      ∀ q : List Nat, g.IsPath s e q → (s :: mid ++ [e]).length ≤ q.length := by
  have hsound := (Graph.allPairsShortestPaths_spec g).1
  have hi : s - 1 < g.numVertices := by omega
  have hj : e - 1 < g.numVertices := by omega
  have hij : s - 1 ≠ e - 1 := by omega
  have hlt : (Graph.allPairsShortestPaths g).dist (s - 1) (e - 1) < DIST_INF :=
    Nat.lt_of_le_of_ne (hsound.le_inf _ _ hi hj) hfin
  have es : s - 1 + 1 = s := by omega
  have ee : e - 1 + 1 = e := by omega
  -- what every sufficient depth bound gives
  have key : ∀ fuel, (Graph.allPairsShortestPaths g).dist (s - 1) (e - 1) ≤ fuel →
      ∃ mid : List Nat, (Graph.allPairsShortestPaths g).findPath fuel s e = some mid ∧
        g.IsWalk (s :: mid ++ [e]) ∧ (s :: mid ++ [e]).Nodup ∧
        ∀ q : List Nat, g.IsPath s e q → (s :: mid ++ [e]).length ≤ q.length := by
    intro fuel hfuel
    obtain ⟨mid, e1, w1, l1⟩ := Paths.findPath_spec g _ hsound _ (s - 1) (e - 1) fuel hi hj hij
      (Nat.le_refl _) hlt hfuel
    rw [es, ee] at e1 w1
    have hmin : ∀ q : List Nat, g.IsPath s e q → (s :: mid ++ [e]).length ≤ q.length := by
      intro q hq
      have := Graph.dist_le_of_isPath g s e hne q hq
      simp only [List.length_append, List.length_cons, List.length_nil]
      omega
    refine ⟨mid, e1, w1, ?_, hmin⟩
    by_contra hnd
    obtain ⟨w2, hw2, hh, hl, hlen⟩ := Graph.isWalk_shorten g _ w1 hnd
    have hp2 : g.IsPath s e w2 :=
      ⟨hw2, by rw [hh]; simp, by rw [hl]; exact List.getLast?_concat (s :: mid)⟩
    have := hmin w2 hp2
    omega
  obtain ⟨mid0, _, w0, nd0, _⟩ := key _ (Nat.le_refl _)
  have hlen0 := Graph.isWalk_nodup_length g _ w0 nd0
  have hd0 := Graph.dist_le_of_isPath g s e hne _ (Graph.isPath_ends g s e mid0 w0)
  have hrows : (Graph.allPairsShortestPaths g).m_path.m_rows = g.numVertices := hsound.rows
  obtain ⟨mid, e1, w1, nd1, min1⟩ := key g.numVertices (by omega)
  refine ⟨mid, ?_, w1, nd1, min1⟩
  have hfin2 : ¬ Matrix.get DIST_INF (Graph.allPairsShortestPaths g).m_path (IDX s) (IDX e) =
      DIST_INF := hfin
  simp only [Paths.getPath, hfin2, if_false, hrows, e1, Option.map_some']
  simp

/-- With an infinite stored distance `getPath` returns the empty list. -/
theorem Graph.getPath_infinite (g : Graph) (s e : Nat)
    (hinf : (Graph.allPairsShortestPaths g).dist (s - 1) (e - 1) = DIST_INF) :
    (Graph.allPairsShortestPaths g).getPath s e = some [] := by
  have hinf2 : Matrix.get DIST_INF (Graph.allPairsShortestPaths g).m_path (IDX s) (IDX e) =
      DIST_INF := hinf
  simp [Paths.getPath, hinf2]

/-- In a graph with at most `DIST_INF` vertices, vertices joined by a walk
have a finite stored distance. -/
theorem Graph.dist_finite_of_isPath (g : Graph) (hn : g.numVertices ≤ DIST_INF) (s e : Nat)
    (hne : s ≠ e) (q : List Nat) (hq : g.IsPath s e q) :
    (Graph.allPairsShortestPaths g).dist (s - 1) (e - 1) ≠ DIST_INF := by
  obtain ⟨w2, hw2, hnd2, hh2, hl2, _⟩ := Graph.isWalk_nodup_exists g q.length q (Nat.le_refl _) hq.1
  have hp2 : g.IsPath s e w2 := ⟨hw2, hh2.trans hq.2.1, hl2.trans hq.2.2⟩
  have h1 := Graph.dist_le_of_isPath g s e hne w2 hp2
  have h2 := Graph.isWalk_nodup_length g w2 hw2 hnd2
  omega

end PathReconstruction

section GraphClaims

/-- C4: for every graph (with at most DIST_INF vertices, so that distances
fit) and every pair of distinct vertices s, e in 1..n,
allPairsShortestPaths().getPath(s, e) returns, and its result is the empty
list iff no walk leads from s to e; otherwise it starts with s, ends with e,
has every consecutive pair connected, and no walk from s to e in the graph has
fewer vertices (so none has fewer edges). -/
theorem Graph.C4_getPath_is_shortest_path (g : Graph) (s e : Nat)
    (hn : g.numVertices ≤ DIST_INF)
    (hs : 1 ≤ s ∧ s ≤ g.numVertices) (he : 1 ≤ e ∧ e ≤ g.numVertices) (hne : s ≠ e) :
    ∃ p : List Nat, (Graph.allPairsShortestPaths g).getPath s e = some p ∧
      (p = [] ↔ ¬ ∃ q : List Nat, g.IsPath s e q) ∧
      (p ≠ [] → p.head? = some s ∧ p.getLast? = some e ∧ g.IsWalk p ∧
        ∀ q : List Nat, g.IsPath s e q → p.length ≤ q.length) := by
  by_cases hinf : (Graph.allPairsShortestPaths g).dist (s - 1) (e - 1) = DIST_INF
  · refine ⟨[], Graph.getPath_infinite g s e hinf, ?_, fun h => absurd rfl h⟩
    refine ⟨fun _ => ?_, fun _ => rfl⟩
    rintro ⟨q, hq⟩
    exact Graph.dist_finite_of_isPath g hn s e hne q hq hinf
  · obtain ⟨mid, e1, w1, _, min1⟩ := Graph.getPath_finite g s e hs he hne hinf
    refine ⟨s :: mid ++ [e], e1, ?_, ?_⟩
    · refine ⟨fun h => ?_, fun h => ?_⟩
      · simp at h
      · exact absurd ⟨s :: mid ++ [e], Graph.isPath_ends g s e mid w1⟩ h
    · intro _
      exact ⟨by simp, List.getLast?_concat (s :: mid), w1, min1⟩

/-- Witness of C4: the demo graph, from vertex 1 to vertex 5. -/
theorem Graph.C4_witness :
    (Graph.demoGraph.numVertices ≤ DIST_INF ∧
      (1 ≤ 1 ∧ 1 ≤ Graph.demoGraph.numVertices) ∧
      (1 ≤ 5 ∧ 5 ≤ Graph.demoGraph.numVertices) ∧ 1 ≠ 5) ∧
    ∃ p : List Nat, (Graph.allPairsShortestPaths Graph.demoGraph).getPath 1 5 = some p ∧
      (p = [] ↔ ¬ ∃ q : List Nat, Graph.demoGraph.IsPath 1 5 q) ∧
      (p ≠ [] → p.head? = some 1 ∧ p.getLast? = some 5 ∧ Graph.demoGraph.IsWalk p ∧
        ∀ q : List Nat, Graph.demoGraph.IsPath 1 5 q → p.length ≤ q.length) :=
  ⟨by decide, Graph.C4_getPath_is_shortest_path Graph.demoGraph 1 5 (by decide)
    (by decide) (by decide) (by decide)⟩

/-- The third output of `run_graph`: the path found from 1 to 5 in the demo
graph. -/
theorem Graph.demoGraph_getPath :
    (Graph.allPairsShortestPaths Graph.demoGraph).getPath 1 5 = some [1, 2, 5] := by
  decide!

end GraphClaims

/-! ### Selection of the basis -/

section Selection

theorem foldl_add_eq_sum {α : Type} (f : α → Nat) (l : List α) (init : Nat) :
    l.foldl (fun acc c => acc + f c) init = init + (l.map f).sum := by
  induction l generalizing init with
  | nil => simp
  | cons a rest ih =>
    simp only [List.foldl_cons, List.map_cons, List.sum_cons, ih]
    omega

theorem parity_eq_sum (cols : Nat) (v : List Bool) (s : BitMatrix) (i : Nat) :
    parity cols v s i =
      ((List.range cols).map
        (fun c => if v.getD c false && s.get false i c then 1 else 0)).sum % 2 := by
  simp only [parity, foldl_add_eq_sum, Nat.zero_add]

theorem innerProduct_eq_parity (matHS : BitMatrix) (r : Nat) (s : BitMatrix) (i : Nat) :
    innerProduct matHS r s i = parity matHS.m_cols (matHS.m_matrix.getD r []) s i := rfl

theorem getD_xorVec (u v : List Bool) (h : u.length = v.length) (c : Nat) :
    (xorVec u v).getD c false = xor (u.getD c false) (v.getD c false) := by
  simp only [xorVec, List.getD_eq_getElem?_getD, List.getElem?_zipWith]
  by_cases hc : c < u.length
  · have hc2 : c < v.length := by omega
    simp [List.getElem?_eq_getElem hc, List.getElem?_eq_getElem hc2]
  · have h1 : u[c]? = none := List.getElem?_eq_none (by omega)
    have h2 : v[c]? = none := List.getElem?_eq_none (by omega)
    simp [h1, h2]

theorem length_xorVec (u v : List Bool) (m : Nat) (hu : u.length = m) (hv : v.length = m) :
    (xorVec u v).length = m := by
  simp [xorVec, hu, hv]

theorem sum_mod_two_add (h h1 h2 : Nat → Nat) (l : List Nat)
    (hp : ∀ c, h c % 2 = (h1 c + h2 c) % 2) :
    (l.map h).sum % 2 = ((l.map h1).sum % 2 + (l.map h2).sum % 2) % 2 := by
  induction l with
  | nil => simp
  | cons a rest ih =>
    simp only [List.map_cons, List.sum_cons]
    have := hp a
    omega

theorem sum_xor_mod_two (f1 f2 f3 : Nat → Bool) (l : List Nat) :
    (l.map (fun c => if xor (f1 c) (f2 c) && f3 c then 1 else 0)).sum % 2 =
      ((l.map (fun c => if f1 c && f3 c then 1 else 0)).sum % 2 +
        (l.map (fun c => if f2 c && f3 c then 1 else 0)).sum % 2) % 2 := by
  apply sum_mod_two_add
  intro c
  cases f1 c <;> cases f2 c <;> cases f3 c <;> rfl

/-- The inner product is additive over GF(2) in its first argument. -/
theorem parity_xorVec (cols : Nat) (u v : List Bool) (h : u.length = v.length)
    (s : BitMatrix) (i : Nat) :
    parity cols (xorVec u v) s i = (parity cols u s i + parity cols v s i) % 2 := by
  simp only [parity_eq_sum, getD_xorVec u v h]
  exact sum_xor_mod_two _ _ _ _

theorem parity_zero (cols m : Nat) (s : BitMatrix) (i : Nat) :
    parity cols (List.replicate m false) s i = 0 := by
  rw [parity_eq_sum]
  have : ∀ c, (List.replicate m false).getD c false = false := by
    intro c
    simp only [List.getD_eq_getElem?_getD, List.getElem?_replicate]
    split <;> rfl
  simp [this]

theorem length_xorAll (m : Nat) (vecs : List (List Bool)) (h : ∀ v ∈ vecs, v.length = m) :
    (xorAll m vecs).length = m := by
  induction vecs with
  | nil => simp [xorAll]
  | cons v rest ih =>
    have h1 := ih (fun w hw => h w (List.mem_cons_of_mem _ hw))
    simp only [xorAll, List.foldr_cons] at h1 ⊢
    exact length_xorVec _ _ m (h v (List.mem_cons_self _ _)) h1

theorem parity_xorAll (cols m : Nat) (vecs : List (List Bool))
    (h : ∀ v ∈ vecs, v.length = m) (s : BitMatrix) (i : Nat) :
    parity cols (xorAll m vecs) s i = (vecs.map (fun v => parity cols v s i)).sum % 2 := by
  induction vecs with
  | nil => simp [xorAll, parity_zero]
  | cons v rest ih =>
    have hrest : ∀ w ∈ rest, w.length = m := fun w hw => h w (List.mem_cons_of_mem _ hw)
    have h1 := ih hrest
    have hl := length_xorAll m rest hrest
    have hv := h v (List.mem_cons_self _ _)
    have e : xorAll m (v :: rest) = xorVec v (xorAll m rest) := rfl
    rw [e, parity_xorVec cols v (xorAll m rest) (by omega), h1]
    simp only [List.map_cons, List.sum_cons]
    omega

theorem sum_eq_one_of_single (f : Nat → Nat) (l : List Nat) (t : Nat) (hnd : l.Nodup)
    (ht : t ∈ l) (h1 : f t = 1) (h0 : ∀ x ∈ l, x ≠ t → f x = 0) : (l.map f).sum = 1 := by
  induction l with
  | nil => simp at ht
  | cons a rest ih =>
    rw [List.nodup_cons] at hnd
    simp only [List.map_cons, List.sum_cons]
    by_cases ha : a = t
    · subst ha
      have : (rest.map f).sum = 0 := by
        apply List.sum_eq_zero
        intro x hx
        obtain ⟨y, hy, rfl⟩ := List.mem_map.1 hx
        apply h0 y (List.mem_cons_of_mem _ hy)
        intro hya
        rw [hya] at hy
        exact hnd.1 hy
      omega
    · have hmem : t ∈ rest := by
        rcases List.mem_cons.1 ht with h | h
        · exact absurd h.symm ha
        · exact h
      have := ih hnd.2 hmem (fun x hx hxt => h0 x (List.mem_cons_of_mem _ hx) hxt)
      have := h0 a (List.mem_cons_self _ _) ha
      omega

theorem exists_max_of_ne_nil (l : List Nat) (h : l ≠ []) : ∃ t ∈ l, ∀ x ∈ l, x ≤ t := by
  induction l with
  | nil => exact absurd rfl h
  | cons a rest ih =>
    by_cases hr : rest = []
    · subst hr
      exact ⟨a, List.mem_cons_self _ _, fun x hx => by simp at hx; omega⟩
    · obtain ⟨t, ht, hmax⟩ := ih hr
      by_cases hat : a ≤ t
      · refine ⟨t, List.mem_cons_of_mem _ ht, ?_⟩
        intro x hx
        rcases List.mem_cons.1 hx with h1 | h1
        · omega
        · exact hmax x h1
      · refine ⟨a, List.mem_cons_self _ _, ?_⟩
        intro x hx
        rcases List.mem_cons.1 hx with h1 | h1
        · omega
        · have := hmax x h1
          omega

/-- Rows of the Horton matrix that were each the first row with inner product
1 with some vector are linearly independent over GF(2): no non-empty
collection of them sums to zero. -/
theorem selected_rows_independent (matHS : BitMatrix) (m : Nat) (ts : List Nat)
    (hne : ts ≠ []) (hnd : ts.Nodup)
    (hlen : ∀ t ∈ ts, (matHS.m_matrix.getD t []).length = m)
    (hsel : ∀ t ∈ ts, ∃ (s : BitMatrix) (i : Nat), innerProduct matHS t s i = 1 ∧
      ∀ r, r < t → innerProduct matHS r s i ≠ 1) :
    xorAll m (ts.map (fun t => matHS.m_matrix.getD t [])) ≠ List.replicate m false := by
  obtain ⟨t, ht, hmax⟩ := exists_max_of_ne_nil ts hne
  obtain ⟨s, i, h1, h0⟩ := hsel t ht
  intro hzero
  have hp := parity_xorAll matHS.m_cols m (ts.map (fun t => matHS.m_matrix.getD t []))
    (by
      intro v hv
      obtain ⟨x, hx, rfl⟩ := List.mem_map.1 hv
      exact hlen x hx) s i
  rw [hzero, parity_zero, List.map_map] at hp
  have hsum := sum_eq_one_of_single
    (fun x => parity matHS.m_cols (matHS.m_matrix.getD x []) s i) ts t hnd ht h1
    (by
      intro x hx hxt
      have hlt : x < t := Nat.lt_of_le_of_ne (hmax x hx) hxt
      have h2 := h0 x hlt
      rw [innerProduct_eq_parity] at h2
      have h3 : parity matHS.m_cols (matHS.m_matrix.getD x []) s i < 2 := by
        rw [parity_eq_sum]
        exact Nat.mod_lt _ (by decide)
      show parity matHS.m_cols (matHS.m_matrix.getD x []) s i = 0
      omega)
  have e : ((fun v => parity matHS.m_cols v s i) ∘ fun t => matHS.m_matrix.getD t []) =
      fun x => parity matHS.m_cols (matHS.m_matrix.getD x []) s i := rfl
  rw [e, hsum] at hp
  exact absurd hp (by decide)

theorem selectStep_selected (matHS : BitMatrix) (m : Nat) (st : BitMatrix × List Nat)
    (i : Nat) (h : Selected matHS st.2) : Selected matHS (selectStep matHS m st i).2 := by
  unfold selectStep
  cases hf : findCycle matHS st.1 i with
  | none => exact h
  | some ci =>
    simp only
    by_cases hc : st.2.contains ci = true
    · rw [if_pos hc]
      exact h
    · rw [if_neg hc]
      have hnot : ci ∉ st.2 := by
        intro hmem
        apply hc
        simpa using hmem
      simp only [findCycle, List.find?_range_eq_some, decide_eq_true_eq, List.mem_range,
        Bool.not_eq_eq_eq_not, Bool.not_true, decide_eq_false_iff_not] at hf
      refine ⟨?_, ?_⟩
      · exact List.Nodup.append h.1 (List.nodup_singleton ci)
          (by
            intro x hx1 hx2
            simp only [List.mem_singleton] at hx2
            rw [hx2] at hx1
            exact hnot hx1)
      · intro x hx
        rcases List.mem_append.1 hx with h1 | h1
        · exact h.2 x h1
        · simp only [List.mem_singleton] at h1
          subst h1
          exact ⟨hf.2.1, st.1, i, hf.1, hf.2.2⟩

theorem foldl_selectStep_selected (matHS : BitMatrix) (m : Nat) (l : List Nat) :
    ∀ st : BitMatrix × List Nat, Selected matHS st.2 →
      Selected matHS (l.foldl (selectStep matHS m) st).2 := by
  induction l with
  | nil => exact fun st h => h
  | cons i rest ih =>
    intro st h
    exact ih _ (selectStep_selected matHS m st i h)

/-- The selected indices are distinct rows of the Horton matrix, each one the
first row with inner product 1 with the vector it was found for. -/
theorem selectCycles_selected (matHS : BitMatrix) (m : Nat) :
    Selected matHS (selectCycles matHS m) :=
  foldl_selectStep_selected matHS m (List.range m) (initialS m, [])
    ⟨List.nodup_nil, fun ci hci => absurd hci (List.not_mem_nil ci)⟩

end Selection

/-! ### Graphs made by the constructor, connect and disconnect -/

section BuiltGraphs

theorem Matrix.get_fill_false (rows cols i j : Nat) :
    Matrix.get false (Matrix.fill rows cols false) i j = false := by
  simp only [Matrix.get, Matrix.fill, List.getD_eq_getElem?_getD, List.getElem?_replicate]
  by_cases hi : i < rows
  · by_cases hj : j < cols
    · simp [hi, hj]
    · simp [hi, hj]
  · simp [hi]

theorem Graph.wellFormed_new (n : Nat) : (Graph.new n).WellFormed :=
  ⟨Matrix.square_fill n false, rfl, fun i j => by
    simp only [Graph.new]
    rw [Matrix.get_fill_false, Matrix.get_fill_false]⟩

theorem Graph.wellFormed_assign (g g2 : Graph) (v1 v2 : Nat) (value : Bool)
    (h : g.WellFormed) (ha : Graph.assign g v1 v2 value = some g2) : g2.WellFormed := by
  unfold Graph.assign at ha
  by_cases hnull : v1 ≠ NullVertex ∧ v2 ≠ NullVertex
  · rw [if_pos hnull] at ha
    by_cases hr : (g.m_matrix.inRange (IDX v2) (IDX v1) &&
        g.m_matrix.inRange (IDX v1) (IDX v2)) = true
    · rw [if_pos hr] at ha
      simp only [Option.some.injEq] at ha
      subst ha
      simp only [Matrix.inRange, Bool.and_eq_true, decide_eq_true_eq] at hr
      have hn : g.m_matrix.m_rows = g.numVertices := rfl
      have hc := h.2.1
      have h1 : IDX v1 < g.numVertices := by omega
      have h2 : IDX v2 < g.numVertices := by omega
      have sq1 := Matrix.square_set g.m_matrix g.numVertices (IDX v2) (IDX v1) value h.1
      have sq2 := Matrix.square_set _ g.numVertices (IDX v1) (IDX v2) value sq1
      have hget : ∀ i j, Matrix.get false
          ((g.m_matrix.set (IDX v2) (IDX v1) value).set (IDX v1) (IDX v2) value) i j =
          if (i = IDX v1 ∧ j = IDX v2) ∨ (i = IDX v2 ∧ j = IDX v1) then value
          else g.m_matrix.get false i j := by
        intro i j
        by_cases c1 : i = IDX v1 ∧ j = IDX v2
        · rw [if_pos (Or.inl c1), c1.1, c1.2]
          exact Matrix.get_set_eq _ _ _ _ _ _ sq1 h1 h2
        · rw [Matrix.get_set_ne _ _ _ _ _ _ _ c1]
          by_cases c2 : i = IDX v2 ∧ j = IDX v1
          · rw [if_pos (Or.inr c2), c2.1, c2.2]
            exact Matrix.get_set_eq _ _ _ _ _ _ h.1 h2 h1
          · rw [Matrix.get_set_ne _ _ _ _ _ _ _ c2, if_neg (by tauto)]
      refine ⟨sq2, hc, ?_⟩
      intro i j
      show Matrix.get false
          ((g.m_matrix.set (IDX v2) (IDX v1) value).set (IDX v1) (IDX v2) value) i j =
        Matrix.get false
          ((g.m_matrix.set (IDX v2) (IDX v1) value).set (IDX v1) (IDX v2) value) j i
      rw [hget i j, hget j i, h.2.2 i j]
      exact if_congr (by tauto) rfl rfl
    · rw [if_neg hr] at ha
      exact Option.noConfusion ha
  · rw [if_neg hnull] at ha
    exact Option.noConfusion ha

theorem Graph.built_wellFormed (g : Graph) (h : Graph.Built g) : g.WellFormed := by
  induction h with
  | new n => exact Graph.wellFormed_new n
  | connect g g2 v1 v2 _ ha ih => exact Graph.wellFormed_assign g g2 v1 v2 true ih ha
  | disconnect g g2 v1 v2 _ ha ih => exact Graph.wellFormed_assign g g2 v1 v2 false ih ha

theorem Graph.connected_symm (g : Graph) (h : g.WellFormed) (v1 v2 : Nat) :
    g.connected v1 v2 = g.connected v2 v1 := by
  unfold Graph.connected
  by_cases c : v1 ≠ NullVertex ∧ v2 ≠ NullVertex
  · rw [if_pos c, if_pos ⟨c.2, c.1⟩]
    exact h.2.2 _ _
  · rw [if_neg c, if_neg (fun c2 => c ⟨c2.2, c2.1⟩)]

theorem makeEdge_of_lt (a b : Nat) (h : a < b) : makeEdge a b = (a, b) := by
  simp only [makeEdge, Prod.mk.injEq]
  exact ⟨Nat.min_eq_left (Nat.le_of_lt h), Nat.max_eq_right (Nat.le_of_lt h)⟩

theorem makeEdge_comm (a b : Nat) : makeEdge a b = makeEdge b a := by
  simp only [makeEdge, Prod.mk.injEq]
  exact ⟨Nat.min_comm a b, Nat.max_comm a b⟩

/-- The pairs in the edge set are the connected pairs of vertices of the
graph with the smaller vertex first. -/
theorem Graph.mem_edgeSet (g : Graph) (a b : Nat) :
    (a, b) ∈ Graph.edgeSet g ↔
      1 ≤ a ∧ a < b ∧ b ≤ g.numVertices ∧ g.connected a b = true := by
  simp only [Graph.edgeSet, List.mem_flatMap, List.mem_map, List.mem_filter,
    List.mem_range'_1]
  constructor
  · rintro ⟨x, hx, y, ⟨hy, hc⟩, he⟩
    rw [makeEdge_of_lt x y (by omega)] at he
    simp only [Prod.mk.injEq] at he
    obtain ⟨rfl, rfl⟩ := he
    exact ⟨by omega, by omega, by omega, hc⟩
  · rintro ⟨h1, h2, h3, h4⟩
    exact ⟨a, by omega, b, ⟨by omega, h4⟩, makeEdge_of_lt a b h2⟩

theorem Graph.mem_edges_iff (g : Graph) (qt : QtOrder) (hqt : qt.Lawful) (a b : Nat) :
    (a, b) ∈ Graph.edges qt g ↔
      1 ≤ a ∧ a < b ∧ b ≤ g.numVertices ∧ g.connected a b = true := by
  rw [← Graph.mem_edgeSet]
  exact (hqt.edge_perm _).mem_iff

end BuiltGraphs

/-! ### Candidate cycles -/

section Cycles

theorem zip_linked (g : Graph) :
    ∀ (l : List Nat) (b z : Nat), g.Linked (b :: l) →
      (∀ y, (b :: l).getLast? = some y → g.connected y z = true) →
      ∀ p ∈ List.zip (b :: l) (l ++ [z]), g.connected p.1 p.2 = true := by
  intro l
  induction l with
  | nil =>
    intro b z _ hlast p hp
    simp only [List.nil_append, List.zip_cons_cons, List.zip_nil_right, List.mem_singleton] at hp
    rw [hp]
    exact hlast b rfl
  | cons c rest ih =>
    intro b z hl hlast p hp
    simp only [List.cons_append, List.zip_cons_cons, List.mem_cons] at hp
    rcases hp with h | h
    · rw [h]
      exact hl.1
    · apply ih c z hl.2 _ p h
      intro y hy
      apply hlast y
      rw [getLast?_cons_of_ne_nil b (c :: rest) (List.cons_ne_nil _ _)]
      exact hy

theorem zip_ne :
    ∀ (l : List Nat) (b z : Nat), (b :: l).Nodup → z ∉ b :: l →
      ∀ p ∈ List.zip (b :: l) (l ++ [z]), p.1 ≠ p.2 := by
  intro l
  induction l with
  | nil =>
    intro b z _ hz p hp
    simp only [List.nil_append, List.zip_cons_cons, List.zip_nil_right, List.mem_singleton] at hp
    rw [hp]
    intro h
    apply hz
    simp only [List.mem_singleton]
    exact h.symm
  | cons c rest ih =>
    intro b z hnd hz p hp
    simp only [List.cons_append, List.zip_cons_cons, List.mem_cons] at hp
    rw [List.nodup_cons] at hnd
    rcases hp with h | h
    · rw [h]
      intro hbc
      apply hnd.1
      simp only at hbc
      rw [hbc]
      exact List.mem_cons_self _ _
    · exact ih c z hnd.2 (fun hm => hz (List.mem_cons_of_mem _ hm)) p h

theorem cyclePairs_mem (c : List Nat) (p : Nat × Nat) (hp : p ∈ cyclePairs c) :
    p.1 ∈ c ∧ p.2 ∈ c := by
  cases c with
  | nil => simp [cyclePairs] at hp
  | cons a rest =>
    simp only [cyclePairs] at hp
    have h := List.of_mem_zip hp
    refine ⟨h.1, ?_⟩
    rcases List.mem_append.1 h.2 with h2 | h2
    · exact List.mem_cons_of_mem _ h2
    · simp only [List.mem_singleton] at h2
      rw [h2]
      exact List.mem_cons_self _ _

/-- In a list without repetition of at least two elements, the members of a
cycle pair are different. -/
theorem cyclePairs_ne (c : List Nat) (hnd : c.Nodup) (hlen : 2 ≤ c.length)
    (p : Nat × Nat) (hp : p ∈ cyclePairs c) : p.1 ≠ p.2 := by
  cases c with
  | nil => simp [cyclePairs] at hp
  | cons a rest =>
    cases rest with
    | nil => simp at hlen
    | cons b rest2 =>
      simp only [cyclePairs, List.cons_append, List.zip_cons_cons, List.mem_cons] at hp
      rw [List.nodup_cons] at hnd
      rcases hp with h | h
      · rw [h]
        intro hab
        apply hnd.1
        simp only at hab
        rw [hab]
        exact List.mem_cons_self _ _
      · exact zip_ne rest2 b a hnd.2 hnd.1 p h

/-- The pairs of a walk whose last vertex is connected to the first are
connected. -/
theorem cyclePairs_connected (g : Graph) (a : Nat) (l : List Nat) (hl : g.Linked (a :: l))
    (hclose : ∀ y, (a :: l).getLast? = some y → g.connected y a = true) :
    ∀ p ∈ cyclePairs (a :: l), g.connected p.1 p.2 = true := by
  intro p hp
  simp only [cyclePairs] at hp
  exact zip_linked g l a a hl hclose p hp

/-- The edge lookups of a simple cycle in a symmetric graph succeed. -/
theorem Graph.simpleCycle_lookup (g : Graph) (hwf : g.WellFormed) (qt : QtOrder)
    (hqt : qt.Lawful) (c : List Nat) (hc : g.IsSimpleCycle c) :
    ∀ p ∈ cyclePairs c, makeEdge p.1 p.2 ∈ Graph.edges qt g := by
  intro p hp
  obtain ⟨hlen, hnd, hrange, hconn⟩ := hc
  have hne := cyclePairs_ne c hnd (by omega) p hp
  have hmem := cyclePairs_mem c p hp
  have r1 := hrange p.1 hmem.1
  have r2 := hrange p.2 hmem.2
  have hcon := hconn p hp
  rcases Nat.lt_or_gt_of_ne hne with hlt | hgt
  · rw [makeEdge_of_lt _ _ hlt, Graph.mem_edges_iff g qt hqt]
    exact ⟨r1.1, hlt, r2.2, hcon⟩
  · rw [makeEdge_comm, makeEdge_of_lt _ _ hgt, Graph.mem_edges_iff g qt hqt]
    refine ⟨r2.1, hgt, r1.2, ?_⟩
    rw [Graph.connected_symm g hwf]
    exact hcon

theorem indexOf_lt_length_iff (edges : EdgeList) (e : Edge) :
    edges.indexOf e < edges.length ↔ e ∈ edges := by
  unfold List.indexOf
  rw [List.findIdx_lt_length]
  constructor
  · rintro ⟨x, hx, hxe⟩
    have : x = e := by simpa using hxe
    rw [← this]
    exact hx
  · intro h
    exact ⟨e, h, by simp⟩

theorem incidenceVector_foldlM (edges : EdgeList) (pairs : List (Nat × Nat))
    (h : ∀ p ∈ pairs, makeEdge p.1 p.2 ∈ edges) :
    ∀ vec : List Bool, vec.length = edges.length →
      ∃ vec2 : List Bool, pairs.foldlM
        (fun vec p =>
          if edges.indexOf (makeEdge p.1 p.2) < edges.length then
            some (vec.set (edges.indexOf (makeEdge p.1 p.2)) true)
          else none) vec = some vec2 ∧ vec2.length = edges.length := by
  induction pairs with
  | nil =>
    intro vec hvec
    exact ⟨vec, rfl, hvec⟩
  | cons p rest ih =>
    intro vec hvec
    have hp : edges.indexOf (makeEdge p.1 p.2) < edges.length :=
      (indexOf_lt_length_iff edges _).2 (h p (List.mem_cons_self _ _))
    simp only [List.foldlM_cons, hp, if_true, Option.bind_eq_bind, Option.some_bind]
    exact ih (fun q hq => h q (List.mem_cons_of_mem _ hq)) _ (by simpa using hvec)

/-- When every edge of the cycle is in the edge list, the incidence vector is
built, and it has one element per edge. -/
theorem incidenceVector_some (edges : EdgeList) (c : List Nat)
    (h : ∀ p ∈ cyclePairs c, makeEdge p.1 p.2 ∈ edges) :
    ∃ vec : List Bool, incidenceVector edges c = some vec ∧ vec.length = edges.length :=
  incidenceVector_foldlM edges (cyclePairs c) h _ (by simp)

end Cycles

section Horton

/-- What `getPath` returns for two different vertices of the graph: the
empty list, or a walk without repeated vertices from the first to the
second. -/
theorem Graph.getPath_cases (g : Graph) (s e : Nat)
    (hs : 1 ≤ s ∧ s ≤ g.numVertices) (he : 1 ≤ e ∧ e ≤ g.numVertices) (hne : s ≠ e) :
    (Graph.allPairsShortestPaths g).getPath s e = some [] ∨
    ∃ mid : List Nat, (Graph.allPairsShortestPaths g).getPath s e = some (s :: mid ++ [e]) ∧
      g.IsWalk (s :: mid ++ [e]) ∧ (s :: mid ++ [e]).Nodup := by
  by_cases hinf : (Graph.allPairsShortestPaths g).dist (s - 1) (e - 1) = DIST_INF
  · exact Or.inl (Graph.getPath_infinite g s e hinf)
  · obtain ⟨mid, h1, h2, h3, _⟩ := Graph.getPath_finite g s e hs he hne hinf
    exact Or.inr ⟨mid, h1, h2, h3⟩

/-- The cycle formed from the two paths of a candidate is a simple cycle. -/
theorem Graph.candidate_isSimpleCycle (g : Graph) (hwf : g.WellFormed) (x y v : Nat)
    (mid1 mid2 : List Nat) (hxy : g.connected x y = true)
    (w1 : g.IsWalk (x :: mid1 ++ [v])) (n1 : (x :: mid1 ++ [v]).Nodup)
    (w2 : g.IsWalk (v :: mid2 ++ [y])) (n2 : (v :: mid2 ++ [y]).Nodup)
    (hdis : ∀ a ∈ x :: mid1, a ∉ v :: mid2 ++ [y]) :
    g.IsSimpleCycle ((x :: mid1) ++ (v :: mid2 ++ [y])) := by
  have hjoin := Graph.isWalk_join g (x :: mid1) (mid2 ++ [y]) v w1
    (by simpa using w2)
  have heq : (x :: mid1) ++ (v :: mid2 ++ [y]) = (x :: mid1) ++ v :: (mid2 ++ [y]) := by simp
  rw [heq]
  refine ⟨?_, ?_, hjoin.1, ?_⟩
  · simp only [List.length_append, List.length_cons, List.length_nil]
    omega
  · rw [← heq]
    apply List.Nodup.append _ n2
    · intro a ha1 ha2
      exact hdis a ha1 ha2
    · have : (x :: mid1 ++ [v]).Nodup := n1
      exact (List.nodup_append.1 this).1
  · have hform : (x :: mid1) ++ v :: (mid2 ++ [y]) = x :: (mid1 ++ v :: (mid2 ++ [y])) := rfl
    rw [hform]
    apply cyclePairs_connected g x _ (by rw [← hform]; exact hjoin.2)
    intro z hz
    have hlast : (x :: (mid1 ++ v :: (mid2 ++ [y]))).getLast? = some y := by
      have e2 : x :: (mid1 ++ v :: (mid2 ++ [y])) = (x :: mid1 ++ v :: mid2) ++ [y] := by simp
      rw [e2]
      exact List.getLast?_concat _
    rw [hlast] at hz
    simp only [Option.some.injEq] at hz
    rw [← hz, Graph.connected_symm g hwf]
    exact hxy

/-- One step of the collection of candidate cycles returns, and keeps every
collected cycle a simple cycle of the graph. -/
theorem Graph.hortonStep_spec (g : Graph) (hwf : g.WellFormed) (qt : QtOrder)
    (hqt : qt.Lawful) (st : List VertexList × List (List Bool))
    (hinv : ∀ c ∈ st.1, g.IsSimpleCycle c)
    (v : Nat) (hv : 1 ≤ v ∧ v ≤ g.numVertices) (e : Edge) (he : e ∈ Graph.edges qt g) :
    ∃ st2, hortonStep (Graph.edges qt g) (Graph.allPairsShortestPaths g) st v e = some st2 ∧
      ∀ c ∈ st2.1, g.IsSimpleCycle c := by
  obtain ⟨x, y⟩ := e
  obtain ⟨hx1, hxy, hy2, hcon⟩ := (Graph.mem_edges_iff g qt hqt x y).1 he
  unfold hortonStep
  simp only
  by_cases hve : v = x ∨ v = y
  · rw [if_pos hve]
    exact ⟨st, rfl, hinv⟩
  · rw [if_neg hve]
    have hvx : x ≠ v := fun h => hve (Or.inl h.symm)
    have hvy : v ≠ y := fun h => hve (Or.inr h)
    rcases Graph.getPath_cases g x v ⟨hx1, by omega⟩ hv hvx with h1 | ⟨mid1, h1, w1, n1⟩
    · rcases Graph.getPath_cases g v y hv ⟨by omega, hy2⟩ hvy with h2 | ⟨mid2, h2, w2, n2⟩
      · rw [h1, h2]
        exact ⟨st, by simp, hinv⟩
      · rw [h1, h2]
        exact ⟨st, by simp, hinv⟩
    · rcases Graph.getPath_cases g v y hv ⟨by omega, hy2⟩ hvy with h2 | ⟨mid2, h2, w2, n2⟩
      · rw [h1, h2]
        exact ⟨st, by simp, hinv⟩
      · rw [h1, h2]
        have hdrop : (x :: mid1 ++ [v]).dropLast = x :: mid1 := List.dropLast_concat
        have hne1 : (x :: mid1 ++ [v]).isEmpty = false := rfl
        have hne2 : (v :: mid2 ++ [y]).isEmpty = false := rfl
        simp only [hdrop, hne1, hne2, Bool.not_false, Bool.and_self, if_true]
        by_cases hdis : ((x :: mid1).filter
            (fun a => (v :: mid2 ++ [y]).contains a)).isEmpty = true
        · rw [if_pos hdis]
          have hdis2 : ∀ a ∈ x :: mid1, a ∉ v :: mid2 ++ [y] := by
            intro a ha hmem
            have hnil := List.isEmpty_iff.1 hdis
            have := List.filter_eq_nil_iff.1 hnil a ha
            apply this
            simpa using hmem
          have hsc := Graph.candidate_isSimpleCycle g hwf x y v mid1 mid2 hcon w1 n1 w2 n2 hdis2
          obtain ⟨vec, hvec, _⟩ := incidenceVector_some (Graph.edges qt g) _
            (Graph.simpleCycle_lookup g hwf qt hqt _ hsc)
          rw [hvec]
          simp only
          by_cases hin : st.2.contains vec = true
          · rw [if_pos hin]
            exact ⟨st, rfl, hinv⟩
          · rw [if_neg hin]
            refine ⟨_, rfl, ?_⟩
            intro c hc
            rcases List.mem_append.1 hc with h | h
            · exact hinv c h
            · simp only [List.mem_singleton] at h
              rw [h]
              exact hsc
        · rw [if_neg hdis]
          exact ⟨st, rfl, hinv⟩

theorem foldlM_option_inv {σ α : Type} (f : σ → α → Option σ) (inv : σ → Prop)
    (ok : α → Prop) (hstep : ∀ st a, inv st → ok a → ∃ st2, f st a = some st2 ∧ inv st2)
    (l : List α) (hl : ∀ a ∈ l, ok a) :
    ∀ st, inv st → ∃ st2, l.foldlM f st = some st2 ∧ inv st2 := by
  induction l with
  | nil => exact fun st h => ⟨st, rfl, h⟩
  | cons a rest ih =>
    intro st h
    obtain ⟨st1, h1, i1⟩ := hstep st a h (hl a (List.mem_cons_self _ _))
    obtain ⟨st2, h2, i2⟩ := ih (fun b hb => hl b (List.mem_cons_of_mem _ hb)) st1 i1
    refine ⟨st2, ?_, i2⟩
    simp only [List.foldlM_cons, h1, Option.bind_eq_bind, Option.some_bind]
    exact h2

/-- The collection of the candidate cycles returns, and every candidate is a
simple cycle of the graph. -/
theorem Graph.hortonSet_spec (g : Graph) (hwf : g.WellFormed) (qt : QtOrder)
    (hqt : qt.Lawful) :
    ∃ found, hortonSet (Graph.edges qt g) (Graph.allPairsShortestPaths g) g.numVertices =
      some found ∧ ∀ c ∈ found, g.IsSimpleCycle c := by
  have houter := foldlM_option_inv
    (fun st (v : Nat) => (Graph.edges qt g).foldlM
      (fun st e => hortonStep (Graph.edges qt g) (Graph.allPairsShortestPaths g) st v e) st)
    (fun st => ∀ c ∈ st.1, g.IsSimpleCycle c)
    (fun v : Nat => 1 ≤ v ∧ v ≤ g.numVertices)
    (by
      intro st v hst hv
      exact foldlM_option_inv
        (fun st e => hortonStep (Graph.edges qt g) (Graph.allPairsShortestPaths g) st v e)
        (fun st => ∀ c ∈ st.1, g.IsSimpleCycle c)
        (fun e => e ∈ Graph.edges qt g)
        (fun st e hst he => Graph.hortonStep_spec g hwf qt hqt st hst v hv e he)
        (Graph.edges qt g) (fun e he => he) st hst)
    (List.range' 1 g.numVertices)
    (by
      intro v hv
      rw [List.mem_range'_1] at hv
      show 1 ≤ v ∧ v ≤ g.numVertices
      omega)
    ([], []) (fun c hc => absurd hc (List.not_mem_nil c))
  obtain ⟨st2, h2, i2⟩ := houter
  refine ⟨st2.1, ?_, i2⟩
  simp only [hortonSet, h2, Option.map_some']

end Horton

section Basis

theorem mapM_option_of_forall {α β : Type} (f : α → Option β) (h : α → β) (l : List α)
    (hf : ∀ a ∈ l, f a = some (h a)) : l.mapM f = some (l.map h) := by
  induction l with
  | nil => rfl
  | cons a rest ih =>
    rw [List.mapM_cons, hf a (List.mem_cons_self _ _),
      ih (fun b hb => hf b (List.mem_cons_of_mem _ hb))]
    rfl

theorem stableInsert_perm {α : Type} (lessThan : α → α → Bool) (a : α) (l : List α) :
    (stableInsert lessThan a l).Perm (a :: l) := by
  induction l with
  | nil => exact List.Perm.refl _
  | cons b rest ih =>
    simp only [stableInsert]
    split
    · exact (List.Perm.cons b ih).trans (List.Perm.swap a b rest)
    · exact List.Perm.refl _

theorem stableSort_perm {α : Type} (lessThan : α → α → Bool) (l : List α) :
    (stableSort lessThan l).Perm l := by
  induction l with
  | nil => exact List.Perm.refl _
  | cons a rest ih =>
    simp only [stableSort]
    exact (stableInsert_perm lessThan a _).trans (List.Perm.cons a ih)

theorem QtOrder.insertion_lawful : QtOrder.insertion.Lawful :=
  ⟨fun l => List.Perm.refl l, fun l => List.Perm.refl l, fun lessThan l =>
    stableSort_perm lessThan l⟩

theorem selected_perm (matHS : BitMatrix) (sel sel2 : List Nat) (hp : sel2.Perm sel)
    (h : Selected matHS sel) : Selected matHS sel2 :=
  ⟨hp.nodup_iff.2 h.1, fun ci hci => h.2 ci (hp.mem_iff.1 hci)⟩

/-- How the result of `minimumCycleBasis` is made up: the sorted candidates
are simple cycles whose incidence vectors form the rows of the Horton matrix,
and the result lists the candidates at the selected row indices. -/
theorem Graph.minimumCycleBasis_structure (g : Graph) (hwf : g.WellFormed) (qt : QtOrder)
    (hqt : qt.Lawful) (lessThan : VertexList → VertexList → Bool) :
    ∃ (sorted : List VertexList) (sel : List Nat),
      (∀ c ∈ sorted, g.IsSimpleCycle c) ∧
      Selected ⟨sorted.length, (Graph.edges qt g).length,
        sorted.map (fun c => (incidenceVector (Graph.edges qt g) c).getD [])⟩ sel ∧
      Graph.minimumCycleBasis qt lessThan g = some (sel.map (fun ci => sorted.getD ci [])) := by
  obtain ⟨found, hfound, hsimple⟩ := Graph.hortonSet_spec g hwf qt hqt
  have hsorted : ∀ c ∈ qt.qSort lessThan found, g.IsSimpleCycle c :=
    fun c hc => hsimple c ((hqt.sort_perm lessThan found).mem_iff.1 hc)
  have hrows := mapM_option_of_forall (incidenceVector (Graph.edges qt g))
    (fun c => (incidenceVector (Graph.edges qt g) c).getD []) (qt.qSort lessThan found)
    (by
      intro c hc
      obtain ⟨vec, hvec, _⟩ := incidenceVector_some (Graph.edges qt g) c
        (Graph.simpleCycle_lookup g hwf qt hqt c (hsorted c hc))
      simp only [hvec, Option.getD_some])
  have hsel := selected_perm _ _ _ (hqt.int_perm _)
    (selectCycles_selected
      ⟨(qt.qSort lessThan found).length, (Graph.edges qt g).length,
        (qt.qSort lessThan found).map
          (fun c => (incidenceVector (Graph.edges qt g) c).getD [])⟩
      (Graph.edges qt g).length)
  refine ⟨qt.qSort lessThan found, _, hsorted, hsel, ?_⟩
  simp only [Graph.minimumCycleBasis, hfound, hrows]
  apply mapM_option_of_forall
  intro ci hci
  have hlt : ci < (qt.qSort lessThan found).length := (hsel.2 ci hci).1
  rw [List.getD_eq_getElem _ _ hlt, List.getElem?_eq_getElem hlt]

theorem getD_mem_of_lt {α : Type} (l : List α) (d : α) (i : Nat) (h : i < l.length) :
    l.getD i d ∈ l := by
  rw [List.getD_eq_getElem _ _ h]
  exact List.getElem_mem h

theorem xorVec_self_cancel (v : List Bool) :
    xorVec v (xorVec v (List.replicate v.length false)) =
      List.replicate v.length false := by
  induction v with
  | nil => rfl
  | cons b rest ih =>
    simp only [xorVec, List.length_cons, List.replicate_succ, List.zipWith_cons_cons,
      List.cons.injEq] at ih ⊢
    exact ⟨by cases b <;> rfl, ih⟩

end Basis

section BasisClaims

theorem Graph.built_foldlM (pairs : List (Vertex × Vertex)) :
    ∀ g g2 : Graph, Graph.Built g →
      pairs.foldlM (fun g p => Graph.connect g p.1 p.2) g = some g2 → Graph.Built g2 := by
  induction pairs with
  | nil =>
    intro g g2 hb h
    simp only [List.foldlM_nil, Option.pure_def, Option.some.injEq] at h
    rw [← h]
    exact hb
  | cons p rest ih =>
    intro g g2 hb h
    simp only [List.foldlM_cons, Option.bind_eq_bind] at h
    cases hc : Graph.connect g p.1 p.2 with
    | none => simp [hc] at h
    | some g1 =>
      rw [hc, Option.some_bind] at h
      exact ih g1 g2 (Graph.Built.connect g g1 p.1 p.2 hb hc) h

theorem Graph.built_ofEdges (n : Nat) (pairs : List (Vertex × Vertex)) :
    Graph.Built ((Graph.ofEdges n pairs).getD (Graph.new 0)) := by
  cases h : Graph.ofEdges n pairs with
  | none => exact Graph.Built.new 0
  | some g => exact Graph.built_foldlM pairs (Graph.new n) g (Graph.Built.new n) h

/-- For the connected graph with 6 vertices and 11 edges (all distances are
finite) the cycle space has dimension 11 - 6 + 1 = 6, but minimumCycleBasis
returns 5 cycles when the edges are listed in insertion order and equal-sized
cycles are kept in the order found.  (With the orders of Qt 4 it returns 6,
see `Graph.six_vertex_graph_in_qt4_order`.) -/
theorem Graph.six_vertex_graph_in_insertion_order :
    Graph.sixVertexGraph.numVertices = 6 ∧
    (Graph.edges QtOrder.insertion Graph.sixVertexGraph).length = 11 ∧
    (Graph.allPairsShortestPaths Graph.sixVertexGraph).m_path.m_matrix =
      [[0, 2, 2, 1, 1, 1], [2, 0, 1, 1, 1, 1], [2, 1, 0, 1, 1, 1],
       [1, 1, 1, 0, 1, 2], [1, 1, 1, 1, 0, 2], [1, 1, 1, 2, 2, 0]] ∧
    Graph.minimumCycleBasis QtOrder.insertion sizeLessThan Graph.sixVertexGraph =
      some [[4, 1, 5], [2, 4, 1, 6], [3, 2, 4], [3, 2, 5], [3, 2, 6]] := by
  decide!

/-- With the addition over F_2 that the comment of addEdges documents, the
selection loop picks 6 cycles for the same graph. -/
theorem Graph.six_vertex_graph_with_documented_addition :
    (hortonSet (Graph.edges QtOrder.insertion Graph.sixVertexGraph)
      (Graph.allPairsShortestPaths Graph.sixVertexGraph) 6).bind
      (fun found =>
        ((stableSort sizeLessThan found).mapM
          (incidenceVector (Graph.edges QtOrder.insertion Graph.sixVertexGraph))).map
          (fun rows =>
            (selectCyclesDocumented ⟨(stableSort sizeLessThan found).length, 11, rows⟩
              11).length)) = some 6 := by
  decide!

/-- The same graph also gets 5 cycles when the edge set is listed in the
order of a hash table and the sort is stable. -/
theorem Graph.six_vertex_graph_in_bucket_order :
    Graph.edges QtOrder.bucketed Graph.sixVertexGraph =
      [(1, 4), (2, 3), (1, 5), (2, 4), (1, 6), (2, 5), (3, 4), (2, 6), (3, 5), (3, 6),
        (4, 5)] ∧
    (Graph.minimumCycleBasis QtOrder.bucketed sizeLessThan Graph.sixVertexGraph).map
      List.length = some 5 := by
  decide!

/-- The first output of `run_mcb`. -/
theorem Graph.demoCycleGraph_basis :
    Graph.minimumCycleBasis QtOrder.insertion sizeLessThan Graph.demoCycleGraph =
      some [[2, 1, 4], [3, 2, 4]] := by
  decide!

/-- C2: for every graph made by the constructor, connect and disconnect (and
whatever order the Qt containers list their elements in), minimumCycleBasis
returns cycles whose edge-incidence vectors are linearly independent over
GF(2): no cycle is returned twice, and no non-empty collection of returned
cycles has incidence vectors that sum to zero (so none is the symmetric
difference of others). -/
theorem Graph.C2_returned_cycles_independent (qt : QtOrder)
    (lessThan : VertexList → VertexList → Bool) (g : Graph)
    (hqt : qt.Lawful) (hb : Graph.Built g) :
    ∃ res, Graph.minimumCycleBasis qt lessThan g = some res ∧ res.Nodup ∧
      ∀ sub : List VertexList, sub.Sublist res → sub ≠ [] →
        ∃ vecs, sub.mapM (incidenceVector (Graph.edges qt g)) = some vecs ∧
          xorAll (Graph.edges qt g).length vecs ≠
            List.replicate (Graph.edges qt g).length false := by
  have hwf := Graph.built_wellFormed g hb
  obtain ⟨sorted, sel, hsimple, hsel, hres⟩ :=
    Graph.minimumCycleBasis_structure g hwf qt hqt lessThan
  have hvec : ∀ c ∈ sorted, incidenceVector (Graph.edges qt g) c =
      some ((incidenceVector (Graph.edges qt g) c).getD []) ∧
      ((incidenceVector (Graph.edges qt g) c).getD []).length = (Graph.edges qt g).length := by
    intro c hc
    obtain ⟨vec, h1, h2⟩ := incidenceVector_some (Graph.edges qt g) c
      (Graph.simpleCycle_lookup g hwf qt hqt c (hsimple c hc))
    simp only [h1, Option.getD_some]
    exact ⟨trivial, h2⟩
  have key : ∀ sub : List VertexList,
      sub.Sublist (sel.map (fun ci => sorted.getD ci [])) → sub ≠ [] →
      sub.mapM (incidenceVector (Graph.edges qt g)) =
        some (sub.map (fun c => (incidenceVector (Graph.edges qt g) c).getD [])) ∧
      (∀ c ∈ sub, ((incidenceVector (Graph.edges qt g) c).getD []).length =
        (Graph.edges qt g).length) ∧
      xorAll (Graph.edges qt g).length
        (sub.map (fun c => (incidenceVector (Graph.edges qt g) c).getD [])) ≠
        List.replicate (Graph.edges qt g).length false := by
    intro sub hsub hne
    obtain ⟨ts, hts, rfl⟩ := List.sublist_map_iff.1 hsub
    have hmem : ∀ t ∈ ts, t ∈ sel := fun t ht => hts.subset ht
    have hlt : ∀ t ∈ ts, t < sorted.length := fun t ht => (hsel.2 t (hmem t ht)).1
    have hin : ∀ t ∈ ts, sorted.getD t [] ∈ sorted :=
      fun t ht => getD_mem_of_lt sorted [] t (hlt t ht)
    have hcyc : ∀ c ∈ ts.map (fun ci => sorted.getD ci []), c ∈ sorted := by
      intro c hc
      obtain ⟨t, ht, rfl⟩ := List.mem_map.1 hc
      exact hin t ht
    refine ⟨mapM_option_of_forall _ _ _ (fun c hc => (hvec c (hcyc c hc)).1),
      fun c hc => (hvec c (hcyc c hc)).2, ?_⟩
    have hrow : ∀ t ∈ ts,
        (incidenceVector (Graph.edges qt g) (sorted.getD t [])).getD [] =
        (sorted.map (fun c => (incidenceVector (Graph.edges qt g) c).getD [])).getD t [] := by
      intro t ht
      have h1 := hlt t ht
      rw [List.getD_eq_getElem _ _ h1, List.getD_eq_getElem _ _ (by simpa using h1),
        List.getElem_map]
    rw [List.map_map, List.map_congr_left (fun t ht => by
      show (incidenceVector (Graph.edges qt g) (sorted.getD t [])).getD [] = _
      exact hrow t ht)]
    apply selected_rows_independent
      ⟨sorted.length, (Graph.edges qt g).length,
        sorted.map (fun c => (incidenceVector (Graph.edges qt g) c).getD [])⟩
      (Graph.edges qt g).length ts
    · intro h
      apply hne
      rw [h]
      rfl
    · exact List.Nodup.sublist hts hsel.1
    · intro t ht
      show ((sorted.map (fun c => (incidenceVector (Graph.edges qt g) c).getD [])).getD t
        []).length = _
      rw [← hrow t ht]
      exact (hvec _ (hin t ht)).2
    · intro t ht
      exact (hsel.2 t (hmem t ht)).2
  refine ⟨_, hres, ?_, ?_⟩
  · rw [List.nodup_iff_sublist]
    intro a hsub
    obtain ⟨_, hl, hx⟩ := key [a, a] hsub (List.cons_ne_nil _ _)
    apply hx
    have hla := hl a (List.mem_cons_self _ _)
    simp only [List.map_cons, List.map_nil, xorAll, List.foldr_cons, List.foldr_nil]
    rw [← hla]
    exact xorVec_self_cancel _
  · intro sub hsub hne
    obtain ⟨h1, _, h3⟩ := key sub hsub hne
    exact ⟨_, h1, h3⟩

/-- Witness of C2 on the demo graph with the Qt containers in insertion
order. -/
theorem Graph.C2_witness :
    (QtOrder.insertion.Lawful ∧ Graph.Built Graph.demoCycleGraph) ∧
    ∃ res, Graph.minimumCycleBasis QtOrder.insertion sizeLessThan Graph.demoCycleGraph =
        some res ∧ res.Nodup ∧
      ∀ sub : List VertexList, sub.Sublist res → sub ≠ [] →
        ∃ vecs, sub.mapM
            (incidenceVector (Graph.edges QtOrder.insertion Graph.demoCycleGraph)) =
            some vecs ∧
          xorAll (Graph.edges QtOrder.insertion Graph.demoCycleGraph).length vecs ≠
            List.replicate (Graph.edges QtOrder.insertion Graph.demoCycleGraph).length false :=
  ⟨⟨QtOrder.insertion_lawful, Graph.built_ofEdges _ _⟩,
   Graph.C2_returned_cycles_independent QtOrder.insertion sizeLessThan Graph.demoCycleGraph
    QtOrder.insertion_lawful (Graph.built_ofEdges _ _)⟩

/-- C3: for every graph made by the constructor, connect and disconnect (and
whatever order the Qt containers list their elements in), minimumCycleBasis
returns, and every returned cycle is a simple cycle of the graph: at least 3
vertices, pairwise distinct, every vertex connected to the next and the last
to the first; and every edge lookup made for it finds an edge of the edge
list. -/
theorem Graph.C3_returned_cycles_simple (qt : QtOrder)
    (lessThan : VertexList → VertexList → Bool) (g : Graph)
    (hqt : qt.Lawful) (hb : Graph.Built g) :
    ∃ res, Graph.minimumCycleBasis qt lessThan g = some res ∧
      ∀ c ∈ res, g.IsSimpleCycle c ∧
        ∀ p ∈ cyclePairs c,
          (Graph.edges qt g).indexOf (makeEdge p.1 p.2) < (Graph.edges qt g).length := by
  have hwf := Graph.built_wellFormed g hb
  obtain ⟨sorted, sel, hsimple, hsel, hres⟩ :=
    Graph.minimumCycleBasis_structure g hwf qt hqt lessThan
  refine ⟨_, hres, ?_⟩
  intro c hc
  obtain ⟨t, ht, rfl⟩ := List.mem_map.1 hc
  have hin : sorted.getD t [] ∈ sorted := getD_mem_of_lt sorted [] t (hsel.2 t ht).1
  refine ⟨hsimple _ hin, ?_⟩
  intro p hp
  rw [indexOf_lt_length_iff]
  exact Graph.simpleCycle_lookup g hwf qt hqt _ (hsimple _ hin) p hp

/-- Witness of C3 on the demo graph with the Qt containers in insertion
order. -/
theorem Graph.C3_witness :
    (QtOrder.insertion.Lawful ∧ Graph.Built Graph.demoCycleGraph) ∧
    ∃ res, Graph.minimumCycleBasis QtOrder.insertion sizeLessThan Graph.demoCycleGraph =
        some res ∧
      ∀ c ∈ res, Graph.demoCycleGraph.IsSimpleCycle c ∧
        ∀ p ∈ cyclePairs c,
          (Graph.edges QtOrder.insertion Graph.demoCycleGraph).indexOf (makeEdge p.1 p.2) <
            (Graph.edges QtOrder.insertion Graph.demoCycleGraph).length :=
  ⟨⟨QtOrder.insertion_lawful, Graph.built_ofEdges _ _⟩,
   Graph.C3_returned_cycles_simple QtOrder.insertion sizeLessThan Graph.demoCycleGraph
    QtOrder.insertion_lawful (Graph.built_ofEdges _ _)⟩

end BasisClaims

/-! ### Seeder: duplicates -/

section SeederDuplicates

/-- The search returns `end()` exactly when no seed is stored at the
position. -/
theorem findSeedPoint_eq_length_iff {Pt Pr : Type} [DecidableEq Pt]
    (s : Seeder Pt Pr) (p : Pt) :
    Seeder.findSeedPoint s p = s.m_seedPoints.length ↔
      ∀ sp ∈ s.m_seedPoints, sp.pos ≠ p := by
  unfold Seeder.findSeedPoint
  constructor
  · intro h sp hsp hp
    have hlt : List.findIdx (fun sp => decide (sp.pos = p)) s.m_seedPoints
        < s.m_seedPoints.length :=
      List.findIdx_lt_length_of_exists ⟨sp, hsp, by simpa using hp⟩
    omega
  · intro h
    by_contra hne
    have hlt : List.findIdx (fun sp => decide (sp.pos = p)) s.m_seedPoints
        < s.m_seedPoints.length :=
      lt_of_le_of_ne (List.findIdx_le_length _) hne
    have hget := @List.findIdx_getElem _ _ _ hlt
    simp only [decide_eq_true_eq] at hget
    exact h _ (List.getElem_mem _) hget

variable {Pt Pr : Type} [LinearOrder Pr] [DecidableEq Pt]

/-- Insert keeps the stored positions distinct. -/
theorem insert_positions_nodup (calculatePriority : PriorityFn Pt Pr)
    (s : Seeder Pt Pr) (p : Pt) (hs : s.SortedByPriority)
    (hn : (s.m_seedPoints.map SeedPoint.pos).Nodup) :
    ((Seeder.insert calculatePriority s p).2.m_seedPoints.map SeedPoint.pos).Nodup := by
  unfold Seeder.insert
  split
  · rename_i hnew
    have hq := qUpperBound_sorted s.m_seedPoints
      ⟨p, calculatePriority s.m_boundarySegments s.m_singularities p⟩ hs
    simp only
    rw [insertIdx_eq_take_append_drop _ _ _ hq.1, List.map_append, List.map_cons]
    have hperm : ((s.m_seedPoints.take (qUpperBound SeedPoint.lt s.m_seedPoints
        ⟨p, calculatePriority s.m_boundarySegments s.m_singularities p⟩)).map SeedPoint.pos ++
        p :: (s.m_seedPoints.drop (qUpperBound SeedPoint.lt s.m_seedPoints
        ⟨p, calculatePriority s.m_boundarySegments s.m_singularities p⟩)).map
          SeedPoint.pos).Perm
        (p :: ((s.m_seedPoints.take (qUpperBound SeedPoint.lt s.m_seedPoints
        ⟨p, calculatePriority s.m_boundarySegments s.m_singularities p⟩)).map SeedPoint.pos ++
        (s.m_seedPoints.drop (qUpperBound SeedPoint.lt s.m_seedPoints
        ⟨p, calculatePriority s.m_boundarySegments s.m_singularities p⟩)).map
          SeedPoint.pos)) := List.perm_middle
    rw [hperm.nodup_iff, List.nodup_cons, ← List.map_append, List.take_append_drop]
    refine ⟨?_, hn⟩
    intro hmem
    rcases List.mem_map.1 hmem with ⟨sp, hsp, hpos⟩
    exact (findSeedPoint_eq_length_iff s p).1 hnew sp hsp hpos
  · exact hn

/-- In every reachable state the stored positions are distinct. -/
theorem reachable_positions_nodup (calculatePriority : PriorityFn Pt Pr)
    (infinity : Pt) (s : Seeder Pt Pr)
    (h : Seeder.Reachable calculatePriority infinity s) :
    (s.m_seedPoints.map SeedPoint.pos).Nodup := by
  induction h with
  | new => simp [Seeder.new]
  | insert s p hr ih =>
    exact insert_positions_nodup calculatePriority s p
      (reachable_sorted calculatePriority infinity s hr) ih
  | remove s p _ ih =>
    unfold Seeder.remove
    simp only
    split
    · exact List.Nodup.sublist ((List.eraseIdx_sublist _ _).map _) ih
    · exact ih
  | pop s _ ih =>
    unfold Seeder.pop
    split
    · exact List.Nodup.sublist ((List.dropLast_sublist _).map _) ih
    · exact ih
  | setBoundaries s segments _ ih => exact ih
  | addSingularity s p _ ih => exact ih
  | removeSingularity s p _ ih => exact ih

/-- C11: in a reachable Seeder state insert(p) returns false exactly when a
seed is already stored at the position of p, and it then leaves the seeder
unchanged (when it returns true the list is one seed longer); no reachable
state holds two seeds at the same position. -/
theorem Seeder.C11_insert_rejects_exactly_stored_positions
    (calculatePriority : PriorityFn Pt Pr) (infinity : Pt) (s : Seeder Pt Pr) (p : Pt)
    (hr : Seeder.Reachable calculatePriority infinity s) :
    ((Seeder.insert calculatePriority s p).1 = false ↔
      ∃ sp ∈ s.m_seedPoints, sp.pos = p) ∧
    ((Seeder.insert calculatePriority s p).1 = false →
      (Seeder.insert calculatePriority s p).2 = s) ∧
    ((Seeder.insert calculatePriority s p).1 = true →
      (Seeder.insert calculatePriority s p).2.m_seedPoints.length =
        s.m_seedPoints.length + 1) ∧
    (s.m_seedPoints.map SeedPoint.pos).Nodup ∧
    ((Seeder.insert calculatePriority s p).2.m_seedPoints.map SeedPoint.pos).Nodup := by
  have hs := reachable_sorted calculatePriority infinity s hr
  have hn := reachable_positions_nodup calculatePriority infinity s hr
  have hiff := findSeedPoint_eq_length_iff s p
  refine ⟨?_, ?_, ?_, hn, insert_positions_nodup calculatePriority s p hs hn⟩
  · by_cases hnew : Seeder.findSeedPoint s p = s.m_seedPoints.length
    · simp only [Seeder.insert, hnew, if_true]
      constructor
      · intro h
        exact Bool.noConfusion h
      · rintro ⟨sp, hsp, hpos⟩
        exact absurd hpos (hiff.1 hnew sp hsp)
    · simp only [Seeder.insert, hnew, if_false, true_iff]
      by_contra hc
      apply hnew
      apply hiff.2
      intro sp hsp hpos
      exact hc ⟨sp, hsp, hpos⟩
  · by_cases hnew : Seeder.findSeedPoint s p = s.m_seedPoints.length
    · simp [Seeder.insert, hnew]
    · simp [Seeder.insert, hnew]
  · by_cases hnew : Seeder.findSeedPoint s p = s.m_seedPoints.length
    · have hq := qUpperBound_sorted s.m_seedPoints
        ⟨p, calculatePriority s.m_boundarySegments s.m_singularities p⟩ hs
      intro _
      simp only [Seeder.insert, hnew, if_true]
      rw [insertIdx_eq_take_append_drop _ _ _ hq.1]
      simp only [List.length_append, List.length_cons, List.length_take, List.length_drop]
      omega
    · simp [Seeder.insert, hnew]

/-- Witness of C11 on the seeder holding the seeds 1 and 2: insert(2) is
rejected and insert(5) is not. -/
theorem Seeder.C11_witness :
    ((Seeder.insert Seeder.demoPriority Seeder.demoState 2).1 = false ∧
      (Seeder.insert Seeder.demoPriority Seeder.demoState 2).2 = Seeder.demoState) ∧
    (Seeder.insert Seeder.demoPriority Seeder.demoState 5).1 = true ∧
    (Seeder.demoState.m_seedPoints.map SeedPoint.pos).Nodup :=
  ⟨⟨((Seeder.C11_insert_rejects_exactly_stored_positions Seeder.demoPriority 0
        Seeder.demoState 2
        (Seeder.Reachable.insert _ _ (Seeder.Reachable.insert _ _ Seeder.Reachable.new))).1).2
      ⟨⟨2, 0⟩, List.mem_cons_of_mem _ (List.mem_cons_self _ _), rfl⟩,
    (Seeder.C11_insert_rejects_exactly_stored_positions Seeder.demoPriority 0
        Seeder.demoState 2
        (Seeder.Reachable.insert _ _ (Seeder.Reachable.insert _ _ Seeder.Reachable.new))).2.1
      (by decide)⟩,
   by decide, by decide⟩

end SeederDuplicates

/-! ### DiscreteField -/

section DiscreteFieldLemmas

/-- After `loadValues` the lattice holds the value of the field at the
lattice point of every row and column up to `m_dim`. -/
theorem DiscreteField.at?_loadValues {F : Type} [LinearOrderedField F]
    (d : DiscreteField F) (field : TensorField F) (row col : Int) (hr0 : 0 ≤ row) (hr : row ≤ d.m_dim) (hc0 : 0 ≤ col) (hc : col ≤ d.m_dim) :
    DiscreteField.at? (DiscreteField.loadValues d field) row col =
      some (field ⟨((col.toNat : Nat) : F) * (1 / (d.m_dim : F)),
        ((row.toNat : Nat) : F) * (1 / (d.m_dim : F))⟩) := by
  have hr2 : row.toNat < d.m_dim + 1 := by omega
  have hc2 : col.toNat < d.m_dim + 1 := by omega
  simp [DiscreteField.at?, DiscreteField.loadValues, hr0, hc0, hr2, hc2, List.getElem?_map,
    List.getElem?_range]

variable {F : Type} [LinearOrderedField F] [FloorRing F]

/-- The lattice indices of a clamped coordinate lie between 0 and `m_dim`. -/
theorem DiscreteField.index_range (n : Nat) (a : F) :
    (0 : Int) ≤ ⌊max 0 (min a 1) * (n : F)⌋ ∧ ⌊max 0 (min a 1) * (n : F)⌋ ≤ (n : Int) ∧
    (0 : Int) ≤ ⌈max 0 (min a 1) * (n : F)⌉ ∧ ⌈max 0 (min a 1) * (n : F)⌉ ≤ (n : Int) := by
  have h0 : (0 : F) ≤ max 0 (min a 1) := le_max_left _ _
  have h1 : max 0 (min a 1) ≤ (1 : F) := max_le zero_le_one (min_le_right _ _)
  have hn : (0 : F) ≤ (n : F) := Nat.cast_nonneg n
  have hlo : (0 : F) ≤ max 0 (min a 1) * (n : F) := mul_nonneg h0 hn
  have hhi : max 0 (min a 1) * (n : F) ≤ ((n : Int) : F) := by
    have := mul_le_mul_of_nonneg_right h1 hn
    simpa using this
  have hfc := Int.floor_le_ceil (max 0 (min a 1) * (n : F))
  have hf0 : (0 : Int) ≤ ⌊max 0 (min a 1) * (n : F)⌋ := Int.floor_nonneg.2 hlo
  have hcn : ⌈max 0 (min a 1) * (n : F)⌉ ≤ (n : Int) := Int.ceil_le.2 hhi
  exact ⟨hf0, le_trans hfc hcn, le_trans hf0 hfc, hcn⟩

/-- On a loaded field the call operator returns, and its result is the sum of
the four lattice values multiplied by the weights. -/
theorem DiscreteField.eval_eq_weighted_sum (d : DiscreteField F) (field : TensorField F)
    (p : Vector2f F) :
    ∃ t11 t21 t12 t22 w11 w21 w12 w22,
      DiscreteField.corners (DiscreteField.loadValues d field) p =
        [some t11, some t21, some t12, some t22] ∧
      DiscreteField.weights (DiscreteField.loadValues d field) p = [w11, w21, w12, w22] ∧
      DiscreteField.eval (DiscreteField.loadValues d field) p =
        some (Vector2f.add
          (Vector2f.add (Vector2f.mul t11 w11) (Vector2f.mul t21 w21))
          (Vector2f.add (Vector2f.mul t12 w12) (Vector2f.mul t22 w22))) := by
  have hx := DiscreteField.index_range d.m_dim p.m_val0
  have hy := DiscreteField.index_range d.m_dim p.m_val1
  have h11 := DiscreteField.at?_loadValues d field _ _ hy.1 hy.2.1 hx.1 hx.2.1
  have h21 := DiscreteField.at?_loadValues d field _ _ hy.1 hy.2.1 hx.2.2.1 hx.2.2.2
  have h12 := DiscreteField.at?_loadValues d field _ _ hy.2.2.1 hy.2.2.2 hx.1 hx.2.1
  have h22 := DiscreteField.at?_loadValues d field _ _ hy.2.2.1 hy.2.2.2 hx.2.2.1 hx.2.2.2
  have hdim : (DiscreteField.loadValues d field).m_dim = d.m_dim := rfl
  simp only [DiscreteField.corners, DiscreteField.weights, DiscreteField.eval, hdim,
    h11, h21, h12, h22]
  refine ⟨_, _, _, _, _, _, _, _, rfl, rfl, ?_⟩
  simp only [Vector2f.add, Vector2f.mul, Vector2f.div, Option.some.injEq, Vector2f.mk.injEq]
  constructor <;> ring

/-- A point whose clamped abscissa or ordinate lies on a lattice line gets the
zero tensor, whatever field has been loaded: the lower and the upper lattice
index are the same there and both differences are zero. -/
theorem DiscreteField.eval_on_lattice_line (d : DiscreteField F) (field : TensorField F)
    (p : Vector2f F) (hdim : 0 < d.m_dim)
    (h : ⌊max 0 (min p.m_val0 1) * (d.m_dim : F)⌋ = ⌈max 0 (min p.m_val0 1) * (d.m_dim : F)⌉ ∨
      ⌊max 0 (min p.m_val1 1) * (d.m_dim : F)⌋ = ⌈max 0 (min p.m_val1 1) * (d.m_dim : F)⌉) :
    DiscreteField.eval (DiscreteField.loadValues d field) p = some Tensor.null ∧
    (DiscreteField.weights (DiscreteField.loadValues d field) p).sum = 0 := by
  have hd : (d.m_dim : F) ≠ 0 := Nat.cast_ne_zero.2 (Nat.pos_iff_ne_zero.1 hdim)
  have hdim2 : (DiscreteField.loadValues d field).m_dim = d.m_dim := rfl
  have key : ∀ a : F, ⌊a * (d.m_dim : F)⌋ = ⌈a * (d.m_dim : F)⌉ →
      ((⌈a * (d.m_dim : F)⌉ : Int) : F) / (d.m_dim : F) - a = 0 ∧
      a - ((⌊a * (d.m_dim : F)⌋ : Int) : F) / (d.m_dim : F) = 0 := by
    intro a ha
    have h1 : ((⌊a * (d.m_dim : F)⌋ : Int) : F) ≤ a * (d.m_dim : F) := Int.floor_le _
    have h2 : a * (d.m_dim : F) ≤ ((⌈a * (d.m_dim : F)⌉ : Int) : F) := Int.le_ceil _
    rw [ha] at h1
    have h3 : ((⌈a * (d.m_dim : F)⌉ : Int) : F) = a * (d.m_dim : F) := le_antisymm h1 h2
    rw [ha, h3]
    constructor <;> field_simp
  rcases DiscreteField.eval_eq_weighted_sum d field p with
    ⟨t11, t21, t12, t22, w11, w21, w12, w22, _, hw, he⟩
  rw [he, hw]
  simp only [DiscreteField.weights, hdim2, List.cons.injEq, and_true] at hw
  rcases hw with ⟨h11, h21, h12, h22⟩
  rcases h with h | h
  · have k := key _ h
    simp only [k.1, k.2, zero_div, zero_mul, mul_zero] at h11 h21 h12 h22
    subst h11 h21 h12 h22
    simp [Vector2f.add, Vector2f.mul, Tensor.null, Vector2f.null]
  · have k := key _ h
    simp only [k.1, k.2, zero_div, zero_mul, mul_zero] at h11 h21 h12 h22
    subst h11 h21 h12 h22
    simp [Vector2f.add, Vector2f.mul, Tensor.null, Vector2f.null]

/-- Away from the lattice lines the four weights are non-negative and their
sum is 1. -/
theorem DiscreteField.weights_convex (d : DiscreteField F) (p : Vector2f F) (hdim : 0 < d.m_dim)
    (hx : ⌊max 0 (min p.m_val0 1) * (d.m_dim : F)⌋ ≠ ⌈max 0 (min p.m_val0 1) * (d.m_dim : F)⌉)
    (hy : ⌊max 0 (min p.m_val1 1) * (d.m_dim : F)⌋ ≠ ⌈max 0 (min p.m_val1 1) * (d.m_dim : F)⌉) :
    (∀ w ∈ DiscreteField.weights d p, 0 ≤ w) ∧ (DiscreteField.weights d p).sum = 1 := by
  have hd : (0 : F) < (d.m_dim : F) := Nat.cast_pos.2 hdim
  have key : ∀ a : F, ⌊a * (d.m_dim : F)⌋ ≠ ⌈a * (d.m_dim : F)⌉ →
      0 ≤ (((⌈a * (d.m_dim : F)⌉ : Int) : F) / (d.m_dim : F) - a) / (1 / (d.m_dim : F)) ∧
      0 ≤ (a - ((⌊a * (d.m_dim : F)⌋ : Int) : F) / (d.m_dim : F)) / (1 / (d.m_dim : F)) ∧
      (((⌈a * (d.m_dim : F)⌉ : Int) : F) / (d.m_dim : F) - a) / (1 / (d.m_dim : F)) +
        (a - ((⌊a * (d.m_dim : F)⌋ : Int) : F) / (d.m_dim : F)) / (1 / (d.m_dim : F)) = 1 := by
    intro a ha
    have h1 : ((⌊a * (d.m_dim : F)⌋ : Int) : F) ≤ a * (d.m_dim : F) := Int.floor_le _
    have h2 : a * (d.m_dim : F) ≤ ((⌈a * (d.m_dim : F)⌉ : Int) : F) := Int.le_ceil _
    have h3 : ⌈a * (d.m_dim : F)⌉ = ⌊a * (d.m_dim : F)⌋ + 1 := by
      have hle := Int.floor_le_ceil (a * (d.m_dim : F))
      have hlt : ⌈a * (d.m_dim : F)⌉ ≤ ⌊a * (d.m_dim : F)⌋ + 1 := Int.ceil_le_floor_add_one _
      have hne := ha
      omega
    have h4 : ((⌈a * (d.m_dim : F)⌉ : Int) : F) = ((⌊a * (d.m_dim : F)⌋ : Int) : F) + 1 := by
      rw [h3]
      push_cast
      ring
    have e1 : (((⌈a * (d.m_dim : F)⌉ : Int) : F) / (d.m_dim : F) - a) / (1 / (d.m_dim : F)) =
        ((⌈a * (d.m_dim : F)⌉ : Int) : F) - a * (d.m_dim : F) := by
      field_simp
      ring
    have e2 : (a - ((⌊a * (d.m_dim : F)⌋ : Int) : F) / (d.m_dim : F)) / (1 / (d.m_dim : F)) =
        a * (d.m_dim : F) - ((⌊a * (d.m_dim : F)⌋ : Int) : F) := by
      field_simp
    rw [e1, e2]
    refine ⟨by linarith, by linarith, ?_⟩
    rw [h4]
    ring
  have kx := key _ hx
  have ky := key _ hy
  constructor
  · intro w hw
    simp only [DiscreteField.weights, List.mem_cons, List.mem_singleton, List.not_mem_nil,
      or_false] at hw
    rcases hw with h | h | h | h <;> rw [h]
    · exact mul_nonneg kx.1 ky.1
    · exact mul_nonneg kx.2.1 ky.1
    · exact mul_nonneg kx.1 ky.2.1
    · exact mul_nonneg kx.2.1 ky.2.1
  · simp only [DiscreteField.weights, List.sum_cons, List.sum_nil, add_zero]
    have := kx.2.2
    have := ky.2.2
    calc _ = ((((⌈max 0 (min p.m_val0 1) * (d.m_dim : F)⌉ : Int) : F) / (d.m_dim : F) -
              max 0 (min p.m_val0 1)) / (1 / (d.m_dim : F)) +
            (max 0 (min p.m_val0 1) -
              ((⌊max 0 (min p.m_val0 1) * (d.m_dim : F)⌋ : Int) : F) / (d.m_dim : F)) /
                (1 / (d.m_dim : F))) *
          ((((⌈max 0 (min p.m_val1 1) * (d.m_dim : F)⌉ : Int) : F) / (d.m_dim : F) -
              max 0 (min p.m_val1 1)) / (1 / (d.m_dim : F)) +
            (max 0 (min p.m_val1 1) -
              ((⌊max 0 (min p.m_val1 1) * (d.m_dim : F)⌋ : Int) : F) / (d.m_dim : F)) /
                (1 / (d.m_dim : F))) := by ring
      _ = 1 := by rw [kx.2.2, ky.2.2, one_mul]

end DiscreteFieldLemmas


/-! ### C12, C13: the call operator of DiscreteField -/

/-- C12 at the failing input: on the 3 x 3 lattice (`DiscreteField(2)`) loaded
from any field, the call operator returns the zero tensor at the lattice point
(1/2, 1/2), whatever the field's value there; for the field that is (1, 0)
everywhere the result differs from the value of the field. -/
theorem DiscreteField.C12_lattice_point_returns_zero_tensor :
    (∀ field : TensorField ℚ,
      DiscreteField.eval (DiscreteField.loadValues (DiscreteField.new 2) field) ⟨1 / 2, 1 / 2⟩ =
        some Tensor.null) ∧
    DiscreteField.eval (DiscreteField.loadValues (DiscreteField.new 2)
        DiscreteField.demoField) ⟨1 / 2, 1 / 2⟩ ≠
      some (DiscreteField.demoField ⟨1 / 2, 1 / 2⟩) := by
  have h : ∀ field : TensorField ℚ,
      DiscreteField.eval (DiscreteField.loadValues (DiscreteField.new 2) field) ⟨1 / 2, 1 / 2⟩ =
        some Tensor.null := by
    intro field
    refine (DiscreteField.eval_on_lattice_line (DiscreteField.new 2) field ⟨1 / 2, 1 / 2⟩
      (by decide) (Or.inl ?_)).1
    norm_num [DiscreteField.new]
  refine ⟨h, ?_⟩
  rw [h]
  simp [Tensor.null, Vector2f.null, Tensor.fromValues, DiscreteField.demoField]

/-- C13 at the failing input: on the same lattice the point (1/2, 1/4), which
is not a lattice point but lies on a lattice line, gets four weights equal to
zero (their sum is 0, not 1), and the zero tensor as value, whatever field has
been loaded; for the field that is (1, 0) everywhere this value is no convex
combination of the four lattice values. -/
theorem DiscreteField.C13_weights_vanish_on_lattice_line :
    (∀ field : TensorField ℚ,
      DiscreteField.weights (DiscreteField.loadValues (DiscreteField.new 2) field)
        ⟨1 / 2, 1 / 4⟩ = [0, 0, 0, 0] ∧
      DiscreteField.eval (DiscreteField.loadValues (DiscreteField.new 2) field) ⟨1 / 2, 1 / 4⟩ =
        some Tensor.null) ∧
    DiscreteField.corners (DiscreteField.loadValues (DiscreteField.new 2)
        DiscreteField.demoField) ⟨1 / 2, 1 / 4⟩ =
      [some ⟨1, 0⟩, some ⟨1, 0⟩, some ⟨1, 0⟩, some ⟨1, 0⟩] ∧
    ¬ ∃ w11 w21 w12 w22 : ℚ, 0 ≤ w11 ∧ 0 ≤ w21 ∧ 0 ≤ w12 ∧ 0 ≤ w22 ∧
      w11 + w21 + w12 + w22 = 1 ∧
      DiscreteField.eval (DiscreteField.loadValues (DiscreteField.new 2)
          DiscreteField.demoField) ⟨1 / 2, 1 / 4⟩ =
        some (Vector2f.add
          (Vector2f.add (Vector2f.mul ⟨1, 0⟩ w11) (Vector2f.mul ⟨1, 0⟩ w21))
          (Vector2f.add (Vector2f.mul ⟨1, 0⟩ w12) (Vector2f.mul ⟨1, 0⟩ w22))) := by
  have h : ∀ field : TensorField ℚ,
      DiscreteField.eval (DiscreteField.loadValues (DiscreteField.new 2) field) ⟨1 / 2, 1 / 4⟩ =
        some Tensor.null := by
    intro field
    refine (DiscreteField.eval_on_lattice_line (DiscreteField.new 2) field ⟨1 / 2, 1 / 4⟩
      (by decide) (Or.inl ?_)).1
    norm_num [DiscreteField.new]
  refine ⟨fun field => ⟨?_, h field⟩, ?_, ?_⟩
  · norm_num [DiscreteField.weights, DiscreteField.new, DiscreteField.loadValues]
  · rcases DiscreteField.eval_eq_weighted_sum (DiscreteField.new 2) DiscreteField.demoField
      ⟨1 / 2, 1 / 4⟩ with ⟨t11, t21, t12, t22, _, _, _, _, hc, _, _⟩
    rw [hc]
    have hm : ∀ o ∈ DiscreteField.corners (DiscreteField.loadValues (DiscreteField.new 2)
        DiscreteField.demoField) ⟨1 / 2, 1 / 4⟩, o = none ∨ o = some (⟨1, 0⟩ : Tensor ℚ) := by
      intro o ho
      simp only [DiscreteField.corners, List.mem_cons, List.mem_singleton, List.not_mem_nil,
        or_false] at ho
      have hat : ∀ r c : Int, DiscreteField.at? (DiscreteField.loadValues (DiscreteField.new 2)
          DiscreteField.demoField) r c = none ∨
          DiscreteField.at? (DiscreteField.loadValues (DiscreteField.new 2)
            DiscreteField.demoField) r c = some (⟨1, 0⟩ : Tensor ℚ) := by
        intro r c
        unfold DiscreteField.at?
        split
        · simp only [DiscreteField.loadValues, List.getElem?_map]
          cases hr : (List.range ((DiscreteField.new 2 : DiscreteField ℚ).m_dim + 1))[r.toNat]? with
          | none => simp
          | some a =>
            simp only [Option.map_some', List.getElem?_map]
            cases hcc : (List.range ((DiscreteField.new 2 : DiscreteField ℚ).m_dim + 1))[c.toNat]? with
            | none => simp
            | some b => simp [DiscreteField.demoField, Tensor.fromValues]
        · exact Or.inl rfl
      rcases ho with h | h | h | h <;> rw [h] <;> exact hat _ _
    rw [hc] at hm
    have e11 := hm (some t11) (by simp)
    have e21 := hm (some t21) (by simp)
    have e12 := hm (some t12) (by simp)
    have e22 := hm (some t22) (by simp)
    simp only [false_or, Option.some.injEq, reduceCtorEq] at e11 e21 e12 e22
    rw [e11, e21, e12, e22]
  · rintro ⟨w11, w21, w12, w22, _, _, _, _, hsum, he⟩
    rw [h] at he
    simp only [Tensor.null, Vector2f.null, Vector2f.add, Vector2f.mul, Option.some.injEq,
      Vector2f.mk.injEq] at he
    linarith [he.1]

/-! ### BasisSumField -/

section BasisSumFieldClaims

variable {F : Type} [LinearOrderedField F]

/-- No distance used for the nearness weights is zero: it is 0.001 when the
norm is 0 and the norm otherwise. -/
theorem BasisSumField.dists_ne_zero (lib : Libm F) (s : BasisSumField F) (p : Vector2f F) :
    ∀ d ∈ BasisSumField.dists lib s p, d ≠ 0 := by
  intro d hd
  simp only [BasisSumField.dists, List.mem_map] at hd
  rcases hd with ⟨bf, _, rfl⟩
  split
  · norm_num
  · assumption

/-- C14: a BasisSumField that holds exactly one element e, with any decay d,
evaluates at e.p0 (and at any other point p) to rbf(p, e.p0, d) * e.scale *
e(p): the normalised nearness weight of a single element is 1. -/
theorem BasisSumField.C14_single_element_has_weight_one (lib : Libm F) (e : BasisField F)
    (d : F) (p : Vector2f F) :
    BasisSumField.eval lib ⟨[e], d⟩ e.p0 =
      Vector2f.smul (math.rbf lib e.p0 e.p0 d * e.scale) (BasisField.eval lib e e.p0) ∧
    BasisSumField.eval lib ⟨[e], d⟩ p =
      Vector2f.smul (math.rbf lib p e.p0 d * e.scale) (BasisField.eval lib e p) ∧
    (BasisSumField.nears lib ⟨[e], d⟩ p).map (fun n => n / BasisSumField.nearsSum lib ⟨[e], d⟩ p)
      = [1] := by
  have key : ∀ q : Vector2f F,
      BasisSumField.eval lib ⟨[e], d⟩ q =
        Vector2f.smul (math.rbf lib q e.p0 d * e.scale) (BasisField.eval lib e q) ∧
      (BasisSumField.nears lib ⟨[e], d⟩ q).map
        (fun n => n / BasisSumField.nearsSum lib ⟨[e], d⟩ q) = [1] := by
    intro q
    have hne := BasisSumField.dists_ne_zero lib ⟨[e], d⟩ q
    obtain ⟨d0, hd0⟩ : ∃ d0, BasisSumField.dists lib ⟨[e], d⟩ q = [d0] :=
      ⟨_, rfl⟩
    have hd0ne : d0 ≠ 0 := hne d0 (by rw [hd0]; simp)
    have hsum : BasisSumField.distsSum lib ⟨[e], d⟩ q = d0 := by
      simp [BasisSumField.distsSum, hd0]
    have hnears : BasisSumField.nears lib ⟨[e], d⟩ q = [1] := by
      simp [BasisSumField.nears, hd0, hsum, math.pow2, div_self hd0ne]
    have hns : BasisSumField.nearsSum lib ⟨[e], d⟩ q = 1 := by
      simp [BasisSumField.nearsSum, hnears]
    constructor
    · simp [BasisSumField.eval, hnears, hns, Vector2f.add, Vector2f.smul, Vector2f.mul,
        Tensor.null, Vector2f.null]
    · simp [hnears, hns]
  exact ⟨(key e.p0).1, (key p).1, (key p).2⟩

end BasisSumFieldClaims

section DistanceFloor

/-- What `math::zero` returns: zero, or its argument when that is at least
0.00001 in absolute value. -/
theorem math.zero_cases {F : Type} [LinearOrderedField F] (a : F) :
    math.zero a = 0 ∨ (math.zero a = a ∧ 1 / 100000 ≤ |a|) := by
  unfold math.zero
  split
  · exact Or.inl rfl
  · rename_i h
    exact Or.inr ⟨rfl, not_lt.1 h⟩

/-- A norm is zero or at least 0.00001, when `sqrtf` has no negative value. -/
theorem Vector2f.norm_cases {F : Type} [LinearOrderedField F] (lib : Libm F)
    (hsqrt : ∀ a, 0 ≤ lib.sqrtf a) (v : Vector2f F) :
    Vector2f.norm lib v = 0 ∨ 1 / 100000 ≤ Vector2f.norm lib v := by
  unfold Vector2f.norm math.sqrt
  rcases math.zero_cases (math.zero (lib.sqrtf v.normSquared)) with h | ⟨h1, h2⟩
  · exact Or.inl h
  · right
    rw [h1]
    rcases math.zero_cases (lib.sqrtf v.normSquared) with h | ⟨h3, _⟩
    · rw [h] at h2
      norm_num at h2
    · rw [h3] at h2 ⊢
      rwa [abs_of_nonneg (hsqrt _)] at h2

/-- The norm of the vector (1/2048, 0). -/
theorem Vector2f.norm_demo :
    Vector2f.norm Libm.exact (Vector2f.sub ⟨1 / 2048, 0⟩ ⟨0, 0⟩) = 1 / 2048 := by
  have h : Real.sqrt (1 / 2048 * (1 / 2048)) = 1 / 2048 :=
    Real.sqrt_mul_self (by norm_num)
  have h2 : ¬ |(1 / 2048 : ℝ)| < 1 / 100000 := by
    rw [abs_of_nonneg (by norm_num)]
    norm_num
  simp only [Vector2f.norm, math.sqrt, Vector2f.normSquared, Vector2f.sub, math.pow2,
    Libm.exact, sub_zero, mul_zero, add_zero, h, math.zero, h2, if_false]

/-- C15 as stated fails: for an element at the origin and the query point
(1/2048, 0) the distance used is 1/2048, which is less than 0.001. -/
theorem BasisSumField.C15_counterexample :
    BasisSumField.dists Libm.exact BasisSumField.demoSum ⟨1 / 2048, 0⟩ = [1 / 2048] ∧
    (1 / 2048 : ℝ) < 1 / 1000 := by
  constructor
  · simp only [BasisSumField.dists, BasisSumField.demoSum, BasisField.singular, List.map_cons,
      List.map_nil, Vector2f.norm_demo]
    norm_num
  · norm_num

/-- C15 (amended): in BasisSumField evaluation no distance used for the
nearness weights is zero: a computed norm of exactly 0 (to which `norm()`
rounds every length below 0.00001) is replaced by 0.001 and any other norm is
used as it is, so that every distance used is at least 0.00001. -/
theorem BasisSumField.C15_distances_are_at_least_the_rounding_threshold
    {F : Type} [LinearOrderedField F] (lib : Libm F) (hsqrt : ∀ a, 0 ≤ lib.sqrtf a)
    (s : BasisSumField F) (p : Vector2f F) :
    (BasisSumField.dists lib s p).length = s.m_elements.length ∧
    ∀ (i : Nat) (bf : BasisField F) (d : F), s.m_elements[i]? = some bf →
      (BasisSumField.dists lib s p)[i]? = some d →
      1 / 100000 ≤ d ∧
      (Vector2f.norm lib (Vector2f.sub p bf.p0) = 0 → d = 1 / 1000) ∧
      (Vector2f.norm lib (Vector2f.sub p bf.p0) ≠ 0 →
        d = Vector2f.norm lib (Vector2f.sub p bf.p0)) := by
  refine ⟨by simp [BasisSumField.dists], ?_⟩
  intro i bf d hbf hd
  simp only [BasisSumField.dists, List.getElem?_map, hbf, Option.map_some',
    Option.some.injEq] at hd
  subst hd
  by_cases h0 : Vector2f.norm lib (Vector2f.sub p bf.p0) = 0
  · rw [if_pos h0]
    exact ⟨by norm_num, fun _ => rfl, fun h => absurd h0 h⟩
  · rw [if_neg h0]
    refine ⟨?_, fun h => absurd h h0, fun _ => rfl⟩
    rcases Vector2f.norm_cases lib hsqrt (Vector2f.sub p bf.p0) with h | h
    · exact absurd h h0
    · exact h

/-- Witness of the amended C15: the exact library, an element at the origin
and the query point (1/2048, 0). -/
theorem BasisSumField.C15_witness :
    (BasisSumField.dists Libm.exact BasisSumField.demoSum ⟨1 / 2048, 0⟩).length = 1 ∧
    ∀ (i : Nat) (bf : BasisField ℝ) (d : ℝ), BasisSumField.demoSum.m_elements[i]? = some bf →
      (BasisSumField.dists Libm.exact BasisSumField.demoSum ⟨1 / 2048, 0⟩)[i]? = some d →
      1 / 100000 ≤ d ∧
      (Vector2f.norm Libm.exact (Vector2f.sub ⟨1 / 2048, 0⟩ bf.p0) = 0 → d = 1 / 1000) ∧
      (Vector2f.norm Libm.exact (Vector2f.sub ⟨1 / 2048, 0⟩ bf.p0) ≠ 0 →
        d = Vector2f.norm Libm.exact (Vector2f.sub ⟨1 / 2048, 0⟩ bf.p0)) :=
  BasisSumField.C15_distances_are_at_least_the_rounding_threshold Libm.exact
    (fun a => Real.sqrt_nonneg a) BasisSumField.demoSum ⟨1 / 2048, 0⟩

end DistanceFloor

/-! ### Tensor -/

section TensorPolar

/-- An argument that `math::zero` does not round is returned unchanged. -/
theorem math.zero_eq_self {F : Type} [LinearOrderedField F] (a : F)
    (h : a = 0 ∨ 1 / 100000 ≤ |a|) : math.zero a = a := by
  unfold math.zero
  rcases h with h | h
  · simp [h]
  · rw [if_neg (not_lt.2 h)]

/-- The complex number with the components of a polar form. -/
theorem polar_components (r φ : ℝ) :
    (⟨r * Real.cos φ, r * Real.sin φ⟩ : ℂ) =
      (r : ℂ) * (Complex.cos (φ : ℂ) + Complex.sin (φ : ℂ) * Complex.I) := by
  apply Complex.ext
  · simp [← Complex.ofReal_cos, ← Complex.ofReal_sin]
  · simp [← Complex.ofReal_cos, ← Complex.ofReal_sin]

/-- C16 as stated fails: `Tensor(-1, 0)` has the value 1, `Tensor(0.000001, 0)`
has the value 0, and `Tensor(0, 1/2)` has the angle 0, which is not 1/2
modulo pi. -/
theorem Tensor.C16_counterexample :
    Tensor.value Libm.exact (Tensor.ofValueAngle Libm.exact (-1) 0) = 1 ∧
    Tensor.value Libm.exact (Tensor.ofValueAngle Libm.exact (1 / 1000000) 0) = 0 ∧
    Tensor.angle Libm.exact (Tensor.ofValueAngle Libm.exact 0 (1 / 2)) = 0 ∧
    ¬ ∃ k : ℤ, (0 : ℝ) = 1 / 2 + k * Real.pi := by
  have hz1 : math.zero (1 : ℝ) = 1 := math.zero_eq_self 1 (Or.inr (by norm_num))
  have hz0 : math.zero (0 : ℝ) = 0 := math.zero_eq_self 0 (Or.inl rfl)
  refine ⟨?_, ?_, ?_, ?_⟩
  · simp [Tensor.value, Tensor.ofValueAngle, Vector2f.norm, Vector2f.normSquared, math.sqrt,
      math.cos, math.sin, math.pow2, Libm.exact, hz1, hz0]
  · have hs : Real.sqrt (1 / 1000000 * (1 / 1000000)) = 1 / 1000000 :=
      Real.sqrt_mul_self (by norm_num)
    have hsmall : math.zero (1 / 1000000 : ℝ) = 0 := by
      unfold math.zero
      rw [if_pos]
      rw [abs_of_nonneg (by norm_num)]
      norm_num
    simp only [Tensor.value, Tensor.ofValueAngle, Vector2f.norm, Vector2f.normSquared,
      math.sqrt, math.cos, math.sin, math.pow2, Libm.exact, mul_zero, Real.cos_zero,
      Real.sin_zero, hz1, hz0, mul_one, add_zero, hs, hsmall]
  · have h0 : (⟨0, 0⟩ : ℂ) = 0 := rfl
    simp [Tensor.angle, Tensor.ofValueAngle, math.atan2, Libm.exact, h0]
  · rintro ⟨k, hk⟩
    have hpi := Real.pi_gt_three
    rcases le_or_lt 0 k with h | h
    · have h1 : (0 : ℝ) ≤ (k : ℝ) := by exact_mod_cast h
      have h2 : 0 ≤ (k : ℝ) * Real.pi := mul_nonneg h1 (by linarith)
      linarith
    · have h1 : (k : ℝ) ≤ -1 := by exact_mod_cast Int.le_sub_one_of_lt h
      have h2 : (k : ℝ) * Real.pi ≤ -1 * Real.pi :=
        mul_le_mul_of_nonneg_right h1 (by linarith)
      linarith

/-- C16 (amended): in exact arithmetic, for every value r of at least 0.00001
and every angle theta for which `math::zero` rounds neither the cosine nor the
sine of 2 theta (each is 0 or at least 0.00001 in absolute value), the tensor
t = Tensor(r, theta) satisfies t.value() = r and t.angle() = theta modulo pi,
with t.angle() between 0 and pi. -/
theorem Tensor.C16_value_and_angle_of_polar_form (r θ : ℝ) (hr : 1 / 100000 ≤ r)
    (hc : Real.cos (2 * θ) = 0 ∨ 1 / 100000 ≤ |Real.cos (2 * θ)|)
    (hs : Real.sin (2 * θ) = 0 ∨ 1 / 100000 ≤ |Real.sin (2 * θ)|) :
    Tensor.value Libm.exact (Tensor.ofValueAngle Libm.exact r θ) = r ∧
    (∃ k : ℤ, Tensor.angle Libm.exact (Tensor.ofValueAngle Libm.exact r θ) = θ + k * Real.pi) ∧
    0 ≤ Tensor.angle Libm.exact (Tensor.ofValueAngle Libm.exact r θ) ∧
    Tensor.angle Libm.exact (Tensor.ofValueAngle Libm.exact r θ) < Real.pi := by
  have hr0 : 0 < r := lt_of_lt_of_le (by norm_num) hr
  have hcos : math.cos Libm.exact (2 * θ) = Real.cos (2 * θ) := math.zero_eq_self _ hc
  have hsin : math.sin Libm.exact (2 * θ) = Real.sin (2 * θ) := math.zero_eq_self _ hs
  have ht : Tensor.ofValueAngle Libm.exact r θ =
      ⟨r * Real.cos (2 * θ), r * Real.sin (2 * θ)⟩ := by
    simp only [Tensor.ofValueAngle, hcos, hsin]
  rw [ht]
  have hzr : math.zero r = r :=
    math.zero_eq_self r (Or.inr (by rwa [abs_of_nonneg hr0.le]))
  have hpi := Real.pi_pos
  refine ⟨?_, ?_⟩
  · have hsq : r * Real.cos (2 * θ) * (r * Real.cos (2 * θ)) +
        r * Real.sin (2 * θ) * (r * Real.sin (2 * θ)) = r * r := by
      have := Real.cos_sq_add_sin_sq (2 * θ)
      nlinarith [this]
    simp only [Tensor.value, Vector2f.norm, Vector2f.normSquared, math.sqrt, math.pow2,
      Libm.exact, hsq, Real.sqrt_mul_self hr0.le, hzr]
  · have harg := Complex.arg_mul_cos_add_sin_mul_I_sub hr0 (2 * θ)
    rw [← polar_components] at harg
    have hmem := Complex.arg_mem_Ioc (⟨r * Real.cos (2 * θ), r * Real.sin (2 * θ)⟩ : ℂ)
    simp only [Tensor.angle, math.atan2, Libm.exact]
    by_cases hneg : Complex.arg ⟨r * Real.cos (2 * θ), r * Real.sin (2 * θ)⟩ < 0
    · rw [if_pos hneg]
      refine ⟨⟨⌊(Real.pi - 2 * θ) / (2 * Real.pi)⌋ + 1, ?_⟩, ?_, ?_⟩
      · push_cast
        linarith
      · have := hmem.1
        linarith
      · linarith
    · rw [if_neg hneg]
      refine ⟨⟨⌊(Real.pi - 2 * θ) / (2 * Real.pi)⌋, ?_⟩, ?_, ?_⟩
      · linarith
      · have := not_lt.1 hneg
        linarith
      · have := hmem.2
        linarith

/-- Witness of the amended C16: `Tensor(1, 0)`. -/
theorem Tensor.C16_witness :
    Tensor.value Libm.exact (Tensor.ofValueAngle Libm.exact 1 0) = 1 ∧
    (∃ k : ℤ, Tensor.angle Libm.exact (Tensor.ofValueAngle Libm.exact 1 0) =
      0 + k * Real.pi) ∧
    0 ≤ Tensor.angle Libm.exact (Tensor.ofValueAngle Libm.exact 1 0) ∧
    Tensor.angle Libm.exact (Tensor.ofValueAngle Libm.exact 1 0) < Real.pi :=
  Tensor.C16_value_and_angle_of_polar_form 1 0 (by norm_num)
    (Or.inr (by simp; norm_num)) (Or.inl (by simp))

/-- Where `math::zero` rounds the cosine of 2 theta the angle is not kept:
for theta = pi/4 - 1/400000 the tensor `Tensor(1, theta)` has the angle pi/4,
which is not theta modulo pi. -/
theorem Tensor.angle_of_rounded_cosine :
    Tensor.angle Libm.exact (Tensor.ofValueAngle Libm.exact 1 (Real.pi / 4 - 1 / 400000)) =
      Real.pi / 4 ∧
    ¬ ∃ k : ℤ, Real.pi / 4 = (Real.pi / 4 - 1 / 400000) + k * Real.pi := by
  have hpi := Real.pi_gt_three
  have h2 : 2 * (Real.pi / 4 - 1 / 400000) = Real.pi / 2 - 1 / 200000 := by ring
  have hcos : Real.cos (2 * (Real.pi / 4 - 1 / 400000)) = Real.sin (1 / 200000) := by
    rw [h2, Real.cos_pi_div_two_sub]
  have hsin : Real.sin (2 * (Real.pi / 4 - 1 / 400000)) = Real.cos (1 / 200000) := by
    rw [h2, Real.sin_pi_div_two_sub]
  have hε0 : 0 < Real.sin (1 / 200000) :=
    Real.sin_pos_of_pos_of_lt_pi (by norm_num) (by linarith)
  have hε1 : Real.sin (1 / 200000) < 1 / 200000 := Real.sin_lt (by norm_num)
  have hc : 1 - (1 / 200000 : ℝ) ^ 2 / 2 ≤ Real.cos (1 / 200000) :=
    Real.one_sub_sq_div_two_le_cos
  have hc0 : (1 / 2 : ℝ) < Real.cos (1 / 200000) := by
    have : (1 / 2 : ℝ) < 1 - (1 / 200000 : ℝ) ^ 2 / 2 := by norm_num
    linarith
  have hz1 : math.zero (Real.sin (1 / 200000)) = 0 := by
    unfold math.zero
    rw [if_pos]
    rw [abs_of_pos hε0]
    linarith
  have hz2 : math.zero (Real.cos (1 / 200000)) = Real.cos (1 / 200000) := by
    apply math.zero_eq_self
    right
    rw [abs_of_pos (by linarith)]
    linarith
  constructor
  · have harg : Complex.arg ⟨0, Real.cos (1 / 200000)⟩ = Real.pi / 2 :=
      Complex.arg_eq_pi_div_two_iff.2 ⟨rfl, by show 0 < Real.cos (1 / 200000); linarith⟩
    have hnn : ¬ Real.pi / 2 < 0 := by linarith
    simp only [Tensor.angle, Tensor.ofValueAngle, math.atan2, math.cos, math.sin, Libm.exact,
      hcos, hsin, hz1, hz2, mul_zero, one_mul, harg, hnn, if_false]
    ring
  · rintro ⟨k, hk⟩
    have hk2 : (k : ℝ) * Real.pi = 1 / 400000 := by linarith
    rcases le_or_lt k 0 with h | h
    · have h1 : (k : ℝ) ≤ 0 := by exact_mod_cast h
      have h3 : (k : ℝ) * Real.pi ≤ 0 := mul_nonpos_of_nonpos_of_nonneg h1 (by linarith)
      linarith
    · have h1 : (1 : ℝ) ≤ (k : ℝ) := by exact_mod_cast h
      have h3 : 1 * Real.pi ≤ (k : ℝ) * Real.pi :=
        mul_le_mul_of_nonneg_right h1 (by linarith)
      linarith

end TensorPolar

section EigenVectors

/-- The minor eigenvector is the major one rotated by 90 degrees, the dot
product of the two is 0 and they have the same norm, for every tensor and for
any values of the library functions. -/
theorem Tensor.eigenVectors_orthogonal {F : Type} [LinearOrderedField F] (lib : Libm F)
    (t : Tensor F) :
    (Tensor.eigenVector lib t false).m_val0 = -(Tensor.eigenVector lib t true).m_val1 ∧
    (Tensor.eigenVector lib t false).m_val1 = (Tensor.eigenVector lib t true).m_val0 ∧
    Vector2f.dot (Tensor.eigenVector lib t true) (Tensor.eigenVector lib t false) = 0 ∧
    Vector2f.norm lib (Tensor.eigenVector lib t false) =
      Vector2f.norm lib (Tensor.eigenVector lib t true) := by
  refine ⟨rfl, rfl, ?_, ?_⟩
  · simp only [Vector2f.dot, Tensor.eigenVector, if_true, Bool.false_eq_true, if_false]
    ring
  · have h : Vector2f.normSquared (Tensor.eigenVector lib t false) =
        Vector2f.normSquared (Tensor.eigenVector lib t true) := by
      simp only [Vector2f.normSquared, math.pow2, Tensor.eigenVector, if_true,
        Bool.false_eq_true, if_false]
      ring
    simp only [Vector2f.norm, h]

/-- In exact arithmetic the major eigenvector has the norm `value()` when
`math::zero` rounds neither the cosine nor the sine of the tensor's angle. -/
theorem Tensor.major_eigenVector_norm (t : Tensor ℝ)
    (hc : Real.cos (Tensor.angle Libm.exact t) = 0 ∨
      1 / 100000 ≤ |Real.cos (Tensor.angle Libm.exact t)|)
    (hs : Real.sin (Tensor.angle Libm.exact t) = 0 ∨
      1 / 100000 ≤ |Real.sin (Tensor.angle Libm.exact t)|) :
    Vector2f.norm Libm.exact (Tensor.eigenVector Libm.exact t true) =
      Tensor.value Libm.exact t := by
  have hcos : math.cos Libm.exact (Tensor.angle Libm.exact t) =
      Real.cos (Tensor.angle Libm.exact t) := math.zero_eq_self _ hc
  have hsin : math.sin Libm.exact (Tensor.angle Libm.exact t) =
      Real.sin (Tensor.angle Libm.exact t) := math.zero_eq_self _ hs
  have hv0 : 0 ≤ Tensor.value Libm.exact t := by
    rcases Vector2f.norm_cases Libm.exact (fun a => Real.sqrt_nonneg a) t with h | h
    · exact le_of_eq h.symm
    · exact le_trans (by norm_num) h
  have hvz : math.zero (Tensor.value Libm.exact t) = Tensor.value Libm.exact t := by
    rcases Vector2f.norm_cases Libm.exact (fun a => Real.sqrt_nonneg a) t with h | h
    · exact math.zero_eq_self _ (Or.inl h)
    · exact math.zero_eq_self _ (Or.inr (by rw [abs_of_nonneg hv0]; exact h))
  have hsq : Tensor.value Libm.exact t * Real.cos (Tensor.angle Libm.exact t) *
      (Tensor.value Libm.exact t * Real.cos (Tensor.angle Libm.exact t)) +
      Tensor.value Libm.exact t * Real.sin (Tensor.angle Libm.exact t) *
      (Tensor.value Libm.exact t * Real.sin (Tensor.angle Libm.exact t)) =
      Tensor.value Libm.exact t * Tensor.value Libm.exact t := by
    have := Real.cos_sq_add_sin_sq (Tensor.angle Libm.exact t)
    nlinarith [this]
  have hsqrt : Real.sqrt (Tensor.value Libm.exact t * Tensor.value Libm.exact t) =
      Tensor.value Libm.exact t := Real.sqrt_mul_self hv0
  calc Vector2f.norm Libm.exact (Tensor.eigenVector Libm.exact t true)
      = math.zero (math.zero (Real.sqrt
          (Tensor.value Libm.exact t * Real.cos (Tensor.angle Libm.exact t) *
            (Tensor.value Libm.exact t * Real.cos (Tensor.angle Libm.exact t)) +
          Tensor.value Libm.exact t * Real.sin (Tensor.angle Libm.exact t) *
            (Tensor.value Libm.exact t * Real.sin (Tensor.angle Libm.exact t))))) := by
        simp only [Vector2f.norm, math.sqrt, Vector2f.normSquared, math.pow2,
          Tensor.eigenVector, if_true, hcos, hsin]
        rfl
    _ = Tensor.value Libm.exact t := by rw [hsq, hsqrt, hvz, hvz]

end EigenVectors

/-! ### Tracer: the edge list -/

section TracerEdges

open core

variable {F : Type} [LinearOrderedField F] [FloorRing F]

theorem core.Tracer.foldl_addSamplePoint_edges (id : Nat) (trace : List (Point F)) :
    ∀ t : Tracer F,
      (trace.foldl (fun s p => Tracer.addSamplePoint s ⟨p, some id⟩) t).m_edges = t.m_edges ∧
      (trace.foldl (fun s p => Tracer.addSamplePoint s ⟨p, some id⟩) t).m_created =
        t.m_created := by
  induction trace with
  | nil => intro t; exact ⟨rfl, rfl⟩
  | cons p rest ih =>
    intro t
    rw [List.foldl_cons]
    exact ⟨(ih _).1, (ih _).2⟩

theorem core.Tracer.foldl_removeSamplePoint_edges (id : Nat) (trace : List (Point F)) :
    ∀ t : Tracer F,
      (trace.foldl (fun s p => Tracer.removeSamplePoint s ⟨p, some id⟩) t).m_edges =
        t.m_edges ∧
      (trace.foldl (fun s p => Tracer.removeSamplePoint s ⟨p, some id⟩) t).m_created =
        t.m_created := by
  induction trace with
  | nil => intro t; exact ⟨rfl, rfl⟩
  | cons p rest ih =>
    intro t
    rw [List.foldl_cons]
    exact ⟨(ih _).1, (ih _).2⟩

/-- The edge list after `removeEdge`: the first entry with the address of the
edge is gone. -/
theorem core.Tracer.removeEdge_edges (t : Tracer F) (edge : Edge F) :
    (Tracer.removeEdge t edge).m_edges =
      t.m_edges.eraseP (fun e => decide (e.id = edge.id)) := by
  unfold Tracer.removeEdge
  split
  · simp only
    split <;> split <;>
      simp [Tracer.removeVertex, (Tracer.foldl_removeSamplePoint_edges _ _ _).1]
  · rename_i h
    have h0 : t.m_edges.countP (fun e => decide (e.id = edge.id)) = 0 := by omega
    rw [List.countP_eq_zero] at h0
    exact (List.eraseP_of_forall_not h0).symm

/-- The edge list after `addEdge`. -/
theorem core.Tracer.addEdge_edges (t : Tracer F) (edge : Edge F) :
    (Tracer.addEdge t edge).m_edges =
      if t.m_edges.countP (fun e => decide (e.id = edge.id)) = 0 then t.m_edges ++ [edge]
      else t.m_edges := by
  unfold Tracer.addEdge
  split
  · simp [Tracer.addVertex, (Tracer.foldl_addSamplePoint_edges _ _ _).1]
  · rfl

/-- Erasing the first entry that satisfies a test which the head of a
sublist satisfies leaves the rest of the sublist in place. -/
theorem sublist_eraseP_of_head {α : Type} (p : α → Bool) (a : α) (rest : List α) (hp : p a = true) :
    ∀ l : List α, List.Sublist (a :: rest) l → List.Sublist rest (l.eraseP p) := by
  intro l
  induction l with
  | nil => intro h; cases h
  | cons x l ih =>
    intro h
    by_cases hx : p x = true
    · rw [List.eraseP_cons_of_pos hx]
      cases h with
      | cons _ h2 => exact (List.sublist_of_cons_sublist h2)
      | cons₂ _ h2 => exact h2
    · rw [List.eraseP_cons_of_neg hx]
      cases h with
      | cons _ h2 => exact List.Sublist.cons _ (ih h2)
      | cons₂ _ h2 => exact absurd hp hx

theorem length_eraseP_of_mem {α : Type} (p : α → Bool) (a : α) (l : List α) (ha : a ∈ l)
    (hp : p a = true) : (l.eraseP p).length + 1 = l.length := by
  have h := List.length_eraseP_of_mem ha hp
  have hpos : 0 < l.length := List.length_pos_of_mem ha
  omega

end TracerEdges

/-! ### Tracer: traceLineSegment on an empty tracer -/

section EmptyTracer

open core

theorem Matrix.get_fill_default {α : Type} (d : α) (rows cols i j : Nat) :
    Matrix.get d (Matrix.fill rows cols d) i j = d := by
  simp only [Matrix.get, Matrix.fill, List.getD_eq_getElem?_getD, List.getElem?_replicate]
  by_cases hi : i < rows
  · by_cases hj : j < cols
    · simp [hi, hj]
    · simp [hi, hj]
  · simp [hi]

theorem QtSort.stable_lawful : QtSort.stable.Lawful := by
  intro α lessThan l
  exact stableSort_perm lessThan l

variable {F : Type} [LinearOrderedField F] [FloorRing F]

/-- A search in a grid that has only empty cells finds nothing. -/
theorem core.findGridElement_fill_nil {E : Type} (lib : Libm F) (qt : QtSort) (hqt : qt.Lawful)
    (pos : E → Vector2f F) (rows cols : Nat) (atPosition sweepDirection : Vector2f F)
    (sweepAngle : F) :
    findGridElement lib qt pos (Matrix.fill rows cols []) atPosition sweepDirection sweepAngle
      = [] := by
  unfold findGridElement
  have hinner : ∀ l : List E, l = [] → qt.qSort (CloserToPosition lib pos atPosition) l = [] := by
    intro l hl
    rw [hl]
    exact List.Perm.eq_nil (hqt E _ [])
  apply hinner
  rw [List.flatMap_eq_nil_iff]
  intro dr _
  split
  · rfl
  · rw [List.flatMap_eq_nil_iff]
    intro dc _
    split
    · rfl
    · simp [gridCell, Matrix.get_fill_default]

/-- The grids of a tracer just constructed hold nothing. -/
theorem core.Tracer.new_nothing_found (lib : Libm F) (qt : QtSort) (hqt : qt.Lawful)
    (type : RoadType) (distSep koefTest koefSegment koefLookahead koefConnect distSample : F) :
    (∀ p d (an : F), Tracer.findVertexSweep lib qt
      (Tracer.new type distSep koefTest koefSegment koefLookahead koefConnect distSample)
      p d an = []) ∧
    (∀ p d (an : F), Tracer.findSamplePointSweep lib qt
      (Tracer.new type distSep koefTest koefSegment koefLookahead koefConnect distSample)
      p d an = []) :=
  ⟨fun p d an => findGridElement_fill_nil lib qt hqt _ _ _ p d an,
   fun p d an => findGridElement_fill_nil lib qt hqt _ _ _ p d an⟩

end EmptyTracer

section LineSegmentExamples

open core

end LineSegmentExamples

section SimplifyLemmas

open core

/-- Two edges incident to one vertex can be joined. -/
theorem core.Edge.join_isSome_of_incident {F : Type} [DecidableEq F] (id : Nat)
    (e0 e1 : Edge F) (v : Point F)
    (h0 : e0.m_v1 = v ∨ e0.m_v2 = v) (h1 : e1.m_v1 = v ∨ e1.m_v2 = v) :
    ∃ newEdge, Edge.join id e0 e1 = some newEdge := by
  unfold Edge.join
  by_cases c1 : e0.m_v2 = e1.m_v1
  · exact ⟨_, if_pos c1⟩
  · rw [if_neg c1]
    by_cases c2 : e0.m_v2 = e1.m_v2
    · exact ⟨_, if_pos c2⟩
    · rw [if_neg c2]
      by_cases c3 : e0.m_v1 = e1.m_v1
      · exact ⟨_, if_pos c3⟩
      · rw [if_neg c3]
        by_cases c4 : e0.m_v1 = e1.m_v2
        · exact ⟨_, if_pos c4⟩
        · exfalso
          rcases h0 with h0 | h0 <;> rcases h1 with h1 | h1
          · exact c3 (h0.trans h1.symm)
          · exact c4 (h0.trans h1.symm)
          · exact c1 (h0.trans h1.symm)
          · exact c2 (h0.trans h1.symm)

/-- The end points of a joined edge do not depend on the address of the new
object. -/
theorem core.Edge.join_ends {F : Type} [DecidableEq F] (id id2 : Nat)
    (e0 e1 newEdge : Edge F)
    (h : Edge.join id e0 e1 = some newEdge) :
    ∃ newEdge2, Edge.join id2 e0 e1 = some newEdge2 ∧ newEdge2.m_v1 = newEdge.m_v1 ∧
      newEdge2.m_v2 = newEdge.m_v2 := by
  unfold Edge.join at h ⊢
  split at h
  · rename_i c
    cases h
    exact ⟨_, if_pos c, rfl, rfl⟩
  · rename_i c1
    rw [if_neg c1]
    split at h
    · rename_i c
      cases h
      exact ⟨_, if_pos c, rfl, rfl⟩
    · rename_i c2
      rw [if_neg c2]
      split at h
      · rename_i c
        cases h
        exact ⟨_, if_pos c, rfl, rfl⟩
      · rename_i c3
        rw [if_neg c3]
        split at h
        · rename_i c
          cases h
          exact ⟨_, if_pos c, rfl, rfl⟩
        · cases h

variable {F : Type} [LinearOrderedField F] [FloorRing F]

/-- What the loop of `simplify` does: either it returns, with nothing added or
removed and the tracer as it was (up to the count of objects created), and
does so whatever that count is; or it returns with a shorter edge list and a
longer list of removed edges. -/
theorem core.Tracer.simplifyLoop_spec (verts : List (Point F)) :
    ∀ (t : Tracer F) (removed : List (Edge F)),
      ∃ out, Tracer.simplifyLoop verts t removed = some out ∧
      ((out.1 = [] ∧ out.2.1 = removed ∧ (∃ m, out.2.2 = { t with m_created := m }) ∧
          ∀ n, ∃ m, Tracer.simplifyLoop verts { t with m_created := n } removed =
            some ([], removed, { t with m_created := m })) ∨
        (out.2.2.m_edges.length < t.m_edges.length ∧ removed.length < out.2.1.length)) := by
  induction verts with
  | nil =>
    intro t removed
    exact ⟨_, rfl, Or.inl ⟨rfl, rfl, ⟨t.m_created, rfl⟩, fun n => ⟨n, rfl⟩⟩⟩
  | cons v rest ih =>
    intro t removed
    have hskip : ∀ (hne1 : ∀ e, Tracer.findEdge t v ≠ [e])
        (hne2 : ∀ e0 e1, Tracer.findEdge t v ≠ [e0, e1]) (t2 : Tracer F),
        t2.m_edges = t.m_edges →
        Tracer.simplifyLoop (v :: rest) t2 removed = Tracer.simplifyLoop rest t2 removed := by
      intro hne1 hne2 t2 ht2
      have hfe : Tracer.findEdge t2 v = Tracer.findEdge t v := by
        simp only [Tracer.findEdge, ht2]
      rw [Tracer.simplifyLoop]
      split
      · rename_i e he
        exact absurd (hfe ▸ he) (hne1 e)
      · rename_i e0 e1 he
        exact absurd (hfe ▸ he) (hne2 e0 e1)
      · rfl
    rcases hfe : Tracer.findEdge t v with _ | ⟨e0, _ | ⟨e1, _ | ⟨e2, tl⟩⟩⟩
    · -- no incident edge
      have h1 : ∀ e, Tracer.findEdge t v ≠ [e] := by intro e; rw [hfe]; simp
      have h2 : ∀ e0 e1, Tracer.findEdge t v ≠ [e0, e1] := by intro a b; rw [hfe]; simp
      rcases ih t removed with ⟨out, hout, hcase⟩
      refine ⟨out, by rw [hskip h1 h2 t rfl, hout], ?_⟩
      rcases hcase with ⟨ha, hr, hm, hsim⟩ | hlt
      · refine Or.inl ⟨ha, hr, hm, fun n => ?_⟩
        rcases hsim n with ⟨m2, hm2⟩
        exact ⟨m2, by rw [hskip h1 h2 { t with m_created := n } rfl, hm2]⟩
      · exact Or.inr hlt
    · -- one incident edge
      have hmem : e0 ∈ t.m_edges := by
        have : e0 ∈ Tracer.findEdge t v := by rw [hfe]; simp
        exact (List.mem_filter.1 this).1
      by_cases hroad : e0.isRoad = true
      · have hstep : Tracer.simplifyLoop (v :: rest) t removed =
            Tracer.simplifyLoop rest (Tracer.removeEdge t e0) (removed ++ [e0]) := by
          rw [Tracer.simplifyLoop]
          simp only [hfe, hroad, if_true]
        rcases ih (Tracer.removeEdge t e0) (removed ++ [e0]) with ⟨out, hout, hcase⟩
        refine ⟨out, by rw [hstep, hout], Or.inr ?_⟩
        have hlen : (Tracer.removeEdge t e0).m_edges.length + 1 = t.m_edges.length := by
          rw [Tracer.removeEdge_edges]
          exact length_eraseP_of_mem _ e0 _ hmem (by simp)
        rcases hcase with ⟨_, hr, ⟨m, hm⟩, _⟩ | ⟨hlt, hrl⟩
        · rw [hm, hr]
          simp only [List.length_append, List.length_singleton]
          omega
        · simp only [List.length_append, List.length_singleton] at hrl
          omega
      · have hstep : ∀ t2 : Tracer F, t2.m_edges = t.m_edges →
            Tracer.simplifyLoop (v :: rest) t2 removed =
              Tracer.simplifyLoop rest t2 removed := by
          intro t2 ht2
          have hfe2 : Tracer.findEdge t2 v = [e0] := by
            rw [← hfe]
            simp only [Tracer.findEdge, ht2]
          rw [Tracer.simplifyLoop]
          simp only [hfe2, hroad]
          rfl
        rcases ih t removed with ⟨out, hout, hcase⟩
        refine ⟨out, by rw [hstep t rfl, hout], ?_⟩
        rcases hcase with ⟨ha, hr, hm, hsim⟩ | hlt
        · refine Or.inl ⟨ha, hr, hm, fun n => ?_⟩
          rcases hsim n with ⟨m2, hm2⟩
          exact ⟨m2, by rw [hstep { t with m_created := n } rfl, hm2]⟩
        · exact Or.inr hlt
    · -- two incident edges
      have hsub : List.Sublist [e0, e1] t.m_edges := by
        rw [← hfe]
        exact List.filter_sublist _
      have hin0 : e0.m_v1 = v ∨ e0.m_v2 = v := by
        have : e0 ∈ Tracer.findEdge t v := by rw [hfe]; simp
        simpa using (List.mem_filter.1 this).2
      have hin1 : e1.m_v1 = v ∨ e1.m_v2 = v := by
        have : e1 ∈ Tracer.findEdge t v := by rw [hfe]; simp
        simpa using (List.mem_filter.1 this).2
      rcases Edge.join_isSome_of_incident t.m_created e0 e1 v hin0 hin1 with ⟨newEdge, hjoin⟩
      by_cases hcon : Tracer.containsEdge2 t newEdge.m_v1 newEdge.m_v2 = true
      · -- the joined edge exists already: it is deleted
        have hstep : ∀ n, Tracer.simplifyLoop (v :: rest) { t with m_created := n } removed =
            Tracer.simplifyLoop rest { t with m_created := n + 1 } removed := by
          intro n
          rcases Edge.join_ends t.m_created n e0 e1 newEdge hjoin with ⟨ne2, hj2, hv1, hv2⟩
          have hfe2 : Tracer.findEdge { t with m_created := n } v = [e0, e1] := hfe
          have hcon2 : Tracer.containsEdge2 { t with m_created := n } ne2.m_v1 ne2.m_v2 =
              true := by
            rw [hv1, hv2]
            exact hcon
          rw [Tracer.simplifyLoop]
          simp only [hfe2, hj2, hcon2, Bool.not_true, Bool.false_eq_true, if_false]
        rcases ih { t with m_created := t.m_created + 1 } removed with ⟨out, hout, hcase⟩
        refine ⟨out, by rw [← hout]; exact hstep t.m_created, ?_⟩
        rcases hcase with ⟨ha, hr, ⟨m, hm⟩, hsim⟩ | hlt
        · refine Or.inl ⟨ha, hr, ⟨m, hm⟩, fun n => ?_⟩
          rcases hsim (n + 1) with ⟨m2, hm2⟩
          exact ⟨m2, by rw [hstep n]; exact hm2⟩
        · exact Or.inr hlt
      · -- the two edges are replaced by the joined one
        have hstep : Tracer.simplifyLoop (v :: rest) t removed =
            some ([newEdge], removed ++ [e0, e1],
              Tracer.addEdge (Tracer.removeEdge
                (Tracer.removeEdge { t with m_created := t.m_created + 1 } e0) e1) newEdge) := by
          rw [Tracer.simplifyLoop]
          simp only [hfe, hjoin, hcon, Bool.not_false, if_true]
        refine ⟨_, hstep, Or.inr ⟨?_, by simp⟩⟩
        have hm0 : e0 ∈ t.m_edges := hsub.subset (by simp)
        have hl1 : (Tracer.removeEdge { t with m_created := t.m_created + 1 } e0).m_edges.length
            + 1 = t.m_edges.length := by
          rw [Tracer.removeEdge_edges]
          exact length_eraseP_of_mem _ e0 _ hm0 (by simp)
        have hm1 : e1 ∈ (Tracer.removeEdge { t with m_created := t.m_created + 1 } e0).m_edges := by
          rw [Tracer.removeEdge_edges]
          have := sublist_eraseP_of_head (fun e => decide (e.id = e0.id)) e0 [e1] (by simp)
            t.m_edges hsub
          exact this.subset (by simp)
        have hl2 : (Tracer.removeEdge
            (Tracer.removeEdge { t with m_created := t.m_created + 1 } e0) e1).m_edges.length
            + 1 = (Tracer.removeEdge { t with m_created := t.m_created + 1 } e0).m_edges.length := by
          rw [Tracer.removeEdge_edges _ e1]
          exact length_eraseP_of_mem _ e1 _ hm1 (by simp)
        have hl3 : (Tracer.addEdge (Tracer.removeEdge
            (Tracer.removeEdge { t with m_created := t.m_created + 1 } e0) e1) newEdge).m_edges.length
            ≤ (Tracer.removeEdge
              (Tracer.removeEdge { t with m_created := t.m_created + 1 } e0) e1).m_edges.length
                + 1 := by
          rw [Tracer.addEdge_edges]
          split <;> simp
        show (Tracer.addEdge (Tracer.removeEdge
            (Tracer.removeEdge { t with m_created := t.m_created + 1 } e0) e1) newEdge).m_edges.length
            < t.m_edges.length
        omega
    · -- three or more incident edges
      have h1 : ∀ e, Tracer.findEdge t v ≠ [e] := by intro e; rw [hfe]; simp
      have h2 : ∀ a b, Tracer.findEdge t v ≠ [a, b] := by intro a b; rw [hfe]; simp
      rcases ih t removed with ⟨out, hout, hcase⟩
      refine ⟨out, by rw [hskip h1 h2 t rfl, hout], ?_⟩
      rcases hcase with ⟨ha, hr, hm, hsim⟩ | hlt
      · refine Or.inl ⟨ha, hr, hm, fun n => ?_⟩
        rcases hsim n with ⟨m2, hm2⟩
        exact ⟨m2, by rw [hskip h1 h2 { t with m_created := n } rfl, hm2]⟩
      · exact Or.inr hlt

end SimplifyLemmas

/-! ### Region: simplifyGraph -/

section SimplifyGraph

open core

variable {F : Type} [LinearOrderedField F] [FloorRing F] [LinearOrder (Point F)]

/-- One pass of `simplifyGraph` returns; either it returns no edge and leaves
the region as it was (up to the count of objects created), whatever that count
is, or it returns some edge and the edge list of the tracer gets shorter. -/
theorem core.Region.simplifyPass_spec (r : Region F) :
    ∃ edges r1, Region.simplifyPass r = some (edges, r1) ∧
      ((edges = [] ∧
          (∃ m, r1 = { r with m_tracer := { r.m_tracer with m_created := m } }) ∧
          ∀ n, ∃ m,
            Region.simplifyPass { r with m_tracer := { r.m_tracer with m_created := n } } =
              some ([], { r with m_tracer := { r.m_tracer with m_created := m } })) ∨
        (edges ≠ [] ∧ r1.m_tracer.m_edges.length < r.m_tracer.m_edges.length)) := by
  rcases Tracer.simplifyLoop_spec (Grapher.bridges r.m_grapher ++ Grapher.dongles r.m_grapher)
    r.m_tracer [] with ⟨⟨added, removed, t1⟩, hout, hcase⟩
  have hs : Tracer.simplify r.m_tracer
      (Grapher.bridges r.m_grapher ++ Grapher.dongles r.m_grapher) =
      some (added ++ removed, t1) := by
    simp only [Tracer.simplify, hout]
  refine ⟨added ++ removed,
    { r with m_tracer := t1,
             m_grapher := Region.applyEdges t1 (added ++ removed) r.m_grapher },
    by simp only [Region.simplifyPass, hs], ?_⟩
  rcases hcase with ⟨ha, hr, ⟨m, hm⟩, hsim⟩ | ⟨hlt, hrl⟩
  · simp only at ha hr hm
    subst ha hr hm
    refine Or.inl ⟨rfl, ⟨m, rfl⟩, fun n => ?_⟩
    rcases hsim n with ⟨m2, hm2⟩
    refine ⟨m2, ?_⟩
    simp only [Region.simplifyPass, Tracer.simplify, hm2]
    rfl
  · refine Or.inr ⟨?_, hlt⟩
    intro h
    have : removed = [] := (List.append_eq_nil.1 h).2
    rw [this] at hrl
    exact absurd hrl (Nat.lt_irrefl _)

/-- With more passes allowed than the tracer has edges, `simplifyGraph`
returns, and it returns a region on which a pass returns no edge. -/
theorem core.Region.simplifyGraph_returns :
    ∀ (n : Nat) (r : Region F), r.m_tracer.m_edges.length < n →
      ∃ (r0 : Region F) (m : Nat),
        Region.simplifyGraph n r =
          some { r0 with m_tracer := { r0.m_tracer with m_created := m } } ∧
        ∀ k, ∃ m2,
          Region.simplifyPass { r0 with m_tracer := { r0.m_tracer with m_created := k } } =
            some ([], { r0 with m_tracer := { r0.m_tracer with m_created := m2 } }) := by
  intro n
  induction n with
  | zero => intro r h; exact absurd h (Nat.not_lt_zero _)
  | succ n ih =>
    intro r hlen
    rcases Region.simplifyPass_spec r with ⟨edges, r1, hpass, hcase⟩
    rcases hcase with ⟨he, ⟨m, hm⟩, hsim⟩ | ⟨hne, hlt⟩
    · refine ⟨r, m, ?_, hsim⟩
      simp only [Region.simplifyGraph, hpass, he, List.isEmpty_nil, if_true, hm]
    · rcases ih r1 (by omega) with ⟨r0, m, hres, hsim⟩
      refine ⟨r0, m, ?_, hsim⟩
      have hnot : edges.isEmpty = false := by
        cases edges with
        | nil => exact absurd rfl hne
        | cons _ _ => rfl
      simp only [Region.simplifyGraph, hpass, hnot, Bool.false_eq_true, if_false, hres]

/-- The result of `simplifyGraph` does not change when more passes are
allowed. -/
theorem core.Region.simplifyGraph_fuel :
    ∀ (n : Nat) (r x : Region F), Region.simplifyGraph n r = some x →
      ∀ k, Region.simplifyGraph (n + k) r = some x := by
  intro n
  induction n with
  | zero => intro r x h; simp [Region.simplifyGraph] at h
  | succ n ih =>
    intro r x h k
    have hk : n + 1 + k = (n + k) + 1 := by omega
    rw [hk]
    simp only [Region.simplifyGraph] at h ⊢
    cases hp : Region.simplifyPass r with
    | none => simp [hp] at h
    | some res =>
      rcases res with ⟨edges, r1⟩
      simp only [hp] at h ⊢
      by_cases he : edges.isEmpty = true
      · simpa [he] using h
      · simp only [he, Bool.false_eq_true, if_false] at h ⊢
        exact ih r1 x h k

/-- C20: Region::simplifyGraph is idempotent.  For every region state the
call returns (whenever more passes are allowed than the tracer has edges), and
a second call made directly after it returns as well and leaves the edge list
of the tracer, its two spatial grids, the adjacency lists of the grapher and
the seeder as the first call left them. -/
theorem core.Region.C20_simplifyGraph_idempotent (r : Region F) :
    ∃ r1 r2 : Region F,
      (∀ fuel, r.m_tracer.m_edges.length < fuel → Region.simplifyGraph fuel r = some r1) ∧
      (∀ fuel, 0 < fuel → Region.simplifyGraph fuel r1 = some r2) ∧
      r2.m_tracer.m_edges = r1.m_tracer.m_edges ∧
      r2.m_tracer.m_vertices = r1.m_tracer.m_vertices ∧
      r2.m_tracer.m_samplePoints = r1.m_tracer.m_samplePoints ∧
      r2.m_grapher = r1.m_grapher ∧
      r2.m_seeder = r1.m_seeder := by
  rcases Region.simplifyGraph_returns (r.m_tracer.m_edges.length + 1) r (Nat.lt_succ_self _)
    with ⟨r0, m, hres, hsim⟩
  rcases hsim m with ⟨m2, hm2⟩
  refine ⟨{ r0 with m_tracer := { r0.m_tracer with m_created := m } },
    { r0 with m_tracer := { r0.m_tracer with m_created := m2 } }, ?_, ?_, rfl, rfl, rfl, rfl, rfl⟩
  · intro fuel hfuel
    have := Region.simplifyGraph_fuel _ r _ hres (fuel - (r.m_tracer.m_edges.length + 1))
    have hf : r.m_tracer.m_edges.length + 1 + (fuel - (r.m_tracer.m_edges.length + 1)) = fuel := by
      omega
    rw [hf] at this
    exact this
  · intro fuel hfuel
    obtain ⟨k, rfl⟩ : ∃ k, fuel = k + 1 := ⟨fuel - 1, by omega⟩
    simp only [Region.simplifyGraph, hm2, List.isEmpty_nil, if_true]

end SimplifyGraph

/-! ### Norms and sweeps with the exact library -/

section ExactGeometry

open core

/-- With the exact library, the norm of a vector whose length is at least
`c`, for a `c` that `math::zero` does not round, is its length. -/
theorem Vector2f.norm_exact_of_le (v : Vector2f ℝ) (c : ℝ) (hc : 1 / 100000 ≤ c)
    (hv : c * c ≤ Vector2f.normSquared v) :
    Vector2f.norm Libm.exact v = Real.sqrt (Vector2f.normSquared v) ∧
      c ≤ Vector2f.norm Libm.exact v := by
  have hc0 : 0 ≤ c := by linarith
  have hs : c ≤ Real.sqrt v.normSquared := by
    rw [Real.le_sqrt' (by linarith)]
    nlinarith
  have hz : math.zero (Real.sqrt v.normSquared) = Real.sqrt v.normSquared :=
    math.zero_eq_self _ (Or.inr (by rw [abs_of_nonneg (by linarith)]; linarith))
  have hn : Vector2f.norm Libm.exact v = Real.sqrt v.normSquared := by
    simp only [Vector2f.norm, math.sqrt, Libm.exact, hz]
  exact ⟨hn, by rw [hn]; exact hs⟩

/-- The norm of a vector along the first axis. -/
theorem Vector2f.norm_exact_axis0 (a : ℝ) (h : 1 / 100000 ≤ |a|) :
    Vector2f.norm Libm.exact ⟨a, 0⟩ = |a| := by
  have hv : |a| * |a| ≤ Vector2f.normSquared (⟨a, 0⟩ : Vector2f ℝ) := by
    simp only [Vector2f.normSquared, math.pow2, mul_zero, add_zero, abs_mul_abs_self, le_refl]
  rw [(Vector2f.norm_exact_of_le _ _ h hv).1]
  simp only [Vector2f.normSquared, math.pow2, mul_zero, add_zero]
  exact Real.sqrt_mul_self_eq_abs a

/-- The norm of a vector along the second axis. -/
theorem Vector2f.norm_exact_axis1 (b : ℝ) (h : 1 / 100000 ≤ |b|) :
    Vector2f.norm Libm.exact ⟨0, b⟩ = |b| := by
  have hv : |b| * |b| ≤ Vector2f.normSquared (⟨0, b⟩ : Vector2f ℝ) := by
    simp only [Vector2f.normSquared, math.pow2, mul_zero, zero_add, abs_mul_abs_self, le_refl]
  rw [(Vector2f.norm_exact_of_le _ _ h hv).1]
  simp only [Vector2f.normSquared, math.pow2, mul_zero, zero_add]
  exact Real.sqrt_mul_self_eq_abs b

end ExactGeometry

/-! ### Searches in the grids -/

section GridSearch

open core

variable {F : Type} [LinearOrderedField F] [FloorRing F] {E : Type}

/-- What a search finds is stored in a cell of the grid and falls in the
search area. -/
theorem core.findGridElement_sound (lib : Libm F) (qt : QtSort) (hqt : qt.Lawful)
    (pos : E → Vector2f F) (grid : Matrix (List E)) (atPosition sweepDirection : Vector2f F)
    (sweepAngle : F) (e : E)
    (he : e ∈ findGridElement lib qt pos grid atPosition sweepDirection sweepAngle) :
    (∃ r c, e ∈ grid.get [] r c) ∧
      inSweep lib pos atPosition sweepDirection sweepAngle e = true := by
  unfold findGridElement at he
  rw [(hqt E _ _).mem_iff] at he
  rw [List.mem_flatMap] at he
  rcases he with ⟨dr, _, he⟩
  split at he
  · cases he
  · rw [List.mem_flatMap] at he
    rcases he with ⟨dc, _, he⟩
    split at he
    · cases he
    · rw [List.mem_filter] at he
      exact ⟨⟨_, _, he.1⟩, he.2⟩

/-- Zero is among the cell offsets that a search visits. -/
theorem core.zero_mem_intRange (n : Int) (hn : 0 ≤ n) : (0 : Int) ∈ intRange (-n) n := by
  unfold intRange
  simp only [List.mem_map]
  refine ⟨n, ?_, by omega⟩
  simp only [List.pure_def, List.bind_eq_flatMap, List.mem_flatMap, List.mem_range,
    List.mem_singleton]
  exact ⟨n.toNat, by omega, by omega⟩

/-- A search finds the elements of the cell of the position that fall in the
search area. -/
theorem core.findGridElement_complete (lib : Libm F) (qt : QtSort) (hqt : qt.Lawful)
    (pos : E → Vector2f F) (grid : Matrix (List E)) (atPosition sweepDirection : Vector2f F)
    (sweepAngle : F) (e : E) (hnorm : 0 ≤ Vector2f.norm lib sweepDirection)
    (hr1 : 0 ≤ (getGridCell grid atPosition).1)
    (hr2 : (getGridCell grid atPosition).1 < (grid.m_rows : Int))
    (hc1 : 0 ≤ (getGridCell grid atPosition).2)
    (hc2 : (getGridCell grid atPosition).2 < (grid.m_cols : Int))
    (hmem : e ∈ gridCell grid (getGridCell grid atPosition))
    (hin : inSweep lib pos atPosition sweepDirection sweepAngle e = true) :
    e ∈ findGridElement lib qt pos grid atPosition sweepDirection sweepAngle := by
  unfold findGridElement
  rw [(hqt E _ _).mem_iff]
  rw [List.mem_flatMap]
  refine ⟨0, zero_mem_intRange _ (Int.ceil_nonneg (mul_nonneg hnorm (Nat.cast_nonneg _))), ?_⟩
  rw [if_neg (by rw [add_zero]; omega)]
  rw [List.mem_flatMap]
  refine ⟨0, zero_mem_intRange _ (Int.ceil_nonneg (mul_nonneg hnorm (Nat.cast_nonneg _))), ?_⟩
  rw [if_neg (by rw [add_zero]; omega)]
  rw [List.mem_filter]
  simp only [add_zero]
  exact ⟨hmem, hin⟩

end GridSearch

/-! ### Additions to the grids -/

section GridAdditions

open core

/-- An element read after an assignment is the one read before, or the
element assigned at the place of the assignment. -/
theorem Matrix.get_set_cases {α : Type} (d : α) (m : Matrix α) (i j r c : Nat) (v : α) :
    Matrix.get d (Matrix.set m i j v) r c = Matrix.get d m r c ∨
      (r = i ∧ c = j ∧ Matrix.get d (Matrix.set m i j v) r c = v) := by
  by_cases h : r = i ∧ c = j
  · rcases h with ⟨rfl, rfl⟩
    by_cases hr : r < m.m_matrix.length
    · have hrow : m.m_matrix[r]? = some (m.m_matrix[r]) := List.getElem?_eq_getElem hr
      by_cases hc : c < (m.m_matrix[r]).length
      · right
        refine ⟨rfl, rfl, ?_⟩
        simp only [Matrix.get, Matrix.set, List.getD_eq_getElem?_getD, List.getElem?_set]
        simp [hr, hc, hrow]
      · left
        simp only [Matrix.get, Matrix.set, List.getD_eq_getElem?_getD, List.getElem?_set]
        simp only [hr, hrow, if_true, Option.getD_some]
        rw [List.set_eq_of_length_le (by omega)]
    · left
      simp only [Matrix.get, Matrix.set]
      rw [List.set_eq_of_length_le (by omega)]
  · exact Or.inl (Matrix.get_set_ne d m i j r c v h)

variable {F : Type} [LinearOrderedField F] [FloorRing F] {E : Type}

theorem core.addGridElement_rows (pos : E → Vector2f F) (eq : E → E → Bool)
    (grid : Matrix (List E)) (x : E) :
    (addGridElement pos eq grid x).m_rows = grid.m_rows ∧
      (addGridElement pos eq grid x).m_cols = grid.m_cols := by
  unfold addGridElement
  split
  · exact ⟨rfl, rfl⟩
  · exact ⟨rfl, rfl⟩

/-- What a cell holds after an addition was there before, or is the element
added. -/
theorem core.mem_addGridElement (pos : E → Vector2f F) (eq : E → E → Bool)
    (grid : Matrix (List E)) (x : E) (r c : Nat) (e : E)
    (he : e ∈ (addGridElement pos eq grid x).get [] r c) : e ∈ grid.get [] r c ∨ e = x := by
  unfold addGridElement at he
  split at he
  · rcases Matrix.get_set_cases [] grid _ _ r c _ with h | ⟨h1, h2, h3⟩
    · rw [h] at he
      exact Or.inl he
    · rw [h3, List.mem_append, List.mem_singleton] at he
      rcases he with he | he
      · left
        rw [h1, h2]
        exact he
      · exact Or.inr he
  · exact Or.inl he

/-- An addition keeps the invariant of a grid when the element added satisfies
the property. -/
theorem core.GridInv.add_element (pos : E → Vector2f F) (eq : E → E → Bool) {n : Nat}
    {grid : Matrix (List E)} {P : E → Prop} (h : GridInv n grid P) (x : E) (hx : P x) :
    GridInv n (addGridElement pos eq grid x) P := by
  rcases h with ⟨hsq, hr, hc, hP⟩
  refine ⟨?_, by rw [(addGridElement_rows pos eq grid x).1, hr],
    by rw [(addGridElement_rows pos eq grid x).2, hc], ?_⟩
  · unfold addGridElement
    split
    · exact Matrix.square_set _ _ _ _ _ hsq
    · exact hsq
  · intro r c e he
    rcases mem_addGridElement pos eq grid x r c e he with h | h
    · exact hP r c e h
    · rw [h]
      exact hx

theorem core.GridInv.weaken {n : Nat} {grid : Matrix (List E)} {P Q : E → Prop}
    (h : GridInv n grid P) (hPQ : ∀ e, P e → Q e) : GridInv n grid Q :=
  ⟨h.1, h.2.1, h.2.2.1, fun r c e he => hPQ e (h.2.2.2 r c e he)⟩

/-- The cell of a position is inside a grid that has cells. -/
theorem core.getGridCell_range (grid : Matrix (List E)) (p : Vector2f F)
    (hrows : 0 < grid.m_rows) (hcols : 0 < grid.m_cols) :
    0 ≤ (getGridCell grid p).1 ∧ 0 ≤ (getGridCell grid p).2 ∧
      (getGridCell grid p).1 < (grid.m_rows : Int) ∧
      (getGridCell grid p).2 < (grid.m_cols : Int) := by
  have hround : ∀ a : F, 0 ≤ a → 0 ≤ roundf a := by
    intro a ha
    unfold roundf
    rw [if_pos ha]
    exact Int.floor_nonneg.2 (by linarith)
  have h0 : ∀ (a : F) (k : Nat), 0 ≤ max 0 (min a 1) * (k : F) := fun a k =>
    mul_nonneg (le_max_left _ _) (Nat.cast_nonneg k)
  unfold getGridCell
  refine ⟨?_, ?_, ?_, ?_⟩
  · simp only
    have := hround _ (h0 p.m_val0 grid.m_rows)
    omega
  · simp only
    have := hround _ (h0 p.m_val1 grid.m_cols)
    omega
  · simp only
    omega
  · simp only
    omega

end GridAdditions

/-! ### The state after addEdge -/

section AddEdgeState

open core

variable {F : Type} [LinearOrderedField F] [FloorRing F]

end AddEdgeState

/-! ### The sampling loop of traceLineSegment -/

section LineLoop

open core

variable {F : Type} [LinearOrderedField F] [FloorRing F]

end LineLoop

/-! ### One side of the bounds of the domain -/

section DomainSide

open core

end DomainSide

/-! ### Sweeps along a side -/

section SideGeometry

open core

end SideGeometry

/-! ### The grids through the tracing of the bounds -/

section BoundsGrids

open core

theorem Point2f.pos_ofCoords {F : Type} [LinearOrderedField F] (x y : F) :
    (Point2f.ofCoords x y : Point2f F).pos = ⟨x, y⟩ := rfl

variable {F : Type} [LinearOrderedField F] [FloorRing F]

/-- The grids of a tracer just constructed. -/
theorem core.GridInv.of_fill {E : Type} (n : Nat) (P : E → Prop) :
    GridInv n (Matrix.fill n n ([] : List E)) P := by
  refine ⟨Matrix.square_fill n [], rfl, rfl, ?_⟩
  intro r c e he
  rw [Matrix.get_fill_default] at he
  cases he

/-- The cell of a position on the second axis, not farther than 0.009 from the
origin, in a grid of 20 by 20 cells. -/
theorem core.getGridCell_near_origin {E : Type} (grid : Matrix (List E))
    (hr : grid.m_rows = 20) (hc : grid.m_cols = 20) (y : ℝ) (hy0 : 0 ≤ y) (hy : y ≤ 9 / 1000) :
    getGridCell grid (⟨0, y⟩ : Vector2f ℝ) = (0, 0) := by
  have e1 : max 0 (min (0 : ℝ) 1) * (20 : ℝ) = 0 := by norm_num
  have e2 : max 0 (min y 1) = y := by
    rw [min_eq_left (by linarith), max_eq_right hy0]
  have r1 : roundf (0 : ℝ) = 0 := by
    unfold roundf
    rw [if_pos (le_refl _), Int.floor_eq_iff]
    norm_num
  have r2 : roundf (y * 20) = 0 := by
    unfold roundf
    rw [if_pos (by linarith), Int.floor_eq_iff]
    constructor
    · push_cast
      linarith
    · push_cast
      linarith
  unfold getGridCell
  simp only [hr, hc, Nat.cast_ofNat, e1, e2, r1, r2]
  rfl

end BoundsGrids

/-! ### The four sides of the domain -/

section DomainSides

open core

end DomainSides

/-! ### The fourth side of the domain -/

section FourthSide

open core

end FourthSide

/-! ### The bounds of the domain -/

section DomainBounds

open core

end DomainBounds

/-! ### The cycle of the four sides -/

section SquareCycle

open core

end SquareCycle

/-! ### traceInit on a model just constructed -/

section TraceInit

open core

/-- The order of two finite points is the one that `operator<` of
core/grapher.cpp computes. -/
theorem core.Point.ofCoords_lt_iff {F : Type} [LinearOrderedField F] (x1 y1 x2 y2 : F) :
    (Point2f.ofCoords x1 y1 : Point F) < Point2f.ofCoords x2 y2 ↔
      x1 < x2 ∨ (x1 = x2 ∧ y1 < y2) := by
  show Point.key (Point2f.ofCoords x1 y1) < Point.key (Point2f.ofCoords x2 y2) ↔ _
  simp only [Point.key, Point2f.ofCoords, WithTop.coe_lt_coe, Prod.Lex.lt_iff]

/-- The order of the points is the one that `operator<` computes. -/
theorem core.Point.lt_iff_lessThan {F : Type} [LinearOrderedField F] (a b : Point F) :
    a < b ↔ Point.lessThan a b = true := by
  show Point.key a < Point.key b ↔ _
  rcases a with ⟨_ | ⟨a0, a1⟩⟩ <;> rcases b with ⟨_ | ⟨b0, b1⟩⟩
  · simp [Point.key, Point.lessThan]
  · simp [Point.key, Point.lessThan]
  · simp [Point.key, Point.lessThan, WithTop.coe_lt_top]
  · simp only [Point.key, Point.lessThan, WithTop.coe_lt_coe, Prod.Lex.lt_iff]
    by_cases h : a0 = b0
    · simp [h]
    · simp [h]

theorem Point2f.ofCoords_eq_iff (x1 y1 x2 y2 : ℝ) :
    (Point2f.ofCoords x1 y1 : Point ℝ) = Point2f.ofCoords x2 y2 ↔ x1 = x2 ∧ y1 = y2 := by
  simp [Point2f.ofCoords]

end TraceInit

/-! ### C19: traceInit on a model just constructed -/

section TraceInitClaim

open core

end TraceInitClaim

/-! ### Edge::join -/

section EdgeJoin

open core

theorem core.Edge.traceReversed_eq_reverse {F : Type} (e : Edge F) :
    Edge.traceReversed e = e.m_trace.reverse := by
  unfold Edge.traceReversed
  apply List.ext_getElem?
  intro i
  by_cases hi : i < e.m_trace.length
  · rw [List.getElem?_reverse hi]
    have hall : (List.range e.m_trace.length).filterMap
        (fun j => e.m_trace[e.m_trace.length - 1 - j]?) =
        (List.range e.m_trace.length).map
          (fun j => e.m_trace.getD (e.m_trace.length - 1 - j) (e.m_trace.getD 0 e.m_v1)) := by
      rw [← List.filterMap_eq_map]
      apply List.filterMap_congr
      intro j hj
      rw [List.mem_range] at hj
      have hlt : e.m_trace.length - 1 - j < e.m_trace.length := by omega
      simp [List.getD_eq_getElem?_getD, List.getElem?_eq_getElem hlt]
    rw [hall, List.getElem?_map, List.getElem?_range hi]
    have hlt : e.m_trace.length - 1 - i < e.m_trace.length := by omega
    simp [List.getD_eq_getElem?_getD, List.getElem?_eq_getElem hlt]
  · have hlen : ((List.range e.m_trace.length).filterMap
        (fun j => e.m_trace[e.m_trace.length - 1 - j]?)).length ≤ e.m_trace.length := by
      have := List.length_filterMap_le (fun j => e.m_trace[e.m_trace.length - 1 - j]?)
        (List.range e.m_trace.length)
      simpa using this
    rw [List.getElem?_eq_none (by omega), List.getElem?_eq_none (by simp; omega)]

variable {F : Type} [DecidableEq F]

/-- The result of `join` is the null pointer exactly when the two edges share
no end point. -/
theorem core.Edge.join_eq_none_iff (id : Nat) (e1 e2 : Edge F) :
    Edge.join id e1 e2 = none ↔
      e1.m_v1 ≠ e2.m_v1 ∧ e1.m_v1 ≠ e2.m_v2 ∧ e1.m_v2 ≠ e2.m_v1 ∧ e1.m_v2 ≠ e2.m_v2 := by
  unfold Edge.join
  by_cases c1 : e1.m_v2 = e2.m_v1
  · rw [if_pos c1]
    simp only [reduceCtorEq, false_iff, not_and, not_not]
    intro _ _ h
    exact absurd c1 h
  · rw [if_neg c1]
    by_cases c2 : e1.m_v2 = e2.m_v2
    · rw [if_pos c2]
      simp only [reduceCtorEq, false_iff, not_and, not_not]
      intro _ _ _
      exact c2
    · rw [if_neg c2]
      by_cases c3 : e1.m_v1 = e2.m_v1
      · rw [if_pos c3]
        simp only [reduceCtorEq, false_iff, not_and, not_not]
        intro h
        exact absurd c3 h
      · rw [if_neg c3]
        by_cases c4 : e1.m_v1 = e2.m_v2
        · rw [if_pos c4]
          simp only [reduceCtorEq, false_iff, not_and, not_not]
          intro _ h
          exact absurd c4 h
        · rw [if_neg c4]
          simp only [true_iff]
          exact ⟨c3, c4, c1, c2⟩

/-- When the end point that two edges share is the ending point of the first
edge, or the starting point of both, `join` returns the edge between the two
free end points, whose trace runs from the one to the other. -/
theorem core.Edge.join_of_first_cases (id : Nat) (e1 e2 : Edge F) :
    (e1.m_v2 = e2.m_v1 →
      Edge.join id e1 e2 = some ⟨id, e1.m_v1, e2.m_v2, e1.m_trace ++ e2.m_trace, e1.m_type⟩) ∧
    (e1.m_v2 ≠ e2.m_v1 → e1.m_v2 = e2.m_v2 →
      Edge.join id e1 e2 =
        some ⟨id, e1.m_v1, e2.m_v1, e1.m_trace ++ e2.m_trace.reverse, e1.m_type⟩) ∧
    (e1.m_v2 ≠ e2.m_v1 → e1.m_v2 ≠ e2.m_v2 → e1.m_v1 = e2.m_v1 →
      Edge.join id e1 e2 =
        some ⟨id, e1.m_v2, e2.m_v2, e1.m_trace.reverse ++ e2.m_trace, e1.m_type⟩) := by
  refine ⟨?_, ?_, ?_⟩
  · intro c1
    unfold Edge.join
    rw [if_pos c1]
  · intro c1 c2
    unfold Edge.join
    rw [if_neg c1, if_pos c2, Edge.traceReversed_eq_reverse]
  · intro c1 c2 c3
    unfold Edge.join
    rw [if_neg c1, if_neg c2, if_pos c3, Edge.traceReversed_eq_reverse]

/-- C27 fails in the fourth case of `join`, in which the starting point of
the first edge is the ending point of the second.  The edge e1 from (0, 0) to
(2, 0) with the trace (1/2, 0), (1, 0) and the edge e2 from (0, 2) to (0, 0)
with the trace (0, 1), (0, 1/2) share exactly the end point (0, 0); the free
end points are (2, 0) and (0, 2).  `join(e1, e2)` returns the edge from (0, 0)
to (0, 2), the two end points of e2, with the trace (0, 1/2), (0, 1), (1, 0),
(1/2, 0), which runs from the shared point out to (0, 2) and then from (2, 0)
back to the shared point. -/
theorem core.Edge.C27_join_fourth_case_returns_end_points_of_second_edge :
    Edge.join 3
        (⟨1, Point2f.ofCoords 0 0, Point2f.ofCoords 2 0,
          [Point2f.ofCoords (1 / 2) 0, Point2f.ofCoords 1 0],
          Edge.Types.TypeMajorRoad⟩ : Edge ℚ)
        ⟨2, Point2f.ofCoords 0 2, Point2f.ofCoords 0 0,
          [Point2f.ofCoords 0 1, Point2f.ofCoords 0 (1 / 2)], Edge.Types.TypeMajorRoad⟩ =
      some ⟨3, Point2f.ofCoords 0 0, Point2f.ofCoords 0 2,
        [Point2f.ofCoords 0 (1 / 2), Point2f.ofCoords 0 1, Point2f.ofCoords 1 0,
          Point2f.ofCoords (1 / 2) 0], Edge.Types.TypeMajorRoad⟩ ∧
    (Point2f.ofCoords 0 0 : Point ℚ) ≠ Point2f.ofCoords 2 0 ∧
    (Point2f.ofCoords 0 0 : Point ℚ) ≠ Point2f.ofCoords 0 2 ∧
    (Point2f.ofCoords 2 0 : Point ℚ) ≠ Point2f.ofCoords 0 2 := by
  refine ⟨?_, ?_, ?_, ?_⟩
  · have h1 : ¬ (Point2f.ofCoords 2 0 : Point ℚ) = Point2f.ofCoords 0 2 := by
      simp [Point2f.ofCoords]
    have h2 : ¬ (Point2f.ofCoords 2 0 : Point ℚ) = Point2f.ofCoords 0 0 := by
      simp [Point2f.ofCoords]
    have h3 : ¬ (Point2f.ofCoords 0 0 : Point ℚ) = Point2f.ofCoords 0 2 := by
      simp [Point2f.ofCoords]
    simp only [Edge.join, h1, h2, h3, if_false, if_true, Edge.traceReversed_eq_reverse,
      List.reverse_cons, List.reverse_nil, List.nil_append, List.cons_append]
  · simp [Point2f.ofCoords]
  · simp [Point2f.ofCoords]
  · simp [Point2f.ofCoords]

end EdgeJoin

/-! ### Tracer::splitEdge -/

section SplitEdge

open core

/-- Among edges with distinct addresses, the edges left when the one at an
address is erased are those at the other addresses. -/
theorem core.mem_eraseP_id {F : Type} (k : Nat) (x : Edge F) :
    ∀ l : List (Edge F), (l.map (fun e => e.id)).Nodup →
      (x ∈ l.eraseP (fun e => decide (e.id = k)) ↔ x ∈ l ∧ x.id ≠ k) := by
  intro l
  induction l with
  | nil => intro _; simp
  | cons a rest ih =>
    intro hnd
    rw [List.map_cons, List.nodup_cons] at hnd
    by_cases ha : a.id = k
    · rw [List.eraseP_cons_of_pos (by simpa using ha)]
      constructor
      · intro hx
        refine ⟨List.mem_cons_of_mem _ hx, ?_⟩
        intro hxk
        apply hnd.1
        rw [List.mem_map]
        exact ⟨x, hx, by rw [hxk, ha]⟩
      · rintro ⟨hx, hxk⟩
        rcases List.mem_cons.mp hx with h | h
        · rw [h] at hxk
          exact absurd ha hxk
        · exact h
    · rw [List.eraseP_cons_of_neg (by simpa using ha), List.mem_cons, List.mem_cons, ih hnd.2]
      constructor
      · rintro (h | h)
        · exact ⟨Or.inl h, by rw [h]; exact ha⟩
        · exact ⟨Or.inr h.1, h.2⟩
      · rintro ⟨h | h, hxk⟩
        · exact Or.inl h
        · exact Or.inr ⟨h, hxk⟩

/-- The part of a list before the first occurrence of an element, the element
and the part after it make up the list. -/
theorem List.take_indexOf_append_drop {α : Type} [DecidableEq α] (a : α) (l : List α)
    (h : l.indexOf a < l.length) :
    l.take (l.indexOf a) ++ a :: l.drop (l.indexOf a + 1) = l := by
  have hget : l[l.indexOf a] = a := List.getElem_indexOf h
  conv_rhs => rw [← List.take_append_drop (l.indexOf a) l]
  rw [List.drop_eq_getElem_cons h, hget]

variable {F : Type} [LinearOrderedField F] [FloorRing F]

/-- What `splitEdge` does at a trace point that is neither the first nor the
last one.  Let the tracer hold the edge e, among edges with distinct
addresses, none at the two addresses of the edges to be created, and let the
first occurrence of the point of s in the trace of e have a point before it
and a point after it.  Then `splitEdge(e, s)` returns the list left, right,
e, where left runs from the starting point of e to the position of s and
right from the position of s to the ending point of e, both have the type of
e, both traces are not empty and the trace of left, the point of s and the
trace of right make up the trace of e; afterwards the tracer is the parent of
left and of right and not of e, and it holds left, right and the edges it held
other than e. -/
theorem core.Tracer.splitEdge_interior (t : Tracer F) (e : Edge F)
    (s : SamplePoint F) (hheld : e ∈ t.m_edges)
    (hnodup : (t.m_edges.map (fun x => x.id)).Nodup)
    (hfresh : ∀ x ∈ t.m_edges, x.id ≠ t.m_created ∧ x.id ≠ t.m_created + 1)
    (hfirst : 0 < e.m_trace.indexOf s.point)
    (hlast : e.m_trace.indexOf s.point + 1 < e.m_trace.length) :
    ∃ left right t1,
      Tracer.splitEdge t e s = some ([left, right, e], t1) ∧
      left.m_v1 = e.m_v1 ∧ left.m_v2 = Point2f.ofVector s.point.pos ∧
      right.m_v1 = Point2f.ofVector s.point.pos ∧ right.m_v2 = e.m_v2 ∧
      left.m_type = e.m_type ∧ right.m_type = e.m_type ∧
      left.m_trace ≠ [] ∧ right.m_trace ≠ [] ∧
      left.m_trace ++ s.point :: right.m_trace = e.m_trace ∧
      Tracer.isParentOf t1 left = true ∧ Tracer.isParentOf t1 right = true ∧
      Tracer.isParentOf t1 e = false ∧
      ∀ x, x ∈ t1.m_edges ↔ (x ∈ t.m_edges ∧ x ≠ e) ∨ x = left ∨ x = right := by
  have hidx : e.m_trace.indexOf s.point < e.m_trace.length := by omega
  have hleft : (e.m_trace.take (e.m_trace.indexOf s.point)).isEmpty = false := by
    rw [List.isEmpty_eq_false_iff_exists_mem]
    cases htr : e.m_trace with
    | nil => rw [htr] at hidx; simp at hidx
    | cons a rest =>
      refine ⟨a, ?_⟩
      rw [htr] at hfirst
      obtain ⟨n, hn⟩ := Nat.exists_eq_succ_of_ne_zero (Nat.pos_iff_ne_zero.mp hfirst)
      rw [hn, List.take_succ_cons]
      exact List.mem_cons_self _ _
  have hright : (e.m_trace.drop (e.m_trace.indexOf s.point + 1)).isEmpty = false := by
    rw [← Bool.not_eq_true, List.isEmpty_iff, List.drop_eq_nil_iff]
    omega
  have hmemE : ∀ x, x ∈ (Tracer.removeEdge { t with m_created := t.m_created + 2 } e).m_edges ↔
      x ∈ t.m_edges ∧ x.id ≠ e.id := by
    intro x
    rw [Tracer.removeEdge_edges]
    exact mem_eraseP_id e.id x t.m_edges hnodup
  have hne : ∀ x ∈ t.m_edges, (x.id ≠ e.id ↔ x ≠ e) := by
    intro x hx
    constructor
    · intro h hxe
      exact h (by rw [hxe])
    · intro h hid
      apply h
      have := List.inj_on_of_nodup_map hnodup hx hheld hid
      exact this
  have hc1 : (Tracer.removeEdge { t with m_created := t.m_created + 2 } e).m_edges.countP
      (fun x => decide (x.id = t.m_created)) = 0 := by
    rw [List.countP_eq_zero]
    intro x hx
    have := (hfresh x ((hmemE x).mp hx).1).1
    simpa using this
  have hE1 : (Tracer.addEdge (Tracer.removeEdge { t with m_created := t.m_created + 2 } e)
      ⟨t.m_created, e.m_v1, Point2f.ofVector s.point.pos,
        e.m_trace.take (e.m_trace.indexOf s.point), e.m_type⟩).m_edges =
      (Tracer.removeEdge { t with m_created := t.m_created + 2 } e).m_edges ++
        [⟨t.m_created, e.m_v1, Point2f.ofVector s.point.pos,
          e.m_trace.take (e.m_trace.indexOf s.point), e.m_type⟩] := by
    rw [Tracer.addEdge_edges, if_pos hc1]
  have hc2 : (Tracer.addEdge (Tracer.removeEdge { t with m_created := t.m_created + 2 } e)
      ⟨t.m_created, e.m_v1, Point2f.ofVector s.point.pos,
        e.m_trace.take (e.m_trace.indexOf s.point), e.m_type⟩).m_edges.countP
      (fun x => decide (x.id = t.m_created + 1)) = 0 := by
    rw [hE1, List.countP_eq_zero]
    intro x hx
    rcases List.mem_append.mp hx with h | h
    · have := (hfresh x ((hmemE x).mp h).1).2
      simpa using this
    · rw [List.mem_singleton] at h
      rw [h]
      simp
  have hE2 : (Tracer.addEdge
      (Tracer.addEdge (Tracer.removeEdge { t with m_created := t.m_created + 2 } e)
        ⟨t.m_created, e.m_v1, Point2f.ofVector s.point.pos,
          e.m_trace.take (e.m_trace.indexOf s.point), e.m_type⟩)
      ⟨t.m_created + 1, Point2f.ofVector s.point.pos, e.m_v2,
        e.m_trace.drop (e.m_trace.indexOf s.point + 1), e.m_type⟩).m_edges =
      (Tracer.removeEdge { t with m_created := t.m_created + 2 } e).m_edges ++
        [⟨t.m_created, e.m_v1, Point2f.ofVector s.point.pos,
          e.m_trace.take (e.m_trace.indexOf s.point), e.m_type⟩,
         ⟨t.m_created + 1, Point2f.ofVector s.point.pos, e.m_v2,
          e.m_trace.drop (e.m_trace.indexOf s.point + 1), e.m_type⟩] := by
    rw [Tracer.addEdge_edges, if_pos hc2, hE1, List.append_assoc]
    rfl
  refine ⟨⟨t.m_created, e.m_v1, Point2f.ofVector s.point.pos,
      e.m_trace.take (e.m_trace.indexOf s.point), e.m_type⟩,
    ⟨t.m_created + 1, Point2f.ofVector s.point.pos, e.m_v2,
      e.m_trace.drop (e.m_trace.indexOf s.point + 1), e.m_type⟩,
    Tracer.addEdge
      (Tracer.addEdge (Tracer.removeEdge { t with m_created := t.m_created + 2 } e)
        ⟨t.m_created, e.m_v1, Point2f.ofVector s.point.pos,
          e.m_trace.take (e.m_trace.indexOf s.point), e.m_type⟩)
      ⟨t.m_created + 1, Point2f.ofVector s.point.pos, e.m_v2,
        e.m_trace.drop (e.m_trace.indexOf s.point + 1), e.m_type⟩, ?_, rfl, rfl, rfl, rfl,
    rfl, rfl, ?_, ?_, ?_, ?_, ?_, ?_, ?_⟩
  · unfold Tracer.splitEdge
    rw [if_pos hidx, hleft, hright]
    rfl
  · intro h
    change e.m_trace.take (e.m_trace.indexOf s.point) = [] at h
    rw [h] at hleft
    cases hleft
  · intro h
    change e.m_trace.drop (e.m_trace.indexOf s.point + 1) = [] at h
    rw [h] at hright
    cases hright
  · exact List.take_indexOf_append_drop s.point e.m_trace hidx
  · unfold Tracer.isParentOf
    rw [hE2, List.any_eq_true]
    exact ⟨_, List.mem_append_right _ (List.mem_cons_self _ _), by simp⟩
  · unfold Tracer.isParentOf
    rw [hE2, List.any_eq_true]
    exact ⟨_, List.mem_append_right _ (List.mem_cons_of_mem _ (List.mem_cons_self _ _)),
      by simp⟩
  · unfold Tracer.isParentOf
    rw [hE2, List.any_eq_false]
    intro x hx
    rcases List.mem_append.mp hx with h | h
    · simpa using ((hmemE x).mp h).2
    · have h1 := (hfresh e hheld).1
      have h2 := (hfresh e hheld).2
      rcases List.mem_cons.mp h with h | h
      · rw [h]
        simpa using fun h' => h1 h'.symm
      · rw [List.mem_singleton] at h
        rw [h]
        simpa using fun h' => h2 h'.symm
  · intro x
    rw [hE2, List.mem_append, hmemE]
    constructor
    · rintro (⟨hx, hxe⟩ | h)
      · exact Or.inl ⟨hx, (hne x hx).mp hxe⟩
      · rcases List.mem_cons.mp h with h | h
        · exact Or.inr (Or.inl h)
        · exact Or.inr (Or.inr (List.mem_singleton.mp h))
    · rintro (⟨hx, hxe⟩ | h | h)
      · exact Or.inl ⟨hx, (hne x hx).mpr hxe⟩
      · exact Or.inr (by rw [h]; exact List.mem_cons_self _ _)
      · exact Or.inr (by rw [h]; exact List.mem_cons_of_mem _ (List.mem_cons_self _ _))

/-- At the first or at the last point of the trace `splitEdge` returns the
empty list and leaves the tracer as it was. -/
theorem core.Tracer.splitEdge_at_end_of_trace (t : Tracer F) (e : Edge F) (s : SamplePoint F)
    (hidx : e.m_trace.indexOf s.point < e.m_trace.length)
    (hend : e.m_trace.indexOf s.point = 0 ∨ e.m_trace.indexOf s.point + 1 = e.m_trace.length) :
    Tracer.splitEdge t e s = some ([], t) := by
  unfold Tracer.splitEdge
  rw [if_pos hidx]
  rcases hend with h | h
  · rw [h, List.take_zero]
    rfl
  · have hdrop : e.m_trace.drop (e.m_trace.indexOf s.point + 1) = [] := by
      rw [List.drop_eq_nil_iff]
      omega
    rw [hdrop]
    simp

/-- C28, amended: `splitEdge` replaces an edge by two only when the split
point is neither the first nor the last point of the trace.  Let the tracer
hold the edge e, among edges with distinct addresses, none at the two
addresses of the edges to be created, and let the point of s be on the trace
of e.  If the first occurrence of the point of s in the trace of e has a point
before it and a point after it, `splitEdge(e, s)` returns the list left,
right, e, where left runs from the starting point of e to the position of s
and right from the position of s to the ending point of e, both have the type
of e, both traces are not empty and the trace of left, the point of s and the
trace of right make up the trace of e; afterwards the tracer is the parent of
left and of right and not of e, and it holds left, right and the edges it held
other than e.  If that occurrence is the first or the last point of the
trace, `splitEdge(e, s)` returns the empty list and leaves the tracer as it
was. -/
theorem core.Tracer.C28_splitEdge_at_interior_trace_point (t : Tracer F) (e : Edge F)
    (s : SamplePoint F) (hheld : e ∈ t.m_edges)
    (hnodup : (t.m_edges.map (fun x => x.id)).Nodup)
    (hfresh : ∀ x ∈ t.m_edges, x.id ≠ t.m_created ∧ x.id ≠ t.m_created + 1)
    (hmem : s.point ∈ e.m_trace) :
    (0 < e.m_trace.indexOf s.point ∧ e.m_trace.indexOf s.point + 1 < e.m_trace.length →
      ∃ left right t1,
        Tracer.splitEdge t e s = some ([left, right, e], t1) ∧
        left.m_v1 = e.m_v1 ∧ left.m_v2 = Point2f.ofVector s.point.pos ∧
        right.m_v1 = Point2f.ofVector s.point.pos ∧ right.m_v2 = e.m_v2 ∧
        left.m_type = e.m_type ∧ right.m_type = e.m_type ∧
        left.m_trace ≠ [] ∧ right.m_trace ≠ [] ∧
        left.m_trace ++ s.point :: right.m_trace = e.m_trace ∧
        Tracer.isParentOf t1 left = true ∧ Tracer.isParentOf t1 right = true ∧
        Tracer.isParentOf t1 e = false ∧
        ∀ x, x ∈ t1.m_edges ↔ (x ∈ t.m_edges ∧ x ≠ e) ∨ x = left ∨ x = right) ∧
    (e.m_trace.indexOf s.point = 0 ∨ e.m_trace.indexOf s.point + 1 = e.m_trace.length →
      Tracer.splitEdge t e s = some ([], t)) :=
  ⟨fun h => Tracer.splitEdge_interior t e s hheld hnodup hfresh h.1 h.2,
    Tracer.splitEdge_at_end_of_trace t e s (List.indexOf_lt_length.mpr hmem)⟩

end SplitEdge

section SplitEdgeExamples

open core

/-- The edges of the example tracer. -/
theorem core.Tracer.exampleTracer_edges :
    Tracer.exampleTracer.m_edges = [Tracer.exampleEdge] ∧ Tracer.exampleTracer.m_created = 1 := by
  constructor
  · unfold Tracer.exampleTracer
    rw [Tracer.addEdge_edges]
    rfl
  · rfl

/-- The positions of the three trace points of the example edge. -/
theorem core.Tracer.exampleEdge_indexOf :
    Tracer.exampleEdge.m_trace.indexOf (Point2f.ofCoords (1 / 4) 0) = 0 ∧
    Tracer.exampleEdge.m_trace.indexOf (Point2f.ofCoords (1 / 2) 0) = 1 ∧
    Tracer.exampleEdge.m_trace.indexOf (Point2f.ofCoords (3 / 4) 0) = 2 ∧
    Tracer.exampleEdge.m_trace.length = 3 := by
  refine ⟨?_, ?_, ?_, rfl⟩ <;>
    norm_num [Tracer.exampleEdge, List.indexOf_cons, Point2f.ofCoords]

/-- C28 worked through for the example edge, split at the second of its three
trace points. -/
theorem core.Tracer.C28_witness :
    ∃ left right t1,
      Tracer.splitEdge Tracer.exampleTracer Tracer.exampleEdge
        ⟨Point2f.ofCoords (1 / 2) 0, some 0⟩ = some ([left, right, Tracer.exampleEdge], t1) ∧
      left.m_v1 = Tracer.exampleEdge.m_v1 ∧
      left.m_v2 = Point2f.ofVector (Point2f.ofCoords (1 / 2) 0 : Point ℚ).pos ∧
      right.m_v1 = Point2f.ofVector (Point2f.ofCoords (1 / 2) 0 : Point ℚ).pos ∧
      right.m_v2 = Tracer.exampleEdge.m_v2 ∧
      left.m_type = Tracer.exampleEdge.m_type ∧ right.m_type = Tracer.exampleEdge.m_type ∧
      left.m_trace ≠ [] ∧ right.m_trace ≠ [] ∧
      left.m_trace ++ Point2f.ofCoords (1 / 2) 0 :: right.m_trace = Tracer.exampleEdge.m_trace ∧
      Tracer.isParentOf t1 left = true ∧ Tracer.isParentOf t1 right = true ∧
      Tracer.isParentOf t1 Tracer.exampleEdge = false ∧
      ∀ x, x ∈ t1.m_edges ↔
        (x ∈ Tracer.exampleTracer.m_edges ∧ x ≠ Tracer.exampleEdge) ∨ x = left ∨ x = right :=
  (core.Tracer.C28_splitEdge_at_interior_trace_point Tracer.exampleTracer Tracer.exampleEdge
    ⟨Point2f.ofCoords (1 / 2) 0, some 0⟩
    (by rw [Tracer.exampleTracer_edges.1]; exact List.mem_singleton.mpr rfl)
    (by rw [Tracer.exampleTracer_edges.1]; simp)
    (by
      rw [Tracer.exampleTracer_edges.1, Tracer.exampleTracer_edges.2]
      intro x hx
      rw [List.mem_singleton.mp hx]
      exact ⟨by decide, by decide⟩)
    (List.mem_cons_of_mem _ (List.mem_cons_self _ _))).1
    ⟨by rw [Tracer.exampleEdge_indexOf.2.1]; decide,
      by rw [Tracer.exampleEdge_indexOf.2.1, Tracer.exampleEdge_indexOf.2.2.2]; decide⟩

/-- C28 fails when the split point is the first or the last point of the
trace: the example tracer holds the example edge, whose trace is (1/4, 0),
(1/2, 0), (3/4, 0); `splitEdge` at the sample-point (1/4, 0) of the edge, and
at its sample-point (3/4, 0), returns the empty list and leaves the tracer as
it was, the edge still held. -/
theorem core.Tracer.C28_splitEdge_at_end_of_trace_returns_nothing :
    Tracer.exampleEdge ∈ Tracer.exampleTracer.m_edges ∧
    Point2f.ofCoords (1 / 4) 0 ∈ Tracer.exampleEdge.m_trace ∧
    Point2f.ofCoords (3 / 4) 0 ∈ Tracer.exampleEdge.m_trace ∧
    Tracer.splitEdge Tracer.exampleTracer Tracer.exampleEdge
      ⟨Point2f.ofCoords (1 / 4) 0, some 0⟩ = some ([], Tracer.exampleTracer) ∧
    Tracer.splitEdge Tracer.exampleTracer Tracer.exampleEdge
      ⟨Point2f.ofCoords (3 / 4) 0, some 0⟩ = some ([], Tracer.exampleTracer) := by
  refine ⟨?_, ?_, ?_, ?_, ?_⟩
  · rw [Tracer.exampleTracer_edges.1]
    exact List.mem_singleton.mpr rfl
  · exact List.mem_cons_self _ _
  · exact List.mem_cons_of_mem _ (List.mem_cons_of_mem _ (List.mem_cons_self _ _))
  · unfold Tracer.splitEdge
    simp only [Tracer.exampleEdge_indexOf.1, Tracer.exampleEdge_indexOf.2.2.2]
    rfl
  · unfold Tracer.splitEdge
    simp only [Tracer.exampleEdge_indexOf.2.2.1, Tracer.exampleEdge_indexOf.2.2.2]
    rfl

end SplitEdgeExamples

/-! ### Region::simplifyGraph on a chain that `Edge::join` cannot join -/

section SimplifyChain

open core

/-- The edges of the example tracer. -/
theorem core.Region.chainTracer_edges : Region.chainTracer.m_edges = Region.chainEdges := by
  unfold Region.chainTracer Region.chainEdges
  simp only [List.foldl_cons, List.foldl_nil]
  repeat rw [Tracer.addEdge_edges]
  rfl

/-- The edges of the example tracer incident to a vertex: two at each of the
three middle vertices, three at (0, 1/2) and at (1, 1/2), none elsewhere. -/
theorem core.Region.chainTracer_findEdge (m : Nat) (v : Point ℚ) :
    (v = Point2f.ofCoords (1 / 2) 1 ∧
      Tracer.findEdge { Region.chainTracer with m_created := m } v =
        [⟨0, Point2f.ofCoords (1 / 2) 1, Point2f.ofCoords 0 (1 / 2), [],
            Edge.Types.TypeMajorRoad⟩,
          ⟨1, Point2f.ofCoords 1 (1 / 2), Point2f.ofCoords (1 / 2) 1, [],
            Edge.Types.TypeMajorRoad⟩]) ∨
    (v = Point2f.ofCoords (1 / 2) (1 / 2) ∧
      Tracer.findEdge { Region.chainTracer with m_created := m } v =
        [⟨2, Point2f.ofCoords (1 / 2) (1 / 2), Point2f.ofCoords 0 (1 / 2), [],
            Edge.Types.TypeMajorRoad⟩,
          ⟨3, Point2f.ofCoords 1 (1 / 2), Point2f.ofCoords (1 / 2) (1 / 2), [],
            Edge.Types.TypeMajorRoad⟩]) ∨
    (v = Point2f.ofCoords (1 / 2) 0 ∧
      Tracer.findEdge { Region.chainTracer with m_created := m } v =
        [⟨4, Point2f.ofCoords (1 / 2) 0, Point2f.ofCoords 0 (1 / 2), [],
            Edge.Types.TypeMajorRoad⟩,
          ⟨5, Point2f.ofCoords 1 (1 / 2), Point2f.ofCoords (1 / 2) 0, [],
            Edge.Types.TypeMajorRoad⟩]) ∨
    (Tracer.findEdge { Region.chainTracer with m_created := m } v).length = 3 ∨
    Tracer.findEdge { Region.chainTracer with m_created := m } v = [] := by
  have hE : ({ Region.chainTracer with m_created := m } : Tracer ℚ).m_edges =
      Region.chainEdges := Region.chainTracer_edges
  unfold Tracer.findEdge
  rw [hE]
  unfold Region.chainEdges
  by_cases h1 : v = Point2f.ofCoords (1 / 2) 1
  · left
    refine ⟨h1, ?_⟩
    subst h1
    norm_num [List.filter_cons, Point2f.ofCoords]
  by_cases h2 : v = Point2f.ofCoords (1 / 2) (1 / 2)
  · right; left
    refine ⟨h2, ?_⟩
    subst h2
    norm_num [List.filter_cons, Point2f.ofCoords]
  by_cases h3 : v = Point2f.ofCoords (1 / 2) 0
  · right; right; left
    refine ⟨h3, ?_⟩
    subst h3
    norm_num [List.filter_cons, Point2f.ofCoords]
  by_cases h4 : v = Point2f.ofCoords 0 (1 / 2)
  · right; right; right; left
    subst h4
    norm_num [List.filter_cons, Point2f.ofCoords]
  by_cases h5 : v = Point2f.ofCoords 1 (1 / 2)
  · right; right; right; left
    subst h5
    norm_num [List.filter_cons, Point2f.ofCoords]
  · right; right; right; right
    have g1 : ¬ Point2f.ofCoords (1 / 2) 1 = v := fun h => h1 h.symm
    have g2 : ¬ Point2f.ofCoords (1 / 2) (1 / 2) = v := fun h => h2 h.symm
    have g3 : ¬ Point2f.ofCoords (1 / 2) 0 = v := fun h => h3 h.symm
    have g4 : ¬ Point2f.ofCoords 0 (1 / 2) = v := fun h => h4 h.symm
    have g5 : ¬ Point2f.ofCoords 1 (1 / 2) = v := fun h => h5 h.symm
    simp only [List.filter_cons, g1, g2, g3, g4, g5, decide_False, Bool.or_self,
      Bool.false_eq_true, if_false, List.filter_nil]

/-- For every list of vertices, the loop of `simplify` changes nothing in the
example tracer. -/
theorem core.Region.chainTracer_simplifyLoop (verts : List (Point ℚ)) :
    ∀ m, ∃ m1, Tracer.simplifyLoop verts { Region.chainTracer with m_created := m } [] =
      some ([], [], { Region.chainTracer with m_created := m1 }) := by
  induction verts with
  | nil => intro m; exact ⟨m, rfl⟩
  | cons v rest ih =>
    intro m
    have hE : ({ Region.chainTracer with m_created := m } : Tracer ℚ).m_edges =
        Region.chainEdges := Region.chainTracer_edges
    rcases Region.chainTracer_findEdge m v with h | h | h | h | h
    · obtain ⟨m1, hm1⟩ := ih (m + 1)
      refine ⟨m1, ?_⟩
      rw [Tracer.simplifyLoop, h.2]
      simp only [Tracer.containsEdge2, Region.chainTracer_edges, Region.chainEdges]
      norm_num [Edge.join, Point2f.ofCoords]
      exact hm1
    · obtain ⟨m1, hm1⟩ := ih (m + 1)
      refine ⟨m1, ?_⟩
      rw [Tracer.simplifyLoop, h.2]
      simp only [Tracer.containsEdge2, Region.chainTracer_edges, Region.chainEdges]
      norm_num [Edge.join, Point2f.ofCoords]
      exact hm1
    · obtain ⟨m1, hm1⟩ := ih (m + 1)
      refine ⟨m1, ?_⟩
      rw [Tracer.simplifyLoop, h.2]
      simp only [Tracer.containsEdge2, Region.chainTracer_edges, Region.chainEdges]
      norm_num [Edge.join, Point2f.ofCoords]
      exact hm1
    · obtain ⟨m1, hm1⟩ := ih m
      refine ⟨m1, ?_⟩
      rw [Tracer.simplifyLoop]
      split
      · rename_i heq
        rw [heq] at h
        cases h
      · rename_i heq
        rw [heq] at h
        cases h
      · exact hm1
    · obtain ⟨m1, hm1⟩ := ih m
      refine ⟨m1, ?_⟩
      rw [Tracer.simplifyLoop, h]
      exact hm1

/-- Two points at given coordinates are equal when the coordinates are. -/
theorem Point2f.ofCoords_inj {F : Type} (x1 y1 x2 y2 : F) :
    (Point2f.ofCoords x1 y1 : Point2f F) = Point2f.ofCoords x2 y2 ↔ x1 = x2 ∧ y1 = y2 := by
  simp [Point2f.ofCoords]

/-- The grapher of the example region: the vertices with two adjacencies are
the three middle vertices, and no vertex has only one. -/
theorem core.Region.chainRegion_grapher :
    Grapher.bridges Region.chainRegion.m_grapher =
      [Point2f.ofCoords (1 / 2) 0, Point2f.ofCoords (1 / 2) (1 / 2),
        Point2f.ofCoords (1 / 2) 1] ∧
    Grapher.dongles Region.chainRegion.m_grapher = [] := by
  have hpar : ∀ e ∈ Region.chainEdges, Tracer.isParentOf Region.chainTracer e = true := by
    intro e he
    unfold Tracer.isParentOf
    rw [Region.chainTracer_edges, List.any_eq_true]
    exact ⟨e, he, by simp⟩
  have hg : Region.chainRegion.m_grapher =
      Region.chainEdges.foldl (fun g edge => Grapher.connect g edge.m_v1 edge.m_v2)
        Grapher.new := by
    show Region.applyEdges Region.chainTracer Region.chainTracer.m_edges Grapher.new = _
    rw [Region.chainTracer_edges]
    unfold Region.applyEdges
    apply List.foldl_ext
    intro g e he
    rw [if_pos (hpar e he)]
  rw [hg]
  constructor <;>
  norm_num [Region.chainEdges, Grapher.bridges, Grapher.dongles, Grapher.connect, Grapher.new,
    QMap.index, QMap.contains, QMap.value, QMap.insertKey, QMap.modify,
    core.Point.ofCoords_lt_iff, Point2f.ofCoords_inj, List.filter_cons]

/-- C29 fails through the fourth case of `Edge::join`.  In the example region
the tracer holds six road edges, each connected in the grapher.  The vertex
(1/2, 1) has exactly two incident edges, one that starts at it and goes to
(0, 1/2), and one that comes from (1, 1/2) and ends at it; `join` returns for
them an edge between (1/2, 1) and (1, 1/2), which exists, so `simplify` skips
the join.  `simplifyGraph` returns and leaves the edges of the tracer and the
grapher as they were: (1/2, 1) still has exactly these two incident edges, and
no edge exists between (0, 1/2) and (1, 1/2).  The vertices that the grapher
hands to `simplify` are the three middle vertices, (1/2, 1) among them. -/
theorem core.Region.C29_simplifyGraph_leaves_chain_unjoined (fuel : Nat) :
    ∃ m, Region.simplifyGraph (fuel + 1) Region.chainRegion =
        some { Region.chainRegion with
          m_tracer := { Region.chainTracer with m_created := m } } ∧
      ({ Region.chainTracer with m_created := m } : Tracer ℚ).m_edges = Region.chainEdges ∧
      Tracer.findEdge { Region.chainTracer with m_created := m } (Point2f.ofCoords (1 / 2) 1) =
        [⟨0, Point2f.ofCoords (1 / 2) 1, Point2f.ofCoords 0 (1 / 2), [],
            Edge.Types.TypeMajorRoad⟩,
          ⟨1, Point2f.ofCoords 1 (1 / 2), Point2f.ofCoords (1 / 2) 1, [],
            Edge.Types.TypeMajorRoad⟩] ∧
      Tracer.containsEdge2 { Region.chainTracer with m_created := m }
        (Point2f.ofCoords 0 (1 / 2)) (Point2f.ofCoords 1 (1 / 2)) = false ∧
      Grapher.bridges Region.chainRegion.m_grapher =
        [Point2f.ofCoords (1 / 2) 0, Point2f.ofCoords (1 / 2) (1 / 2),
          Point2f.ofCoords (1 / 2) 1] ∧
      Grapher.dongles Region.chainRegion.m_grapher = [] := by
  obtain ⟨m1, hm1⟩ := Region.chainTracer_simplifyLoop
    (Grapher.bridges Region.chainRegion.m_grapher ++ Grapher.dongles Region.chainRegion.m_grapher)
    6
  have hE : ({ Region.chainTracer with m_created := m1 } : Tracer ℚ).m_edges =
      Region.chainEdges := Region.chainTracer_edges
  refine ⟨m1, ?_, hE, ?_, ?_, Region.chainRegion_grapher⟩
  · have h6 : ({ Region.chainTracer with m_created := 6 } : Tracer ℚ) =
        Region.chainRegion.m_tracer := rfl
    rw [h6] at hm1
    simp only [Region.simplifyGraph, Region.simplifyPass, Tracer.simplify, hm1]
    rfl
  · simp only [Tracer.findEdge, Region.chainTracer_edges, Region.chainEdges]
    norm_num [List.filter_cons, Point2f.ofCoords]
  · simp only [Tracer.containsEdge2, Region.chainTracer_edges, Region.chainEdges]
    norm_num [Point2f.ofCoords]

end SimplifyChain

/-! ### The order of the results of a grid search -/

section SearchOrder

open core

/-- Inserting into a list in order gives a list in order. -/
theorem stableInsert_pairwise {α : Type} (lessThan : α → α → Bool)
    (hirr : ∀ a, lessThan a a = false)
    (htr : ∀ a b c, lessThan a b = true → lessThan b c = true → lessThan a c = true)
    (hneg : ∀ a b c, lessThan a b = false → lessThan b c = false → lessThan a c = false)
    (a : α) :
    ∀ l : List α, l.Pairwise (fun x y => lessThan y x = false) →
      (stableInsert lessThan a l).Pairwise (fun x y => lessThan y x = false) := by
  intro l
  induction l with
  | nil => intro _; simp [stableInsert]
  | cons b rest ih =>
    intro h
    rw [List.pairwise_cons] at h
    simp only [stableInsert]
    by_cases hba : lessThan b a = true
    · rw [if_pos hba, List.pairwise_cons]
      refine ⟨?_, ih h.2⟩
      intro x hx
      rcases List.mem_cons.mp ((stableInsert_perm lessThan a rest).mem_iff.mp hx) with hxa | hxr
      · rw [hxa]
        cases hab : lessThan a b with
        | false => rfl
        | true =>
          have := htr a b a hab hba
          rw [hirr a] at this
          cases this
      · exact h.1 x hxr
    · rw [if_neg hba, List.pairwise_cons]
      have hba2 : lessThan b a = false := by simpa using hba
      refine ⟨?_, List.pairwise_cons.mpr h⟩
      intro x hx
      rcases List.mem_cons.mp hx with hxb | hxr
      · rw [hxb]
        exact hba2
      · exact hneg x b a (h.1 x hxr) hba2

/-- The stable sort puts its argument in order. -/
theorem QtSort.stable_sorts : QtSort.stable.Sorts := by
  intro α lessThan hirr htr hneg l
  show (stableSort lessThan l).Pairwise _
  induction l with
  | nil => simp [stableSort]
  | cons a rest ih =>
    simp only [stableSort]
    exact stableInsert_pairwise lessThan hirr htr hneg a _ ih

variable {F : Type} [LinearOrderedField F] [FloorRing F] {E : Type}

/-- The results of a search are in the order of their computed distance from
the position, when the sort puts its argument in order. -/
theorem core.findGridElement_pairwise (lib : Libm F) (qt : QtSort) (hs : qt.Sorts)
    (pos : E → Vector2f F) (grid : Matrix (List E)) (atPosition sweepDirection : Vector2f F)
    (sweepAngle : F) :
    (findGridElement lib qt pos grid atPosition sweepDirection sweepAngle).Pairwise
      (fun a b => Vector2f.norm lib (Vector2f.sub (pos a) atPosition) ≤
        Vector2f.norm lib (Vector2f.sub (pos b) atPosition)) := by
  unfold findGridElement
  refine List.Pairwise.imp ?_ (hs E (CloserToPosition lib pos atPosition) ?_ ?_ ?_ _)
  · intro a b h
    unfold CloserToPosition at h
    rw [decide_eq_false_iff_not, not_lt] at h
    exact h
  · intro a
    unfold CloserToPosition
    rw [decide_eq_false_iff_not]
    exact lt_irrefl _
  · intro a b c h1 h2
    unfold CloserToPosition at *
    rw [decide_eq_true_iff] at *
    exact lt_trans h1 h2
  · intro a b c h1 h2
    unfold CloserToPosition at *
    rw [decide_eq_false_iff_not, not_lt] at *
    exact le_trans h2 h1

/-- C30, amended: the results of a search of the vertex grid and of the
sample-point grid are ordered by the distance that `norm()` computes, in which
a length below 0.00001 is 0, provided that `qSort` puts its argument in order:
for each two results, the computed distance of the earlier one from the query
position is at most that of the later one, so no result has a smaller computed
distance than element 0. -/
theorem core.Tracer.C30_search_results_ordered_by_computed_distance (lib : Libm F)
    (qt : QtSort) (hs : qt.Sorts) (t : Tracer F) (atPosition sweepDirection : Vector2f F)
    (sweepAngle : F) :
    (Tracer.findVertexSweep lib qt t atPosition sweepDirection sweepAngle).Pairwise
      (fun a b => Vector2f.norm lib (Vector2f.sub a.pos atPosition) ≤
        Vector2f.norm lib (Vector2f.sub b.pos atPosition)) ∧
    (Tracer.findSamplePointSweep lib qt t atPosition sweepDirection sweepAngle).Pairwise
      (fun a b => Vector2f.norm lib (Vector2f.sub a.point.pos atPosition) ≤
        Vector2f.norm lib (Vector2f.sub b.point.pos atPosition)) ∧
    (∀ first rest,
      Tracer.findVertexSweep lib qt t atPosition sweepDirection sweepAngle = first :: rest →
      ∀ x ∈ rest, Vector2f.norm lib (Vector2f.sub first.pos atPosition) ≤
        Vector2f.norm lib (Vector2f.sub x.pos atPosition)) ∧
    (∀ first rest,
      Tracer.findSamplePointSweep lib qt t atPosition sweepDirection sweepAngle =
        first :: rest →
      ∀ x ∈ rest, Vector2f.norm lib (Vector2f.sub first.point.pos atPosition) ≤
        Vector2f.norm lib (Vector2f.sub x.point.pos atPosition)) := by
  have hv := findGridElement_pairwise lib qt hs Point2f.pos t.m_vertices atPosition
    sweepDirection sweepAngle
  have hp := findGridElement_pairwise lib qt hs (fun s : SamplePoint F => s.point.pos)
    t.m_samplePoints atPosition sweepDirection sweepAngle
  refine ⟨hv, hp, ?_, ?_⟩
  · intro first rest heq x hx
    unfold Tracer.findVertexSweep at heq
    rw [heq, List.pairwise_cons] at hv
    exact hv.1 x hx
  · intro first rest heq x hx
    unfold Tracer.findSamplePointSweep at heq
    rw [heq, List.pairwise_cons] at hp
    exact hp.1 x hx

end SearchOrder

section SearchOrderExample

open core

/-- With the exact library, the norm of a vector along the second axis that is
shorter than 0.00001 is 0. -/
theorem Vector2f.norm_exact_small (y : ℝ) (h : |y| < 1 / 100000) :
    Vector2f.norm Libm.exact ⟨0, y⟩ = 0 := by
  have hs : Real.sqrt (Vector2f.normSquared (⟨0, y⟩ : Vector2f ℝ)) = |y| := by
    simp only [Vector2f.normSquared, math.pow2, mul_zero, zero_add]
    exact Real.sqrt_mul_self_eq_abs y
  simp only [Vector2f.norm, math.sqrt, Libm.exact, hs]
  have hz : math.zero |y| = 0 := by
    unfold math.zero
    rw [if_pos (by rw [abs_abs]; exact h)]
  rw [hz]
  unfold math.zero
  rw [if_pos (by norm_num)]

/-- The vertex grid of a new tracer to which an edge from (0, 3/1048576) to
(0, 1/1048576) was added: the two end points are in the cell (0, 0), in this
order. -/
theorem core.Tracer.nearVertices_grid :
    (Tracer.addEdge (Tracer.newDefault RoadType.RoadTypeMajor : Tracer ℝ)
      ⟨0, Point2f.ofCoords 0 (3 / 1048576), Point2f.ofCoords 0 (1 / 1048576), [],
        Edge.Types.TypeMajorRoad⟩).m_vertices =
      Matrix.set (Matrix.set (Matrix.fill 20 20 []) 0 0 [Point2f.ofCoords 0 (3 / 1048576)]) 0 0
        [Point2f.ofCoords 0 (3 / 1048576), Point2f.ofCoords 0 (1 / 1048576)] := by
  have hg0 : (Matrix.fill 20 20 ([] : List (Point ℝ))).Square 20 := Matrix.square_fill 20 []
  have hcell : ∀ (g : Matrix (List (Point ℝ))) (y : ℝ), g.m_rows = 20 → g.m_cols = 20 →
      0 ≤ y → y ≤ 9 / 1000 →
      getGridCell g (Point2f.ofCoords 0 y : Point ℝ).pos = (0, 0) := by
    intro g y hr hc h0 h1
    exact getGridCell_near_origin g hr hc y h0 h1
  have h1 : addGridElement Point2f.pos (fun a b : Point ℝ => decide (a = b))
      (Matrix.fill 20 20 []) (Point2f.ofCoords 0 (3 / 1048576)) =
      Matrix.set (Matrix.fill 20 20 []) 0 0 [Point2f.ofCoords 0 (3 / 1048576)] := by
    unfold addGridElement gridCell
    rw [hcell _ _ rfl rfl (by norm_num) (by norm_num)]
    simp only [Int.toNat_zero]
    rw [Matrix.get_fill [] 20 20 0 0 [] (by norm_num) (by norm_num)]
    rfl
  have h2 : addGridElement Point2f.pos (fun a b : Point ℝ => decide (a = b))
      (Matrix.set (Matrix.fill 20 20 []) 0 0 [Point2f.ofCoords 0 (3 / 1048576)])
      (Point2f.ofCoords 0 (1 / 1048576)) =
      Matrix.set (Matrix.set (Matrix.fill 20 20 []) 0 0 [Point2f.ofCoords 0 (3 / 1048576)]) 0 0
        [Point2f.ofCoords 0 (3 / 1048576), Point2f.ofCoords 0 (1 / 1048576)] := by
    unfold addGridElement gridCell
    rw [hcell _ _ rfl rfl (by norm_num) (by norm_num)]
    simp only [Int.toNat_zero]
    rw [Matrix.get_set_eq [] _ 20 0 0 _ hg0 (by norm_num) (by norm_num)]
    have hne : ¬ (Point2f.ofCoords 0 (3 / 1048576) : Point ℝ) =
        Point2f.ofCoords 0 (1 / 1048576) := by
      rw [Point2f.ofCoords_eq_iff]
      norm_num
    rw [if_pos (by
      rw [List.countP_eq_zero]
      intro x hx
      rw [List.mem_singleton.mp hx]
      simpa using hne)]
    rfl
  rw [← h2, ← h1]
  rfl

/-- The cells of that grid. -/
theorem core.Tracer.nearVertices_get (r c : Nat) :
    (Matrix.set (Matrix.set (Matrix.fill 20 20 ([] : List (Point ℝ))) 0 0
        [Point2f.ofCoords 0 (3 / 1048576)]) 0 0
      [Point2f.ofCoords 0 (3 / 1048576), Point2f.ofCoords 0 (1 / 1048576)]).get [] r c =
      if r = 0 ∧ c = 0 then [Point2f.ofCoords 0 (3 / 1048576), Point2f.ofCoords 0 (1 / 1048576)]
      else [] := by
  have hg0 : (Matrix.fill 20 20 ([] : List (Point ℝ))).Square 20 := Matrix.square_fill 20 []
  by_cases hrc : r = 0 ∧ c = 0
  · rw [if_pos hrc, hrc.1, hrc.2]
    exact Matrix.get_set_eq [] _ 20 0 0 _ (Matrix.square_set _ 20 0 0 _ hg0) (by norm_num)
      (by norm_num)
  · rw [if_neg hrc, Matrix.get_set_ne [] _ 0 0 r c _ hrc, Matrix.get_set_ne [] _ 0 0 r c _ hrc]
    exact Matrix.get_fill_default [] 20 20 r c

/-- C30 fails for results closer to the query position than 0.00001, whose
computed distance is 0.  A new tracer receives an edge from (0, 3/1048576) to
(0, 1/1048576); with the exact library and a stable sort, the search for
vertices within 0.001 of the origin returns (0, 3/1048576) before
(0, 1/1048576), although the Euclidean distance of the first from the origin is
greater than that of the second. -/
theorem core.Tracer.C30_search_results_not_ordered_by_distance :
    Tracer.findVertex Libm.exact QtSort.stable
        (Tracer.addEdge (Tracer.newDefault RoadType.RoadTypeMajor : Tracer ℝ)
          ⟨0, Point2f.ofCoords 0 (3 / 1048576), Point2f.ofCoords 0 (1 / 1048576), [],
            Edge.Types.TypeMajorRoad⟩)
        ⟨0, 0⟩ (1 / 1000) =
      [Point2f.ofCoords 0 (3 / 1048576), Point2f.ofCoords 0 (1 / 1048576)] ∧
    Real.sqrt (Vector2f.normSquared (Vector2f.sub
        (Point2f.ofCoords 0 (1 / 1048576) : Point ℝ).pos ⟨0, 0⟩)) <
      Real.sqrt (Vector2f.normSquared (Vector2f.sub
        (Point2f.ofCoords 0 (3 / 1048576) : Point ℝ).pos ⟨0, 0⟩)) := by
  constructor
  · have hR : Vector2f.norm Libm.exact (⟨1 / 1000, 0⟩ : Vector2f ℝ) = 1 / 1000 := by
      rw [Vector2f.norm_exact_axis0 _ (by rw [abs_of_nonneg (by norm_num)]; norm_num)]
      exact abs_of_nonneg (by norm_num)
    have hceil : ⌈(1 / 1000 : ℝ) * ((20 : Nat) : ℝ)⌉ = 1 := by
      rw [Int.ceil_eq_iff]
      norm_num
    have hrange : intRange (-1) 1 = [-1, 0, 1] := by decide
    have hn3 : Vector2f.norm Libm.exact (Vector2f.sub
        (Point2f.ofCoords 0 (3 / 1048576) : Point ℝ).pos ⟨0, 0⟩) = 0 := by
      have : Vector2f.sub (Point2f.ofCoords 0 (3 / 1048576) : Point ℝ).pos ⟨0, 0⟩ =
          ⟨0, 3 / 1048576⟩ := by
        simp [Vector2f.sub, Point2f.pos_ofCoords]
      rw [this]
      exact Vector2f.norm_exact_small _ (by rw [abs_of_nonneg (by norm_num)]; norm_num)
    have hn1 : Vector2f.norm Libm.exact (Vector2f.sub
        (Point2f.ofCoords 0 (1 / 1048576) : Point ℝ).pos ⟨0, 0⟩) = 0 := by
      have : Vector2f.sub (Point2f.ofCoords 0 (1 / 1048576) : Point ℝ).pos ⟨0, 0⟩ =
          ⟨0, 1 / 1048576⟩ := by
        simp [Vector2f.sub, Point2f.pos_ofCoords]
      rw [this]
      exact Vector2f.norm_exact_small _ (by rw [abs_of_nonneg (by norm_num)]; norm_num)
    have hz : math.zero (0 : ℝ) = 0 := by
      unfold math.zero
      rw [if_pos (by norm_num)]
    have hs3 : inSweep Libm.exact Point2f.pos ⟨0, 0⟩ ⟨1 / 1000, 0⟩ Libm.exact.M_PI
        (Point2f.ofCoords 0 (3 / 1048576) : Point ℝ) = true := by
      unfold inSweep
      rw [hn3, hR, if_pos (by norm_num), if_pos hz]
    have hs1 : inSweep Libm.exact Point2f.pos ⟨0, 0⟩ ⟨1 / 1000, 0⟩ Libm.exact.M_PI
        (Point2f.ofCoords 0 (1 / 1048576) : Point ℝ) = true := by
      unfold inSweep
      rw [hn1, hR, if_pos (by norm_num), if_pos hz]
    have hcell : getGridCell
        (Matrix.set (Matrix.set (Matrix.fill 20 20 ([] : List (Point ℝ))) 0 0
          [Point2f.ofCoords 0 (3 / 1048576)]) 0 0
          [Point2f.ofCoords 0 (3 / 1048576), Point2f.ofCoords 0 (1 / 1048576)])
        (⟨0, 0⟩ : Vector2f ℝ) = (0, 0) :=
      getGridCell_near_origin _ rfl rfl 0 (le_refl _) (by norm_num)
    have hcmp : CloserToPosition Libm.exact Point2f.pos (⟨0, 0⟩ : Vector2f ℝ)
        (Point2f.ofCoords 0 (1 / 1048576)) (Point2f.ofCoords 0 (3 / 1048576)) = false := by
      unfold CloserToPosition
      rw [hn1, hn3]
      simp
    unfold Tracer.findVertex Tracer.findVertexSweep findGridElement
    rw [Tracer.nearVertices_grid, hR, hcell]
    have hrows : (Matrix.set (Matrix.set (Matrix.fill 20 20 ([] : List (Point ℝ))) 0 0
          [Point2f.ofCoords 0 (3 / 1048576)]) 0 0
          [Point2f.ofCoords 0 (3 / 1048576), Point2f.ofCoords 0 (1 / 1048576)]).m_rows = 20 := rfl
    have hcols : (Matrix.set (Matrix.set (Matrix.fill 20 20 ([] : List (Point ℝ))) 0 0
          [Point2f.ofCoords 0 (3 / 1048576)]) 0 0
          [Point2f.ofCoords 0 (3 / 1048576), Point2f.ofCoords 0 (1 / 1048576)]).m_cols = 20 := rfl
    rw [hrows, hcols, hceil, hrange]
    simp only [gridCell, Tracer.nearVertices_get, List.flatMap_cons, List.flatMap_nil]
    norm_num [List.filter_cons, hs3, hs1]
    show stableSort _ _ = _
    simp only [stableSort, stableInsert, hcmp]
    rfl
  · apply Real.sqrt_lt_sqrt
    · simp only [Vector2f.normSquared, math.pow2, Vector2f.sub, Point2f.pos_ofCoords]
      positivity
    · simp only [Vector2f.normSquared, math.pow2, Vector2f.sub, Point2f.pos_ofCoords]
      norm_num

/-- C30 worked through for the tracer of the example, with a stable sort. -/
theorem core.Tracer.C30_witness :
    (Tracer.findVertexSweep Libm.exact QtSort.stable
        (Tracer.addEdge (Tracer.newDefault RoadType.RoadTypeMajor : Tracer ℝ)
          ⟨0, Point2f.ofCoords 0 (3 / 1048576), Point2f.ofCoords 0 (1 / 1048576), [],
            Edge.Types.TypeMajorRoad⟩)
        ⟨0, 0⟩ ⟨1 / 1000, 0⟩ Libm.exact.M_PI).Pairwise
      (fun a b => Vector2f.norm Libm.exact (Vector2f.sub a.pos ⟨0, 0⟩) ≤
        Vector2f.norm Libm.exact (Vector2f.sub b.pos ⟨0, 0⟩)) :=
  (core.Tracer.C30_search_results_ordered_by_computed_distance Libm.exact QtSort.stable
    QtSort.stable_sorts _ ⟨0, 0⟩ ⟨1 / 1000, 0⟩ Libm.exact.M_PI).1

end SearchOrderExample

/-! ### The vertex index of the tracer -/

section VertexIndex

open core

variable {F : Type} [LinearOrderedField F] [FloorRing F]

/-- The cell of a position depends on the grid only through its numbers of
rows and columns. -/
theorem core.getGridCell_congr {E E2 : Type} (g1 : Matrix (List E)) (g2 : Matrix (List E2))
    (hr : g1.m_rows = g2.m_rows) (hc : g1.m_cols = g2.m_cols) (p : Vector2f F) :
    getGridCell g1 p = getGridCell g2 p := by
  unfold getGridCell
  rw [hr, hc]

/-- What a cell holds after an addition: what it held before, and the element
added when the cell is the one of its position. -/
theorem core.mem_addGridElement_iff {E : Type} [DecidableEq E] (pos : E → Vector2f F)
    {n : Nat} {grid : Matrix (List E)} {P : E → Prop} (h : GridInv n grid P) (hn : 0 < n)
    (x : E) (r c : Nat) (e : E) :
    e ∈ (addGridElement pos (fun a b => decide (a = b)) grid x).get [] r c ↔
      e ∈ grid.get [] r c ∨
        (e = x ∧ (getGridCell grid (pos x)).1.toNat = r ∧
          (getGridCell grid (pos x)).2.toNat = c) := by
  rcases h with ⟨hsq, hr, hc, _⟩
  rcases getGridCell_range grid (pos x) (by omega) (by omega) with ⟨h1, h2, h3, h4⟩
  unfold addGridElement gridCell
  split
  · by_cases hrc : r = (getGridCell grid (pos x)).1.toNat ∧ c = (getGridCell grid (pos x)).2.toNat
    · rw [hrc.1, hrc.2, Matrix.get_set_eq [] grid n _ _ _ hsq (by omega) (by omega),
        List.mem_append, List.mem_singleton]
      constructor
      · rintro (h | h)
        · exact Or.inl h
        · exact Or.inr ⟨h, rfl, rfl⟩
      · rintro (h | h)
        · exact Or.inl h
        · exact Or.inr h.1
    · rw [Matrix.get_set_ne [] grid _ _ r c _ hrc]
      constructor
      · intro h
        exact Or.inl h
      · rintro (h | h)
        · exact h
        · exact absurd ⟨h.2.1.symm, h.2.2.symm⟩ hrc
  · rename_i hcount
    rw [List.countP_eq_zero] at hcount
    push_neg at hcount
    rcases hcount with ⟨y, hy, hyx⟩
    have hyx2 : y = x := by simpa using hyx
    rw [hyx2] at hy
    constructor
    · intro h
      exact Or.inl h
    · rintro (h | h)
      · exact h
      · rw [h.1, ← h.2.1, ← h.2.2]
        exact hy

/-- What a cell holds after a removal: what it held before, except the
element removed when the cell is the one of its position. -/
theorem core.mem_removeGridElement_iff {E : Type} [DecidableEq E] (pos : E → Vector2f F)
    {n : Nat} {grid : Matrix (List E)} {P : E → Prop} (h : GridInv n grid P) (hn : 0 < n)
    (x : E) (r c : Nat) (e : E) :
    e ∈ (removeGridElement pos (fun a b => decide (a = b)) grid x).get [] r c ↔
      e ∈ grid.get [] r c ∧
        ¬ (e = x ∧ (getGridCell grid (pos x)).1.toNat = r ∧
          (getGridCell grid (pos x)).2.toNat = c) := by
  rcases h with ⟨hsq, hr, hc, _⟩
  rcases getGridCell_range grid (pos x) (by omega) (by omega) with ⟨h1, h2, h3, h4⟩
  unfold removeGridElement gridCell
  by_cases hrc : r = (getGridCell grid (pos x)).1.toNat ∧ c = (getGridCell grid (pos x)).2.toNat
  · rw [hrc.1, hrc.2, Matrix.get_set_eq [] grid n _ _ _ hsq (by omega) (by omega),
      List.mem_filter]
    constructor
    · rintro ⟨hmem, hne⟩
      refine ⟨hmem, ?_⟩
      rintro ⟨hex, _, _⟩
      simp [hex] at hne
    · rintro ⟨hmem, hne⟩
      refine ⟨hmem, ?_⟩
      have : e ≠ x := fun hex => hne ⟨hex, rfl, rfl⟩
      simpa using this
  · rw [Matrix.get_set_ne [] grid _ _ r c _ hrc]
    constructor
    · intro hmem
      exact ⟨hmem, fun hx => hrc ⟨hx.2.1.symm, hx.2.2.symm⟩⟩
    · intro hmem
      exact hmem.1

/-- A removal keeps the shape of the grid, and every property of the stored
elements. -/
theorem core.GridInv.remove_element {E : Type} [DecidableEq E] (pos : E → Vector2f F)
    {n : Nat} {grid : Matrix (List E)} {P : E → Prop} (h : GridInv n grid P) (hn : 0 < n)
    (x : E) : GridInv n (removeGridElement pos (fun a b => decide (a = b)) grid x) P := by
  refine ⟨Matrix.square_set _ _ _ _ _ h.1, h.2.1, h.2.2.1, ?_⟩
  intro r c e he
  exact h.2.2.2 r c e ((mem_removeGridElement_iff pos h hn x r c e).mp he).1

/-- The sample-points that `addEdge` adds leave the vertex grid as it is. -/
theorem core.Tracer.foldl_addSamplePoint_vertices (id : Nat) (trace : List (Point F)) :
    ∀ t : Tracer F,
      (trace.foldl (fun s p => Tracer.addSamplePoint s ⟨p, some id⟩) t).m_vertices =
        t.m_vertices := by
  induction trace with
  | nil => intro t; rfl
  | cons p rest ih =>
    intro t
    rw [List.foldl_cons]
    exact ih _

/-- The sample-points that `removeEdge` removes leave the vertex grid as it
is. -/
theorem core.Tracer.foldl_removeSamplePoint_vertices (id : Nat) (trace : List (Point F)) :
    ∀ t : Tracer F,
      (trace.foldl (fun s p => Tracer.removeSamplePoint s ⟨p, some id⟩) t).m_vertices =
        t.m_vertices := by
  induction trace with
  | nil => intro t; rfl
  | cons p rest ih =>
    intro t
    rw [List.foldl_cons]
    exact ih _

/-- The vertex grid after `addEdge`. -/
theorem core.Tracer.addEdge_vertices (t : Tracer F) (edge : Edge F) :
    (Tracer.addEdge t edge).m_vertices =
      if t.m_edges.countP (fun e => decide (e.id = edge.id)) = 0 then
        addEdgeVertices t.m_vertices edge
      else t.m_vertices := by
  unfold Tracer.addEdge
  split
  · simp [Tracer.addVertex, Tracer.foldl_addSamplePoint_vertices, addEdgeVertices]
  · rfl

/-- The vertex grid after `removeEdge`. -/
theorem core.Tracer.removeEdge_vertices (t : Tracer F) (edge : Edge F)
    (h : t.m_edges.countP (fun e => decide (e.id = edge.id)) > 0) :
    (Tracer.removeEdge t edge).m_vertices =
      (if (t.m_edges.eraseP (fun e => decide (e.id = edge.id))).any
          (fun x => decide (x.m_v1 = edge.m_v2) || decide (x.m_v2 = edge.m_v2)) then
        (if (t.m_edges.eraseP (fun e => decide (e.id = edge.id))).any
            (fun x => decide (x.m_v1 = edge.m_v1) || decide (x.m_v2 = edge.m_v1)) then
          t.m_vertices
        else removeGridElement Point2f.pos (fun a b => decide (a = b)) t.m_vertices edge.m_v1)
      else
        removeGridElement Point2f.pos (fun a b => decide (a = b))
          (if (t.m_edges.eraseP (fun e => decide (e.id = edge.id))).any
              (fun x => decide (x.m_v1 = edge.m_v1) || decide (x.m_v2 = edge.m_v1)) then
            t.m_vertices
          else removeGridElement Point2f.pos (fun a b => decide (a = b)) t.m_vertices
            edge.m_v1) edge.m_v2) := by
  unfold Tracer.removeEdge
  rw [if_pos h]
  by_cases hc1 : (t.m_edges.eraseP (fun e => decide (e.id = edge.id))).any
      (fun x => decide (x.m_v1 = edge.m_v1) || decide (x.m_v2 = edge.m_v1)) = true
  · by_cases hc2 : (t.m_edges.eraseP (fun e => decide (e.id = edge.id))).any
        (fun x => decide (x.m_v1 = edge.m_v2) || decide (x.m_v2 = edge.m_v2)) = true
    · simp only [Tracer.containsEdge, Tracer.removeVertex,
        (Tracer.foldl_removeSamplePoint_edges _ _ _).1, Tracer.foldl_removeSamplePoint_vertices,
        hc1, hc2, if_true]
    · simp only [Tracer.containsEdge, Tracer.removeVertex,
        (Tracer.foldl_removeSamplePoint_edges _ _ _).1, Tracer.foldl_removeSamplePoint_vertices,
        hc1, hc2, if_true, if_false, Bool.false_eq_true, reduceIte]
  · by_cases hc2 : (t.m_edges.eraseP (fun e => decide (e.id = edge.id))).any
        (fun x => decide (x.m_v1 = edge.m_v2) || decide (x.m_v2 = edge.m_v2)) = true
    · simp only [Tracer.containsEdge, Tracer.removeVertex,
        (Tracer.foldl_removeSamplePoint_edges _ _ _).1, Tracer.foldl_removeSamplePoint_vertices,
        hc1, hc2, if_true, if_false, Bool.false_eq_true, reduceIte]
    · simp only [Tracer.containsEdge, Tracer.removeVertex,
        (Tracer.foldl_removeSamplePoint_edges _ _ _).1, Tracer.foldl_removeSamplePoint_vertices,
        hc1, hc2, if_true, if_false, Bool.false_eq_true, reduceIte]

end VertexIndex

section VertexIndexInvariant

open core

variable {F : Type} [LinearOrderedField F] [FloorRing F]

/-- Adding an element keeps every stored element in the cell of its
position. -/
theorem core.GridPlaced.after_add {E : Type} [DecidableEq E] (pos : E → Vector2f F)
    {n : Nat} {grid : Matrix (List E)} {P : E → Prop} (h : GridInv n grid P) (hn : 0 < n)
    (hp : GridPlaced pos grid) (x : E) :
    GridPlaced pos (addGridElement pos (fun a b => decide (a = b)) grid x) := by
  intro r c e he
  rw [getGridCell_congr _ grid (addGridElement_rows _ _ _ _).1 (addGridElement_rows _ _ _ _).2]
  rcases (mem_addGridElement_iff pos h hn x r c e).mp he with h1 | ⟨h1, h2, h3⟩
  · exact hp r c e h1
  · rw [h1]
    exact ⟨h2, h3⟩

/-- Removing an element keeps every stored element in the cell of its
position. -/
theorem core.GridPlaced.after_remove {E : Type} [DecidableEq E] (pos : E → Vector2f F)
    {n : Nat} {grid : Matrix (List E)} {P : E → Prop} (h : GridInv n grid P) (hn : 0 < n)
    (hp : GridPlaced pos grid) (x : E) :
    GridPlaced pos (removeGridElement pos (fun a b => decide (a = b)) grid x) := by
  intro r c e he
  have hcong : getGridCell (removeGridElement pos (fun a b => decide (a = b)) grid x) (pos e) =
      getGridCell grid (pos e) := getGridCell_congr _ grid rfl rfl (pos e)
  rw [hcong]
  exact hp r c e ((mem_removeGridElement_iff pos h hn x r c e).mp he).1

/-- In a grid whose elements are in the cell of their position, the elements
left by a removal are the other elements. -/
theorem core.mem_removeGridElement_placed {E : Type} [DecidableEq E] (pos : E → Vector2f F)
    {n : Nat} {grid : Matrix (List E)} {P : E → Prop} (h : GridInv n grid P) (hn : 0 < n)
    (hp : GridPlaced pos grid) (x : E) (r c : Nat) (e : E) :
    e ∈ (removeGridElement pos (fun a b => decide (a = b)) grid x).get [] r c ↔
      e ∈ grid.get [] r c ∧ e ≠ x := by
  rw [mem_removeGridElement_iff pos h hn x r c e]
  constructor
  · rintro ⟨hmem, hne⟩
    refine ⟨hmem, ?_⟩
    intro hex
    apply hne
    have := hp r c e hmem
    rw [hex] at this
    exact ⟨hex, this.1, this.2⟩
  · rintro ⟨hmem, hne⟩
    exact ⟨hmem, fun hx => hne hx.1⟩

/-- In every reachable state of the tracer, the vertex grid has 20 by 20
cells, every stored vertex is an end point of a held edge and is stored in the
cell of its position, and both end points of every held edge are stored in the
cell of their position. -/
theorem core.Tracer.Reachable.vertex_index (t : Tracer F) (h : Tracer.Reachable t) :
    GridInv 20 t.m_vertices (fun v => Tracer.containsEdge t v = true) ∧
    GridPlaced Point2f.pos t.m_vertices ∧
    ∀ e ∈ t.m_edges,
      e.m_v1 ∈ gridCell t.m_vertices (getGridCell t.m_vertices e.m_v1.pos) ∧
      e.m_v2 ∈ gridCell t.m_vertices (getGridCell t.m_vertices e.m_v2.pos) := by
  induction h with
  | new type distSep koefTest koefSegment koefLookahead koefConnect distSample =>
    refine ⟨GridInv.of_fill 20 _, ?_, ?_⟩
    · intro r c e he
      have : (Tracer.new type distSep koefTest koefSegment koefLookahead koefConnect
          distSample : Tracer F).m_vertices = Matrix.fill 20 20 [] := rfl
      rw [this, Matrix.get_fill_default] at he
      cases he
    · intro e he
      cases he
  | addEdge t edge _ _ _ ih =>
    rcases ih with ⟨hinv, hplaced, hedges⟩
    by_cases hcount : t.m_edges.countP (fun e => decide (e.id = edge.id)) = 0
    · have hE : (Tracer.addEdge t edge).m_edges = t.m_edges ++ [edge] := by
        rw [Tracer.addEdge_edges, if_pos hcount]
      have hV : (Tracer.addEdge t edge).m_vertices = addEdgeVertices t.m_vertices edge := by
        rw [Tracer.addEdge_vertices, if_pos hcount]
      have hinvT : GridInv 20 t.m_vertices (fun _ => True) := hinv.weaken (fun _ _ => trivial)
      have hinv1 : GridInv 20
          (addGridElement Point2f.pos (fun a b => decide (a = b)) t.m_vertices edge.m_v1)
          (fun _ => True) := GridInv.add_element _ _ hinvT _ trivial
      have hmem : ∀ r c v, v ∈ (addEdgeVertices t.m_vertices edge).get [] r c ↔
          v ∈ t.m_vertices.get [] r c ∨
          (v = edge.m_v1 ∧ (getGridCell t.m_vertices edge.m_v1.pos).1.toNat = r ∧
            (getGridCell t.m_vertices edge.m_v1.pos).2.toNat = c) ∨
          (v = edge.m_v2 ∧ (getGridCell t.m_vertices edge.m_v2.pos).1.toNat = r ∧
            (getGridCell t.m_vertices edge.m_v2.pos).2.toNat = c) := by
        intro r c v
        unfold addEdgeVertices
        rw [mem_addGridElement_iff Point2f.pos hinv1 (by norm_num) edge.m_v2 r c v,
          mem_addGridElement_iff Point2f.pos hinvT (by norm_num) edge.m_v1 r c v,
          getGridCell_congr _ t.m_vertices (addGridElement_rows _ _ _ _).1
            (addGridElement_rows _ _ _ _).2, or_assoc]
      have hcell : ∀ p : Vector2f F, getGridCell (Tracer.addEdge t edge).m_vertices p =
          getGridCell t.m_vertices p := by
        intro p
        rw [hV]
        unfold addEdgeVertices
        rw [getGridCell_congr _ _ (addGridElement_rows _ _ _ _).1 (addGridElement_rows _ _ _ _).2,
          getGridCell_congr _ t.m_vertices (addGridElement_rows _ _ _ _).1
            (addGridElement_rows _ _ _ _).2]
      refine ⟨?_, ?_, ?_⟩
      · rw [hV]
        have hinv2 : GridInv 20 (addEdgeVertices t.m_vertices edge) (fun _ => True) :=
          GridInv.add_element _ _ hinv1 _ trivial
        refine ⟨hinv2.1, hinv2.2.1, hinv2.2.2.1, ?_⟩
        intro r c v hv
        unfold Tracer.containsEdge
        rw [hE, List.any_append]
        rcases (hmem r c v).mp hv with h1 | h1 | h1
        · have := hinv.2.2.2 r c v h1
          unfold Tracer.containsEdge at this
          rw [this, Bool.true_or]
        · simp [h1.1]
        · simp [h1.1]
      · rw [hV]
        unfold addEdgeVertices
        exact GridPlaced.after_add _ hinv1 (by norm_num)
          (GridPlaced.after_add _ hinvT (by norm_num) hplaced _) _
      · intro e he
        rw [hcell, hcell, hV]
        unfold gridCell
        rw [hmem, hmem]
        rw [hE, List.mem_append, List.mem_singleton] at he
        rcases he with he | he
        · exact ⟨Or.inl (hedges e he).1, Or.inl (hedges e he).2⟩
        · rw [he]
          exact ⟨Or.inr (Or.inl ⟨rfl, rfl, rfl⟩), Or.inr (Or.inr ⟨rfl, rfl, rfl⟩)⟩
    · have hsame : Tracer.addEdge t edge = t := by
        unfold Tracer.addEdge
        rw [if_neg hcount]
      rw [hsame]
      exact ⟨hinv, hplaced, hedges⟩
  | removeEdge t edge _ hobj ih =>
    rcases ih with ⟨hinv, hplaced, hedges⟩
    by_cases hcount : t.m_edges.countP (fun e => decide (e.id = edge.id)) > 0
    · have hinvT : GridInv 20 t.m_vertices (fun _ => True) := hinv.weaken (fun _ _ => trivial)
      obtain ⟨a, ha, hpa⟩ : ∃ a ∈ t.m_edges,
          (fun e : Edge F => decide (e.id = edge.id)) a = true :=
        List.countP_pos_iff.mp hcount
      obtain ⟨a2, l1, l2, _, hpa2, hl, hl2⟩ :=
        List.exists_of_eraseP (p := fun e : Edge F => decide (e.id = edge.id)) ha hpa
      have ha2 : a2 = edge := by
        apply hobj a2
        · rw [hl]
          exact List.mem_append_right _ (List.mem_cons_self _ _)
        · simpa using hpa2
      rw [ha2] at hl
      have hE : (Tracer.removeEdge t edge).m_edges = l1 ++ l2 := by
        rw [Tracer.removeEdge_edges, hl2]
      have hV := Tracer.removeEdge_vertices t edge hcount
      rw [hl2] at hV
      have hg1 : GridInv 20
          (if (l1 ++ l2).any
              (fun x => decide (x.m_v1 = edge.m_v1) || decide (x.m_v2 = edge.m_v1)) then
            t.m_vertices
          else removeGridElement Point2f.pos (fun a b => decide (a = b)) t.m_vertices edge.m_v1)
          (fun _ => True) := by
        split
        · exact hinvT
        · exact GridInv.remove_element _ hinvT (by norm_num) _
      have hp1 : GridPlaced Point2f.pos
          (if (l1 ++ l2).any
              (fun x => decide (x.m_v1 = edge.m_v1) || decide (x.m_v2 = edge.m_v1)) then
            t.m_vertices
          else removeGridElement Point2f.pos (fun a b => decide (a = b)) t.m_vertices
            edge.m_v1) := by
        split
        · exact hplaced
        · exact GridPlaced.after_remove _ hinvT (by norm_num) hplaced _
      have hmem1 : ∀ r c v,
          v ∈ (if (l1 ++ l2).any
              (fun x => decide (x.m_v1 = edge.m_v1) || decide (x.m_v2 = edge.m_v1)) then
            t.m_vertices
          else removeGridElement Point2f.pos (fun a b => decide (a = b)) t.m_vertices
            edge.m_v1).get [] r c ↔
          v ∈ t.m_vertices.get [] r c ∧
            (v = edge.m_v1 → (l1 ++ l2).any
              (fun x => decide (x.m_v1 = edge.m_v1) || decide (x.m_v2 = edge.m_v1)) = true) := by
        intro r c v
        split
        · rename_i hc
          exact ⟨fun hv => ⟨hv, fun _ => hc⟩, fun hv => hv.1⟩
        · rename_i hc
          rw [mem_removeGridElement_placed _ hinvT (by norm_num) hplaced]
          exact ⟨fun hv => ⟨hv.1, fun hx => absurd hx hv.2⟩,
            fun hv => ⟨hv.1, fun hx => hc (hv.2 hx)⟩⟩
      have hmem : ∀ r c v, v ∈ (Tracer.removeEdge t edge).m_vertices.get [] r c ↔
          v ∈ t.m_vertices.get [] r c ∧
            (v = edge.m_v1 → (l1 ++ l2).any
              (fun x => decide (x.m_v1 = edge.m_v1) || decide (x.m_v2 = edge.m_v1)) = true) ∧
            (v = edge.m_v2 → (l1 ++ l2).any
              (fun x => decide (x.m_v1 = edge.m_v2) || decide (x.m_v2 = edge.m_v2)) = true) := by
        intro r c v
        rw [hV]
        split
        · rename_i hc
          rw [hmem1]
          exact ⟨fun hv => ⟨hv.1, hv.2, fun _ => hc⟩, fun hv => ⟨hv.1, hv.2.1⟩⟩
        · rename_i hc
          rw [mem_removeGridElement_placed _ hg1 (by norm_num) hp1, hmem1]
          exact ⟨fun hv => ⟨hv.1.1, hv.1.2, fun hx => absurd hx hv.2⟩,
            fun hv => ⟨⟨hv.1, hv.2.1⟩, fun hx => hc (hv.2.2 hx)⟩⟩
      have hcell : ∀ p : Vector2f F, getGridCell (Tracer.removeEdge t edge).m_vertices p =
          getGridCell t.m_vertices p := by
        intro p
        rw [hV]
        split <;> split <;> rfl
      refine ⟨?_, ?_, ?_⟩
      · have hshape : GridInv 20 (Tracer.removeEdge t edge).m_vertices (fun _ => True) := by
          rw [hV]
          split
          · exact hg1
          · exact GridInv.remove_element _ hg1 (by norm_num) _
        refine ⟨hshape.1, hshape.2.1, hshape.2.2.1, ?_⟩
        intro r c v hv
        rw [hmem] at hv
        have hold := hinv.2.2.2 r c v hv.1
        unfold Tracer.containsEdge at hold ⊢
        rw [hE]
        rw [hl, List.any_append, List.any_cons] at hold
        rw [List.any_append]
        simp only [Bool.or_eq_true] at hold
        rcases hold with h1 | ⟨h1 | h1⟩ | h1
        · rw [h1, Bool.true_or]
        · have hx : v = edge.m_v1 := (of_decide_eq_true h1).symm
          have := hv.2.1 hx
          rw [List.any_append, ← hx] at this
          exact this
        · have hx : v = edge.m_v2 := (of_decide_eq_true h1).symm
          have := hv.2.2 hx
          rw [List.any_append, ← hx] at this
          exact this
        · rw [h1, Bool.or_true]
      · intro r c v hv
        rw [hcell]
        exact hplaced r c v ((hmem r c v).mp hv).1
      · intro e he
        rw [hE] at he
        have heany : ∀ w : Point F, (e.m_v1 = w ∨ e.m_v2 = w) → (l1 ++ l2).any
            (fun x => decide (x.m_v1 = w) || decide (x.m_v2 = w)) = true := by
          intro w hw
          rw [List.any_eq_true]
          exact ⟨e, he, by simpa using hw⟩
        have hold : e ∈ t.m_edges := by
          rw [hl]
          rcases List.mem_append.mp he with h1 | h1
          · exact List.mem_append_left _ h1
          · exact List.mem_append_right _ (List.mem_cons_of_mem _ h1)
        rw [hcell, hcell]
        unfold gridCell
        rw [hmem, hmem]
        exact ⟨⟨(hedges e hold).1, fun hx => heany _ (Or.inl hx), fun hx => heany _ (Or.inl hx)⟩,
          ⟨(hedges e hold).2, fun hx => heany _ (Or.inr hx), fun hx => heany _ (Or.inr hx)⟩⟩
    · have hsame : Tracer.removeEdge t edge = t := by
        unfold Tracer.removeEdge
        rw [if_neg hcount]
      rw [hsame]
      exact ⟨hinv, hplaced, hedges⟩

end VertexIndexInvariant

section VertexIndexClaim

open core

variable {F : Type} [LinearOrderedField F] [FloorRing F]

/-- C21: in every state of the tracer reachable through `addEdge` and
`removeEdge`, `containsVertex(v)` holds exactly when some held edge has v as
its starting or its ending point; so both end points of every held edge are in
the vertex index, and a vertex with no incident edge is not.  The library
square root of 0 is 0, and `qSort` only reorders its argument. -/
theorem core.Tracer.C21_vertex_index_holds_end_points_of_held_edges (lib : Libm F)
    (qt : QtSort) (hsqrt : lib.sqrtf 0 = 0) (hqt : qt.Lawful) (t : Tracer F)
    (hreach : Tracer.Reachable t) (v : Point F) :
    (Tracer.containsVertex lib qt t v = true ↔
      ∃ e ∈ Tracer.edges t, e.m_v1 = v ∨ e.m_v2 = v) ∧
    (∀ e ∈ Tracer.edges t, Tracer.containsVertex lib qt t e.m_v1 = true ∧
      Tracer.containsVertex lib qt t e.m_v2 = true) ∧
    ((∀ e ∈ Tracer.edges t, e.m_v1 ≠ v ∧ e.m_v2 ≠ v) →
      Tracer.containsVertex lib qt t v = false) := by
  rcases Tracer.Reachable.vertex_index t hreach with ⟨hinv, hplaced, hedges⟩
  have hz : math.zero (0 : F) = 0 := by
    unfold math.zero
    rw [if_pos (by norm_num)]
  have hnorm0 : Vector2f.norm lib (⟨0, 0⟩ : Vector2f F) = 0 := by
    simp only [Vector2f.norm, Vector2f.normSquared, math.sqrt, math.pow2, mul_zero, add_zero,
      hsqrt, hz]
  have hself : ∀ w : Point F, Vector2f.sub w.pos w.pos = ⟨0, 0⟩ := by
    intro w
    simp only [Vector2f.sub, sub_self]
  have hiff : ∀ w : Point F, Tracer.containsVertex lib qt t w = true ↔
      ∃ e ∈ Tracer.edges t, e.m_v1 = w ∨ e.m_v2 = w := by
    intro w
    unfold Tracer.containsVertex Tracer.findVertex Tracer.findVertexSweep Tracer.edges
    rw [show ∀ (l : List (Point F)), l.contains w = true ↔ w ∈ l from fun l => List.elem_iff]
    constructor
    · intro hw
      rcases findGridElement_sound lib qt hqt _ _ _ _ _ w hw with ⟨⟨r, c, hmem⟩, _⟩
      have : Tracer.containsEdge t w = true := hinv.2.2.2 r c w hmem
      unfold Tracer.containsEdge at this
      rw [List.any_eq_true] at this
      rcases this with ⟨e, he, hew⟩
      exact ⟨e, he, by simpa using hew⟩
    · rintro ⟨e, he, hew⟩
      have hcellmem : w ∈ gridCell t.m_vertices (getGridCell t.m_vertices w.pos) := by
        rcases hew with h | h
        · rw [← h]
          exact (hedges e he).1
        · rw [← h]
          exact (hedges e he).2
      rcases getGridCell_range t.m_vertices w.pos (by rw [hinv.2.1]; norm_num)
        (by rw [hinv.2.2.1]; norm_num) with ⟨h1, h2, h3, h4⟩
      apply findGridElement_complete lib qt hqt _ _ _ _ _ w (by rw [hnorm0]) h1 h3 h2 h4
        hcellmem
      unfold inSweep
      rw [hself, hnorm0, if_pos (le_refl _), if_pos hz]
  refine ⟨hiff v, ?_, ?_⟩
  · intro e he
    exact ⟨(hiff e.m_v1).mpr ⟨e, he, Or.inl rfl⟩, (hiff e.m_v2).mpr ⟨e, he, Or.inr rfl⟩⟩
  · intro hnone
    rw [← Bool.not_eq_true, hiff v]
    rintro ⟨e, he, hev | hev⟩
    · exact (hnone e he).1 hev
    · exact (hnone e he).2 hev

/-- C21 worked through for a tracer to which an edge from (0, 0) to (1, 0) was
added and from which it was removed again, with the exact library and a stable
sort: the vertex index does not contain (0, 0). -/
theorem core.Tracer.C21_witness :
    Tracer.containsVertex Libm.exact QtSort.stable
      (Tracer.removeEdge
        (Tracer.addEdge (Tracer.newDefault RoadType.RoadTypeMajor : Tracer ℝ)
          ⟨0, Point2f.ofCoords 0 0, Point2f.ofCoords 1 0, [], Edge.Types.TypeMajorRoad⟩)
        ⟨0, Point2f.ofCoords 0 0, Point2f.ofCoords 1 0, [], Edge.Types.TypeMajorRoad⟩)
      (Point2f.ofCoords 0 0) = false :=
  (core.Tracer.C21_vertex_index_holds_end_points_of_held_edges Libm.exact QtSort.stable
    Real.sqrt_zero QtSort.stable_lawful _
    (Tracer.Reachable.removeEdge _ _
      (Tracer.Reachable.addEdge _
        ⟨0, Point2f.ofCoords 0 0, Point2f.ofCoords 1 0, [], Edge.Types.TypeMajorRoad⟩
        (Tracer.Reachable.new _ _ _ _ _ _ _) rfl rfl)
      (by
        intro x hx hid
        rw [Tracer.addEdge_edges] at hx
        simp only [Tracer.newDefault, Tracer.new, List.countP_nil, if_true, List.nil_append,
          List.mem_singleton] at hx
        exact hx))
    (Point2f.ofCoords 0 0)).2.2
    (by
      intro e he
      unfold Tracer.edges at he
      rw [Tracer.removeEdge_edges, Tracer.addEdge_edges] at he
      simp [Tracer.newDefault, Tracer.new] at he)

end VertexIndexClaim

/-! ### The coordinates of a map image -/

section MapImageCoords

open core

/-- C23 in exact arithmetic: for an image of width w and height h, both at
least 2, and a field point (x, y) of the unit square, `toImageCoords` returns
the point (x (w - 1), (1 - y) (h - 1)), and `toFieldCoords` takes this point
back to (x, y). -/
theorem core.MapImage.C23_toImageCoords_and_inverse {F : Type} [LinearOrderedField F]
    (img : MapImage) (x y : F) (hw : 2 ≤ img.width) (hh : 2 ≤ img.height)
    (hx0 : 0 ≤ x) (hx1 : x ≤ 1) (hy0 : 0 ≤ y) (hy1 : y ≤ 1) :
    MapImage.toImageCoords img ⟨x, y⟩ =
      ⟨x * ((img.width : F) - 1), (1 - y) * ((img.height : F) - 1)⟩ ∧
    MapImage.toFieldCoords img (MapImage.toImageCoords img ⟨x, y⟩) = ⟨x, y⟩ := by
  have hx : max 0 (min x 1) = x := by rw [min_eq_left hx1, max_eq_right hx0]
  have hy : max 0 (min y 1) = y := by rw [min_eq_left hy1, max_eq_right hy0]
  have hwF : ((img.width - 1 : Int) : F) = (img.width : F) - 1 := by push_cast; ring
  have hhF : ((img.height - 1 : Int) : F) = (img.height : F) - 1 := by push_cast; ring
  have hw0 : ((img.width : F) - 1) ≠ 0 := by
    have : (2 : F) ≤ (img.width : F) := by exact_mod_cast hw
    linarith
  have hh0 : ((img.height : F) - 1) ≠ 0 := by
    have : (2 : F) ≤ (img.height : F) := by exact_mod_cast hh
    linarith
  constructor
  · simp only [MapImage.toImageCoords, hx, hy, hwF, hhF]
    congr 1
    ring
  · simp only [MapImage.toFieldCoords, MapImage.toImageCoords, hx, hy, hwF, hhF]
    congr 1
    · field_simp
    · field_simp

/-- C23 worked through for an image of 3 by 5 pixels and the field point
(1/2, 1/4). -/
theorem core.MapImage.C23_witness :
    MapImage.toImageCoords ⟨3, 5⟩ (⟨1 / 2, 1 / 4⟩ : Vector2f ℚ) =
      ⟨1 / 2 * (((3 : Int) : ℚ) - 1), (1 - 1 / 4) * (((5 : Int) : ℚ) - 1)⟩ ∧
    MapImage.toFieldCoords ⟨3, 5⟩
      (MapImage.toImageCoords ⟨3, 5⟩ (⟨1 / 2, 1 / 4⟩ : Vector2f ℚ)) = ⟨1 / 2, 1 / 4⟩ :=
  core.MapImage.C23_toImageCoords_and_inverse ⟨3, 5⟩ (1 / 2) (1 / 4) (by decide) (by decide)
    (by norm_num) (by norm_num) (by norm_num) (by norm_num)

end MapImageCoords

/-! ### The packed bit matrix -/

section PackedBitMatrix

open base

/-- An integer in the range of `int` is its own conversion to `int`. -/
theorem toInt32_of_range (x : Int) (h1 : -2147483648 ≤ x) (h2 : x < 2147483648) :
    toInt32 x = x := by
  unfold toInt32
  omega

/-- The bit that a mask selects. -/
theorem base.BitMatrix.and_mask_ne_zero_iff (block shift : Nat) (hs : shift < 32) :
    decide (block &&& BitMatrix.mask shift ≠ 0) = block.testBit shift := by
  have hm : BitMatrix.mask shift = 2 ^ shift := by
    unfold BitMatrix.mask
    rw [Nat.one_shiftLeft]
    exact Nat.mod_eq_of_lt
      (lt_of_lt_of_le (Nat.pow_lt_pow_right (by norm_num) hs) (by norm_num))
  rw [hm, Nat.and_two_pow]
  cases block.testBit shift with
  | false => simp
  | true =>
    have : 2 ^ shift ≠ 0 := by positivity
    simp [this]

/-- The bits of a block after the bit that a mask selects is assigned. -/
theorem base.BitMatrix.testBit_assign (block shift : Nat) (value : Bool) (hs : shift < 32)
    (j : Nat) (hj : j < 32) :
    (if value then block ||| BitMatrix.mask shift
      else block &&& (4294967295 ^^^ BitMatrix.mask shift)).testBit j =
      if j = shift then value else block.testBit j := by
  have hm : BitMatrix.mask shift = 2 ^ shift := by
    unfold BitMatrix.mask
    rw [Nat.one_shiftLeft]
    exact Nat.mod_eq_of_lt
      (lt_of_lt_of_le (Nat.pow_lt_pow_right (by norm_num) hs) (by norm_num))
  have hones : (4294967295 : Nat).testBit j = true := by
    have h32 : (4294967295 : Nat) = 2 ^ 32 - 1 := by norm_num
    rw [h32, Nat.testBit_two_pow_sub_one]
    simpa using hj
  rw [hm]
  cases value with
  | true =>
    simp only [if_true, Nat.testBit_or, Nat.testBit_two_pow]
    by_cases hjs : j = shift
    · simp [hjs]
    · have : ¬ shift = j := fun h => hjs h.symm
      simp [hjs, this]
  | false =>
    simp only [Bool.false_eq_true, if_false, Nat.testBit_and, Nat.testBit_xor, hones,
      Nat.testBit_two_pow]
    by_cases hjs : j = shift
    · simp [hjs]
    · have : ¬ shift = j := fun h => hjs h.symm
      simp [hjs, this]

/-- The index of the bit of an element inside a well-formed matrix is
`row * cols + col`, without a wrap, and is below the number of elements. -/
theorem base.BitMatrix.bitIndex_inRange (m : BitMatrix) (hwf : m.WellFormed) (r c : Int)
    (hr0 : 0 ≤ r) (hr1 : r < m.rows) (hc0 : 0 ≤ c) (hc1 : c < m.cols) :
    ∃ i : Nat, (i : Int) = r * m.m_cols + c ∧ (i : Int) < m.m_rows * m.m_cols ∧
      BitMatrix.getBlock m r c = Except.ok (i / 32, i % 32) := by
  rcases hwf with ⟨hrows, hcols, hprod, _⟩
  unfold BitMatrix.rows at hr1
  unfold BitMatrix.cols at hc1
  have h0 : 0 ≤ r * m.m_cols := mul_nonneg hr0 hcols
  have hlt : r * m.m_cols + c < m.m_rows * m.m_cols := by nlinarith
  have hlt2 : r * m.m_cols < 2147483648 := by linarith
  refine ⟨(r * m.m_cols + c).toNat, by omega, by omega, ?_⟩
  unfold BitMatrix.getBlock BitMatrix.rows BitMatrix.cols BitMatrix.bitsPerBlock
  rw [if_neg (by omega), if_neg (by omega),
    toInt32_of_range (r * m.m_cols) (by omega) (by omega),
    toInt32_of_range (r * m.m_cols + c) (by omega) (by omega),
    Int.tdiv_eq_ediv (by omega) (by norm_num), Int.tmod_eq_emod (by omega) (by norm_num)]
  congr 2
  · omega
  · omega

/-- Two elements inside a matrix that have the same bit index are the same
element. -/
theorem base.BitMatrix.bitIndex_injective (cols r c r2 c2 : Int) (hc0 : 0 ≤ c)
    (hc1 : c < cols) (hd0 : 0 ≤ c2) (hd1 : c2 < cols)
    (h : r * cols + c = r2 * cols + c2) : r = r2 ∧ c = c2 := by
  have hr : r = r2 := by
    by_contra hne
    rcases lt_or_gt_of_ne hne with hlt | hgt
    · have : (r + 1) * cols ≤ r2 * cols :=
        mul_le_mul_of_nonneg_right (by omega) (by omega)
      nlinarith
    · have : (r2 + 1) * cols ≤ r * cols :=
        mul_le_mul_of_nonneg_right (by omega) (by omega)
      nlinarith
  refine ⟨hr, ?_⟩
  rw [hr] at h
  linarith

/-- C25: in a well-formed bit matrix, `set(r, c, v)` for a position inside the
matrix changes exactly that element.  It returns, and leaves a well-formed
matrix of the same size; afterwards `get(r, c)` is v and `get` of every other
position inside the matrix is what it was before; the block and shift of two
positions inside the matrix are the same only when the positions are. -/
theorem base.BitMatrix.C25_set_changes_exactly_one_element (m : BitMatrix)
    (hwf : m.WellFormed) (r c : Int) (v : Bool) (hr0 : 0 ≤ r) (hr1 : r < m.rows)
    (hc0 : 0 ≤ c) (hc1 : c < m.cols) :
    ∃ m2, BitMatrix.set m r c v = Except.ok m2 ∧
      m2.rows = m.rows ∧ m2.cols = m.cols ∧ m2.WellFormed ∧
      BitMatrix.get m2 r c = Except.ok v ∧
      (∀ r2 c2, 0 ≤ r2 → r2 < m.rows → 0 ≤ c2 → c2 < m.cols → ¬ (r2 = r ∧ c2 = c) →
        BitMatrix.get m2 r2 c2 = BitMatrix.get m r2 c2) ∧
      (∀ r2 c2, 0 ≤ r2 → r2 < m.rows → 0 ≤ c2 → c2 < m.cols →
        BitMatrix.getBlock m r2 c2 = BitMatrix.getBlock m r c → r2 = r ∧ c2 = c) := by
  obtain ⟨i, hi, hilt, hblock⟩ := BitMatrix.bitIndex_inRange m hwf r c hr0 hr1 hc0 hc1
  have hlen : i / 32 < m.m_array.length := by
    have := hwf.2.2.2
    omega
  have hwf2 : BitMatrix.WellFormed
      { m with
        m_array :=
          m.m_array.set (i / 32)
            (if v then m.m_array.getD (i / 32) 0 ||| BitMatrix.mask (i % 32)
             else m.m_array.getD (i / 32) 0 &&& (4294967295 ^^^ BitMatrix.mask (i % 32))) } := by
    refine ⟨hwf.1, hwf.2.1, hwf.2.2.1, ?_⟩
    simp only [List.length_set]
    exact hwf.2.2.2
  have hinj : ∀ r2 c2, 0 ≤ r2 → r2 < m.rows → 0 ≤ c2 → c2 < m.cols → ∀ i2 : Nat,
      (i2 : Int) = r2 * m.m_cols + c2 → i2 / 32 = i / 32 → i2 % 32 = i % 32 →
      r2 = r ∧ c2 = c := by
    intro r2 c2 _ _ hd0 hd1 i2 hi2 hb hs
    have hii : i2 = i := by omega
    apply BitMatrix.bitIndex_injective m.m_cols r2 c2 r c hd0 hd1 hc0 hc1
    rw [← hi, ← hi2, hii]
  refine ⟨{ m with
      m_array :=
        m.m_array.set (i / 32)
          (if v then m.m_array.getD (i / 32) 0 ||| BitMatrix.mask (i % 32)
           else m.m_array.getD (i / 32) 0 &&& (4294967295 ^^^ BitMatrix.mask (i % 32))) },
    ?_, rfl, rfl, hwf2, ?_, ?_, ?_⟩
  · unfold BitMatrix.set
    rw [hblock]
  · obtain ⟨i2, hi2, _, hblock2⟩ := BitMatrix.bitIndex_inRange _ hwf2 r c hr0 hr1 hc0 hc1
    have hii : i2 = i := by
      have : (i2 : Int) = (i : Int) := by rw [hi2, hi]
      exact_mod_cast this
    unfold BitMatrix.get
    rw [hblock2, hii]
    simp only [BitMatrix.and_mask_ne_zero_iff _ _ (Nat.mod_lt i (by norm_num))]
    rw [List.getD_eq_getElem?_getD, List.getElem?_set_self hlen, Option.getD_some,
      BitMatrix.testBit_assign _ _ _ (Nat.mod_lt i (by norm_num)) _ (Nat.mod_lt i (by norm_num)),
      if_pos rfl]
  · intro r2 c2 hr20 hr21 hc20 hc21 hne
    obtain ⟨i2, hi2, _, hblock2⟩ := BitMatrix.bitIndex_inRange _ hwf2 r2 c2 hr20 hr21 hc20 hc21
    obtain ⟨i3, hi3, _, hblock3⟩ := BitMatrix.bitIndex_inRange m hwf r2 c2 hr20 hr21 hc20 hc21
    have hii : i3 = i2 := by
      have : (i3 : Int) = (i2 : Int) := by rw [hi2, hi3]
      exact_mod_cast this
    unfold BitMatrix.get
    rw [hblock2, hblock3, hii]
    simp only [BitMatrix.and_mask_ne_zero_iff _ _ (Nat.mod_lt i2 (by norm_num))]
    by_cases hb : i2 / 32 = i / 32
    · have hs : ¬ i2 % 32 = i % 32 := fun hs =>
        hne (hinj r2 c2 hr20 hr21 hc20 hc21 i2 hi2 hb hs)
      rw [hb, List.getD_eq_getElem?_getD, List.getElem?_set_self hlen, Option.getD_some,
        BitMatrix.testBit_assign _ _ _ (Nat.mod_lt i (by norm_num)) _
          (Nat.mod_lt i2 (by norm_num)), if_neg hs]
    · have hb2 : i / 32 ≠ i2 / 32 := fun h => hb h.symm
      rw [List.getD_eq_getElem?_getD, List.getElem?_set_ne hb2, ← List.getD_eq_getElem?_getD]
  · intro r2 c2 hr20 hr21 hc20 hc21 heq
    obtain ⟨i3, hi3, _, hblock3⟩ := BitMatrix.bitIndex_inRange m hwf r2 c2 hr20 hr21 hc20 hc21
    rw [hblock3, hblock] at heq
    have h1 : i3 / 32 = i / 32 := by
      have := congrArg (fun x => match x with
        | Except.ok p => p.1
        | Except.error _ => 0) heq
      exact this
    have h2 : i3 % 32 = i % 32 := by
      have := congrArg (fun x => match x with
        | Except.ok p => p.2
        | Except.error _ => 0) heq
      exact this
    exact hinj r2 c2 hr20 hr21 hc20 hc21 i3 hi3 h1 h2

end PackedBitMatrix

/-! ### Boundary checks -/

section BoundaryChecks

open base

/-- The block of a position is found exactly when the position is inside the
matrix; otherwise `std::out_of_range` is thrown. -/
theorem base.BitMatrix.getBlock_cases (m : base.BitMatrix) (row col : Int) :
    ((row < 0 ∨ row ≥ m.rows ∨ col < 0 ∨ col ≥ m.cols) ∧
      base.BitMatrix.getBlock m row col = Except.error Exception.out_of_range) ∨
    (¬ (row < 0 ∨ row ≥ m.rows ∨ col < 0 ∨ col ≥ m.cols) ∧
      ∃ p, base.BitMatrix.getBlock m row col = Except.ok p) := by
  unfold base.BitMatrix.getBlock
  by_cases h1 : row < 0 ∨ row ≥ m.rows
  · left
    rw [if_pos h1]
    exact ⟨by tauto, rfl⟩
  · by_cases h2 : col < 0 ∨ col ≥ m.cols
    · left
      rw [if_neg h1, if_pos h2]
      exact ⟨by tauto, rfl⟩
    · right
      rw [if_neg h1, if_neg h2]
      exact ⟨by tauto, _, rfl⟩

/-- The matrix index of a vertex that is greater than the number of rows of a
matrix is not the index of a row. -/
theorem math.Graph.IDX_outside (rows : Int) (v : Nat) (hv : v < 4294967296)
    (hrows0 : 0 ≤ rows) (hrows1 : rows < 2147483648)
    (hgt : (rows % 4294967296).toNat < v) :
    math.Graph.IDX v < 0 ∨ math.Graph.IDX v ≥ rows := by
  unfold math.Graph.IDX toInt32
  omega

/-- C24: an access outside a matrix fails fast.  `set` and `get` of a bit
matrix and the element access of a matrix throw `std::out_of_range` exactly
when the row is outside [0, rows) or the column is outside [0, cols), and
throw nothing else.  So, in a graph with a square adjacency matrix, `connect`
and `disconnect` with the null vertex throw `std::runtime_error`, and with two
vertices other than the null vertex of which one is greater than
`numVertices()` they throw `std::out_of_range`; in both cases the graph is
left as it was. -/
theorem math.Graph.C24_out_of_range_indexing_fails_fast (m : base.BitMatrix) (row col : Int)
    (value : Bool) (g : math.Graph) (v1 v2 : Nat)
    (hsq : g.m_matrix.m_cols = g.m_matrix.m_rows) (hrows0 : 0 ≤ g.m_matrix.m_rows)
    (hrows1 : g.m_matrix.m_rows < 2147483648) (hv1 : v1 < 4294967296)
    (hv2 : v2 < 4294967296) :
    (base.BitMatrix.set m row col value = Except.error Exception.out_of_range ↔
      row < 0 ∨ row ≥ m.rows ∨ col < 0 ∨ col ≥ m.cols) ∧
    (∀ e, base.BitMatrix.set m row col value = Except.error e → e = Exception.out_of_range) ∧
    (base.BitMatrix.get m row col = Except.error Exception.out_of_range ↔
      row < 0 ∨ row ≥ m.rows ∨ col < 0 ∨ col ≥ m.cols) ∧
    (∀ e, base.BitMatrix.get m row col = Except.error e → e = Exception.out_of_range) ∧
    (∀ (α : Type) (mat : Matrix α),
      (Matrix.elementAccess mat row col = Except.error Exception.out_of_range ↔
        row < 0 ∨ row ≥ (mat.m_rows : Int) ∨ col < 0 ∨ col ≥ (mat.m_cols : Int)) ∧
      ∀ e, Matrix.elementAccess mat row col = Except.error e → e = Exception.out_of_range) ∧
    ((v1 = math.Graph.NullVertex ∨ v2 = math.Graph.NullVertex) →
      math.Graph.connect g v1 v2 = (g, some Exception.runtime_error) ∧
      math.Graph.disconnect g v1 v2 = (g, some Exception.runtime_error)) ∧
    (v1 ≠ math.Graph.NullVertex → v2 ≠ math.Graph.NullVertex →
      (math.Graph.numVertices g < v1 ∨ math.Graph.numVertices g < v2) →
      math.Graph.connect g v1 v2 = (g, some Exception.out_of_range) ∧
      math.Graph.disconnect g v1 v2 = (g, some Exception.out_of_range)) := by
  refine ⟨?_, ?_, ?_, ?_, ?_, ?_, ?_⟩
  · unfold base.BitMatrix.set
    rcases base.BitMatrix.getBlock_cases m row col with ⟨hout, hb⟩ | ⟨hin, p, hb⟩
    · rw [hb]
      exact ⟨fun _ => hout, fun _ => rfl⟩
    · rw [hb]
      constructor
      · intro h
        cases h
      · intro h
        exact absurd h hin
  · intro e he
    unfold base.BitMatrix.set at he
    rcases base.BitMatrix.getBlock_cases m row col with ⟨_, hb⟩ | ⟨_, p, hb⟩
    · rw [hb] at he
      cases he
      rfl
    · rw [hb] at he
      cases he
  · unfold base.BitMatrix.get
    rcases base.BitMatrix.getBlock_cases m row col with ⟨hout, hb⟩ | ⟨hin, p, hb⟩
    · rw [hb]
      exact ⟨fun _ => hout, fun _ => rfl⟩
    · rw [hb]
      constructor
      · intro h
        cases h
      · intro h
        exact absurd h hin
  · intro e he
    unfold base.BitMatrix.get at he
    rcases base.BitMatrix.getBlock_cases m row col with ⟨_, hb⟩ | ⟨_, p, hb⟩
    · rw [hb] at he
      cases he
      rfl
    · rw [hb] at he
      cases he
  · intro α mat
    unfold Matrix.elementAccess
    by_cases h1 : row < 0 ∨ row ≥ (mat.m_rows : Int)
    · rw [if_pos h1]
      refine ⟨Iff.intro (fun _ => by tauto) (fun _ => rfl), ?_⟩
      intro e he
      cases he
      rfl
    · by_cases h2 : col < 0 ∨ col ≥ (mat.m_cols : Int)
      · rw [if_neg h1, if_pos h2]
        refine ⟨Iff.intro (fun _ => by tauto) (fun _ => rfl), ?_⟩
        intro e he
        cases he
        rfl
      · rw [if_neg h1, if_neg h2]
        refine ⟨Iff.intro (fun h => by cases h) (fun h => by tauto), ?_⟩
        intro e he
        cases he
  · intro hnull
    have hcond : ¬ (v1 ≠ math.Graph.NullVertex ∧ v2 ≠ math.Graph.NullVertex) := by tauto
    unfold math.Graph.connect math.Graph.disconnect math.Graph.assign
    rw [if_neg hcond, if_neg hcond]
    exact ⟨rfl, rfl⟩
  · intro h1 h2 hgt
    have hout : math.Graph.IDX v2 < 0 ∨ math.Graph.IDX v2 ≥ g.m_matrix.rows ∨
        math.Graph.IDX v1 < 0 ∨ math.Graph.IDX v1 ≥ g.m_matrix.cols := by
      unfold math.Graph.numVertices base.BitMatrix.rows at hgt
      unfold base.BitMatrix.rows base.BitMatrix.cols
      rw [hsq]
      rcases hgt with hgt | hgt
      · have := math.Graph.IDX_outside g.m_matrix.m_rows v1 hv1 hrows0 hrows1 hgt
        tauto
      · have := math.Graph.IDX_outside g.m_matrix.m_rows v2 hv2 hrows0 hrows1 hgt
        tauto
    have hset : ∀ b, base.BitMatrix.set g.m_matrix (math.Graph.IDX v2) (math.Graph.IDX v1) b =
        Except.error Exception.out_of_range := by
      intro b
      unfold base.BitMatrix.set
      rcases base.BitMatrix.getBlock_cases g.m_matrix (math.Graph.IDX v2) (math.Graph.IDX v1) with
        ⟨_, hb⟩ | ⟨hin, _, _⟩
      · rw [hb]
      · exact absurd hout hin
    unfold math.Graph.connect math.Graph.disconnect math.Graph.assign
    rw [if_pos ⟨h1, h2⟩, if_pos ⟨h1, h2⟩, hset, hset]
    exact ⟨rfl, rfl⟩

/-- C24 worked through for a bit matrix of 3 by 3 elements at the position
(3, 0), and the graph with 3 vertices and the vertices 4 and 1: `connect` and
`disconnect` throw `std::out_of_range` and leave the graph as it was. -/
theorem math.Graph.C24_witness :
    math.Graph.connect (math.Graph.new 3) 4 1 =
      (math.Graph.new 3, some Exception.out_of_range) ∧
    math.Graph.disconnect (math.Graph.new 3) 4 1 =
      (math.Graph.new 3, some Exception.out_of_range) :=
  (math.Graph.C24_out_of_range_indexing_fails_fast (base.BitMatrix.new 3 3 false) 3 0 true
    (math.Graph.new 3) 4 1 rfl (by decide) (by decide) (by decide) (by decide)).2.2.2.2.2.2
    (by decide) (by decide) (Or.inl (by decide))

/-- C25 worked through for the matrix of 3 by 3 elements, all false, of the
demo `run_bitmatrix`, and the assignment of true to the element (1, 1). -/
theorem base.BitMatrix.C25_witness :
    ∃ m2, base.BitMatrix.set (base.BitMatrix.new 3 3 false) 1 1 true = Except.ok m2 ∧
      m2.rows = (base.BitMatrix.new 3 3 false).rows ∧ m2.cols = (base.BitMatrix.new 3 3 false).cols ∧
      m2.WellFormed ∧
      base.BitMatrix.get m2 1 1 = Except.ok true ∧
      (∀ r2 c2, 0 ≤ r2 → r2 < (base.BitMatrix.new 3 3 false).rows → 0 ≤ c2 →
        c2 < (base.BitMatrix.new 3 3 false).cols → ¬ (r2 = 1 ∧ c2 = 1) →
        base.BitMatrix.get m2 r2 c2 = base.BitMatrix.get (base.BitMatrix.new 3 3 false) r2 c2) ∧
      (∀ r2 c2, 0 ≤ r2 → r2 < (base.BitMatrix.new 3 3 false).rows → 0 ≤ c2 →
        c2 < (base.BitMatrix.new 3 3 false).cols →
        base.BitMatrix.getBlock (base.BitMatrix.new 3 3 false) r2 c2 =
          base.BitMatrix.getBlock (base.BitMatrix.new 3 3 false) 1 1 → r2 = 1 ∧ c2 = 1) :=
  base.BitMatrix.C25_set_changes_exactly_one_element (base.BitMatrix.new 3 3 false)
    ⟨by decide, by decide, by decide, by decide⟩ 1 1 true (by decide) (by decide) (by decide)
    (by decide)

end BoundaryChecks

/-! ### The parcels of a block -/

section BlockParcels

open core

/-- C22, amended: the parcel is the constituent polygon scaled, not the
enclosing border polygon.  For a block made from base points and border
points, `parcels()` returns exactly one parcel when the area of the polygon of
the base points differs from the area of the polygon of the border points by
at most 0.0001, and no parcel otherwise; the parcel has the points of the
polygon of the base points, each moved to c + 0.8 (p - c) for the centroid c of
that polygon, and its area and centroid. -/
theorem core.Block.C22_parcels_scales_constituent_polygon {F : Type} [LinearOrderedField F]
    (base border : List (Point F)) :
    Block.parcels (Block.new base border) =
      if |(math.Polygon.ofPoints base).area - (math.Polygon.ofPoints border).area| ≤
          1 / 10000 then
        [⟨(math.Polygon.ofPoints base).m_points.map (fun p =>
            Point2f.ofVector
              (Vector2f.add
                (Vector2f.mul
                  (Vector2f.sub p.pos (math.Polygon.ofPoints base).m_centroid.pos) (8 / 10))
                (math.Polygon.ofPoints base).m_centroid.pos)),
          (math.Polygon.ofPoints base).m_area, (math.Polygon.ofPoints base).m_centroid⟩]
      else [] := by
  unfold Block.parcels Block.new
  split
  · rfl
  · rfl

end BlockParcels

section BlockParcelsExample

open core

/-- The base points and the border points of the example. -/
theorem core.District.squareEdges_points :
    District.basePoints District.squareEdges [true, true, true, true] =
      [Point2f.ofCoords 0 0, Point2f.ofCoords 1 0, Point2f.ofCoords 1 1, Point2f.ofCoords 0 1] ∧
    District.borderPoints District.squareEdges [true, true, true, true] =
      [Point2f.ofCoords 0 0, Point2f.ofCoords (1 / 2) (1 / 10000), Point2f.ofCoords 1 0,
        Point2f.ofCoords 1 0, Point2f.ofCoords 1 1, Point2f.ofCoords 1 1, Point2f.ofCoords 0 1,
        Point2f.ofCoords 0 1, Point2f.ofCoords 0 0] := by
  constructor <;> rfl

/-- The polygon of the base points of the example. -/
theorem math.Polygon.ofPoints_squareBase :
    math.Polygon.ofPoints
        [Point2f.ofCoords (0 : ℚ) 0, Point2f.ofCoords 1 0, Point2f.ofCoords 1 1,
          Point2f.ofCoords 0 1] =
      ⟨[Point2f.ofCoords 0 0, Point2f.ofCoords 1 0, Point2f.ofCoords 1 1, Point2f.ofCoords 0 1],
        1, Point2f.ofCoords (1 / 2) (1 / 2)⟩ := by
  have ha : math.Polygon.signedArea
      [Point2f.ofCoords (0 : ℚ) 0, Point2f.ofCoords 1 0, Point2f.ofCoords 1 1,
        Point2f.ofCoords 0 1] = 1 := by
    norm_num [math.Polygon.signedArea, List.range_succ, Point2f.pos_ofCoords]
  have hc : math.Polygon.centroidSum
      [Point2f.ofCoords (0 : ℚ) 0, Point2f.ofCoords 1 0, Point2f.ofCoords 1 1,
        Point2f.ofCoords 0 1] = ⟨3, 3⟩ := by
    norm_num [math.Polygon.centroidSum, List.range_succ, Point2f.pos_ofCoords, Vector2f.add,
      Vector2f.mul, Vector2f.null]
  unfold math.Polygon.ofPoints
  rw [ha, hc]
  norm_num [Vector2f.div, Point2f.ofVector, Point2f.ofCoords]

/-- The area of the polygon of the border points of the example. -/
theorem math.Polygon.ofPoints_squareBorder :
    (math.Polygon.ofPoints
        [Point2f.ofCoords (0 : ℚ) 0, Point2f.ofCoords (1 / 2) (1 / 10000), Point2f.ofCoords 1 0,
          Point2f.ofCoords 1 0, Point2f.ofCoords 1 1, Point2f.ofCoords 1 1, Point2f.ofCoords 0 1,
          Point2f.ofCoords 0 1, Point2f.ofCoords 0 0]).area = 19999 / 20000 ∧
    (math.Polygon.ofPoints
        [Point2f.ofCoords (0 : ℚ) 0, Point2f.ofCoords (1 / 2) (1 / 10000), Point2f.ofCoords 1 0,
          Point2f.ofCoords 1 0, Point2f.ofCoords 1 1, Point2f.ofCoords 1 1, Point2f.ofCoords 0 1,
          Point2f.ofCoords 0 1, Point2f.ofCoords 0 0]).m_points.length = 9 := by
  have ha : math.Polygon.signedArea
      [Point2f.ofCoords (0 : ℚ) 0, Point2f.ofCoords (1 / 2) (1 / 10000), Point2f.ofCoords 1 0,
        Point2f.ofCoords 1 0, Point2f.ofCoords 1 1, Point2f.ofCoords 1 1, Point2f.ofCoords 0 1,
        Point2f.ofCoords 0 1, Point2f.ofCoords 0 0] = 19999 / 20000 := by
    norm_num [math.Polygon.signedArea, List.range_succ, Point2f.pos_ofCoords]
  unfold math.Polygon.ofPoints math.Polygon.area
  rw [ha]
  norm_num

end BlockParcelsExample

section BlockParcelsCounterexample

open core

/-- The centroid of the polygon of the border points of the example. -/
theorem math.Polygon.centroid_squareBorder :
    (math.Polygon.ofPoints
        [Point2f.ofCoords (0 : ℚ) 0, Point2f.ofCoords (1 / 2) (1 / 10000), Point2f.ofCoords 1 0,
          Point2f.ofCoords 1 0, Point2f.ofCoords 1 1, Point2f.ofCoords 1 1, Point2f.ofCoords 0 1,
          Point2f.ofCoords 0 1, Point2f.ofCoords 0 0]) =
      ⟨[Point2f.ofCoords (0 : ℚ) 0, Point2f.ofCoords (1 / 2) (1 / 10000), Point2f.ofCoords 1 0,
          Point2f.ofCoords 1 0, Point2f.ofCoords 1 1, Point2f.ofCoords 1 1, Point2f.ofCoords 0 1,
          Point2f.ofCoords 0 1, Point2f.ofCoords 0 0], 19999 / 20000,
        Point2f.ofCoords (1 / 2) (299999999 / 599970000)⟩ := by
  have ha : math.Polygon.signedArea
      [Point2f.ofCoords (0 : ℚ) 0, Point2f.ofCoords (1 / 2) (1 / 10000), Point2f.ofCoords 1 0,
        Point2f.ofCoords 1 0, Point2f.ofCoords 1 1, Point2f.ofCoords 1 1, Point2f.ofCoords 0 1,
        Point2f.ofCoords 0 1, Point2f.ofCoords 0 0] = 19999 / 20000 := by
    norm_num [math.Polygon.signedArea, List.range_succ, Point2f.pos_ofCoords]
  have hc : math.Polygon.centroidSum
      [Point2f.ofCoords (0 : ℚ) 0, Point2f.ofCoords (1 / 2) (1 / 10000), Point2f.ofCoords 1 0,
        Point2f.ofCoords 1 0, Point2f.ofCoords 1 1, Point2f.ofCoords 1 1, Point2f.ofCoords 0 1,
        Point2f.ofCoords 0 1, Point2f.ofCoords 0 0] = ⟨59997 / 20000, 299999999 / 100000000⟩ := by
    norm_num [math.Polygon.centroidSum, List.range_succ, Point2f.pos_ofCoords, Vector2f.add,
      Vector2f.mul, Vector2f.null]
  unfold math.Polygon.ofPoints
  rw [ha, hc]
  norm_num [Vector2f.div, Point2f.ofVector, Point2f.ofCoords]

/-- C22 fails in what it says of the parcel.  The four edges round the unit
square, of which the one from (0, 0) to (1, 0) has the trace point
(1/2, 1/10000), enclose a subregion; `onSubregionFound` makes the block of the
four corners as base points and of the end points and trace points as border
points.  The areas of the two polygons, 1 and 19999/20000, differ by less than
0.0001, and `parcels()` returns one parcel: the square of the four corners
scaled about (1/2, 1/2), whose first point is (1/10, 1/10).  The enclosing
border polygon scaled by 0.8 about its centroid is another polygon: it has
nine points, the first of which is (1/10, 299999999/2999850000). -/
theorem core.Block.C22_parcel_is_not_the_scaled_border_polygon :
    District.onSubregionFound [] District.squareEdges [true, true, true, true] =
      [Block.new (District.basePoints District.squareEdges [true, true, true, true])
        (District.borderPoints District.squareEdges [true, true, true, true])] ∧
    Block.parcels
        (Block.new (District.basePoints District.squareEdges [true, true, true, true])
          (District.borderPoints District.squareEdges [true, true, true, true])) =
      [⟨[Point2f.ofCoords (1 / 10) (1 / 10), Point2f.ofCoords (9 / 10) (1 / 10),
          Point2f.ofCoords (9 / 10) (9 / 10), Point2f.ofCoords (1 / 10) (9 / 10)], 1,
        Point2f.ofCoords (1 / 2) (1 / 2)⟩] ∧
    (math.Polygon.scale
        (Block.polygon
          (Block.new (District.basePoints District.squareEdges [true, true, true, true])
            (District.borderPoints District.squareEdges [true, true, true, true])))
        (8 / 10)).m_points =
      [Point2f.ofCoords (1 / 10) (299999999 / 2999850000),
        Point2f.ofCoords (1 / 2) (300239987 / 2999850000),
        Point2f.ofCoords (9 / 10) (299999999 / 2999850000),
        Point2f.ofCoords (9 / 10) (299999999 / 2999850000),
        Point2f.ofCoords (9 / 10) (2699879999 / 2999850000),
        Point2f.ofCoords (9 / 10) (2699879999 / 2999850000),
        Point2f.ofCoords (1 / 10) (2699879999 / 2999850000),
        Point2f.ofCoords (1 / 10) (2699879999 / 2999850000),
        Point2f.ofCoords (1 / 10) (299999999 / 2999850000)] ∧
    (⟨[Point2f.ofCoords (1 / 10) (1 / 10), Point2f.ofCoords (9 / 10) (1 / 10),
          Point2f.ofCoords (9 / 10) (9 / 10), Point2f.ofCoords (1 / 10) (9 / 10)], 1,
        Point2f.ofCoords (1 / 2) (1 / 2)⟩ : math.Polygon ℚ) ≠
      math.Polygon.scale
        (Block.polygon
          (Block.new (District.basePoints District.squareEdges [true, true, true, true])
            (District.borderPoints District.squareEdges [true, true, true, true])))
        (8 / 10) := by
  have hscaled : (math.Polygon.scale
      (Block.polygon
        (Block.new (District.basePoints District.squareEdges [true, true, true, true])
          (District.borderPoints District.squareEdges [true, true, true, true])))
      (8 / 10)).m_points =
      [Point2f.ofCoords (1 / 10) (299999999 / 2999850000),
        Point2f.ofCoords (1 / 2) (300239987 / 2999850000),
        Point2f.ofCoords (9 / 10) (299999999 / 2999850000),
        Point2f.ofCoords (9 / 10) (299999999 / 2999850000),
        Point2f.ofCoords (9 / 10) (2699879999 / 2999850000),
        Point2f.ofCoords (9 / 10) (2699879999 / 2999850000),
        Point2f.ofCoords (1 / 10) (2699879999 / 2999850000),
        Point2f.ofCoords (1 / 10) (2699879999 / 2999850000),
        Point2f.ofCoords (1 / 10) (299999999 / 2999850000)] := by
    unfold Block.polygon Block.new
    rw [District.squareEdges_points.2, math.Polygon.centroid_squareBorder]
    simp only [math.Polygon.scale, math.Polygon.centroid,
      List.map_cons, List.map_nil, Point2f.pos_ofCoords, Vector2f.sub, Vector2f.mul,
      Vector2f.add]
    norm_num [Point2f.ofVector, Point2f.ofCoords]
  refine ⟨rfl, ?_, hscaled, ?_⟩
  · unfold Block.parcels Block.new
    rw [District.squareEdges_points.1, District.squareEdges_points.2,
      math.Polygon.centroid_squareBorder, math.Polygon.ofPoints_squareBase]
    simp only [math.Polygon.area]
    rw [if_pos (by rw [abs_of_nonneg (by norm_num)]; norm_num)]
    simp only [math.Polygon.scale, math.Polygon.centroid,
      List.map_cons, List.map_nil, Point2f.pos_ofCoords, Vector2f.sub, Vector2f.mul,
      Vector2f.add]
    norm_num [Point2f.ofVector, Point2f.ofCoords]
  · intro h
    have hlen := congrArg (fun p : math.Polygon ℚ => p.m_points.length) h
    simp only [hscaled] at hlen
    revert hlen
    decide

end BlockParcelsCounterexample

/-! ### Tracing a field is bounded -/

section TraceFieldBounded

open core

/-- The integration loop performs at most as many steps as its counter
allows, and the distance that it adds is zero or at least 0.00001, when
`sqrtf` has no negative value. -/
theorem core.traceFieldLoop_spec {F : Type} [LinearOrderedField F] (lib : Libm F)
    (hsqrt : ∀ a, 0 ≤ lib.sqrtf a) (field : TensorField F) (major : Bool) (distMax : F) :
    ∀ (n : Nat) (s : StreamState F),
      (traceFieldLoop lib field major distMax n s).steps ≤ s.steps + n ∧
      ((traceFieldLoop lib field major distMax n s).dist = s.dist ∨
        s.dist + 1 / 100000 ≤ (traceFieldLoop lib field major distMax n s).dist) := by
  intro n
  induction n with
  | zero =>
    intro s
    exact ⟨le_refl _, Or.inl rfl⟩
  | succ n ih =>
    intro s
    rw [traceFieldLoop]
    split
    · exact ⟨by simp only; omega, Or.inl rfl⟩
    · rename_i hz
      split
      · have hnorm : 1 / 100000 ≤ Vector2f.norm lib (rk4Step lib field major s.p s.d) := by
          rcases Vector2f.norm_cases lib hsqrt (rk4Step lib field major s.p s.d) with h | h
          · exfalso
            apply hz
            rw [h]
            unfold math.zero
            rw [if_pos (by norm_num)]
          · exact h
        rcases ih ⟨Vector2f.add s.p (rk4Step lib field major s.p s.d),
          rk4Step lib field major s.p s.d,
          s.dist + Vector2f.norm lib (rk4Step lib field major s.p s.d), s.steps + 1⟩ with
          ⟨h1, h2⟩
        refine ⟨by simp only at h1; omega, Or.inr ?_⟩
        rcases h2 with h2 | h2
        · rw [h2]
          simp only
          linarith
        · simp only at h2
          linarith
      · exact ⟨by simp only; omega, Or.inl rfl⟩

/-- The bound of the sampling loop is at most 1.5 distSep koefSegment
(1 + koefLookahead), when these parameters are not negative and the values of
the population map are between 0 and 1. -/
theorem core.Tracer.segment_bound {F : Type} [LinearOrderedField F] (t : Tracer F)
    (hsep : 0 ≤ t.m_distSep)
    (hseg : 0 ≤ t.m_koefSegment) (hlook : 0 ≤ t.m_koefLookahead)
    (hmap : ∀ f, t.m_populationMapImage = some f → ∀ p, 0 ≤ f p ∧ f p ≤ 1) (p : Point F) :
    Tracer.distSegment t p + Tracer.distLookahead t p ≤
      15 / 10 * t.m_distSep * t.m_koefSegment * (1 + t.m_koefLookahead) := by
  have hD : 0 ≤ Tracer.distSepAt t p ∧ Tracer.distSepAt t p ≤ 15 / 10 * t.m_distSep := by
    unfold Tracer.distSepAt Tracer.distSep
    cases hm : t.m_populationMapImage with
    | none =>
      simp only
      constructor
      · exact hsep
      · linarith
    | some f =>
      simp only
      have hv := hmap f hm p.pos
      constructor
      · exact mul_nonneg hsep (by linarith)
      · nlinarith
  unfold Tracer.distLookahead Tracer.distSegment
  have h1 : Tracer.distSepAt t p * t.m_koefSegment ≤ 15 / 10 * t.m_distSep * t.m_koefSegment :=
    mul_le_mul_of_nonneg_right hD.2 hseg
  have h2 : Tracer.distSepAt t p * t.m_koefSegment * t.m_koefLookahead ≤
      15 / 10 * t.m_distSep * t.m_koefSegment * t.m_koefLookahead :=
    mul_le_mul_of_nonneg_right h1 hlook
  linarith

variable {F : Type} [LinearOrderedField F] [FloorRing F]

/-- A pass through the body of the sampling loop that does not end in `break`
adds the distance that the integrator returned, which `math::zero` does not
round to 0. -/
theorem core.Tracer.fieldStep_progress (lib : Libm F) (qt : QtSort) (t : Tracer F)
    (field : TensorField F) (major : Bool) (startVertex : Point F) (s : Tracer.FieldState F)
    (h : (Tracer.fieldStep lib qt t field major startVertex s).2 = false) :
    (Tracer.fieldStep lib qt t field major startVertex s).1.segmentLength =
      s.segmentLength + (core.traceField lib field major s.sp s.td (Tracer.distSample t)).dist ∧
    math.zero (core.traceField lib field major s.sp s.td (Tracer.distSample t)).dist ≠ 0 := by
  unfold Tracer.fieldStep at h ⊢
  simp only at h ⊢
  split at h
  · cases h
  · rename_i hz
    rw [if_neg hz]
    refine ⟨?_, hz⟩
    split
    · split <;> rfl
    · rfl

/-- The sampling loop returns, with a result that does not depend on the
fuel, when the fuel exceeds the number of steps of 0.00001 that lead from the
segment length to a bound of the loop condition. -/
theorem core.Tracer.fieldLoop_returns (lib : Libm F) (hsqrt : ∀ a, 0 ≤ lib.sqrtf a)
    (qt : QtSort) (t : Tracer F) (field : TensorField F) (major : Bool)
    (startVertex : Point F) (B : F)
    (hB : ∀ p, Tracer.distSegment t p + Tracer.distLookahead t p ≤ B) :
    ∀ (k : Nat) (s : Tracer.FieldState F), B - s.segmentLength ≤ (k : F) * (1 / 100000) →
      ∃ r, ∀ fuel, k + 1 ≤ fuel →
        Tracer.fieldLoop lib qt t field major startVertex fuel s = some r := by
  intro k
  induction k with
  | zero =>
    intro s hs
    refine ⟨s, ?_⟩
    intro fuel hfuel
    obtain ⟨f, rfl⟩ : ∃ f, fuel = f + 1 := ⟨fuel - 1, by omega⟩
    rw [Tracer.fieldLoop, if_neg]
    have := hB (Point2f.ofVector s.sp)
    simp only [Nat.cast_zero, zero_mul] at hs
    linarith
  | succ k ih =>
    intro s hs
    by_cases hcond : s.segmentLength <
        Tracer.distSegment t (Point2f.ofVector s.sp) +
          Tracer.distLookahead t (Point2f.ofVector s.sp)
    · by_cases hbreak : (Tracer.fieldStep lib qt t field major startVertex s).2 = true
      · refine ⟨(Tracer.fieldStep lib qt t field major startVertex s).1, ?_⟩
        intro fuel hfuel
        obtain ⟨f, rfl⟩ : ∃ f, fuel = f + 1 := ⟨fuel - 1, by omega⟩
        rw [Tracer.fieldLoop, if_pos hcond, if_pos hbreak]
      · have hb : (Tracer.fieldStep lib qt t field major startVertex s).2 = false := by
          simpa using hbreak
        obtain ⟨hlen, hz⟩ := Tracer.fieldStep_progress lib qt t field major startVertex s hb
        have hdist : 1 / 100000 ≤
            (core.traceField lib field major s.sp s.td (Tracer.distSample t)).dist := by
          rcases (traceFieldLoop_spec lib hsqrt field major (Tracer.distSample t) INSTEP_MAX
            ⟨s.sp, s.td, 0, 0⟩).2 with h | h
          · exfalso
            apply hz
            unfold core.traceField
            rw [h]
            unfold math.zero
            rw [if_pos (by norm_num)]
          · unfold core.traceField
            simp only [zero_add] at h
            exact h
        obtain ⟨r, hr⟩ := ih (Tracer.fieldStep lib qt t field major startVertex s).1 (by
          rw [hlen]
          push_cast at hs
          linarith)
        refine ⟨r, ?_⟩
        intro fuel hfuel
        obtain ⟨f, rfl⟩ : ∃ f, fuel = f + 1 := ⟨fuel - 1, by omega⟩
        rw [Tracer.fieldLoop, if_pos hcond, if_neg hbreak]
        exact hr f (by omega)
    · refine ⟨s, ?_⟩
      intro fuel hfuel
      obtain ⟨f, rfl⟩ : ∃ f, fuel = f + 1 := ⟨fuel - 1, by omega⟩
      rw [Tracer.fieldLoop, if_neg hcond]

/-- C26: tracing is bounded, in exact arithmetic.  A call of the streamline
integrator performs at most INSTEP_MAX = 1000 steps of the Runge-Kutta scheme.
A pass through the sampling loop of `Tracer::traceField` ends in `break` or
adds at least 0.00001 to the segment length; the loop condition compares the
segment length against distSegment + distLookahead, which is at most
1.5 distSep koefSegment (1 + koefLookahead).  So the loop returns, with the
same result for every fuel above the number of steps of 0.00001 in this bound,
and then `Tracer::traceField` gives the same result for every such fuel.  The
library square root has no negative value, the parameters distSep, koefSegment
and koefLookahead are not negative, and the values of the population map are
between 0 and 1. -/
theorem core.Tracer.C26_tracing_is_bounded (lib : Libm F) (hsqrt : ∀ a, 0 ≤ lib.sqrtf a)
    (qt : QtSort) (t : Tracer F) (field : TensorField F) (major : Bool)
    (fromPosition inDirection : Vector2f F) (hsep : 0 ≤ t.m_distSep)
    (hseg : 0 ≤ t.m_koefSegment) (hlook : 0 ≤ t.m_koefLookahead)
    (hmap : ∀ f, t.m_populationMapImage = some f → ∀ p, 0 ≤ f p ∧ f p ≤ 1) :
    (INSTEP_MAX = 1000 ∧
      ∀ p d distMax, (core.traceField lib field major p d distMax).steps ≤ INSTEP_MAX) ∧
    (∀ startVertex s,
      (Tracer.fieldStep lib qt t field major startVertex s).2 = true ∨
      s.segmentLength + 1 / 100000 ≤
        (Tracer.fieldStep lib qt t field major startVertex s).1.segmentLength) ∧
    (∃ r, ∀ fuel,
      ⌈15 / 10 * t.m_distSep * t.m_koefSegment * (1 + t.m_koefLookahead) * 100000⌉₊ + 1 ≤
        fuel →
      Tracer.fieldLoop lib qt t field major (Tracer.startVertexAt lib qt t fromPosition) fuel
        (Tracer.fieldStart lib qt t fromPosition inDirection) = some r) ∧
    (∀ fuel,
      ⌈15 / 10 * t.m_distSep * t.m_koefSegment * (1 + t.m_koefLookahead) * 100000⌉₊ + 1 ≤
        fuel →
      Tracer.traceField lib qt fuel t field major fromPosition inDirection =
        Tracer.traceField lib qt
          (⌈15 / 10 * t.m_distSep * t.m_koefSegment * (1 + t.m_koefLookahead) * 100000⌉₊ + 1)
          t field major fromPosition inDirection) := by
  have hloop : ∃ r, ∀ fuel,
      ⌈15 / 10 * t.m_distSep * t.m_koefSegment * (1 + t.m_koefLookahead) * 100000⌉₊ + 1 ≤
        fuel →
      Tracer.fieldLoop lib qt t field major (Tracer.startVertexAt lib qt t fromPosition) fuel
        (Tracer.fieldStart lib qt t fromPosition inDirection) = some r := by
    apply Tracer.fieldLoop_returns lib hsqrt qt t field major _
      (15 / 10 * t.m_distSep * t.m_koefSegment * (1 + t.m_koefLookahead))
      (Tracer.segment_bound t hsep hseg hlook hmap)
    have hceil := Nat.le_ceil
      (15 / 10 * t.m_distSep * t.m_koefSegment * (1 + t.m_koefLookahead) * 100000)
    have h0 : (Tracer.fieldStart lib qt t fromPosition inDirection).segmentLength = 0 := rfl
    rw [h0]
    linarith
  refine ⟨⟨rfl, ?_⟩, ?_, hloop, ?_⟩
  · intro p d distMax
    have := (traceFieldLoop_spec lib hsqrt field major distMax INSTEP_MAX ⟨p, d, 0, 0⟩).1
    unfold core.traceField
    simpa using this
  · intro startVertex s
    by_cases hbreak : (Tracer.fieldStep lib qt t field major startVertex s).2 = true
    · exact Or.inl hbreak
    · right
      have hb : (Tracer.fieldStep lib qt t field major startVertex s).2 = false := by
        simpa using hbreak
      obtain ⟨hlen, hz⟩ := Tracer.fieldStep_progress lib qt t field major startVertex s hb
      rw [hlen]
      rcases (traceFieldLoop_spec lib hsqrt field major (Tracer.distSample t) INSTEP_MAX
        ⟨s.sp, s.td, 0, 0⟩).2 with h | h
      · exfalso
        apply hz
        unfold core.traceField
        rw [h]
        unfold math.zero
        rw [if_pos (by norm_num)]
      · unfold core.traceField
        simp only [zero_add] at h
        linarith
  · obtain ⟨r, hr⟩ := hloop
    intro fuel hfuel
    unfold Tracer.traceField
    rw [hr fuel hfuel, hr _ (le_refl _)]

/-- C26 worked through for a tracer with the default parameters and a
population map of the constant value 1/2, the constant field of the tensor
(1, 0) and the exact library: the sampling loop returns. -/
theorem core.Tracer.C26_witness :
    ∃ r, ∀ fuel,
      ⌈15 / 10 * (6 / 100 : ℝ) * (15 / 10) * (1 + 5 / 10) * 100000⌉₊ + 1 ≤ fuel →
      Tracer.fieldLoop Libm.exact QtSort.stable
        { (Tracer.newDefault RoadType.RoadTypeMajor : Tracer ℝ) with
          m_populationMapImage := some (fun _ => 1 / 2) }
        (fun _ => Tensor.fromValues 1 0) true
        (Tracer.startVertexAt Libm.exact QtSort.stable
          { (Tracer.newDefault RoadType.RoadTypeMajor : Tracer ℝ) with
            m_populationMapImage := some (fun _ => 1 / 2) } ⟨1 / 2, 1 / 2⟩) fuel
        (Tracer.fieldStart Libm.exact QtSort.stable
          { (Tracer.newDefault RoadType.RoadTypeMajor : Tracer ℝ) with
            m_populationMapImage := some (fun _ => 1 / 2) } ⟨1 / 2, 1 / 2⟩ ⟨1, 0⟩) = some r :=
  (core.Tracer.C26_tracing_is_bounded Libm.exact Real.sqrt_nonneg QtSort.stable
    { (Tracer.newDefault RoadType.RoadTypeMajor : Tracer ℝ) with
      m_populationMapImage := some (fun _ => 1 / 2) }
    (fun _ => Tensor.fromValues 1 0) true ⟨1 / 2, 1 / 2⟩ ⟨1, 0⟩
    (by norm_num [Tracer.newDefault, Tracer.new])
    (by norm_num [Tracer.newDefault, Tracer.new])
    (by norm_num [Tracer.newDefault, Tracer.new])
    (by
      intro f hf p
      have hf2 : (fun _ : Vector2f ℝ => (1 / 2 : ℝ)) = f := Option.some.inj hf
      rw [← hf2]
      norm_num)).2.2.1

end TraceFieldBounded

/-! ### The window of a grid search -/

section GridWindow

open core

/-- A norm that is not zero is the value of `sqrtf` at the squared norm. -/
theorem Vector2f.norm_eq_sqrtf_of_ne_zero {F : Type} [LinearOrderedField F] (lib : Libm F)
    (v : Vector2f F) (h : Vector2f.norm lib v ≠ 0) :
    Vector2f.norm lib v = lib.sqrtf (Vector2f.normSquared v) := by
  unfold Vector2f.norm math.sqrt at h ⊢
  rcases math.zero_cases (math.zero (lib.sqrtf v.normSquared)) with h1 | ⟨h1, _⟩
  · exact absurd h1 h
  · rw [h1]
    rcases math.zero_cases (lib.sqrtf v.normSquared) with h2 | ⟨h2, _⟩
    · exfalso
      apply h
      rw [h2]
      unfold math.zero
      rw [if_pos (by norm_num)]
    · exact h2

variable {F : Type} [LinearOrderedField F] [FloorRing F]

variable {E : Type}

end GridWindow

/-! ### A grid search against a scan of all cells -/

section GridSearchScan

open core

end GridSearchScan

/-! ### The integration loop stays in the domain -/

section StreamLineDomain

open core

variable {F : Type} [LinearOrderedField F]

/-- The invariant of the integration loop: from a point inside the unit square
and a distance that is at most `distMax`, the loop ends at a point inside the
unit square with a distance that is at most `distMax`; the point is the start
point plus the accepted steps, and the distance is the start distance plus
their lengths. -/
theorem core.traceFieldLoop_domain (lib : Libm F) (field : TensorField F) (major : Bool)
    (distMax : F) :
    ∀ (n : Nat) (s : StreamState F), unitRectContains s.p = true → s.dist ≤ distMax →
      unitRectContains (traceFieldLoop lib field major distMax n s).p = true ∧
      (traceFieldLoop lib field major distMax n s).dist ≤ distMax ∧
      (traceFieldLoop lib field major distMax n s).dist =
        (traceFieldSteps lib field major distMax n s).foldl
          (fun dist dp => dist + Vector2f.norm lib dp) s.dist ∧
      (traceFieldLoop lib field major distMax n s).p =
        (traceFieldSteps lib field major distMax n s).foldl Vector2f.add s.p := by
  intro n
  induction n with
  | zero =>
    intro s hp hd
    exact ⟨hp, hd, rfl, rfl⟩
  | succ n ih =>
    intro s hp hd
    rw [traceFieldLoop, traceFieldSteps]
    split
    · exact ⟨hp, hd, rfl, rfl⟩
    · split
      · rename_i hacc
        exact ih ⟨Vector2f.add s.p (rk4Step lib field major s.p s.d),
          rk4Step lib field major s.p s.d,
          s.dist + Vector2f.norm lib (rk4Step lib field major s.p s.d), s.steps + 1⟩
          hacc.2 hacc.1
      · exact ⟨hp, hd, rfl, rfl⟩

/-- C32: the streamline integrator never leaves the domain and never
overshoots.  For every field, every start point p inside the unit square and
every distMax that is not negative, the function `traceField` returns (it
makes at most INSTEP_MAX passes), p is inside the unit square afterwards and
is the start point plus the accepted steps, and the distance returned is the
sum of the lengths of the accepted steps, added up in their order, and is at
most distMax.  When the first step is degenerate, or would leave the unit
square, the function returns 0 and leaves p unchanged. -/
theorem core.C32_integrator_stays_in_domain (lib : Libm F) (field : TensorField F)
    (major : Bool) (p d : Vector2f F) (distMax : F) (hp : unitRectContains p = true)
    (hdist : 0 ≤ distMax) :
    (core.traceField lib field major p d distMax).steps ≤ INSTEP_MAX ∧
    unitRectContains (core.traceField lib field major p d distMax).p = true ∧
    (core.traceField lib field major p d distMax).dist =
      (traceFieldSteps lib field major distMax INSTEP_MAX ⟨p, d, 0, 0⟩).foldl
        (fun dist dp => dist + Vector2f.norm lib dp) 0 ∧
    (core.traceField lib field major p d distMax).p =
      (traceFieldSteps lib field major distMax INSTEP_MAX ⟨p, d, 0, 0⟩).foldl Vector2f.add p ∧
    (core.traceField lib field major p d distMax).dist ≤ distMax ∧
    (math.zero (Vector2f.norm lib (rk4Step lib field major p d)) = 0 ∨
        unitRectContains (Vector2f.add p (rk4Step lib field major p d)) = false →
      (core.traceField lib field major p d distMax).dist = 0 ∧
      (core.traceField lib field major p d distMax).p = p) := by
  rcases traceFieldLoop_domain lib field major distMax INSTEP_MAX ⟨p, d, 0, 0⟩ hp hdist with
    ⟨h1, h2, h3, h4⟩
  have hsteps : ∀ (n : Nat) (s : StreamState F),
      (traceFieldLoop lib field major distMax n s).steps ≤ s.steps + n := by
    intro n
    induction n with
    | zero => intro s; exact le_refl _
    | succ n ih =>
      intro s
      rw [traceFieldLoop]
      split
      · simp only; omega
      · split
        · have := ih ⟨Vector2f.add s.p (rk4Step lib field major s.p s.d),
            rk4Step lib field major s.p s.d,
            s.dist + Vector2f.norm lib (rk4Step lib field major s.p s.d), s.steps + 1⟩
          simp only at this
          omega
        · simp only; omega
  have hfirst : math.zero (Vector2f.norm lib (rk4Step lib field major p d)) = 0 ∨
      unitRectContains (Vector2f.add p (rk4Step lib field major p d)) = false →
      (core.traceField lib field major p d distMax).dist = 0 ∧
      (core.traceField lib field major p d distMax).p = p := by
    intro h
    have hmax : INSTEP_MAX = 999 + 1 := rfl
    unfold core.traceField
    rw [hmax, traceFieldLoop]
    split
    · exact ⟨rfl, rfl⟩
    · split
      · rename_i hz hacc
        rcases h with h | h
        · exact absurd h hz
        · simp only at hacc
          rw [h] at hacc
          exact absurd hacc.2 (by decide)
      · exact ⟨rfl, rfl⟩
  have hs := hsteps INSTEP_MAX ⟨p, d, 0, 0⟩
  exact ⟨by simpa using hs, h1, h3, h4, h2, hfirst⟩

/-- C32 worked through for the field that is zero everywhere, from the centre
of the unit square: the first step is degenerate, and the function returns 0
and leaves the point where it was. -/
theorem core.C32_witness :
    (core.traceField
      (⟨fun a => a, fun a => a, fun a => a, fun a => a, fun _ _ => 0, fun a => a, 3⟩ : Libm ℚ)
      (fun _ => Tensor.null) true ⟨1 / 2, 1 / 2⟩ ⟨1, 0⟩ 1).dist ≤ 1 ∧
    unitRectContains (core.traceField
      (⟨fun a => a, fun a => a, fun a => a, fun a => a, fun _ _ => 0, fun a => a, 3⟩ : Libm ℚ)
      (fun _ => Tensor.null) true ⟨1 / 2, 1 / 2⟩ ⟨1, 0⟩ 1).p = true :=
  ⟨(core.C32_integrator_stays_in_domain
      (⟨fun a => a, fun a => a, fun a => a, fun a => a, fun _ _ => 0, fun a => a, 3⟩ : Libm ℚ)
      (fun _ => Tensor.null) true ⟨1 / 2, 1 / 2⟩ ⟨1, 0⟩ 1 (by norm_num [unitRectContains])
      (by norm_num)).2.2.2.2.1,
    (core.C32_integrator_stays_in_domain
      (⟨fun a => a, fun a => a, fun a => a, fun a => a, fun _ _ => 0, fun a => a, 3⟩ : Libm ℚ)
      (fun _ => Tensor.null) true ⟨1 / 2, 1 / 2⟩ ⟨1, 0⟩ 1 (by norm_num [unitRectContains])
      (by norm_num)).2.1⟩

end StreamLineDomain

/-! ### math::orient -/

section Orient

/-- With the exact library, `orient` returns -v when the dot product of v and
d is negative and v otherwise, and the vector returned has no negative dot
product with d. -/
theorem math.orient_exact (v d : Vector2f ℝ) :
    math.orient Libm.exact v d = (if Vector2f.dot v d < 0 then Vector2f.neg v else v) ∧
    0 ≤ Vector2f.dot (math.orient Libm.exact v d) d := by
  have habs : |Real.arccos (Vector2f.dot v d)| = Real.arccos (Vector2f.dot v d) :=
    abs_of_nonneg (Real.arccos_nonneg _)
  have hiff : |Real.arccos (Vector2f.dot v d)| > Real.pi / 2 ↔ Vector2f.dot v d < 0 := by
    rw [habs, gt_iff_lt, ← not_le, Real.arccos_le_pi_div_two, not_le]
  have h1 : math.orient Libm.exact v d =
      (if Vector2f.dot v d < 0 then Vector2f.neg v else v) := by
    by_cases h : Vector2f.dot v d < 0
    · rw [if_pos h]
      exact if_pos (hiff.mpr h)
    · rw [if_neg h]
      exact if_neg (fun hh => h (hiff.mp hh))
  refine ⟨h1, ?_⟩
  rw [h1]
  by_cases h : Vector2f.dot v d < 0
  · rw [if_pos h]
    simp only [Vector2f.dot, Vector2f.neg] at h ⊢
    linarith
  · rw [if_neg h]
    exact not_lt.mp h

/-- With the values that the float library has for `acosf(0)` and the double
value of `M_PI`, `orient` turns round a vector that is perpendicular to the
direction: the float nearest to pi/2 is greater than the double nearest to
pi/2. -/
theorem math.orient_perpendicular_float {F : Type} [LinearOrderedField F] (lib : Libm F)
    (hacos : lib.acosf 0 = 13176795 / 8388608)
    (hpi : lib.M_PI = 884279719003555 / 281474976710656) :
    math.orient lib ⟨1, 0⟩ ⟨0, 1⟩ = ⟨-1, -0⟩ := by
  have hdot : Vector2f.dot (⟨1, 0⟩ : Vector2f F) ⟨0, 1⟩ = 0 := by
    simp [Vector2f.dot]
  unfold math.orient
  rw [hdot, hacos, hpi, if_pos (by rw [abs_of_nonneg (by norm_num)]; norm_num)]
  rfl

/-- C33 fails when the dot product is below -1, outside the domain of
`acosf`.  For v = (2, 0) and d = (-1, 0) the dot product is -2; the C function
`acosf` returns NaN there, and the comparison of `fabs(NaN)` with `M_PI/2` is
false.  In every library in which this comparison is false, `orient(v, d)`
returns v itself, whose dot product with d is negative. -/
theorem math.C33_orient_keeps_vector_against_direction {F : Type} [LinearOrderedField F]
    (lib : Libm F) (hnan : ¬ |lib.acosf (-2)| > lib.M_PI / 2) :
    Vector2f.dot (⟨2, 0⟩ : Vector2f F) ⟨-1, 0⟩ = -2 ∧
    math.orient lib ⟨2, 0⟩ ⟨-1, 0⟩ = ⟨2, 0⟩ ∧
    Vector2f.dot (math.orient lib ⟨2, 0⟩ ⟨-1, 0⟩) ⟨-1, 0⟩ < 0 := by
  have hdot : Vector2f.dot (⟨2, 0⟩ : Vector2f F) ⟨-1, 0⟩ = -2 := by
    simp [Vector2f.dot]
  have h1 : math.orient lib (⟨2, 0⟩ : Vector2f F) ⟨-1, 0⟩ = ⟨2, 0⟩ := by
    unfold math.orient
    rw [hdot, if_neg hnan]
  refine ⟨hdot, h1, ?_⟩
  rw [h1, hdot]
  norm_num

/-- C33 worked through for a library over the rationals whose `acosf` has the
value 0 at -2. -/
theorem math.C33_witness :
    math.orient (⟨fun a => a, fun a => a, fun a => a, fun _ => 0, fun _ _ => 0, fun a => a,
        3⟩ : Libm ℚ) ⟨2, 0⟩ ⟨-1, 0⟩ = ⟨2, 0⟩ :=
  (math.C33_orient_keeps_vector_against_direction
    (⟨fun a => a, fun a => a, fun a => a, fun _ => 0, fun _ _ => 0, fun a => a, 3⟩ : Libm ℚ)
    (by norm_num)).2.1

end Orient

/-! ### The area of a polygon -/

section PolygonArea

variable {F : Type} [LinearOrderedField F]

/-- The loop of the area calculation adds up the terms of the shoelace sum. -/
theorem math.Polygon.foldl_shoelace (a b : Nat → F) (n : Nat) :
    (List.range n).foldl (fun area i => area + a i - b i) 0 =
      ∑ i in Finset.range n, (a i - b i) := by
  induction n with
  | zero => simp
  | succ n ih =>
    rw [List.range_succ, List.foldl_append, ih, Finset.sum_range_succ]
    simp only [List.foldl_cons, List.foldl_nil]
    ring

/-- The signed area is half the shoelace sum. -/
theorem math.Polygon.signedArea_eq_sum (points : List (Point2f F)) :
    math.Polygon.signedArea points =
      (∑ i in Finset.range points.length,
        ((points.getD i Point2f.infinity).pos.m_val0 *
            (points.getD ((i + 1) % points.length) Point2f.infinity).pos.m_val1 -
          (points.getD ((i + 1) % points.length) Point2f.infinity).pos.m_val0 *
            (points.getD i Point2f.infinity).pos.m_val1)) / 2 := by
  unfold math.Polygon.signedArea
  rw [math.Polygon.foldl_shoelace]

/-- The shoelace sum of a cycle taken in the opposite direction is the
opposite number. -/
theorem math.Polygon.shoelace_reflect (x y : Nat → F) (n : Nat) :
    (∑ i in Finset.range n,
        (x (n - 1 - i) * y (n - 1 - (i + 1) % n) - x (n - 1 - (i + 1) % n) * y (n - 1 - i))) =
      -∑ i in Finset.range n, (x i * y ((i + 1) % n) - x ((i + 1) % n) * y i) := by
  cases n with
  | zero => simp
  | succ m =>
    rw [Finset.sum_range_succ, Finset.sum_range_succ]
    have hleft : (∑ i in Finset.range m,
        (x (m + 1 - 1 - i) * y (m + 1 - 1 - (i + 1) % (m + 1)) -
          x (m + 1 - 1 - (i + 1) % (m + 1)) * y (m + 1 - 1 - i))) =
        ∑ i in Finset.range m, -(x (m - 1 - i) * y (m - 1 - i + 1) -
          x (m - 1 - i + 1) * y (m - 1 - i)) := by
      refine Finset.sum_congr rfl ?_
      intro i hi
      have him : i < m := Finset.mem_range.mp hi
      have hmod : (i + 1) % (m + 1) = i + 1 := Nat.mod_eq_of_lt (by omega)
      have e1 : m + 1 - 1 - i = m - 1 - i + 1 := by omega
      have e2 : m + 1 - 1 - (i + 1) = m - 1 - i := by omega
      rw [hmod, e1, e2]
      ring
    have hright : (∑ i in Finset.range m,
        (x i * y ((i + 1) % (m + 1)) - x ((i + 1) % (m + 1)) * y i)) =
        ∑ i in Finset.range m, (x i * y (i + 1) - x (i + 1) * y i) := by
      refine Finset.sum_congr rfl ?_
      intro i hi
      have him : i < m := Finset.mem_range.mp hi
      have hmod : (i + 1) % (m + 1) = i + 1 := Nat.mod_eq_of_lt (by omega)
      rw [hmod]
    rw [hleft, hright, Finset.sum_neg_distrib,
      Finset.sum_range_reflect (fun j => x j * y (j + 1) - x (j + 1) * y j) m]
    have hlast : (m + 1) % (m + 1) = 0 := Nat.mod_self _
    have e3 : m + 1 - 1 - m = 0 := by omega
    have e4 : m + 1 - 1 - 0 = m := by omega
    rw [hlast, e3, e4]
    ring

/-- Reversing the points changes the sign of the signed area. -/
theorem math.Polygon.signedArea_reverse (points : List (Point2f F)) :
    math.Polygon.signedArea points.reverse = -math.Polygon.signedArea points := by
  rw [math.Polygon.signedArea_eq_sum, math.Polygon.signedArea_eq_sum, List.length_reverse,
    ← neg_div,
    ← math.Polygon.shoelace_reflect (fun i => (points.getD i Point2f.infinity).pos.m_val0)
      (fun i => (points.getD i Point2f.infinity).pos.m_val1) points.length]
  congr 1
  refine Finset.sum_congr rfl ?_
  intro i hi
  have hin : i < points.length := Finset.mem_range.mp hi
  have hjn : (i + 1) % points.length < points.length := Nat.mod_lt _ (by omega)
  have hget : ∀ k, k < points.length →
      points.reverse.getD k Point2f.infinity =
        points.getD (points.length - 1 - k) Point2f.infinity := by
    intro k hk
    rw [List.getD_eq_getElem?_getD, List.getD_eq_getElem?_getD, List.getElem?_reverse hk]
  rw [hget i hin, hget _ hjn]

/-- C34 in exact arithmetic: for every list of points, Polygon::area() is the
absolute value of the shoelace sum
(1/2) * sum of (x_i * y_{i+1} - x_{i+1} * y_i), it is never negative, and it
is the same for the list and for its reversal; after construction points() is
the input itself if its signed area is not negative and its exact reversal
otherwise, and the signed area of points() is not negative (counter-clockwise
order).  Under the rounding of the source the area is still not negative, and
points() is still the input or its exact reversal. -/
theorem math.Polygon.C34_area_is_absolute_shoelace_sum (points : List (Point2f F))
    (rounded : List (Point2f ℚ)) :
    (math.Polygon.ofPoints points).area =
      |(∑ i in Finset.range points.length,
        ((points.getD i Point2f.infinity).pos.m_val0 *
            (points.getD ((i + 1) % points.length) Point2f.infinity).pos.m_val1 -
          (points.getD ((i + 1) % points.length) Point2f.infinity).pos.m_val0 *
            (points.getD i Point2f.infinity).pos.m_val1)) / 2| ∧
    0 ≤ (math.Polygon.ofPoints points).area ∧
    (math.Polygon.ofPoints points.reverse).area = (math.Polygon.ofPoints points).area ∧
    (math.Polygon.ofPoints points).m_points =
      (if 0 ≤ math.Polygon.signedArea points then points else points.reverse) ∧
    0 ≤ math.Polygon.signedArea (math.Polygon.ofPoints points).m_points ∧
    0 ≤ math.Polygon.areaRounded rounded ∧
    (math.Polygon.pointsRounded rounded = rounded ∨
      math.Polygon.pointsRounded rounded = rounded.reverse) := by
  have harea : ∀ l : List (Point2f F),
      (math.Polygon.ofPoints l).area = |math.Polygon.signedArea l| := by
    intro l
    unfold math.Polygon.ofPoints math.Polygon.area
    by_cases h : math.Polygon.signedArea l < 0
    · rw [if_pos h, abs_of_neg h]
    · rw [if_neg h, abs_of_nonneg (not_lt.mp h)]
  refine ⟨?_, ?_, ?_, ?_, ?_, ?_, ?_⟩
  · rw [harea, math.Polygon.signedArea_eq_sum]
  · rw [harea]
    exact abs_nonneg _
  · rw [harea, harea, math.Polygon.signedArea_reverse, abs_neg]
  · unfold math.Polygon.ofPoints
    by_cases h : math.Polygon.signedArea points < 0
    · rw [if_pos h, if_neg (not_le.mpr h)]
    · rw [if_neg h, if_pos (not_lt.mp h)]
  · unfold math.Polygon.ofPoints
    by_cases h : math.Polygon.signedArea points < 0
    · rw [if_pos h]
      simp only
      rw [math.Polygon.signedArea_reverse]
      linarith
    · rw [if_neg h]
      exact not_lt.mp h
  · unfold math.Polygon.areaRounded
    by_cases h : math.Polygon.signedAreaRounded rounded < 0
    · rw [if_pos h]
      linarith
    · rw [if_neg h]
      exact not_lt.mp h
  · unfold math.Polygon.pointsRounded
    by_cases h : math.Polygon.signedAreaRounded rounded < 0
    · rw [if_pos h]
      exact Or.inr rfl
    · rw [if_neg h]
      exact Or.inl rfl

end PolygonArea

/-! ### Polygon::scale and the stored area -/

section PolygonScale

/-- Scaling leaves the stored area and the stored centroid as they are. -/
theorem math.Polygon.scale_area_centroid {F : Type} [LinearOrderedField F]
    (p : math.Polygon F) (f : F) :
    (math.Polygon.scale p f).area = p.area ∧ (math.Polygon.scale p f).centroid = p.centroid :=
  ⟨rfl, rfl⟩

/-- C35 fails for the area.  The unit square scaled by 8/10 has the points
(1/10, 1/10), (9/10, 1/10), (9/10, 9/10), (1/10, 9/10), which enclose the area
16/25 (8/10 times 8/10 times the area 1 before scaling), while `area()` still
returns 1; the centroid is unchanged. -/
theorem math.Polygon.C35_area_after_scale_is_area_before_scale :
    (math.Polygon.ofPoints
      [Point2f.ofCoords (0 : ℚ) 0, Point2f.ofCoords 1 0, Point2f.ofCoords 1 1,
        Point2f.ofCoords 0 1]).area = 1 ∧
    (math.Polygon.scale (math.Polygon.ofPoints
      [Point2f.ofCoords (0 : ℚ) 0, Point2f.ofCoords 1 0, Point2f.ofCoords 1 1,
        Point2f.ofCoords 0 1]) (8 / 10)).m_points =
      [Point2f.ofCoords (1 / 10) (1 / 10), Point2f.ofCoords (9 / 10) (1 / 10),
        Point2f.ofCoords (9 / 10) (9 / 10), Point2f.ofCoords (1 / 10) (9 / 10)] ∧
    math.Polygon.signedArea (math.Polygon.scale (math.Polygon.ofPoints
      [Point2f.ofCoords (0 : ℚ) 0, Point2f.ofCoords 1 0, Point2f.ofCoords 1 1,
        Point2f.ofCoords 0 1]) (8 / 10)).m_points = 16 / 25 ∧
    (math.Polygon.scale (math.Polygon.ofPoints
      [Point2f.ofCoords (0 : ℚ) 0, Point2f.ofCoords 1 0, Point2f.ofCoords 1 1,
        Point2f.ofCoords 0 1]) (8 / 10)).area = 1 ∧
    (math.Polygon.scale (math.Polygon.ofPoints
      [Point2f.ofCoords (0 : ℚ) 0, Point2f.ofCoords 1 0, Point2f.ofCoords 1 1,
        Point2f.ofCoords 0 1]) (8 / 10)).centroid = Point2f.ofCoords (1 / 2) (1 / 2) := by
  have hp : (math.Polygon.scale (math.Polygon.ofPoints
      [Point2f.ofCoords (0 : ℚ) 0, Point2f.ofCoords 1 0, Point2f.ofCoords 1 1,
        Point2f.ofCoords 0 1]) (8 / 10)).m_points =
      [Point2f.ofCoords (1 / 10) (1 / 10), Point2f.ofCoords (9 / 10) (1 / 10),
        Point2f.ofCoords (9 / 10) (9 / 10), Point2f.ofCoords (1 / 10) (9 / 10)] := by
    rw [math.Polygon.ofPoints_squareBase]
    norm_num [math.Polygon.scale, math.Polygon.centroid, Point2f.pos, Vector2f.add,
      Vector2f.mul, Vector2f.sub, Point2f.ofVector, Point2f.ofCoords]
  refine ⟨?_, hp, ?_, ?_, ?_⟩
  · rw [math.Polygon.ofPoints_squareBase]
    rfl
  · rw [hp]
    norm_num [math.Polygon.signedArea, List.range_succ, Point2f.pos_ofCoords]
  · rw [math.Polygon.ofPoints_squareBase]
    rfl
  · rw [math.Polygon.ofPoints_squareBase]
    rfl

end PolygonScale

/-! ### The number of passes of Region::simplifyGraph -/

section SimplifyGraphPasses

open core

variable {F : Type} [LinearOrderedField F] [FloorRing F] [LinearOrder (Point F)]

/-- The number of passes that `simplifyGraph` makes: there is a number `n` of
passes, at most the number of edges of the tracer plus one, with which the
loop returns and below which it does not. -/
theorem core.Region.simplifyGraph_passes :
    ∀ (bound : Nat) (r : Region F), r.m_tracer.m_edges.length < bound →
      ∃ (n : Nat) (r1 : Region F), 0 < n ∧ n ≤ r.m_tracer.m_edges.length + 1 ∧
        Region.simplifyGraph n r = some r1 ∧
        ∀ k, k < n → Region.simplifyGraph k r = none := by
  intro bound
  induction bound with
  | zero => intro r h; exact absurd h (Nat.not_lt_zero _)
  | succ b ih =>
    intro r hlen
    rcases Region.simplifyPass_spec r with ⟨edges, r1, hpass, hcase⟩
    rcases hcase with ⟨he, _, _⟩ | ⟨hne, hlt⟩
    · refine ⟨1, r1, Nat.one_pos, by omega, ?_, ?_⟩
      · simp only [Region.simplifyGraph, hpass, he, List.isEmpty_nil, if_true]
      · intro k hk
        have : k = 0 := by omega
        subst this
        rfl
    · rcases ih r1 (by omega) with ⟨n, r2, hpos, hle, hres, hmin⟩
      have hnot : edges.isEmpty = false := by
        cases edges with
        | nil => exact absurd rfl hne
        | cons _ _ => rfl
      refine ⟨n + 1, r2, Nat.succ_pos _, by omega, ?_, ?_⟩
      · simp only [Region.simplifyGraph, hpass, hnot, Bool.false_eq_true, if_false, hres]
      · intro k hk
        cases k with
        | zero => rfl
        | succ j =>
          simp only [Region.simplifyGraph, hpass, hnot, Bool.false_eq_true, if_false]
          exact hmin j (by omega)

/-- C36: Region::simplifyGraph terminates for every region state.  Every pass
returns, and a pass that returns a non-empty list of edges leaves the tracer
with fewer edges than it had.  So the loop returns after some number `n` of
passes with 1 ≤ n ≤ edgesCount() + 1: it returns when `n` passes or more are
allowed, and does not when fewer are. -/
theorem core.Region.C36_simplifyGraph_terminates (r : Region F) :
    (∃ edges r1, Region.simplifyPass r = some (edges, r1) ∧
      (edges ≠ [] → Tracer.edgesCount r1.m_tracer < Tracer.edgesCount r.m_tracer)) ∧
    ∃ (n : Nat) (r1 : Region F), 0 < n ∧ n ≤ Tracer.edgesCount r.m_tracer + 1 ∧
      (∀ k, n ≤ k → Region.simplifyGraph k r = some r1) ∧
      ∀ k, k < n → Region.simplifyGraph k r = none := by
  constructor
  · rcases Region.simplifyPass_spec r with ⟨edges, r1, hpass, hcase⟩
    refine ⟨edges, r1, hpass, fun hne => ?_⟩
    rcases hcase with ⟨he, _, _⟩ | ⟨_, hlt⟩
    · exact absurd he hne
    · exact hlt
  · rcases Region.simplifyGraph_passes (r.m_tracer.m_edges.length + 1) r (Nat.lt_succ_self _)
      with ⟨n, r1, hpos, hle, hres, hmin⟩
    refine ⟨n, r1, hpos, hle, fun k hk => ?_, hmin⟩
    have := Region.simplifyGraph_fuel n r r1 hres (k - n)
    have hf : n + (k - n) = k := by omega
    rw [hf] at this
    exact this

end SimplifyGraphPasses

/-! ### The magnitude of a singular basis field -/

section SingularMagnitude

/-- The offset normalized: a unit vector when the norm computed is positive
and `sqrtf` is exact, the offset itself when the norm computed is zero. -/
theorem Vector2f.normalized_cases {F : Type} [LinearOrderedField F] (lib : Libm F)
    (hsqrt : ∀ a, 0 ≤ a → lib.sqrtf a * lib.sqrtf a = a) (v : Vector2f F) :
    (0 < Vector2f.norm lib v →
      (Vector2f.normalized lib v).m_val0 * (Vector2f.normalized lib v).m_val0 +
        (Vector2f.normalized lib v).m_val1 * (Vector2f.normalized lib v).m_val1 = 1) ∧
    (Vector2f.norm lib v = 0 → Vector2f.normalized lib v = v) := by
  constructor
  · intro hpos
    have hn := Vector2f.norm_eq_sqrtf_of_ne_zero lib v (ne_of_gt hpos)
    have hsq : Vector2f.norm lib v * Vector2f.norm lib v = v.m_val0 * v.m_val0 +
        v.m_val1 * v.m_val1 := by
      rw [hn]
      have := hsqrt (Vector2f.normSquared v)
        (by unfold Vector2f.normSquared math.pow2
            exact add_nonneg (mul_self_nonneg _) (mul_self_nonneg _))
      rw [this]
      rfl
    unfold Vector2f.normalized
    rw [if_pos hpos]
    simp only [Vector2f.div]
    have hne : Vector2f.norm lib v ≠ 0 := ne_of_gt hpos
    field_simp
    linarith
  · intro h0
    unfold Vector2f.normalized
    rw [if_neg (by rw [h0]; exact lt_irrefl _)]

/-- C37 as amended: with an exact `sqrtf`, for each of the six singularity
kinds (1 center, 2 wedge, 3 node, 4 trisector, 5 saddle, 6 focus), every scale
s and every query point p, the squared magnitude of the tensor returned is
s * s when the norm computed for the offset p - p0 is positive (the distance is
at least 0.00001).  When that norm is zero (the distance is below 0.00001) the
offset is not normalized: the squared magnitude is s * s times the squared
distance for the wedge and the trisector, and s * s times the fourth power of
the distance for the other kinds.  At p = p0 the tensor is the zero tensor. -/
theorem BasisField.C37_singular_magnitude_away_from_anchor {F : Type} [LinearOrderedField F]
    (lib : Libm F) (hsqrt : ∀ a, 0 ≤ a → lib.sqrtf a * lib.sqrtf a = a) (type : Nat)
    (h1 : 1 ≤ type) (h6 : type ≤ 6) (p0 p : Vector2f F) (s : F) :
    (0 < Vector2f.norm lib (Vector2f.sub p p0) →
      Vector2f.normSquared (BasisField.eval lib (BasisField.singular p0 s type) p) = s * s) ∧
    (Vector2f.norm lib (Vector2f.sub p p0) = 0 →
      Vector2f.normSquared (BasisField.eval lib (BasisField.singular p0 s type) p) =
        if type = 2 ∨ type = 4 then s * s * Vector2f.normSquared (Vector2f.sub p p0)
        else s * s * (Vector2f.normSquared (Vector2f.sub p p0) *
          Vector2f.normSquared (Vector2f.sub p p0))) ∧
    (p = p0 → BasisField.eval lib (BasisField.singular p0 s type) p = Tensor.null) := by
  rcases Vector2f.normalized_cases lib hsqrt (Vector2f.sub p p0) with ⟨hunit, hraw⟩
  refine ⟨?_, ?_, ?_⟩
  · intro hpos
    have hu := hunit hpos
    obtain ⟨x, hxd⟩ : ∃ x, (Vector2f.normalized lib (Vector2f.sub p p0)).m_val0 = x := ⟨_, rfl⟩
    obtain ⟨y, hyd⟩ : ∃ y, (Vector2f.normalized lib (Vector2f.sub p p0)).m_val1 = y := ⟨_, rfl⟩
    rw [hxd, hyd] at hu
    interval_cases type <;>
      simp only [BasisField.eval, BasisField.singular, Vector2f.normSquared, Vector2f.smul,
        Vector2f.mul, Tensor.fromValues, math.pow2, hxd, hyd, OfNat.ofNat_ne_zero,
        one_ne_zero, if_false] <;>
      first
      | linear_combination (s * s) * hu
      | linear_combination (s * s * (x * x + y * y + 1)) * hu
  · intro h0
    have hr := hraw h0
    interval_cases type <;>
      simp only [BasisField.eval, BasisField.singular, Vector2f.normSquared, Vector2f.smul,
        Vector2f.mul, Tensor.fromValues, math.pow2, hr] <;>
      norm_num <;>
      ring
  · intro hp
    subst hp
    have hz : Vector2f.normalized lib (Vector2f.sub p p) = ⟨0, 0⟩ := by
      unfold Vector2f.normalized
      split <;> simp [Vector2f.sub, Vector2f.div]
    interval_cases type <;>
      simp [BasisField.eval, BasisField.singular, Vector2f.smul, Vector2f.mul,
        Tensor.fromValues, math.pow2, hz, Tensor.null, Vector2f.null]

/-- C37 as amended, worked through with the exact library for a wedge of scale
3 at the origin and the query point (0, 2). -/
theorem BasisField.C37_witness :
    Vector2f.normSquared
      (BasisField.eval Libm.exact (BasisField.singular ⟨0, 0⟩ 3 2) ⟨0, 2⟩) = 3 * 3 :=
  (BasisField.C37_singular_magnitude_away_from_anchor Libm.exact
    (fun a ha => Real.mul_self_sqrt ha) 2 (by decide) (by decide) ⟨0, 0⟩ ⟨0, 2⟩ 3).1
    (by
      rw [show Vector2f.sub (⟨0, 2⟩ : Vector2f ℝ) ⟨0, 0⟩ = ⟨0, 2⟩ by simp [Vector2f.sub],
        Vector2f.norm_exact_axis1 2 (by norm_num)]
      norm_num)

/-- C37 as stated fails near the anchor: with the exact library, a wedge of
scale 1 at the origin gives at the query point (0, 1/1048576), which is not
the anchor, the tensor (0, 1/1048576), whose magnitude is 1/1048576 and not 1.
The norm computed for the offset is 0, so that the offset is not normalized. -/
theorem BasisField.C37_wedge_magnitude_near_anchor :
    (⟨0, 1 / 1048576⟩ : Vector2f ℝ) ≠ ⟨0, 0⟩ ∧
    Vector2f.norm Libm.exact (Vector2f.sub (⟨0, 1 / 1048576⟩ : Vector2f ℝ) ⟨0, 0⟩) = 0 ∧
    BasisField.eval Libm.exact (BasisField.singular ⟨0, 0⟩ 1 2) ⟨0, 1 / 1048576⟩ =
      ⟨0, 1 / 1048576⟩ ∧
    Vector2f.normSquared
      (BasisField.eval Libm.exact (BasisField.singular ⟨0, 0⟩ 1 2) ⟨0, 1 / 1048576⟩) ≠
      1 * 1 := by
  have hsub : Vector2f.sub (⟨0, 1 / 1048576⟩ : Vector2f ℝ) ⟨0, 0⟩ = ⟨0, 1 / 1048576⟩ := by
    simp [Vector2f.sub]
  have hnorm : Vector2f.norm Libm.exact (⟨0, 1 / 1048576⟩ : Vector2f ℝ) = 0 :=
    Vector2f.norm_exact_small (1 / 1048576)
      (by rw [abs_of_nonneg (by norm_num)]; norm_num)
  have hraw : Vector2f.normalized Libm.exact (⟨0, 1 / 1048576⟩ : Vector2f ℝ) =
      ⟨0, 1 / 1048576⟩ := by
    unfold Vector2f.normalized
    rw [if_neg (by rw [hnorm]; exact lt_irrefl _)]
  have heval : BasisField.eval Libm.exact (BasisField.singular ⟨0, 0⟩ 1 2)
      ⟨0, 1 / 1048576⟩ = ⟨0, 1 / 1048576⟩ := by
    simp only [BasisField.eval, BasisField.singular, hsub, hraw, Vector2f.smul, Vector2f.mul,
      Tensor.fromValues, OfNat.ofNat_ne_zero, if_false]
    norm_num
  refine ⟨?_, ?_, heval, ?_⟩
  · intro h
    have := congrArg Vector2f.m_val1 h
    norm_num at this
  · rw [hsub]
    exact hnorm
  · rw [heval]
    norm_num [Vector2f.normSquared, math.pow2]

end SingularMagnitude

/-! ### The seeder is last-in-first-out among equal priorities -/

section SeederLifo

/-- What `pop` returns: the position of the last seed, or the point
`Point()`. -/
theorem Seeder.pop_fst {Pt Pr : Type} (infinity : Pt) (s : Seeder Pt Pr) :
    (Seeder.pop infinity s).1 =
      ((s.m_seedPoints.map SeedPoint.pos).getLast?).getD infinity := by
  unfold Seeder.pop
  rw [List.getLast?_map]
  cases s.m_seedPoints.getLast? <;> rfl

/-- Removing the first seed at a position removes the position from the list
of positions. -/
theorem Seeder.map_pos_eraseIdx_findIdx {Pt Pr : Type} [DecidableEq Pt] (p : Pt) :
    ∀ l : List (SeedPoint Pt Pr),
      (l.eraseIdx (l.findIdx (fun sp => decide (sp.pos = p)))).map SeedPoint.pos =
        (l.map SeedPoint.pos).erase p := by
  intro l
  induction l with
  | nil => rfl
  | cons a rest ih =>
    by_cases h : a.pos = p
    · simp [List.findIdx_cons, h]
    · have hne : (a.pos == p) = false := by simpa using h
      simp only [List.findIdx_cons, h, decide_False, cond_false, List.eraseIdx_cons_succ,
        List.map_cons, ih, List.erase_cons, hne, Bool.false_eq_true, if_false]

variable {Pt Pr : Type} [LinearOrder Pr] [DecidableEq Pt]

/-- One call on a seeder without boundaries and singularities, all of whose
stored priorities are the one priority that every point has: the positions
stored change as the last-in-first-out container does. -/
theorem Seeder.call_lifo (calculatePriority : PriorityFn Pt Pr) (infinity : Pt) (c0 : Pr)
    (hconst : ∀ p, calculatePriority [] [] p = c0) (s : Seeder Pt Pr)
    (hb : s.m_boundarySegments = []) (hsg : s.m_singularities = [])
    (hp : ∀ sp ∈ s.m_seedPoints, sp.m_priority = c0) (c : Seeder.Call Pt) :
    (Seeder.call calculatePriority infinity s c).m_boundarySegments = [] ∧
    (Seeder.call calculatePriority infinity s c).m_singularities = [] ∧
    (∀ sp ∈ (Seeder.call calculatePriority infinity s c).m_seedPoints, sp.m_priority = c0) ∧
    (Seeder.call calculatePriority infinity s c).m_seedPoints.map SeedPoint.pos =
      Seeder.lifoCall (s.m_seedPoints.map SeedPoint.pos) c := by
  cases c with
  | insert p =>
    simp only [Seeder.call, Seeder.lifoCall]
    by_cases h : Seeder.findSeedPoint s p = s.m_seedPoints.length
    · have hnot : p ∉ s.m_seedPoints.map SeedPoint.pos := by
        intro hmem
        rcases List.mem_map.1 hmem with ⟨sp, hsp, hpos⟩
        have := (List.findIdx_eq_length.1 h) sp hsp
        simp [hpos] at this
      have hs : s.m_seedPoints.Pairwise (fun a b => a.m_priority ≤ b.m_priority) := by
        rw [List.pairwise_iff_forall_sublist]
        intro a b hab
        have ha := hp a (hab.subset (List.mem_cons_self _ _))
        have hb2 := hp b (hab.subset (List.mem_cons_of_mem _ (List.mem_singleton_self _)))
        rw [ha, hb2]
      have hq := qUpperBound_sorted s.m_seedPoints
        ⟨p, calculatePriority s.m_boundarySegments s.m_singularities p⟩ hs
      have hdrop : s.m_seedPoints.drop (qUpperBound SeedPoint.lt s.m_seedPoints
          ⟨p, calculatePriority s.m_boundarySegments s.m_singularities p⟩) = [] := by
        apply List.eq_nil_iff_forall_not_mem.2
        intro a ha
        have h1 := hq.2.2 a ha
        have h2 := hp a (List.mem_of_mem_drop ha)
        simp only [hb, hsg, hconst] at h1
        rw [h2] at h1
        exact absurd h1 (lt_irrefl _)
      have hins : (Seeder.insert calculatePriority s p).2.m_seedPoints =
          s.m_seedPoints ++
            [⟨p, calculatePriority s.m_boundarySegments s.m_singularities p⟩] := by
        simp only [Seeder.insert, h, if_true]
        rw [insertIdx_eq_take_append_drop _ _ _ hq.1, hdrop,
          List.take_of_length_le (List.drop_eq_nil_iff.1 hdrop)]
      refine ⟨?_, ?_, ?_, ?_⟩
      · simp [Seeder.insert, h, hb]
      · simp [Seeder.insert, h, hsg]
      · intro sp hsp
        rw [hins, List.mem_append, List.mem_singleton] at hsp
        rcases hsp with hsp | hsp
        · exact hp sp hsp
        · rw [hsp]
          simp only [hb, hsg, hconst]
      · rw [hins, if_neg hnot, List.map_append]
        rfl
    · have hmem : p ∈ s.m_seedPoints.map SeedPoint.pos := by
        by_contra hnot
        apply h
        rw [Seeder.findSeedPoint, List.findIdx_eq_length]
        intro sp hsp
        simp only [decide_eq_false_iff_not]
        intro hpos
        exact hnot (List.mem_map.2 ⟨sp, hsp, hpos⟩)
      have hsame : (Seeder.insert calculatePriority s p).2 = s := by
        simp [Seeder.insert, h]
      rw [hsame, if_pos hmem]
      exact ⟨hb, hsg, hp, rfl⟩
  | remove p =>
    have hrem : (Seeder.remove s p).2.m_seedPoints =
        s.m_seedPoints.eraseIdx (s.m_seedPoints.findIdx (fun sp => decide (sp.pos = p))) := by
      unfold Seeder.remove Seeder.findSeedPoint
      simp only
      split
      · rfl
      · rename_i h
        simp only [ne_eq, not_not] at h
        rw [h, List.eraseIdx_of_length_le (le_refl _)]
    have hother : (Seeder.remove s p).2.m_boundarySegments = [] ∧
        (Seeder.remove s p).2.m_singularities = [] := by
      unfold Seeder.remove
      simp only
      split <;> exact ⟨hb, hsg⟩
    simp only [Seeder.call, Seeder.lifoCall]
    refine ⟨hother.1, hother.2, ?_, ?_⟩
    · intro sp hsp
      rw [hrem] at hsp
      exact hp sp ((List.eraseIdx_sublist _ _).subset hsp)
    · rw [hrem]
      exact Seeder.map_pos_eraseIdx_findIdx p _
  | pop =>
    have hpop : (Seeder.pop infinity s).2.m_seedPoints = s.m_seedPoints.dropLast ∧
        (Seeder.pop infinity s).2.m_boundarySegments = [] ∧
        (Seeder.pop infinity s).2.m_singularities = [] := by
      unfold Seeder.pop
      split
      · exact ⟨rfl, hb, hsg⟩
      · rename_i hnone
        rw [List.getLast?_eq_none_iff] at hnone
        rw [hnone]
        exact ⟨rfl, hb, hsg⟩
    simp only [Seeder.call, Seeder.lifoCall]
    refine ⟨hpop.2.1, hpop.2.2, ?_, ?_⟩
    · intro sp hsp
      rw [hpop.1] at hsp
      exact hp sp ((List.dropLast_sublist _).subset hsp)
    · rw [hpop.1, List.map_dropLast]

/-- A sequence of calls on a seeder without boundaries and singularities. -/
theorem Seeder.calls_lifo (calculatePriority : PriorityFn Pt Pr) (infinity : Pt) (c0 : Pr)
    (hconst : ∀ p, calculatePriority [] [] p = c0) (cs : List (Seeder.Call Pt)) :
    (∀ sp ∈ (Seeder.calls calculatePriority infinity cs).m_seedPoints, sp.m_priority = c0) ∧
    (Seeder.calls calculatePriority infinity cs).m_seedPoints.map SeedPoint.pos =
      Seeder.lifoStack cs := by
  have hgen : ∀ (cs : List (Seeder.Call Pt)) (s : Seeder Pt Pr),
      s.m_boundarySegments = [] → s.m_singularities = [] →
      (∀ sp ∈ s.m_seedPoints, sp.m_priority = c0) →
      (∀ sp ∈ (cs.foldl (Seeder.call calculatePriority infinity) s).m_seedPoints,
        sp.m_priority = c0) ∧
      (cs.foldl (Seeder.call calculatePriority infinity) s).m_seedPoints.map SeedPoint.pos =
        cs.foldl Seeder.lifoCall (s.m_seedPoints.map SeedPoint.pos) := by
    intro cs
    induction cs with
    | nil => intro s _ _ hp; exact ⟨hp, rfl⟩
    | cons c rest ih =>
      intro s hb hsg hp
      rcases Seeder.call_lifo calculatePriority infinity c0 hconst s hb hsg hp c with
        ⟨h1, h2, h3, h4⟩
      simp only [List.foldl_cons]
      rw [← h4]
      exact ih _ h1 h2 h3
  exact hgen cs Seeder.new rfl rfl (fun sp hsp => by simp [Seeder.new] at hsp)

end SeederLifo

section SeederLifoClaim

variable {F : Type} [LinearOrderedField F]

/-- With no boundary segment and no singularity registered, the priority of
every point is 0. -/
theorem Seeder.calculatePriority_unregistered (lib : Libm F) (p : Point2f F) :
    Seeder.calculatePriority lib [] [] p = 0 := by
  simp [Seeder.calculatePriority, Seeder.expNeg]

/-- C38: among seeds of equal priority the Seeder is last-in-first-out.  In
every reachable state, insert places a new seed after all stored seeds whose
priority is equal to or below its own, and before those of a greater one.
For every sequence of calls of insert, remove and pop on a new seeder, with no
boundary segments and no singularities registered, every stored priority is
0, the positions stored are those that a last-in-first-out container holds
after the same calls, in the same order, and pop returns the most recently
inserted seed still stored (the point `Point()` when none is): the pop order
is a function of the sequence of calls alone. -/
theorem Seeder.C38_lifo_among_equal_priorities (lib : Libm F) (infinity : Point2f F) :
    (∀ (s : Seeder (Point2f F) F) (p : Point2f F),
      Seeder.Reachable (Seeder.calculatePriority lib) infinity s →
      Seeder.findSeedPoint s p = s.m_seedPoints.length →
      ∃ before after : List (SeedPoint (Point2f F) F),
        s.m_seedPoints = before ++ after ∧
        (Seeder.insert (Seeder.calculatePriority lib) s p).2.m_seedPoints =
          before ++ ⟨p, Seeder.calculatePriority lib s.m_boundarySegments
            s.m_singularities p⟩ :: after ∧
        (∀ a ∈ before, a.m_priority ≤
          Seeder.calculatePriority lib s.m_boundarySegments s.m_singularities p) ∧
        (∀ a ∈ after,
          Seeder.calculatePriority lib s.m_boundarySegments s.m_singularities p <
            a.m_priority)) ∧
    (∀ cs : List (Seeder.Call (Point2f F)),
      (∀ sp ∈ (Seeder.calls (Seeder.calculatePriority lib) infinity cs).m_seedPoints,
        sp.m_priority = 0) ∧
      (Seeder.calls (Seeder.calculatePriority lib) infinity cs).m_seedPoints.map
        SeedPoint.pos = Seeder.lifoStack cs ∧
      (Seeder.pop infinity (Seeder.calls (Seeder.calculatePriority lib) infinity cs)).1 =
        ((Seeder.lifoStack cs).getLast?).getD infinity) := by
  constructor
  · intro s p hr hnew
    have hs := reachable_sorted (Seeder.calculatePriority lib) infinity s hr
    have hq := qUpperBound_sorted s.m_seedPoints
      ⟨p, Seeder.calculatePriority lib s.m_boundarySegments s.m_singularities p⟩ hs
    refine ⟨s.m_seedPoints.take (qUpperBound SeedPoint.lt s.m_seedPoints
        ⟨p, Seeder.calculatePriority lib s.m_boundarySegments s.m_singularities p⟩),
      s.m_seedPoints.drop (qUpperBound SeedPoint.lt s.m_seedPoints
        ⟨p, Seeder.calculatePriority lib s.m_boundarySegments s.m_singularities p⟩),
      (List.take_append_drop _ _).symm, ?_, hq.2.1, hq.2.2⟩
    simp only [Seeder.insert, hnew, if_true]
    exact insertIdx_eq_take_append_drop _ _ _ hq.1
  · intro cs
    have h := Seeder.calls_lifo (Seeder.calculatePriority lib) infinity 0
      (Seeder.calculatePriority_unregistered lib) cs
    refine ⟨h.1, h.2, ?_⟩
    rw [Seeder.pop_fst, h.2]

end SeederLifoClaim

/-! ### Polygon construction: the divisor of the centroid -/

section PolygonDivisor

/-- The divisor `6 * area` of the centroid calculation is zero exactly when
the signed area of the points is zero, and the centroid stored is then not a
finite point. -/
theorem math.Polygon.ofPoints_divisor {F : Type} [LinearOrderedField F]
    (points : List (Point2f F)) :
    (6 * (math.Polygon.ofPoints points).m_area = 0 ↔ math.Polygon.signedArea points = 0) ∧
    ((math.Polygon.ofPoints points).m_centroid.finite = false ↔
      math.Polygon.signedArea points = 0) := by
  unfold math.Polygon.ofPoints
  by_cases hneg : math.Polygon.signedArea points < 0
  · rw [if_pos hneg]
    have hne : math.Polygon.signedArea points ≠ 0 := ne_of_lt hneg
    constructor
    · constructor
      · intro h
        have : -math.Polygon.signedArea points = 0 := by
          rcases mul_eq_zero.mp h with h6 | h0
          · norm_num at h6
          · exact h0
        exact neg_eq_zero.mp this
      · intro h
        exact absurd h hne
    · simp [Point2f.finite, Point2f.ofVector, hne]
  · rw [if_neg hneg]
    by_cases h0 : math.Polygon.signedArea points = 0
    · simp [h0, Point2f.finite, Point2f.infinity]
    · have h6 : ¬ 6 * math.Polygon.signedArea points = 0 := by
        intro h
        rcases mul_eq_zero.mp h with h6 | h00
        · norm_num at h6
        · exact h0 h00
      simp [h0, Point2f.finite, Point2f.ofVector]

/-- C39 fails for the empty list and for collinear points.  For the empty
list, and for the three points (0, 0), (1, 1), (2, 2) of one line, the area
calculated is 0, so the divisor `6 * area` of the centroid calculation is 0 and
the centroid stored is not a finite point. -/
theorem math.Polygon.C39_construction_divides_by_zero :
    6 * (math.Polygon.ofPoints ([] : List (Point2f ℚ))).m_area = 0 ∧
    (math.Polygon.ofPoints ([] : List (Point2f ℚ))).centroid.finite = false ∧
    6 * (math.Polygon.ofPoints
      [Point2f.ofCoords (0 : ℚ) 0, Point2f.ofCoords 1 1, Point2f.ofCoords 2 2]).m_area = 0 ∧
    (math.Polygon.ofPoints
      [Point2f.ofCoords (0 : ℚ) 0, Point2f.ofCoords 1 1,
        Point2f.ofCoords 2 2]).centroid.finite = false := by
  have h0 : math.Polygon.signedArea ([] : List (Point2f ℚ)) = 0 := by
    norm_num [math.Polygon.signedArea]
  have h1 : math.Polygon.signedArea
      [Point2f.ofCoords (0 : ℚ) 0, Point2f.ofCoords 1 1, Point2f.ofCoords 2 2] = 0 := by
    norm_num [math.Polygon.signedArea, List.range_succ, Point2f.pos_ofCoords]
  exact ⟨(math.Polygon.ofPoints_divisor _).1.mpr h0, (math.Polygon.ofPoints_divisor _).2.mpr h0,
    (math.Polygon.ofPoints_divisor _).1.mpr h1, (math.Polygon.ofPoints_divisor _).2.mpr h1⟩

end PolygonDivisor

/-! ### The spatial grid never leaves the matrix -/

section GridCheckedAccess

open core

variable {F : Type} [LinearOrderedField F] [FloorRing F] {E : Type}

/-- The element access succeeds at a cell inside the matrix. -/
theorem Matrix.elementAccess_inside {α : Type} (m : Matrix α) (row col : Int)
    (h1 : 0 ≤ row) (h2 : row < (m.m_rows : Int)) (h3 : 0 ≤ col) (h4 : col < (m.m_cols : Int)) :
    Matrix.elementAccess m row col = Except.ok (row.toNat, col.toNat) := by
  unfold Matrix.elementAccess
  rw [if_neg (by omega), if_neg (by omega)]

/-- Every cell that `findGridElement` reads is inside the matrix. -/
theorem core.findGridCells_inside (lib : Libm F) (grid : Matrix (List E))
    (atPosition sweepDirection : Vector2f F) :
    ∀ cell ∈ findGridCells lib grid atPosition sweepDirection,
      0 ≤ cell.1 ∧ cell.1 < (grid.m_rows : Int) ∧ 0 ≤ cell.2 ∧ cell.2 < (grid.m_cols : Int) := by
  intro cell hcell
  unfold findGridCells at hcell
  rw [List.mem_flatMap] at hcell
  rcases hcell with ⟨dr, _, hdr⟩
  split at hdr
  · simp at hdr
  · rename_i hr
    rw [List.mem_flatMap] at hdr
    rcases hdr with ⟨dc, _, hdc⟩
    split at hdc
    · simp at hdc
    · rename_i hc
      rw [List.mem_singleton] at hdc
      subst hdc
      simp only
      omega

/-- Reading cells that are inside the matrix throws no exception and gives
their lists. -/
theorem core.readGridCells_inside (grid : Matrix (List E)) :
    ∀ cells : List (Int × Int),
      (∀ cell ∈ cells, 0 ≤ cell.1 ∧ cell.1 < (grid.m_rows : Int) ∧ 0 ≤ cell.2 ∧
        cell.2 < (grid.m_cols : Int)) →
      readGridCells grid cells = Except.ok (cells.map (gridCell grid)) := by
  intro cells
  induction cells with
  | nil => intro _; rfl
  | cons cell rest ih =>
    intro h
    rcases h cell (List.mem_cons_self _ _) with ⟨h1, h2, h3, h4⟩
    simp only [readGridCells, Matrix.elementAccess_inside grid cell.1 cell.2 h1 h2 h3 h4,
      ih (fun c hc => h c (List.mem_cons_of_mem _ hc)), List.map_cons, gridCell]

/-- The elements that `findGridElement` looks through are those of the cells
that it reads. -/
theorem core.findGridElement_eq_cells (lib : Libm F) (qt : QtSort) (pos : E → Vector2f F)
    (grid : Matrix (List E)) (atPosition sweepDirection : Vector2f F) (sweepAngle : F) :
    findGridElement lib qt pos grid atPosition sweepDirection sweepAngle =
      qt.qSort (CloserToPosition lib pos atPosition)
        (((findGridCells lib grid atPosition sweepDirection).map (gridCell grid)).flatMap
          (fun l => l.filter (inSweep lib pos atPosition sweepDirection sweepAngle))) := by
  unfold findGridElement findGridCells
  congr 1
  rw [List.flatMap_map, List.flatMap_assoc]
  refine List.flatMap_congr ?_
  intro dr _
  split
  · rfl
  · rw [List.flatMap_assoc]
    refine List.flatMap_congr ?_
    intro dc _
    split
    · rfl
    · simp

/-- C40: for every position, also outside the unit square, and every grid
with at least one row and one column, getGridCell returns (row, col) with
0 ≤ row < rows and 0 ≤ col < cols, so the element access at that cell throws
no exception; adding an element, removing one and searching, made with the
boundary checks of the matrix, throw no exception and give what they give
without the checks. -/
theorem core.C40_getGridCell_in_range (lib : Libm F) (qt : QtSort) (pos : E → Vector2f F)
    (eq : E → E → Bool) (grid : Matrix (List E)) (hrows : 0 < grid.m_rows)
    (hcols : 0 < grid.m_cols) (p sweepDirection : Vector2f F) (sweepAngle : F) (element : E) :
    (0 ≤ (getGridCell grid p).1 ∧ (getGridCell grid p).1 < (grid.m_rows : Int) ∧
      0 ≤ (getGridCell grid p).2 ∧ (getGridCell grid p).2 < (grid.m_cols : Int)) ∧
    Matrix.elementAccess grid (getGridCell grid p).1 (getGridCell grid p).2 =
      Except.ok ((getGridCell grid p).1.toNat, (getGridCell grid p).2.toNat) ∧
    addGridElementChecked pos eq grid element = Except.ok (addGridElement pos eq grid element) ∧
    removeGridElementChecked pos eq grid element =
      Except.ok (removeGridElement pos eq grid element) ∧
    findGridElementChecked lib qt pos grid p sweepDirection sweepAngle =
      Except.ok (findGridElement lib qt pos grid p sweepDirection sweepAngle) := by
  have hacc : ∀ q : Vector2f F,
      Matrix.elementAccess grid (getGridCell grid q).1 (getGridCell grid q).2 =
        Except.ok ((getGridCell grid q).1.toNat, (getGridCell grid q).2.toNat) := by
    intro q
    rcases getGridCell_range grid q hrows hcols with ⟨h1, h2, h3, h4⟩
    exact Matrix.elementAccess_inside grid _ _ h1 h3 h2 h4
  rcases getGridCell_range grid p hrows hcols with ⟨h1, h2, h3, h4⟩
  refine ⟨⟨h1, h3, h2, h4⟩, hacc p, ?_, ?_, ?_⟩
  · unfold addGridElementChecked addGridElement gridCell
    rw [hacc (pos element)]
    simp only
    split <;> rfl
  · unfold removeGridElementChecked removeGridElement gridCell
    rw [hacc (pos element)]
  · unfold findGridElementChecked
    rw [readGridCells_inside grid _ (findGridCells_inside lib grid p sweepDirection),
      findGridElement_eq_cells]

/-- C40 worked through for a grid of 2 by 2 cells and the position (5, -3):
its cell is (1, 0). -/
theorem core.C40_witness :
    getGridCell (Matrix.fill 2 2 ([] : List (Point ℚ))) (⟨5, -3⟩ : Vector2f ℚ) = (1, 0) ∧
    Matrix.elementAccess (Matrix.fill 2 2 ([] : List (Point ℚ)))
      (getGridCell (Matrix.fill 2 2 ([] : List (Point ℚ))) (⟨5, -3⟩ : Vector2f ℚ)).1
      (getGridCell (Matrix.fill 2 2 ([] : List (Point ℚ))) (⟨5, -3⟩ : Vector2f ℚ)).2 =
      Except.ok ((getGridCell (Matrix.fill 2 2 ([] : List (Point ℚ)))
          (⟨5, -3⟩ : Vector2f ℚ)).1.toNat,
        (getGridCell (Matrix.fill 2 2 ([] : List (Point ℚ))) (⟨5, -3⟩ : Vector2f ℚ)).2.toNat) :=
  ⟨by norm_num [getGridCell, Matrix.fill, roundf],
    (core.C40_getGridCell_in_range
      (⟨fun a => a, fun a => a, fun a => a, fun a => a, fun _ _ => 0, fun a => a, 3⟩ : Libm ℚ)
      QtSort.stable Point2f.pos (fun a b => decide (a = b))
      (Matrix.fill 2 2 ([] : List (Point ℚ))) (by decide) (by decide) ⟨5, -3⟩ ⟨0, 0⟩ 0
      (Point2f.ofCoords 5 (-3))).2.1⟩

end GridCheckedAccess

/-! ### Rounding -/

section Rounding

/-- The exponent of a number between two consecutive powers of two. -/
theorem Fp.exponent_eq (x : ℚ) (e : Int) (h1 : (2 : ℚ) ^ e ≤ |x|) (h2 : |x| < (2 : ℚ) ^ (e + 1)) :
    Fp.exponent x = e := by
  have hpos : 0 < |x| := lt_of_lt_of_le (zpow_pos (by norm_num) e) h1
  unfold Fp.exponent
  have ha : e ≤ Int.log 2 |x| := by
    have := (Int.zpow_le_iff_le_log (b := 2) (by norm_num) hpos (x := e)).mp (by exact_mod_cast h1)
    exact this
  have hb : Int.log 2 |x| < e + 1 := by
    have := (Int.lt_zpow_iff_log_lt (b := 2) (by norm_num) hpos (x := e + 1)).mp
      (by exact_mod_cast h2)
    exact this
  omega

/-- The number is between the powers of two of its exponent. -/
theorem Fp.exponent_spec (x : ℚ) (hx : x ≠ 0) :
    (2 : ℚ) ^ Fp.exponent x ≤ |x| ∧ |x| < (2 : ℚ) ^ (Fp.exponent x + 1) := by
  have hpos : 0 < |x| := abs_pos.mpr hx
  unfold Fp.exponent
  constructor
  · have := Int.zpow_log_le_self (b := 2) (by norm_num) hpos
    exact_mod_cast this
  · have := Int.lt_zpow_succ_log_self (b := 2) (by norm_num) |x|
    exact_mod_cast this

/-- The nearest integer is within one half. -/
theorem Fp.roundHalfEven_near (q : ℚ) :
    (Fp.roundHalfEven q : ℚ) ≤ q + 1 / 2 ∧ q - 1 / 2 ≤ (Fp.roundHalfEven q : ℚ) := by
  have h1 := Int.floor_le q
  have h2 := Int.lt_floor_add_one q
  unfold Fp.roundHalfEven
  split_ifs with c1 c2 c3
  · constructor <;> linarith
  · push_cast
    constructor <;> linarith
  · constructor <;> linarith
  · push_cast
    have : q - ⌊q⌋ = 1 / 2 := le_antisymm (not_lt.mp c2) (not_lt.mp c1)
    constructor <;> linarith

/-- The nearest integer of a number that is less than one half away from an
integer. -/
theorem Fp.roundHalfEven_eq (q : ℚ) (k : Int) (h1 : (k : ℚ) - 1 / 2 < q)
    (h2 : q < (k : ℚ) + 1 / 2) : Fp.roundHalfEven q = k := by
  rcases Fp.roundHalfEven_near q with ⟨n1, n2⟩
  unfold Fp.roundHalfEven at n1 n2 ⊢
  have hfl1 := Int.floor_le q
  have hfl2 := Int.lt_floor_add_one q
  split_ifs with c1 c2 c3
  · have a1 : ((⌊q⌋ : Int) : ℚ) < (k : ℚ) + 1 / 2 := by linarith
    have a2 : (k : ℚ) - 1 < ((⌊q⌋ : Int) : ℚ) := by linarith
    have b1 : ⌊q⌋ < k + 1 := by exact_mod_cast (by linarith : ((⌊q⌋ : Int) : ℚ) < (k : ℚ) + 1)
    have b2 : k - 1 < ⌊q⌋ := by exact_mod_cast a2
    omega
  · have a1 : ((⌊q⌋ : Int) : ℚ) + 1 < (k : ℚ) + 1 := by linarith
    have a2 : (k : ℚ) - 1 < ((⌊q⌋ : Int) : ℚ) + 1 := by linarith
    have b1 : ⌊q⌋ + 1 < k + 1 := by exact_mod_cast a1
    have b2 : k - 1 < ⌊q⌋ + 1 := by exact_mod_cast a2
    omega
  · have hq : q - ⌊q⌋ = 1 / 2 := le_antisymm (not_lt.mp c2) (not_lt.mp c1)
    have a1 : ((⌊q⌋ : Int) : ℚ) < (k : ℚ) := by linarith
    have a2 : (k : ℚ) - 1 < ((⌊q⌋ : Int) : ℚ) := by linarith
    have b1 : ⌊q⌋ < k := by exact_mod_cast a1
    have b2 : k - 1 < ⌊q⌋ := by exact_mod_cast a2
    omega
  · have hq : q - ⌊q⌋ = 1 / 2 := le_antisymm (not_lt.mp c2) (not_lt.mp c1)
    have a1 : ((⌊q⌋ : Int) : ℚ) < (k : ℚ) := by linarith
    have a2 : (k : ℚ) - 1 < ((⌊q⌋ : Int) : ℚ) := by linarith
    have b1 : ⌊q⌋ < k := by exact_mod_cast a1
    have b2 : k - 1 < ⌊q⌋ := by exact_mod_cast a2
    omega

/-- The nearest number with `p` significant bits of a number with the exponent
`e` that is less than half a unit away from `k 2^(e - p + 1)`. -/
theorem Fp.round_eq (p : Int) (x : ℚ) (e k : Int) (h1 : (2 : ℚ) ^ e ≤ |x|)
    (h2 : |x| < (2 : ℚ) ^ (e + 1))
    (h3 : (k : ℚ) - 1 / 2 < x / (2 : ℚ) ^ (e - p + 1))
    (h4 : x / (2 : ℚ) ^ (e - p + 1) < (k : ℚ) + 1 / 2) :
    Fp.round p x = (k : ℚ) * (2 : ℚ) ^ (e - p + 1) := by
  have hx : x ≠ 0 := by
    intro h
    rw [h, abs_zero] at h1
    exact absurd h1 (not_le.mpr (zpow_pos (by norm_num) e))
  unfold Fp.round Fp.ulp
  rw [if_neg hx, Fp.exponent_eq x e h1 h2, Fp.roundHalfEven_eq _ k h3 h4]

end Rounding

section RoundingSteps

/-- The nearest integer of a number half way between `k` and `k + 1` is the
even one of the two. -/
theorem Fp.roundHalfEven_tie (q : ℚ) (k : Int) (h : q = (k : ℚ) + 1 / 2) :
    Fp.roundHalfEven q = if k % 2 = 0 then k else k + 1 := by
  have hfl : ⌊q⌋ = k := by
    rw [Int.floor_eq_iff]
    constructor <;> linarith
  unfold Fp.roundHalfEven
  rw [hfl]
  have hq : q - (k : ℚ) = 1 / 2 := by linarith
  rw [hq, if_neg (lt_irrefl _), if_neg (lt_irrefl _)]

/-- The nearest `float` of a number with the exponent `e` that is less than
half a unit away from `k 2^(e - 23)`. -/
theorem Fp.toFloat_eq (x y : ℚ) (e k : Int) (h1 : (2 : ℚ) ^ e ≤ |x|)
    (h2 : |x| < (2 : ℚ) ^ (e + 1))
    (h3 : (k : ℚ) - 1 / 2 < x / (2 : ℚ) ^ (e - 24 + 1))
    (h4 : x / (2 : ℚ) ^ (e - 24 + 1) < (k : ℚ) + 1 / 2)
    (hy : (k : ℚ) * (2 : ℚ) ^ (e - 24 + 1) = y) : Fp.toFloat x = y := by
  unfold Fp.toFloat
  rw [Fp.round_eq 24 x e k h1 h2 h3 h4, hy]

/-- The nearest `float` of a number with the exponent `e` that is half way
between `k 2^(e - 23)` and `(k + 1) 2^(e - 23)`: the one of the two whose last
bit is zero. -/
theorem Fp.toFloat_tie (x y : ℚ) (e k m : Int) (h1 : (2 : ℚ) ^ e ≤ |x|)
    (h2 : |x| < (2 : ℚ) ^ (e + 1))
    (h3 : x / (2 : ℚ) ^ (e - 24 + 1) = (k : ℚ) + 1 / 2)
    (hm : (if k % 2 = 0 then k else k + 1) = m)
    (hy : (m : ℚ) * (2 : ℚ) ^ (e - 24 + 1) = y) : Fp.toFloat x = y := by
  have hx : x ≠ 0 := by
    intro h
    rw [h, abs_zero] at h1
    exact absurd h1 (not_le.mpr (zpow_pos (by norm_num) e))
  unfold Fp.toFloat Fp.round Fp.ulp
  rw [if_neg hx, Fp.exponent_eq x e h1 h2, Fp.roundHalfEven_tie _ k h3, hm, hy]

/-- The nearest `double` of a number with the exponent `e` that is less than
half a unit away from `k 2^(e - 52)`. -/
theorem Fp.toDouble_eq (x y : ℚ) (e k : Int) (h1 : (2 : ℚ) ^ e ≤ |x|)
    (h2 : |x| < (2 : ℚ) ^ (e + 1))
    (h3 : (k : ℚ) - 1 / 2 < x / (2 : ℚ) ^ (e - 53 + 1))
    (h4 : x / (2 : ℚ) ^ (e - 53 + 1) < (k : ℚ) + 1 / 2)
    (hy : (k : ℚ) * (2 : ℚ) ^ (e - 53 + 1) = y) : Fp.toDouble x = y := by
  unfold Fp.toDouble
  rw [Fp.round_eq 53 x e k h1 h2 h3 h4, hy]

end RoundingSteps

/-! ### minimumCycleBasis under the orders of Qt 4 -/

section CycleBasisQt4

/-- C1 fails on the code.  Input: the complete graph with 6 vertices less the
edge between 1 and 6, built with `connect`; it is connected (all distances are
finite) and has 14 edges, so that the cycle space has dimension
14 - 6 + 1 = 9.  With the orders of Qt 4 (the edge set listed in the order of
its hash table, equal-sized cycles in the order of `qSortHelper`)
minimumCycleBasis returns 8 cycles. -/
theorem Graph.C1_complete_graph_less_edge_returns_eight_cycles :
    Graph.k6LessEdge.numVertices = 6 ∧
    Graph.edges QtOrder.qt4 Graph.k6LessEdge =
      [(1, 2), (1, 3), (1, 4), (2, 3), (1, 5), (2, 4), (2, 5), (3, 4), (2, 6), (3, 5), (3, 6),
        (4, 5), (4, 6), (5, 6)] ∧
    (Graph.allPairsShortestPaths Graph.k6LessEdge).m_path.m_matrix =
      [[0, 1, 1, 1, 1, 2], [1, 0, 1, 1, 1, 1], [1, 1, 0, 1, 1, 1],
       [1, 1, 1, 0, 1, 1], [1, 1, 1, 1, 0, 1], [2, 1, 1, 1, 1, 0]] ∧
    Graph.minimumCycleBasis QtOrder.qt4 sizeLessThan Graph.k6LessEdge =
      some [[5, 4, 6], [4, 2, 5], [3, 2, 5], [3, 2, 6], [4, 3, 5], [2, 1, 4], [2, 1, 5],
        [3, 1, 5]] := by
  decide!

/-- With the addition over F_2 that the comment of addEdges documents, the
selection loop picks 9 cycles for the same graph and the same orders. -/
theorem Graph.complete_graph_less_edge_with_documented_addition :
    (hortonSet (Graph.edges QtOrder.qt4 Graph.k6LessEdge)
      (Graph.allPairsShortestPaths Graph.k6LessEdge) 6).bind
      (fun found =>
        ((QtSortHelper.qSort sizeLessThan found).mapM
          (incidenceVector (Graph.edges QtOrder.qt4 Graph.k6LessEdge))).map
          (fun rows =>
            (selectCyclesDocumented ⟨(QtSortHelper.qSort sizeLessThan found).length, 14, rows⟩
              14).length)) = some 9 := by
  decide!

/-- With the orders of Qt 4 the graph with 11 edges gets 6 cycles, the
dimension of its cycle space. -/
theorem Graph.six_vertex_graph_in_qt4_order :
    Graph.edges QtOrder.qt4 Graph.sixVertexGraph =
      [(1, 4), (2, 3), (1, 5), (2, 4), (1, 6), (2, 5), (3, 4), (2, 6), (3, 5), (3, 6),
        (4, 5)] ∧
    (Graph.minimumCycleBasis QtOrder.qt4 sizeLessThan Graph.sixVertexGraph).map List.length =
      some 6 := by
  decide!

/-- The functions of the Qt 4 instance only reorder their argument on the
lists of this section: the edge set of the graph, and the candidate cycles. -/
theorem QtOrder.qt4_edges_perm :
    (Graph.edges QtOrder.qt4 Graph.k6LessEdge).Perm
      (Graph.edges QtOrder.insertion Graph.k6LessEdge) := by
  decide!

end CycleBasisQt4

/-! ### The coordinates of a map image under rounding -/

section MapImageRounded

open core

/-- C23 fails under the rounding of the source.  Input: an image of 4 by 4
pixels and the field point (0.7, 0.3) in `float`.  With the operations of
`toImageCoords` rounded to `float` and those of `toFieldCoords` to `double`,
the image point is (4404019 / 2^21, 4404019 / 2^21), which is not
(x (w - 1), (1 - y) (h - 1)), and `toFieldCoords` takes it to
(11744051 / 2^24, 10066331 / 2^25): the second coordinate is 0.30000004,
the `float` after that of 0.3. -/
theorem core.MapImage.C23_round_trip_changes_point_in_float :
    Fp.toFloat (7 / 10) = 11744051 / 16777216 ∧
    Fp.toFloat (3 / 10) = 5033165 / 16777216 ∧
    MapImage.toImageCoordsRounded ⟨4, 4⟩ ⟨Fp.toFloat (7 / 10), Fp.toFloat (3 / 10)⟩ =
      ⟨4404019 / 2097152, 4404019 / 2097152⟩ ∧
    MapImage.toImageCoordsRounded ⟨4, 4⟩ ⟨Fp.toFloat (7 / 10), Fp.toFloat (3 / 10)⟩ ≠
      ⟨Fp.toFloat (7 / 10) * (4 - 1), (1 - Fp.toFloat (3 / 10)) * (4 - 1)⟩ ∧
    MapImage.toFieldCoordsRounded ⟨4, 4⟩
        (MapImage.toImageCoordsRounded ⟨4, 4⟩ ⟨Fp.toFloat (7 / 10), Fp.toFloat (3 / 10)⟩) =
      ⟨11744051 / 16777216, 10066331 / 33554432⟩ ∧
    MapImage.toFieldCoordsRounded ⟨4, 4⟩
        (MapImage.toImageCoordsRounded ⟨4, 4⟩ ⟨Fp.toFloat (7 / 10), Fp.toFloat (3 / 10)⟩) ≠
      ⟨Fp.toFloat (7 / 10), Fp.toFloat (3 / 10)⟩ := by
  have h7 : Fp.toFloat (7 / 10) = 11744051 / 16777216 :=
    Fp.toFloat_eq _ _ (-1) 11744051 (by norm_num [abs_of_pos]) (by norm_num [abs_of_pos])
      (by norm_num) (by norm_num) (by norm_num)
  have h3 : Fp.toFloat (3 / 10) = 5033165 / 16777216 :=
    Fp.toFloat_eq _ _ (-2) 10066330 (by norm_num [abs_of_pos]) (by norm_num [abs_of_pos])
      (by norm_num) (by norm_num) (by norm_num)
  have hA : Fp.toFloat 3 = 3 :=
    Fp.toFloat_eq _ _ 1 12582912 (by norm_num [abs_of_pos]) (by norm_num [abs_of_pos])
      (by norm_num) (by norm_num) (by norm_num)
  have hB : Fp.toFloat (11744051 / 16777216) = 11744051 / 16777216 :=
    Fp.toFloat_eq _ _ (-1) 11744051 (by norm_num [abs_of_pos]) (by norm_num [abs_of_pos])
      (by norm_num) (by norm_num) (by norm_num)
  have hC : Fp.toFloat (11744051 / 16777216 * 3) = 4404019 / 2097152 :=
    Fp.toFloat_eq _ _ 1 8808038 (by norm_num [abs_of_pos]) (by norm_num [abs_of_pos])
      (by norm_num) (by norm_num) (by norm_num)
  have hD : Fp.toFloat (5033165 / 16777216) = 5033165 / 16777216 :=
    Fp.toFloat_eq _ _ (-2) 10066330 (by norm_num [abs_of_pos]) (by norm_num [abs_of_pos])
      (by norm_num) (by norm_num) (by norm_num)
  have hE : Fp.toFloat (5033165 / 16777216 * 3) = 15099495 / 16777216 :=
    Fp.toFloat_eq _ _ (-1) 15099495 (by norm_num [abs_of_pos]) (by norm_num [abs_of_pos])
      (by norm_num) (by norm_num) (by norm_num)
  have hF : Fp.toFloat (3 - 15099495 / 16777216) = 4404019 / 2097152 :=
    Fp.toFloat_eq _ _ 1 8808038 (by norm_num [abs_of_pos]) (by norm_num [abs_of_pos])
      (by norm_num) (by norm_num) (by norm_num)
  have hG : Fp.toDouble (4404019 / 2097152 / 3) = 6305039191987541 / 9007199254740992 :=
    Fp.toDouble_eq _ _ (-1) 6305039191987541 (by norm_num [abs_of_pos])
      (by norm_num [abs_of_pos]) (by norm_num) (by norm_num) (by norm_num)
  have hH : Fp.toFloat (6305039191987541 / 9007199254740992) = 11744051 / 16777216 :=
    Fp.toFloat_eq _ _ (-1) 11744051 (by norm_num [abs_of_pos]) (by norm_num [abs_of_pos])
      (by norm_num) (by norm_num) (by norm_num)
  have hI : Fp.toDouble (3 - 4404019 / 2097152) = 1887437 / 2097152 :=
    Fp.toDouble_eq _ _ (-1) 8106480188260352 (by norm_num [abs_of_pos])
      (by norm_num [abs_of_pos]) (by norm_num) (by norm_num) (by norm_num)
  have hJ : Fp.toDouble (1887437 / 2097152 / 3) = 5404320125506901 / 18014398509481984 :=
    Fp.toDouble_eq _ _ (-2) 5404320125506901 (by norm_num [abs_of_pos])
      (by norm_num [abs_of_pos]) (by norm_num) (by norm_num) (by norm_num)
  have hK : Fp.toFloat (5404320125506901 / 18014398509481984) = 10066331 / 33554432 :=
    Fp.toFloat_eq _ _ (-2) 10066331 (by norm_num [abs_of_pos]) (by norm_num [abs_of_pos])
      (by norm_num) (by norm_num) (by norm_num)
  have hx : max (0 : ℚ) (min (11744051 / 16777216) 1) = 11744051 / 16777216 := by
    rw [min_eq_left (by norm_num), max_eq_right (by norm_num)]
  have hy : max (0 : ℚ) (min (5033165 / 16777216) 1) = 5033165 / 16777216 := by
    rw [min_eq_left (by norm_num), max_eq_right (by norm_num)]
  have hc : (((4 - 1 : Int) : Int) : ℚ) = 3 := by norm_num
  have himg : MapImage.toImageCoordsRounded ⟨4, 4⟩
      ⟨Fp.toFloat (7 / 10), Fp.toFloat (3 / 10)⟩ =
      ⟨4404019 / 2097152, 4404019 / 2097152⟩ := by
    simp only [MapImage.toImageCoordsRounded, h7, h3, hx, hy, hc, hA, hB, hC, hD, hE, hF]
  have hback : MapImage.toFieldCoordsRounded ⟨4, 4⟩
      (MapImage.toImageCoordsRounded ⟨4, 4⟩ ⟨Fp.toFloat (7 / 10), Fp.toFloat (3 / 10)⟩) =
      ⟨11744051 / 16777216, 10066331 / 33554432⟩ := by
    rw [himg]
    simp only [MapImage.toFieldCoordsRounded, hc, hG, hH, hI, hJ, hK]
  refine ⟨h7, h3, himg, ?_, hback, ?_⟩
  · rw [himg, h7, h3]
    intro h
    have h1 := congrArg QPointF.x h
    norm_num at h1
  · rw [hback, h7, h3]
    intro h
    have h1 := congrArg Vector2f.m_val1 h
    norm_num at h1

end MapImageRounded

/-! ### The area of a polygon under rounding -/

section PolygonRounded

/-- C34 fails under the rounding of the source.  Input: the triangle with the
corners (0.1, 0.2), (0.7, 0.3) and (0.4, 0.9) in `float`.  With each product,
addition, subtraction and division of `calcAreaAndCentroid` rounded to
`float`, the area of the list is 3271557 / 2^24 (0.19499999) and the area of
its reversal is 13086229 / 2^26 (0.19500001): the two differ, and the second
is not the absolute value of the shoelace sum, which is
439100931456369 / 2^51. -/
theorem math.Polygon.C34_area_of_reversal_differs_in_float :
    math.Polygon.floatTriangle =
      [Point2f.ofCoords (13421773 / 134217728) (13421773 / 67108864),
        Point2f.ofCoords (11744051 / 16777216) (5033165 / 16777216),
        Point2f.ofCoords (13421773 / 33554432) (7549747 / 8388608)] ∧
    math.Polygon.areaRounded math.Polygon.floatTriangle = 3271557 / 16777216 ∧
    math.Polygon.areaRounded math.Polygon.floatTriangle.reverse = 13086229 / 67108864 ∧
    math.Polygon.areaRounded math.Polygon.floatTriangle.reverse ≠
      math.Polygon.areaRounded math.Polygon.floatTriangle ∧
    |math.Polygon.signedArea math.Polygon.floatTriangle| =
      439100931456369 / 2251799813685248 ∧
    math.Polygon.areaRounded math.Polygon.floatTriangle.reverse ≠
      |math.Polygon.signedArea math.Polygon.floatTriangle.reverse| := by
  have d1 : Fp.toFloat (1 / 10) = (13421773 / 134217728) :=
    Fp.toFloat_eq _ _ (-4) (13421773) (by norm_num [abs_of_pos]) (by norm_num [abs_of_pos])
      (by norm_num) (by norm_num) (by norm_num)
  have d2 : Fp.toFloat (2 / 10) = (13421773 / 67108864) :=
    Fp.toFloat_eq _ _ (-3) (13421773) (by norm_num [abs_of_pos]) (by norm_num [abs_of_pos])
      (by norm_num) (by norm_num) (by norm_num)
  have d7 : Fp.toFloat (7 / 10) = (11744051 / 16777216) :=
    Fp.toFloat_eq _ _ (-1) (11744051) (by norm_num [abs_of_pos]) (by norm_num [abs_of_pos])
      (by norm_num) (by norm_num) (by norm_num)
  have d3 : Fp.toFloat (3 / 10) = (5033165 / 16777216) :=
    Fp.toFloat_eq _ _ (-2) (10066330) (by norm_num [abs_of_pos]) (by norm_num [abs_of_pos])
      (by norm_num) (by norm_num) (by norm_num)
  have d4 : Fp.toFloat (4 / 10) = (13421773 / 33554432) :=
    Fp.toFloat_eq _ _ (-2) (13421773) (by norm_num [abs_of_pos]) (by norm_num [abs_of_pos])
      (by norm_num) (by norm_num) (by norm_num)
  have d9 : Fp.toFloat (9 / 10) = (7549747 / 8388608) :=
    Fp.toFloat_eq _ _ (-1) (15099494) (by norm_num [abs_of_pos]) (by norm_num [abs_of_pos])
      (by norm_num) (by norm_num) (by norm_num)
  have h0 : Fp.toFloat (67553998101545 / 2251799813685248) = (1006633 / 33554432) :=
    Fp.toFloat_eq _ _ (-6) (16106128) (by norm_num [abs_of_pos]) (by norm_num [abs_of_pos])
      (by norm_num) (by norm_num) (by norm_num)
  have h1 : Fp.toFloat (1006633 / 33554432) = (1006633 / 33554432) :=
    Fp.toFloat_eq _ _ (-6) (16106128) (by norm_num [abs_of_pos]) (by norm_num [abs_of_pos])
      (by norm_num) (by norm_num) (by norm_num)
  have h2 : Fp.toFloat (157625986622423 / 1125899906842624) = (9395241 / 67108864) :=
    Fp.toFloat_eq _ _ (-3) (9395241) (by norm_num [abs_of_pos]) (by norm_num [abs_of_pos])
      (by norm_num) (by norm_num) (by norm_num)
  have h3 : Fp.toFloat (-(7381975 / 67108864)) = (-(7381975 / 67108864)) :=
    Fp.toFloat_eq _ _ (-4) (-14763950) (by norm_num [abs_of_neg]) (by norm_num [abs_of_neg])
      (by norm_num) (by norm_num) (by norm_num)
  have h4 : Fp.toFloat (88664613805097 / 140737488355328) = (5284823 / 8388608) :=
    Fp.toFloat_eq _ _ (-1) (10569646) (by norm_num [abs_of_pos]) (by norm_num [abs_of_pos])
      (by norm_num) (by norm_num) (by norm_num)
  have h5 : Fp.toFloat (34896609 / 67108864) = (1090519 / 2097152) :=
    Fp.toFloat_eq _ _ (-1) (8724152) (by norm_num [abs_of_pos]) (by norm_num [abs_of_pos])
      (by norm_num) (by norm_num) (by norm_num)
  have h6 : Fp.toFloat (67553998101545 / 562949953421312) = (1006633 / 8388608) :=
    Fp.toFloat_eq _ _ (-4) (16106128) (by norm_num [abs_of_pos]) (by norm_num [abs_of_pos])
      (by norm_num) (by norm_num) (by norm_num)
  have h7 : Fp.toFloat (3355443 / 8388608) = (3355443 / 8388608) :=
    Fp.toFloat_eq _ _ (-2) (13421772) (by norm_num [abs_of_pos]) (by norm_num [abs_of_pos])
      (by norm_num) (by norm_num) (by norm_num)
  have h8 : Fp.toFloat (180143990463529 / 2251799813685248) = (10737419 / 134217728) :=
    Fp.toFloat_eq _ _ (-4) (10737419) (by norm_num [abs_of_pos]) (by norm_num [abs_of_pos])
      (by norm_num) (by norm_num) (by norm_num)
  have h9 : Fp.toFloat (64424507 / 134217728) = (16106127 / 33554432) :=
    Fp.toFloat_eq _ _ (-2) (16106127) (by norm_num [abs_of_pos]) (by norm_num [abs_of_pos])
      (by norm_num) (by norm_num) (by norm_num)
  have h10 : Fp.toFloat (101330990441431 / 1125899906842624) = (12079595 / 134217728) :=
    Fp.toFloat_eq _ _ (-4) (12079595) (by norm_num [abs_of_pos]) (by norm_num [abs_of_pos])
      (by norm_num) (by norm_num) (by norm_num)
  have h11 : Fp.toFloat (52344913 / 134217728) = (3271557 / 8388608) :=
    Fp.toFloat_eq _ _ (-2) (13086228) (by norm_num [abs_of_pos]) (by norm_num [abs_of_pos])
      (by norm_num) (by norm_num) (by norm_num)
  have h12 : Fp.toFloat (3271557 / 16777216) = (3271557 / 16777216) :=
    Fp.toFloat_eq _ _ (-3) (13086228) (by norm_num [abs_of_pos]) (by norm_num [abs_of_pos])
      (by norm_num) (by norm_num) (by norm_num)
  have h13 : Fp.toFloat (1006633 / 8388608) = (1006633 / 8388608) :=
    Fp.toFloat_eq _ _ (-4) (16106128) (by norm_num [abs_of_pos]) (by norm_num [abs_of_pos])
      (by norm_num) (by norm_num) (by norm_num)
  have h14 : Fp.toFloat (-(2139095 / 4194304)) = (-(2139095 / 4194304)) :=
    Fp.toFloat_eq _ _ (-1) (-8556380) (by norm_num [abs_of_neg]) (by norm_num [abs_of_neg])
      (by norm_num) (by norm_num) (by norm_num)
  have h15 : Fp.toFloat (-(24830279 / 67108864)) = (-(3103785 / 8388608)) :=
    Fp.toFloat_tie _ _ (-2) (-12415140) (-12415140) (by norm_num [abs_of_neg])
      (by norm_num [abs_of_neg])
      (by norm_num) (by decide) (by norm_num)
  have h16 : Fp.toFloat (-(13421773 / 33554432)) = (-(13421773 / 33554432)) :=
    Fp.toFloat_eq _ _ (-2) (-13421773) (by norm_num [abs_of_neg]) (by norm_num [abs_of_neg])
      (by norm_num) (by norm_num) (by norm_num)
  have h17 : Fp.toFloat (-(41607497 / 134217728)) = (-(5200937 / 16777216)) :=
    Fp.toFloat_eq _ _ (-2) (-10401874) (by norm_num [abs_of_neg]) (by norm_num [abs_of_neg])
      (by norm_num) (by norm_num) (by norm_num)
  have h18 : Fp.toFloat (-(52344915 / 134217728)) = (-(13086229 / 33554432)) :=
    Fp.toFloat_eq _ _ (-2) (-13086229) (by norm_num [abs_of_neg]) (by norm_num [abs_of_neg])
      (by norm_num) (by norm_num) (by norm_num)
  have h19 : Fp.toFloat (-(13086229 / 67108864)) = (-(13086229 / 67108864)) :=
    Fp.toFloat_eq _ _ (-3) (-13086229) (by norm_num [abs_of_neg]) (by norm_num [abs_of_neg])
      (by norm_num) (by norm_num) (by norm_num)
  have htri : math.Polygon.floatTriangle =
      [Point2f.ofCoords (13421773 / 134217728) (13421773 / 67108864),
        Point2f.ofCoords (11744051 / 16777216) (5033165 / 16777216),
        Point2f.ofCoords (13421773 / 33554432) (7549747 / 8388608)] := by
    unfold math.Polygon.floatTriangle
    rw [d1, d2, d7, d3, d4, d9]
  have hrev : math.Polygon.floatTriangle.reverse =
      [Point2f.ofCoords (13421773 / 33554432) (7549747 / 8388608),
        Point2f.ofCoords (11744051 / 16777216) (5033165 / 16777216),
        Point2f.ofCoords (13421773 / 134217728) (13421773 / 67108864)] := by
    rw [htri]
    rfl
  have ha : math.Polygon.signedAreaRounded math.Polygon.floatTriangle =
      3271557 / 16777216 := by
    rw [htri]
    norm_num [math.Polygon.signedAreaRounded, List.range_succ, Point2f.pos_ofCoords,
      h0, h1, h2, h3, h4, h5, h6, h7, h8, h9,
      h10, h11, h12, h13, h14, h15, h16, h17, h18, h19]
  have hb : math.Polygon.signedAreaRounded math.Polygon.floatTriangle.reverse =
      -(13086229 / 67108864) := by
    rw [hrev]
    norm_num [math.Polygon.signedAreaRounded, List.range_succ, Point2f.pos_ofCoords,
      h0, h1, h2, h3, h4, h5, h6, h7, h8, h9,
      h10, h11, h12, h13, h14, h15, h16, h17, h18, h19]
  have hA : math.Polygon.areaRounded math.Polygon.floatTriangle = 3271557 / 16777216 := by
    unfold math.Polygon.areaRounded
    rw [ha]
    norm_num
  have hB : math.Polygon.areaRounded math.Polygon.floatTriangle.reverse =
      13086229 / 67108864 := by
    unfold math.Polygon.areaRounded
    rw [hb]
    norm_num
  have hs : math.Polygon.signedArea math.Polygon.floatTriangle =
      439100931456369 / 2251799813685248 := by
    rw [htri]
    norm_num [math.Polygon.signedArea, List.range_succ, Point2f.pos_ofCoords]
  have hsr : math.Polygon.signedArea math.Polygon.floatTriangle.reverse =
      -(439100931456369 / 2251799813685248) := by
    rw [math.Polygon.signedArea_reverse, hs]
  refine ⟨htri, hA, hB, ?_, ?_, ?_⟩
  · rw [hA, hB]
    norm_num
  · rw [hs]
    norm_num [abs_of_pos]
  · rw [hB, hsr, abs_neg]
    norm_num [abs_of_pos]

end PolygonRounded

/-! ### The sampling loop under rounding -/

section SamplingRounded

open core

/-- A number that is not positive is rounded to a number that is not
positive. -/
theorem Fp.round_nonpos (p : Int) (x : ℚ) (hx : x ≤ 0) : Fp.round p x ≤ 0 := by
  unfold Fp.round
  split_ifs with h0
  · exact le_refl _
  · have hu : 0 < Fp.ulp p x := by
      unfold Fp.ulp
      exact zpow_pos (by norm_num) _
    have hq : x / Fp.ulp p x < 0 := div_neg_of_neg_of_pos (lt_of_le_of_ne hx h0) hu
    have hk := (Fp.roundHalfEven_near (x / Fp.ulp p x)).1
    have hk1 : (Fp.roundHalfEven (x / Fp.ulp p x) : ℚ) < 1 := by linarith
    have hk2 : Fp.roundHalfEven (x / Fp.ulp p x) < 1 := by exact_mod_cast hk1
    have hk3 : (Fp.roundHalfEven (x / Fp.ulp p x) : ℚ) ≤ 0 := by
      exact_mod_cast (by omega : Fp.roundHalfEven (x / Fp.ulp p x) ≤ 0)
    exact mul_nonpos_of_nonpos_of_nonneg hk3 (le_of_lt hu)

/-- The `float` values below 65536 end at 65536 - 1/256: a positive number
below 65536 is rounded to 65536 or to a `float` that is at most
65536 - 1/256. -/
theorem Fp.toFloat_below (x : ℚ) (h0 : 0 < x) (hx : x < 65536) :
    Fp.toFloat x ≤ 65536 - 1 / 256 ∨ Fp.toFloat x = 65536 := by
  have hne : x ≠ 0 := ne_of_gt h0
  obtain ⟨e1, e2⟩ := Fp.exponent_spec x hne
  rw [abs_of_pos h0] at e1 e2
  have he : Fp.exponent x < 16 := by
    have h216 : (2 : ℚ) ^ Fp.exponent x < (2 : ℚ) ^ (16 : Int) := by
      have : (2 : ℚ) ^ (16 : Int) = 65536 := by norm_num
      rw [this]
      exact lt_of_le_of_lt e1 hx
    exact (zpow_lt_zpow_iff_right₀ (by norm_num : (1 : ℚ) < 2)).mp h216
  have hk := (Fp.roundHalfEven_near (x / Fp.ulp 24 x)).1
  have hu : 0 < Fp.ulp 24 x := by
    unfold Fp.ulp
    exact zpow_pos (by norm_num) _
  have hval : Fp.toFloat x = (Fp.roundHalfEven (x / Fp.ulp 24 x) : ℚ) * Fp.ulp 24 x := by
    unfold Fp.toFloat Fp.round
    rw [if_neg hne]
  rw [hval]
  by_cases h15 : Fp.exponent x = 15
  · have hulp : Fp.ulp 24 x = 1 / 256 := by
      unfold Fp.ulp
      rw [h15]
      norm_num
    rw [hulp] at hk ⊢
    have hk1 : (Fp.roundHalfEven (x / (1 / 256)) : ℚ) < 16777216 + 1 := by
      have : x / (1 / 256) < 16777216 := by
        rw [div_lt_iff₀ (by norm_num)]
        linarith
      linarith
    have hk2 : Fp.roundHalfEven (x / (1 / 256)) < 16777216 + 1 := by exact_mod_cast hk1
    by_cases hk3 : Fp.roundHalfEven (x / (1 / 256)) = 16777216
    · right
      rw [hk3]
      norm_num
    · left
      have hk4 : Fp.roundHalfEven (x / (1 / 256)) ≤ 16777215 := by omega
      have hk5 : (Fp.roundHalfEven (x / (1 / 256)) : ℚ) ≤ 16777215 := by exact_mod_cast hk4
      linarith
  · left
    have he14 : Fp.exponent x ≤ 14 := by omega
    have hx15 : x < 32768 := by
      have h1 : (2 : ℚ) ^ (Fp.exponent x + 1) ≤ (2 : ℚ) ^ (15 : Int) :=
        zpow_le_zpow_right₀ (by norm_num) (by omega)
      have h2 : (2 : ℚ) ^ (15 : Int) = 32768 := by norm_num
      linarith
    have hulp : Fp.ulp 24 x ≤ 1 := by
      unfold Fp.ulp
      have h1 : (2 : ℚ) ^ (Fp.exponent x - 24 + 1) ≤ (2 : ℚ) ^ (0 : Int) :=
        zpow_le_zpow_right₀ (by norm_num) (by omega)
      simpa using h1
    have hmul : (Fp.roundHalfEven (x / Fp.ulp 24 x) : ℚ) * Fp.ulp 24 x ≤
        (x / Fp.ulp 24 x + 1 / 2) * Fp.ulp 24 x :=
      mul_le_mul_of_nonneg_right hk (le_of_lt hu)
    have hexp : (x / Fp.ulp 24 x + 1 / 2) * Fp.ulp 24 x = x + Fp.ulp 24 x / 2 := by
      field_simp
      ring
    rw [hexp] at hmul
    linarith

/-- The sum of 65536 and a distance below 1/256 is rounded to 65536: the
`float` values above 65536 are 1/128 apart. -/
theorem Fp.toFloat_absorbed (x : ℚ) (h1 : 65536 ≤ x) (h2 : x < 65536 + 1 / 256) :
    Fp.toFloat x = 65536 := by
  have h0 : 0 < x := by linarith
  apply Fp.toFloat_eq x 65536 16 8388608
  · rw [abs_of_pos h0]
    norm_num
    exact h1
  · rw [abs_of_pos h0]
    norm_num
    linarith
  · norm_num
    rw [lt_div_iff₀ (by norm_num)]
    linarith
  · norm_num
    rw [div_lt_iff₀ (by norm_num)]
    linarith
  · norm_num

/-- A segment length that is 65536, or a `float` below it, stays so when a
distance below 1/256 is added and the sum is rounded. -/
theorem Fp.toFloat_add_stalls (s d : ℚ) (hs : s ≤ 65536 - 1 / 256 ∨ s = 65536)
    (hd : d < 1 / 256) :
    Fp.toFloat (s + d) ≤ 65536 - 1 / 256 ∨ Fp.toFloat (s + d) = 65536 := by
  by_cases h1 : 65536 ≤ s + d
  · right
    apply Fp.toFloat_absorbed _ h1
    rcases hs with hs | hs <;> linarith
  · by_cases h0 : 0 < s + d
    · exact Fp.toFloat_below _ h0 (not_le.mp h1)
    · left
      have := Fp.round_nonpos 24 (s + d) (not_lt.mp h0)
      unfold Fp.toFloat
      linarith

/-- The distance that the integration loop returns is at most `distMax`. -/
theorem core.traceFieldLoop_dist_le {F : Type} [LinearOrderedField F] (lib : Libm F)
    (field : TensorField F) (major : Bool) (distMax : F) :
    ∀ (n : Nat) (s : StreamState F), s.dist ≤ distMax →
      (traceFieldLoop lib field major distMax n s).dist ≤ distMax := by
  intro n
  induction n with
  | zero =>
    intro s hs
    exact hs
  | succ n ih =>
    intro s hs
    unfold traceFieldLoop
    split
    · exact hs
    · split
      · rename_i hacc
        exact ih _ hacc.1
      · exact hs

/-- The segment length after a pass through the body of the sampling loop
with rounding: unchanged, or the rounded sum of the segment length and the
distance that the integrator returned. -/
theorem core.Tracer.fieldStepRounded_segmentLength (lib : Libm ℚ) (qt : QtSort)
    (t : Tracer ℚ) (field : TensorField ℚ) (major : Bool) (startVertex : Point ℚ)
    (s : Tracer.FieldState ℚ) :
    ((Tracer.fieldStepRounded lib qt t field major startVertex s).2 = true ∧
      (Tracer.fieldStepRounded lib qt t field major startVertex s).1.segmentLength =
        s.segmentLength) ∨
    (Tracer.fieldStepRounded lib qt t field major startVertex s).1.segmentLength =
      Fp.toFloat (s.segmentLength +
        (core.traceField lib field major s.sp s.td (Tracer.distSample t)).dist) := by
  unfold Tracer.fieldStepRounded
  simp only
  split
  · exact Or.inl ⟨rfl, rfl⟩
  · right
    split
    · split <;> rfl
    · rfl

end SamplingRounded

section SamplingStall

open core

/-- The sampling loop under the rounding of `segmentLength += traceDist`, for
a parameter setting whose loop bound distSegment + distLookahead is above
65536 everywhere and whose distSample is below 1/256.  A pass at the segment
length 65536 leaves it at 65536; when it does not end in `break`, the distance
that it added is one that `math::zero` does not round to 0.  The segment
length stays below 65536, or at it, so that a loop that returns does so
through a pass that ends in `break`.  Of the integrator the proof uses only
that the distance it returns is at most distSample, which its test
`ndist <= distMax` gives under rounding as well, and that the library square
root has no negative value. -/
theorem core.Tracer.fieldLoopRounded_returns_through_break (lib : Libm ℚ)
    (hsqrt : ∀ a, 0 ≤ lib.sqrtf a) (qt : QtSort)
    (t : Tracer ℚ) (field : TensorField ℚ) (major : Bool)
    (fromPosition inDirection : Vector2f ℚ)
    (hsample : 0 ≤ Tracer.distSample t ∧ Tracer.distSample t < 1 / 256)
    (hbound : ∀ p, 65536 < Tracer.distSegment t p + Tracer.distLookahead t p) :
    Fp.toFloat (65536 + Fp.toFloat (2 / 1000)) = 65536 ∧
    (∀ startVertex s, s.segmentLength = 65536 →
      (Tracer.fieldStepRounded lib qt t field major startVertex s).1.segmentLength = 65536 ∧
      ((Tracer.fieldStepRounded lib qt t field major startVertex s).2 = false →
        math.zero (core.traceField lib field major s.sp s.td (Tracer.distSample t)).dist ≠
          0)) ∧
    (∀ startVertex s, s.segmentLength ≤ 65536 - 1 / 256 ∨ s.segmentLength = 65536 →
      (Tracer.fieldStepRounded lib qt t field major startVertex s).1.segmentLength ≤
          65536 - 1 / 256 ∨
        (Tracer.fieldStepRounded lib qt t field major startVertex s).1.segmentLength =
          65536) ∧
    (∀ fuel r,
      Tracer.fieldLoopRounded lib qt t field major (Tracer.startVertexAt lib qt t fromPosition)
          fuel (Tracer.fieldStart lib qt t fromPosition inDirection) = some r →
        ∃ s, (Tracer.fieldStepRounded lib qt t field major
              (Tracer.startVertexAt lib qt t fromPosition) s).2 = true ∧
          r = (Tracer.fieldStepRounded lib qt t field major
              (Tracer.startVertexAt lib qt t fromPosition) s).1) := by
  have hdist : ∀ p d, (core.traceField lib field major p d (Tracer.distSample t)).dist <
      1 / 256 := by
    intro p d
    have := traceFieldLoop_dist_le lib field major (Tracer.distSample t) INSTEP_MAX
      ⟨p, d, 0, 0⟩ hsample.1
    unfold core.traceField
    linarith [hsample.2]
  have hinv : ∀ startVertex (s : Tracer.FieldState ℚ),
      s.segmentLength ≤ 65536 - 1 / 256 ∨ s.segmentLength = 65536 →
      (Tracer.fieldStepRounded lib qt t field major startVertex s).1.segmentLength ≤
          65536 - 1 / 256 ∨
        (Tracer.fieldStepRounded lib qt t field major startVertex s).1.segmentLength =
          65536 := by
    intro startVertex s hs
    rcases Tracer.fieldStepRounded_segmentLength lib qt t field major startVertex s with
      h | h
    · rw [h.2]
      exact hs
    · rw [h]
      exact Fp.toFloat_add_stalls _ _ hs (hdist s.sp s.td)
  have h2000 : Fp.toFloat (2 / 1000) = 8589935 / 4294967296 :=
    Fp.toFloat_eq _ _ (-9) 8589935 (by norm_num [abs_of_pos]) (by norm_num [abs_of_pos])
      (by norm_num) (by norm_num) (by norm_num)
  have hloop : ∀ (fuel : Nat) (s : Tracer.FieldState ℚ),
      s.segmentLength ≤ 65536 - 1 / 256 ∨ s.segmentLength = 65536 → ∀ r,
      Tracer.fieldLoopRounded lib qt t field major (Tracer.startVertexAt lib qt t fromPosition)
          fuel s = some r →
        ∃ s1, (Tracer.fieldStepRounded lib qt t field major
              (Tracer.startVertexAt lib qt t fromPosition) s1).2 = true ∧
          r = (Tracer.fieldStepRounded lib qt t field major
              (Tracer.startVertexAt lib qt t fromPosition) s1).1 := by
    intro fuel
    induction fuel with
    | zero =>
      intro s _ r hr
      simp [Tracer.fieldLoopRounded] at hr
    | succ fuel ih =>
      intro s hs r hr
      have hcond : s.segmentLength <
          Tracer.distSegment t (Point2f.ofVector s.sp) +
            Tracer.distLookahead t (Point2f.ofVector s.sp) := by
        have := hbound (Point2f.ofVector s.sp)
        rcases hs with hs | hs <;> linarith
      rw [Tracer.fieldLoopRounded, if_pos hcond] at hr
      by_cases hbreak : (Tracer.fieldStepRounded lib qt t field major
          (Tracer.startVertexAt lib qt t fromPosition) s).2 = true
      · rw [if_pos hbreak] at hr
        exact ⟨s, hbreak, (Option.some.inj hr).symm⟩
      · rw [if_neg hbreak] at hr
        exact ih _ (hinv _ s hs) r hr
  refine ⟨?_, ?_, hinv, ?_⟩
  · rw [h2000]
    exact Fp.toFloat_absorbed _ (by norm_num) (by norm_num)
  · intro startVertex s hs
    constructor
    · rcases hinv startVertex s (Or.inr hs) with h | h
      · exfalso
        rcases Tracer.fieldStepRounded_segmentLength lib qt t field major startVertex s with
          h1 | h1
        · rw [h1.2, hs] at h
          norm_num at h
        · rw [h1, hs] at h
          by_cases hge : 0 ≤ (core.traceField lib field major s.sp s.td
              (Tracer.distSample t)).dist
          · rw [Fp.toFloat_absorbed _ (by linarith) (by linarith [hdist s.sp s.td])] at h
            norm_num at h
          · exfalso
            apply hge
            rcases (traceFieldLoop_spec lib hsqrt field major (Tracer.distSample t) INSTEP_MAX
              ⟨s.sp, s.td, 0, 0⟩).2 with h2 | h2
            · unfold core.traceField
              rw [h2]
            · unfold core.traceField
              simp only [zero_add] at h2
              linarith
      · exact h
    · intro hnb
      unfold Tracer.fieldStepRounded at hnb
      simp only at hnb
      split at hnb
      · cases hnb
      · rename_i hz
        exact hz
  · intro fuel r hr
    exact hloop fuel _ (Or.inl (by
      have : (Tracer.fieldStart lib qt t fromPosition inDirection).segmentLength = 0 := rfl
      rw [this]
      norm_num)) r hr

/-- A pass through the body of the sampling loop that neither ends in `break`
nor changes the segment length.  The tracer is the empty one with
distSep = 50000, the field is constant with the tensor (1, 0), tracing starts
at the centre of the unit square in the direction (1, 0), and the segment
length is 65536.  The library has the values of the real functions where the
first step of the integrator needs them: the square roots of 1 and of
1/9000000, the sine and the cosine of 0, the angle of (1, 0) and an arc cosine
of 1 that is at most pi/2.  The integrator then accepts its first step, of
length 1/3000, so that the distance it returns is at least 0.00001; the pass
does not end in `break`, and the rounded sum is 65536 again. -/
theorem core.Tracer.fieldStepRounded_without_progress (lib : Libm ℚ)
    (hsqrt : ∀ a, 0 ≤ lib.sqrtf a) (hsqrt1 : lib.sqrtf 1 = 1)
    (hsqrt2 : lib.sqrtf (1 / 9000000) = 1 / 3000) (hcos : lib.cosf 0 = 1)
    (hsin : lib.sinf 0 = 0) (hatan : lib.atan2f 0 1 = 0)
    (hacos : |lib.acosf 1| ≤ lib.M_PI / 2) (qt : QtSort) (hqt : qt.Lawful)
    (startVertex : Point ℚ) :
    1 / 100000 ≤ (core.traceField lib (fun _ => Tensor.fromValues 1 0) true ⟨1 / 2, 1 / 2⟩
      ⟨1, 0⟩ (Tracer.distSample Tracer.wideTracer)).dist ∧
    (Tracer.fieldStepRounded lib qt Tracer.wideTracer (fun _ => Tensor.fromValues 1 0) true
      startVertex ⟨⟨1 / 2, 1 / 2⟩, ⟨1, 0⟩, 65536, [], Point2f.infinity, SamplePoint.null,
        SamplePoint.null, none⟩).2 = false ∧
    (Tracer.fieldStepRounded lib qt Tracer.wideTracer (fun _ => Tensor.fromValues 1 0) true
      startVertex ⟨⟨1 / 2, 1 / 2⟩, ⟨1, 0⟩, 65536, [], Point2f.infinity, SamplePoint.null,
        SamplePoint.null, none⟩).1.segmentLength = 65536 := by
  have hz1 : math.zero (1 : ℚ) = 1 := by
    unfold math.zero
    rw [if_neg (by norm_num [abs_of_pos])]
  have hz0 : math.zero (0 : ℚ) = 0 := by
    unfold math.zero
    rw [if_pos (by norm_num)]
  have hz3 : math.zero (1 / 3000 : ℚ) = 1 / 3000 := by
    unfold math.zero
    rw [if_neg (by norm_num [abs_of_pos])]
  have heig : Tensor.eigenVector lib (Tensor.fromValues 1 0) true = ⟨1, 0⟩ := by
    simp only [Tensor.eigenVector, Tensor.value, Tensor.angle, Tensor.fromValues,
      Vector2f.norm, Vector2f.normSquared, math.sqrt, math.pow2, math.atan2, math.cos,
      math.sin, if_true]
    norm_num [hsqrt1, hatan, hcos, hsin, hz1, hz0]
  have horient : math.orient lib ⟨1, 0⟩ ⟨1, 0⟩ = ⟨1, 0⟩ := by
    unfold math.orient
    have hdot : Vector2f.dot (⟨1, 0⟩ : Vector2f ℚ) ⟨1, 0⟩ = 1 := by norm_num [Vector2f.dot]
    rw [hdot, if_neg (not_lt.mpr hacos)]
  have hstep : ∀ p : Vector2f ℚ,
      rk4Step lib (fun _ => Tensor.fromValues 1 0) true p ⟨1, 0⟩ = ⟨1 / 3000, 0⟩ := by
    intro p
    simp only [rk4Step, eigenv, heig, horient, Vector2f.add, Vector2f.mul, RK4_STEP]
    norm_num
  have hnorm : Vector2f.norm lib (⟨1 / 3000, 0⟩ : Vector2f ℚ) = 1 / 3000 := by
    simp only [Vector2f.norm, Vector2f.normSquared, math.sqrt, math.pow2]
    norm_num [hsqrt2, hz3]
  have hsample : Tracer.distSample Tracer.wideTracer = 2 / 1000 := by
    norm_num [Tracer.distSample, Tracer.wideTracer, Tracer.newDefault, Tracer.new]
  have hdist : 1 / 100000 ≤ (core.traceField lib (fun _ => Tensor.fromValues 1 0) true
      ⟨1 / 2, 1 / 2⟩ ⟨1, 0⟩ (Tracer.distSample Tracer.wideTracer)).dist := by
    have hmax : INSTEP_MAX = 999 + 1 := rfl
    unfold core.traceField
    rw [hmax, traceFieldLoop]
    simp only [hstep, hnorm, hz3, hsample]
    rw [if_neg (by norm_num), if_pos (by
      constructor
      · norm_num
      · norm_num [unitRectContains, Vector2f.add])]
    rcases (traceFieldLoop_spec lib hsqrt (fun _ => Tensor.fromValues 1 0) true (2 / 1000) 999
      ⟨Vector2f.add ⟨1 / 2, 1 / 2⟩ ⟨1 / 3000, 0⟩, ⟨1 / 3000, 0⟩, 0 + 1 / 3000, 0 + 1⟩).2 with
      h | h
    · rw [h]
      norm_num
    · simp only at h
      linarith
  have hle : (core.traceField lib (fun _ => Tensor.fromValues 1 0) true
      ⟨1 / 2, 1 / 2⟩ ⟨1, 0⟩ (Tracer.distSample Tracer.wideTracer)).dist < 1 / 256 := by
    have := traceFieldLoop_dist_le lib (fun _ => Tensor.fromValues 1 0) true
      (Tracer.distSample Tracer.wideTracer) INSTEP_MAX ⟨⟨1 / 2, 1 / 2⟩, ⟨1, 0⟩, 0, 0⟩
      (by rw [hsample]; norm_num)
    unfold core.traceField
    rw [hsample] at this ⊢
    linarith
  have hzero : math.zero (core.traceField lib (fun _ => Tensor.fromValues 1 0) true
      ⟨1 / 2, 1 / 2⟩ ⟨1, 0⟩ (Tracer.distSample Tracer.wideTracer)).dist ≠ 0 := by
    unfold math.zero
    rw [if_neg (by
      rw [abs_of_pos (by linarith)]
      exact not_lt.mpr hdist)]
    linarith
  have hwide : Tracer.wideTracer =
      Tracer.new RoadType.RoadTypeMajor 50000 (6 / 10) (15 / 10) (5 / 10) (15 / 100)
        (2 / 1000) := rfl
  have hfound := Tracer.new_nothing_found lib qt hqt RoadType.RoadTypeMajor (50000 : ℚ) (6 / 10)
    (15 / 10) (5 / 10) (15 / 100) (2 / 1000)
  rw [← hwide] at hfound
  have hpass : Tracer.fieldStepRounded lib qt Tracer.wideTracer
      (fun _ => Tensor.fromValues 1 0) true startVertex
      ⟨⟨1 / 2, 1 / 2⟩, ⟨1, 0⟩, 65536, [], Point2f.infinity, SamplePoint.null,
        SamplePoint.null, none⟩ =
      (⟨(core.traceField lib (fun _ => Tensor.fromValues 1 0) true ⟨1 / 2, 1 / 2⟩ ⟨1, 0⟩
          (Tracer.distSample Tracer.wideTracer)).p,
        (core.traceField lib (fun _ => Tensor.fromValues 1 0) true ⟨1 / 2, 1 / 2⟩ ⟨1, 0⟩
          (Tracer.distSample Tracer.wideTracer)).d,
        Fp.toFloat (65536 + (core.traceField lib (fun _ => Tensor.fromValues 1 0) true
          ⟨1 / 2, 1 / 2⟩ ⟨1, 0⟩ (Tracer.distSample Tracer.wideTracer)).dist),
        [Point2f.ofVector (core.traceField lib (fun _ => Tensor.fromValues 1 0) true
          ⟨1 / 2, 1 / 2⟩ ⟨1, 0⟩ (Tracer.distSample Tracer.wideTracer)).p],
        Point2f.infinity, SamplePoint.null, SamplePoint.null, none⟩, false) := by
    simp only [Tracer.fieldStepRounded, hzero, hfound.1, hfound.2, List.erase_nil,
      List.head?_nil, ite_self, List.getElem?_nil, Option.getD_none, SamplePoint.null,
      Point2f.infinity, Point2f.finite, Option.isSome_none, Bool.false_eq_true, if_false,
      List.nil_append]
  refine ⟨hdist, ?_, ?_⟩
  · rw [hpass]
  · rw [hpass]
    exact Fp.toFloat_absorbed _ (by linarith) (by linarith)

/-- The pass without progress worked through for a library that returns the
values asked for. -/
theorem core.Tracer.fieldStepRounded_without_progress_example :
    (Tracer.fieldStepRounded
      (⟨fun a => if a = 1 then 1 else 1 / 3000, fun _ => 0, fun _ => 1, fun _ => 0,
        fun _ _ => 0, fun a => a, 3⟩ : Libm ℚ) QtSort.stable Tracer.wideTracer
      (fun _ => Tensor.fromValues 1 0) true Point2f.infinity
      ⟨⟨1 / 2, 1 / 2⟩, ⟨1, 0⟩, 65536, [], Point2f.infinity, SamplePoint.null,
        SamplePoint.null, none⟩).2 = false ∧
    (Tracer.fieldStepRounded
      (⟨fun a => if a = 1 then 1 else 1 / 3000, fun _ => 0, fun _ => 1, fun _ => 0,
        fun _ _ => 0, fun a => a, 3⟩ : Libm ℚ) QtSort.stable Tracer.wideTracer
      (fun _ => Tensor.fromValues 1 0) true Point2f.infinity
      ⟨⟨1 / 2, 1 / 2⟩, ⟨1, 0⟩, 65536, [], Point2f.infinity, SamplePoint.null,
        SamplePoint.null, none⟩).1.segmentLength = 65536 :=
  (Tracer.fieldStepRounded_without_progress
    (⟨fun a => if a = 1 then 1 else 1 / 3000, fun _ => 0, fun _ => 1, fun _ => 0,
      fun _ _ => 0, fun a => a, 3⟩ : Libm ℚ)
    (by
      intro a
      simp only
      split <;> norm_num)
    (by norm_num) (by norm_num) rfl rfl rfl (by norm_num [abs_of_nonneg]) QtSort.stable
    QtSort.stable_lawful Point2f.infinity).2

/-- C26 fails under the rounding of `segmentLength += traceDist`.  Input: the
default parameters with distSep = 50000, for which the loop bound
distSegment + distLookahead is 112500 everywhere.  The `float` sum of 65536
and 0.002 is 65536, since the `float` values above 65536 are 1/128 apart.  So
a pass through the body of the sampling loop at the segment length 65536
leaves it at 65536, also when it does not end in `break` and the distance it
added is one that `math::zero` does not round to 0.  Such a pass is the one on
the constant field with the tensor (1, 0) from the centre of the unit square
in the direction (1, 0), for every library that has the values of the real
functions where the first step of the integrator needs them: the integrator
returns a distance of at least 0.00001, the pass does not end in `break`, and
the segment length is 65536 afterwards.  And for every field and every
starting point the segment length never reaches the bound: a sampling loop
that returns does so through a pass that ends in `break`, whatever the
fuel. -/
theorem core.Tracer.C26_sampling_loop_stalls_in_float :
    (∀ p, Tracer.distSegment Tracer.wideTracer p + Tracer.distLookahead Tracer.wideTracer p =
      112500) ∧
    Tracer.distSample Tracer.wideTracer = 2 / 1000 ∧
    Fp.toFloat (65536 + Fp.toFloat (2 / 1000)) = 65536 ∧
    (∀ (lib : Libm ℚ) (qt : QtSort) (field : TensorField ℚ) (major : Bool)
        (startVertex : Point ℚ) (s : Tracer.FieldState ℚ),
      (∀ a, 0 ≤ lib.sqrtf a) → s.segmentLength = 65536 →
      (Tracer.fieldStepRounded lib qt Tracer.wideTracer field major startVertex
          s).1.segmentLength = 65536 ∧
      ((Tracer.fieldStepRounded lib qt Tracer.wideTracer field major startVertex s).2 = false →
        math.zero (core.traceField lib field major s.sp s.td
          (Tracer.distSample Tracer.wideTracer)).dist ≠ 0)) ∧
    (∀ (lib : Libm ℚ) (qt : QtSort) (startVertex : Point ℚ),
      (∀ a, 0 ≤ lib.sqrtf a) → lib.sqrtf 1 = 1 → lib.sqrtf (1 / 9000000) = 1 / 3000 →
      lib.cosf 0 = 1 → lib.sinf 0 = 0 → lib.atan2f 0 1 = 0 →
      |lib.acosf 1| ≤ lib.M_PI / 2 → qt.Lawful →
      1 / 100000 ≤ (core.traceField lib (fun _ => Tensor.fromValues 1 0) true ⟨1 / 2, 1 / 2⟩
        ⟨1, 0⟩ (Tracer.distSample Tracer.wideTracer)).dist ∧
      (Tracer.fieldStepRounded lib qt Tracer.wideTracer (fun _ => Tensor.fromValues 1 0) true
        startVertex ⟨⟨1 / 2, 1 / 2⟩, ⟨1, 0⟩, 65536, [], Point2f.infinity, SamplePoint.null,
          SamplePoint.null, none⟩).2 = false ∧
      (Tracer.fieldStepRounded lib qt Tracer.wideTracer (fun _ => Tensor.fromValues 1 0) true
        startVertex ⟨⟨1 / 2, 1 / 2⟩, ⟨1, 0⟩, 65536, [], Point2f.infinity, SamplePoint.null,
          SamplePoint.null, none⟩).1.segmentLength = 65536) ∧
    (∀ (lib : Libm ℚ) (qt : QtSort) (field : TensorField ℚ) (major : Bool)
        (fromPosition inDirection : Vector2f ℚ) (fuel : Nat) (r : Tracer.FieldState ℚ),
      (∀ a, 0 ≤ lib.sqrtf a) →
      Tracer.fieldLoopRounded lib qt Tracer.wideTracer field major
          (Tracer.startVertexAt lib qt Tracer.wideTracer fromPosition) fuel
          (Tracer.fieldStart lib qt Tracer.wideTracer fromPosition inDirection) = some r →
        ∃ s, (Tracer.fieldStepRounded lib qt Tracer.wideTracer field major
              (Tracer.startVertexAt lib qt Tracer.wideTracer fromPosition) s).2 = true ∧
          r = (Tracer.fieldStepRounded lib qt Tracer.wideTracer field major
              (Tracer.startVertexAt lib qt Tracer.wideTracer fromPosition) s).1) := by
  have hsample : 0 ≤ Tracer.distSample Tracer.wideTracer ∧
      Tracer.distSample Tracer.wideTracer < 1 / 256 := by
    norm_num [Tracer.distSample, Tracer.wideTracer, Tracer.newDefault, Tracer.new]
  have hvalue : ∀ p, Tracer.distSegment Tracer.wideTracer p +
      Tracer.distLookahead Tracer.wideTracer p = 112500 := by
    intro p
    norm_num [Tracer.distSegment, Tracer.distLookahead, Tracer.distSepAt, Tracer.distSep,
      Tracer.wideTracer, Tracer.newDefault, Tracer.new]
  have hbound : ∀ p, 65536 < Tracer.distSegment Tracer.wideTracer p +
      Tracer.distLookahead Tracer.wideTracer p := by
    intro p
    rw [hvalue p]
    norm_num
  refine ⟨hvalue, ?_, ?_, ?_, ?_, ?_⟩
  · norm_num [Tracer.distSample, Tracer.wideTracer, Tracer.newDefault, Tracer.new]
  · exact (Tracer.fieldLoopRounded_returns_through_break
      (⟨fun a => |a|, fun a => a, fun a => a, fun a => a, fun _ _ => 0, fun a => a, 3⟩ : Libm ℚ)
      (fun a => abs_nonneg a) QtSort.stable Tracer.wideTracer (fun _ => Tensor.null) true
      ⟨0, 0⟩ ⟨0, 0⟩ hsample hbound).1
  · intro lib qt field major startVertex s hsqrt hs
    exact (Tracer.fieldLoopRounded_returns_through_break lib hsqrt qt Tracer.wideTracer field
      major ⟨0, 0⟩ ⟨0, 0⟩ hsample hbound).2.1 startVertex s hs
  · intro lib qt startVertex hsqrt hsqrt1 hsqrt2 hcos hsin hatan hacos hqt
    exact Tracer.fieldStepRounded_without_progress lib hsqrt hsqrt1 hsqrt2 hcos hsin hatan
      hacos qt hqt startVertex
  · intro lib qt field major fromPosition inDirection fuel r hsqrt hr
    exact (Tracer.fieldLoopRounded_returns_through_break lib hsqrt qt Tracer.wideTracer field
      major fromPosition inDirection hsample hbound).2.2.2 fuel r hr

end SamplingStall

end Newtown
